import Mathlib

/-!
Loop-invariant code motion and loop fusion over a small SSA control-flow graph

A verification development for the loop passes of the repository:

* `Assignment_3/LICMopt.cpp`  : `LICMopt::runOnLoop`, `LICMopt::isSafeToMove`
* `Assignment_4/LoopFusionOpt.cpp` : `LoopFusionOpt::isOptimizable`, `LoopFusionOpt::fuseLoops`

The passes run on LLVM's in-memory IR.  The IR is embedded as plain data: a function is
the list of its basic blocks in layout order, a block is a list of non-terminator
instructions followed by one terminator, and an instruction refers to the instructions it
uses by their identity (a number standing for the C++ pointer).  The analyses the passes
consume (loop structure, dominance, scalar evolution, dependence, data layout) are library
code outside the repository; their answers are taken as read-only records of functions.
-/

namespace IR

/-- An operand of an instruction: a compile-time constant, an argument of the function, or
the result of the instruction with the given identity. -/
inductive Value where
  | const (c : Int)
  | arg (n : Nat)
  | inst (id : Nat)
deriving DecidableEq, Repr

/-- The instruction kinds the passes tell apart.  `gep` carries the result element type of
the element-address computation, `icmp` its comparison predicate. -/
inductive Opcode where
  | phi
  | binop
  | load
  | store
  | gep (elemTy : Nat)
  | icmp (pred : Nat)
  | other
deriving DecidableEq, Repr

/-- A non-terminator instruction.  `operands` is its ordered operand list; for a merge
node (`phi`) the operands are the incoming values and `incoming` lists, position by
position, the blocks they arrive from.  A load has operands `[pointer]`, a store
`[value, pointer]`. -/
structure Instr where
  id : Nat
  op : Opcode
  operands : List Value
  incoming : List Nat
deriving DecidableEq, Repr

/-- The terminator of a block: its value operands (the condition of a conditional branch
is operand 0) and its ordered successor list. -/
structure Term where
  operands : List Value
  succs : List Nat
deriving DecidableEq, Repr

/-- A basic block: identity, non-terminator instructions in order, terminator. -/
structure Block where
  id : Nat
  insts : List Instr
  term : Term
deriving DecidableEq, Repr

/-- A function: its blocks in layout order. -/
structure Func where
  blocks : List Block
deriving DecidableEq, Repr

/-- The block with the given identity, when the function has one. -/
def Func.findBlock (F : Func) (b : Nat) : Option Block :=
  F.blocks.find? (fun B => B.id == b)

/-- The non-terminator instructions of block `b` (empty when there is no such block). -/
def Func.instsOf (F : Func) (b : Nat) : List Instr :=
  match F.findBlock b with
  | some B => B.insts
  | none => []

/-- The successors of block `b`, read off its terminator. -/
def Func.succsOf (F : Func) (b : Nat) : List Nat :=
  match F.findBlock b with
  | some B => B.term.succs
  | none => []

/-- Search a block list for the instruction with identity `id`; returns the identity of
the block holding it (`Instruction::getParent`) and the instruction. -/
def findInstIn : List Block → Nat → Option (Nat × Instr)
  | [], _ => none
  | B :: rest, id =>
    match B.insts.find? (fun I => I.id == id) with
    | some I => some (B.id, I)
    | none => findInstIn rest id

/-- The instruction with identity `id` and its parent block. -/
def Func.findInst (F : Func) (id : Nat) : Option (Nat × Instr) :=
  findInstIn F.blocks id

/-- All non-terminator instructions of the function, block by block. -/
def Func.allInsts (F : Func) : List Instr :=
  F.blocks.flatMap (fun B => B.insts)

/-- A user of a value, as `Value::users()` yields it: the block holding the using
instruction and whether that instruction is a merge node.  Terminators are users too. -/
structure User where
  block : Nat
  isPhi : Bool
deriving DecidableEq, Repr

/-- The users inside one block of the value defined by instruction `id`. -/
def Block.usersOf (B : Block) (id : Nat) : List User :=
  ((B.insts.filter (fun I => decide (Value.inst id ∈ I.operands))).map
      (fun I => { block := B.id, isPhi := decide (I.op = Opcode.phi) }))
    ++ (if Value.inst id ∈ B.term.operands then [{ block := B.id, isPhi := false }] else [])

/-- The users of the value defined by instruction `id`, over the whole function. -/
def Func.users (F : Func) (id : Nat) : List User :=
  F.blocks.flatMap (fun B => B.usersOf id)

/-- The predecessor edges of block `b`: one entry per terminator successor slot naming
`b`. -/
def Func.preds (F : Func) (b : Nat) : List Nat :=
  F.blocks.flatMap (fun B => (B.term.succs.filter (fun s => s == b)).map (fun _ => B.id))

/-- `BasicBlock::getSinglePredecessor`: the predecessor when there is exactly one
predecessor edge. -/
def getSinglePredecessor (F : Func) (b : Nat) : Option Nat :=
  match F.preds b with
  | [p] => some p
  | _ => none

/-- `BasicBlock::getSingleSuccessor`: the successor when the terminator has exactly one
successor slot. -/
def getSingleSuccessor (F : Func) (b : Nat) : Option Nat :=
  match F.succsOf b with
  | [s] => some s
  | _ => none

/-- The answers of LLVM's loop-structure queries for one loop: `getHeader`,
`getLoopPreheader`, `getLoopLatch`, `getExitBlocks`, `getLoopGuardBranch` (given as the
block whose terminator is the guard branch) and `getBlocks`.  A missing component is
`none`, as the queries return a null pointer. -/
structure Loop where
  header : Option Nat
  preheader : Option Nat
  latch : Option Nat
  exitBlocks : List Nat
  guardBranch : Option Nat
  blocks : List Nat
deriving DecidableEq, Repr

/-- `Loop::contains(BasicBlock*)`. -/
def Loop.contains (L : Loop) (b : Nat) : Bool :=
  decide (b ∈ L.blocks)

/-- `Loop::getExitBlock`: the exit block when `getExitBlocks` yields exactly one. -/
def Loop.getExitBlock (L : Loop) : Option Nat :=
  match L.exitBlocks with
  | [e] => some e
  | _ => none

/-- `Loop::isGuarded`: the loop has a guard branch. -/
def Loop.isGuarded (L : Loop) : Bool :=
  L.guardBranch.isSome

/-- Unlink the instruction with identity `id` from its block. -/
def eraseInst (F : Func) (id : Nat) : Func :=
  { blocks := F.blocks.map
      (fun B => { B with insts := B.insts.filter (fun I => I.id != id) }) }

/-- Put `I` at the end of the non-terminator instructions of block `b`, that is right
before the terminator of `b`. -/
def appendInst (F : Func) (b : Nat) (I : Instr) : Func :=
  { blocks := F.blocks.map
      (fun B => if B.id == b then { B with insts := B.insts ++ [I] } else B) }

/-- Apply `f` to every non-terminator instruction and `g` to every terminator. -/
def mapInsts (F : Func) (f : Instr → Instr) (g : Term → Term) : Func :=
  { blocks := F.blocks.map (fun B => { B with insts := B.insts.map f, term := g B.term }) }

/-- `Value::replaceAllUsesWith`: every operand slot holding `old` holds `new` afterwards,
in merge nodes, other instructions and terminators alike. -/
def replaceAllUsesWith (F : Func) (old new : Value) : Func :=
  mapInsts F
    (fun I => { I with operands := I.operands.map (fun v => if v = old then new else v) })
    (fun T => { T with operands := T.operands.map (fun v => if v = old then new else v) })

/-- Apply `f` to the instruction with identity `id`. -/
def updateInst (F : Func) (id : Nat) (f : Instr → Instr) : Func :=
  mapInsts F (fun I => if I.id = id then f I else I) (fun T => T)

/-- Apply `f` to the block with identity `b`. -/
def updateBlock (F : Func) (b : Nat) (f : Block → Block) : Func :=
  { blocks := F.blocks.map (fun B => if B.id = b then f B else B) }

/-- `PHINode::replaceIncomingBlockWith`. -/
def replaceIncomingBlockWith (I : Instr) (Old New : Nat) : Instr :=
  { I with incoming := I.incoming.map (fun x => if x = Old then New else x) }

/-- The loop of `BasicBlock::replacePhiUsesWith` over the instructions of one block: it
rewrites the merge nodes at the head of the block and stops at the first instruction that
is not a merge node. -/
def replacePhiUsesInList : List Instr → Nat → Nat → List Instr
  | [], _, _ => []
  | I :: rest, Old, New =>
    if I.op = Opcode.phi then
      replaceIncomingBlockWith I Old New :: replacePhiUsesInList rest Old New
    else I :: rest

/-- `b->replacePhiUsesWith(Old, New)`.  With a null `Old` no incoming block matches. -/
def replacePhiUsesWith (F : Func) (b : Nat) (Old : Option Nat) (New : Nat) : Func :=
  match Old with
  | some o => updateBlock F b (fun B => { B with insts := replacePhiUsesInList B.insts o New })
  | none => F

/-- A place to move an instruction to: right before the instruction with the given
identity, or right before the terminator of a block. -/
inductive InsertPt where
  | before (id : Nat)
  | atEnd (b : Nat)
deriving DecidableEq, Repr

/-- `BasicBlock::getFirstNonPHI`, as a place to insert before: the first instruction of
the block that is not a merge node, which is the terminator when there is no other. -/
def getFirstNonPHI (F : Func) (b : Nat) : InsertPt :=
  match (F.instsOf b).find? (fun I => decide (I.op ≠ Opcode.phi)) with
  | some I => InsertPt.before I.id
  | none => InsertPt.atEnd b

/-- Insert `I` right before the first instruction of the list with identity `t`. -/
def insertBeforeIn (I : Instr) (t : Nat) : List Instr → List Instr
  | [] => []
  | J :: rest => if J.id = t then I :: J :: rest else J :: insertBeforeIn I t rest

/-- Link `I` in at the given place. -/
def insertAt (F : Func) (pt : InsertPt) (I : Instr) : Func :=
  match pt with
  | InsertPt.before t =>
    { blocks := F.blocks.map (fun B => { B with insts := insertBeforeIn I t B.insts }) }
  | InsertPt.atEnd b => appendInst F b I

/-- `I->moveBefore(pt)` for the instruction with identity `id`: unlink it and link it in
at `pt`.  Moving an instruction before itself changes nothing. -/
def moveBefore (F : Func) (id : Nat) (pt : InsertPt) : Func :=
  if pt = InsertPt.before id then F
  else
    match F.findInst id with
    | some (_, I) => insertAt (eraseInst F id) pt I
    | none => F

/-- `Instruction::setSuccessor(i, New)` on the terminator of block `b`; `none` when the
terminator has no successor slot `i`. -/
def setSuccessor (F : Func) (b : Nat) (i : Nat) (New : Nat) : Option Func :=
  match F.findBlock b with
  | some B =>
    if i < B.term.succs.length then
      some (updateBlock F b (fun B => { B with term := { B.term with succs := B.term.succs.set i New } }))
    else none
  | none => none

/-- `Instruction::replaceSuccessorWith(Old, New)` on the terminator of block `b`. -/
def replaceSuccessorWith (F : Func) (b : Nat) (Old New : Nat) : Func :=
  updateBlock F b (fun B =>
    { B with term := { B.term with succs := B.term.succs.map (fun x => if x = Old then New else x) } })

/-- `BasicBlock::use_empty`: no terminator of the function names the block as a
successor. -/
def use_empty (F : Func) (b : Nat) : Bool :=
  F.blocks.all (fun B => !decide (b ∈ B.term.succs))

/-- No merge node of the function names the block as an incoming block. -/
def noPhiNames (F : Func) (b : Nat) : Bool :=
  F.blocks.all (fun B => B.insts.all (fun I => !(decide (I.op = Opcode.phi) && decide (b ∈ I.incoming))))

/-- `BasicBlock::eraseFromParent`: the block with its instructions leaves the function. -/
def eraseBlock (F : Func) (b : Nat) : Func :=
  { blocks := F.blocks.filter (fun B => B.id != b) }

/-- Insert block `X` right before the first block of the list with identity `t`. -/
def insertBlockBefore (X : Block) (t : Nat) : List Block → List Block
  | [] => []
  | B :: rest => if B.id = t then X :: B :: rest else B :: insertBlockBefore X t rest

/-- `BasicBlock::moveBefore`: the block `b` takes the place right before block `t` in the
layout order. -/
def moveBlockBefore (F : Func) (b t : Nat) : Func :=
  if b = t then F
  else
    match F.findBlock b with
    | some X => { blocks := insertBlockBefore X t (eraseBlock F b).blocks }
    | none => F

/-- The dominator tree, consumed through `dominates(A, B)` on blocks. -/
structure DominatorTree where
  dominates : Nat → Nat → Bool

/-- The successor list of block `b`, when the function has a block `b`. -/
def Func.succsAt (F : Func) (b : Nat) : Option (List Nat) :=
  (F.findBlock b).map (fun B => B.term.succs)

/-- The control-flow skeleton of a function: the identities of its blocks, in layout
order, each with its successor list. -/
def Func.skeleton (F : Func) : List (Nat × List Nat) :=
  F.blocks.map (fun B => (B.id, B.term.succs))

end IR

namespace LICMopt

open IR

/-- `Loop::contains(Instruction*)` for an operand given by identity: whether the parent
block of the instruction is a block of the loop.  An identity that is in no block of the
function stands for an instruction without a parent, which no loop contains. -/
def containsInst (F : Func) (L : Loop) (id : Nat) : Bool :=
  match F.findInst id with
  | some (b, _) => L.contains b
  | none => false

/-- `isa<PHINode>` for an operand given by identity. -/
def isPhiInst (F : Func) (id : Nat) : Bool :=
  match F.findInst id with
  | some (_, D) => decide (D.op = Opcode.phi)
  | none => false

/-- One turn of the operand loop of `isLoopInvariant` (LICMopt.cpp 75-95): `true` stands
for `continue`, `false` for `return false`. -/
def operandInvariant (F : Func) (L : Loop) (movable : List Nat) : Value → Bool
  | Value.const _ => true
  | Value.arg _ => true
  | Value.inst id =>
    if isPhiInst F id then false
    else if !containsInst F L id || decide (id ∈ movable) then true
    else false

/-- The lambda `isLoopInvariant` of `runOnLoop` (LICMopt.cpp 60-97), with the captured
loop and the captured `movable` set made explicit. -/
def isLoopInvariant (F : Func) (L : Loop) (movable : List Nat) (I : Instr) : Bool :=
  if I.op ≠ Opcode.binop then false
  else I.operands.all (operandInvariant F L movable)

/-- Check 1 of `isSafeToMove` (LICMopt.cpp 150-159): every user is inside the loop. -/
def deadOutsideLoopControll (F : Func) (L : Loop) (I : Instr) : Bool :=
  (F.users I.id).all (fun u => L.contains u.block)

/-- Check 2 of `isSafeToMove` (LICMopt.cpp 165-173): the block of `I` dominates every exit
block. -/
def dominatesAllExitsControll (DT : DominatorTree) (ExitBlocks : List Nat) (parent : Nat) :
    Bool :=
  ExitBlocks.all (fun e => DT.dominates parent e)

/-- Check 3 of `isSafeToMove` (LICMopt.cpp 180-189): no merge node inside the loop uses
`I`. -/
def definedOnlyOnceControll (F : Func) (L : Loop) (I : Instr) : Bool :=
  (F.users I.id).all (fun u => !(u.isPhi && L.contains u.block))

/-- Check 4 of `isSafeToMove` (LICMopt.cpp 195-205): the block of `I` dominates the block
of every user. -/
def dominatesAllUsesControll (F : Func) (DT : DominatorTree) (parent : Nat) (I : Instr) :
    Bool :=
  (F.users I.id).all (fun u => DT.dominates parent u.block)

/-- `LICMopt::isSafeToMove` (LICMopt.cpp 143-215).  `parent` is `I.getParent()`. -/
def isSafeToMove (F : Func) (L : Loop) (DT : DominatorTree) (ExitBlocks : List Nat)
    (parent : Nat) (I : Instr) : Bool :=
  (deadOutsideLoopControll F L I || dominatesAllExitsControll DT ExitBlocks parent)
    && definedOnlyOnceControll F L I
    && dominatesAllUsesControll F DT parent I

/-- The number of successor slots of all terminators: the number of edges of the graph. -/
def edgeCount (F : Func) : Nat :=
  (F.blocks.map (fun B => B.term.succs.length)).sum

/-- The walk of `depth_first`: a stack of blocks still to look at and the blocks visited
so far, in visiting order.  The block on top is skipped when already visited; otherwise
it is visited and its successors are put on top of the stack in successor order, so the
first successor and everything reachable from it is visited before the second.  Every
turn takes one block off the stack and at most `edgeCount F + 1` blocks are ever put on
it, which is the fuel `depth_first` starts with. -/
def dfsAux (F : Func) : Nat → List Nat → List Nat → List Nat
  | 0, _, visited => visited
  | _ + 1, [], visited => visited
  | fuel + 1, b :: stack, visited =>
    if b ∈ visited then dfsAux F fuel stack visited
    else dfsAux F fuel (F.succsOf b ++ stack) (visited ++ [b])

/-- The blocks `depth_first(Header)` yields, in order (pre-order, successors in terminator
order). -/
def depth_first (F : Func) (h : Nat) : List Nat :=
  dfsAux F (edgeCount F + 1) [h] []

/-- The blocks the scan of `runOnLoop` looks into (LICMopt.cpp 101-105): those of the
depth-first walk from the header that the loop contains. -/
def scanBlocks (F : Func) (L : Loop) : List Nat :=
  match L.header with
  | some h => (depth_first F h).filter (fun b => L.contains b)
  | none => []

/-- The instructions the scan visits, in order, each with its parent block.  A terminator
is not a binary operator, so the scan never accepts one and only the non-terminator
instructions are listed. -/
def scanInsts (F : Func) (L : Loop) : List (Nat × Instr) :=
  (scanBlocks F L).flatMap (fun b => (F.instsOf b).map (fun I => (b, I)))

/-- The body of the scan (LICMopt.cpp 109-119) for one instruction: `movable.insert(&I)`
when both checks pass.  `movable` is a `SetVector`: insertion order, no duplicates. -/
def scanStep (F : Func) (L : Loop) (DT : DominatorTree) (ExitBlocks : List Nat)
    (movable : List Nat) (bi : Nat × Instr) : List Nat :=
  if isLoopInvariant F L movable bi.2 && isSafeToMove F L DT ExitBlocks bi.1 bi.2 then
    (if bi.2.id ∈ movable then movable else movable ++ [bi.2.id])
  else movable

/-- The scan continued from a given `movable` set. -/
def scanFrom (F : Func) (L : Loop) (DT : DominatorTree) (movable : List Nat) : List Nat :=
  (scanInsts F L).foldl (scanStep F L DT L.exitBlocks) movable

/-- The `movable` set after the scan of `runOnLoop` (LICMopt.cpp 101-121). -/
def collectMovable (F : Func) (L : Loop) (DT : DominatorTree) : List Nat :=
  scanFrom F L DT []

/-- `I->moveBefore(preheader->getTerminator())` for the instruction with identity `id`. -/
def moveBeforeTerminator (F : Func) (pre : Nat) (id : Nat) : Func :=
  match F.findInst id with
  | some (_, I) => appendInst (eraseInst F id) pre I
  | none => F

/-- The moving loop of `runOnLoop` (LICMopt.cpp 124-128). -/
def moveAll (F : Func) (pre : Nat) (movable : List Nat) : Func :=
  movable.foldl (fun G id => moveBeforeTerminator G pre id) F

/-- `LICMopt::runOnLoop` (LICMopt.cpp 36-133): the returned flag and the function after
the call.  `moved` receives every element of `movable`, so it is empty exactly when
`movable` is. -/
def runOnLoop (F : Func) (L : Option Loop) (DT : DominatorTree) : Bool × Func :=
  match L with
  | none => (false, F)
  | some L =>
    match L.preheader with
    | none => (false, F)
    | some pre =>
      let movable := collectMovable F L DT
      (!movable.isEmpty, moveAll F pre movable)

/-- Block `b` can be reached from block `a` along terminator successors. -/
def Reachable (F : Func) (a b : Nat) : Prop :=
  Relation.ReflTransGen (fun x y => y ∈ F.succsOf x) a b

/-- The work the walk of `depth_first` still has to do: the blocks on the stack plus the
successor slots of the blocks not yet visited. -/
def dfsWork (F : Func) (stack visited : List Nat) : Nat :=
  stack.length +
    ((F.blocks.filter (fun B => decide (B.id ∉ visited))).map (fun B => B.term.succs.length)).sum

/-- Instruction identities are unique in the function. -/
def UniqueIds (F : Func) : Prop :=
  (F.allInsts.map (fun I => I.id)).Nodup

/-- The function in which the instructions with an identity in `M` are unlinked from
their blocks and the instructions `recs` are placed, in order, right before the
terminator of block `pre`. -/
def hoisted (F : Func) (pre : Nat) (M : List Nat) (recs : List Instr) : Func :=
  { blocks := F.blocks.map (fun B =>
      { B with insts := B.insts.filter (fun I => decide (I.id ∉ M)) ++
                          (if B.id == pre then recs else []) }) }

/-- The instructions with the identities `M`, in the order of `M`. -/
def instsWithIds (F : Func) (M : List Nat) : List Instr :=
  M.filterMap (fun id => (F.findInst id).map (fun p => p.2))

/-- The scan visits the definition of an operand before its user: for an instruction that
is not a merge node, an operand defined by an instruction that is not a merge node is
not visited by the scan at or after the user. -/
def DefsVisitedFirst (F : Func) (L : Loop) : Prop :=
  ∀ pre bi post, scanInsts F L = pre ++ bi :: post → bi.2.op ≠ Opcode.phi →
    ∀ id, Value.inst id ∈ bi.2.operands → isPhiInst F id = false →
      ∀ x ∈ bi :: post, x.2.id ≠ id

/-- A path of the control-flow graph: every block of the list is followed by one of its
successors. -/
def IsPath (F : Func) (p : List Nat) : Prop :=
  List.Chain' (fun x y => y ∈ F.succsOf x) p

/-- Block `a` dominates block `b` among the blocks entered through `h`: every path from
`h` to `b` passes through `a`. -/
def DominatesFrom (F : Func) (h a b : Nat) : Prop :=
  ∀ p, IsPath F p → p.head? = some h → p.getLast? = some b → a ∈ p

/-- Block `v` is reached from `h` by a path whose blocks before `v` are all in `S`. -/
inductive PathIn (F : Func) (h : Nat) (S : List Nat) : Nat → Prop where
  | start : PathIn F h S h
  | step (u v : Nat) : PathIn F h S u → u ∈ S → v ∈ F.succsOf u → PathIn F h S v

/-- Instruction `D` stands before instruction `I` in the list. -/
def Before (D I : Instr) (l : List Instr) : Prop :=
  ∃ l1 l2 l3, l = l1 ++ D :: l2 ++ I :: l3

/-- Every use inside the loop that is not a merge node is dominated by its definition,
for definitions inside the loop that are not merge nodes: the definition stands earlier in
the same block, or its block is another block that dominates the block of the use. -/
def UsesDominated (F : Func) (L : Loop) : Prop :=
  ∀ h, L.header = some h →
    ∀ b ∈ L.blocks, ∀ I ∈ F.instsOf b, I.op ≠ Opcode.phi →
      ∀ id, Value.inst id ∈ I.operands →
        ∀ bd D, F.findInst id = some (bd, D) → D.op ≠ Opcode.phi → bd ∈ L.blocks →
          (bd = b ∧ Before D I (F.instsOf b)) ∨ (bd ≠ b ∧ DominatesFrom F h bd b)

/-- A check of `Before`. -/
def beforeCheck (D I : Instr) (l : List Instr) : Bool :=
  decide (I ∈ (l.dropWhile (fun J => decide (J ≠ D))).tail)

/-- A check of `UsesDominated` that knows one dominating block, the header. -/
def usesDominatedCheck (F : Func) (L : Loop) (h : Nat) : Bool :=
  L.blocks.all fun b =>
    (F.instsOf b).all fun I =>
      decide (I.op = Opcode.phi) ||
        I.operands.all fun v =>
          match v with
          | Value.inst id =>
            match F.findInst id with
            | some (bd, D) =>
              decide (D.op = Opcode.phi) || !L.contains bd ||
                (decide (bd = b) && beforeCheck D I (F.instsOf b)) ||
                (decide (bd ≠ b) && decide (bd = h))
            | none => true
          | _ => true

/-- A check of `DefsVisitedFirst` on a list of visited instructions: for the head of
every suffix, when it is not a merge node, no instruction of the suffix defines one of
its operands that are not merge nodes. -/
def defsVisitedFirstCheck (F : Func) : List (Nat × Instr) → Bool
  | [] => true
  | bi :: post =>
    (decide (bi.2.op = Opcode.phi) ||
      bi.2.operands.all (fun v =>
        match v with
        | Value.inst id => isPhiInst F id || (bi :: post).all (fun x => decide (x.2.id ≠ id))
        | _ => true))
    && defsVisitedFirstCheck F post

/-- Block `a` post-dominates block `b`: every path from `b` to a block without successors
passes through `a`. -/
def PostDominates (F : Func) (a b : Nat) : Prop :=
  ∀ p, IsPath F p → p.head? = some b →
    (∃ x, p.getLast? = some x ∧ F.succsOf x = []) → a ∈ p

/-- A check that the block list `S` is closed under successors except at block `a`: every
successor of a block of `S` other than `a` is in `S`. -/
def closedAvoiding (F : Func) (a : Nat) (S : List Nat) : Bool :=
  S.all (fun x => x == a || (F.succsOf x).all (fun y => decide (y ∈ S)))

/-- A check that no block of `S` other than `a` is without successors. -/
def noExitAvoiding (F : Func) (a : Nat) (S : List Nat) : Bool :=
  S.all (fun x => x == a || !(F.succsOf x).isEmpty)

end LICMopt

namespace LoopFusionOpt

open IR

/-- A symbolic expression of scalar evolution, as far as the pass looks into it: the
"could not compute" marker, a constant with its signed value, an add-recurrence with its
start and per-iteration step, or any other expression. -/
inductive SCEV where
  | couldNotCompute
  | constant (ty : Nat) (value : Int)
  | addRec (start : SCEV) (step : SCEV)
  | unknown (ty : Nat) (id : Nat)
deriving DecidableEq, Repr

/-- `SCEV::getType`. -/
def SCEV.getType : SCEV → Nat
  | SCEV.couldNotCompute => 0
  | SCEV.constant ty _ => ty
  | SCEV.addRec start _ => start.getType
  | SCEV.unknown ty _ => ty

/-- The scalar-evolution queries the pass makes. -/
structure ScalarEvolution where
  getBackedgeTakenCount : Loop → SCEV
  isKnownPredicateEQ : SCEV → SCEV → Bool
  getSCEV : Value → SCEV
  getMinusSCEV : SCEV → SCEV → SCEV
  getInductionVariable : Loop → Option Nat

/-- The post-dominator tree. -/
structure PostDominatorTree where
  dominates : Nat → Nat → Bool

/-- The dependence analysis: `depends I1 I2` tells whether `DI.depends(&I1, &I2, true)`
returns a dependence, for two instruction identities. -/
structure DependenceInfo where
  depends : Nat → Nat → Bool

/-- The data layout: the allocation size of a type, as an unsigned 64-bit number. -/
structure DataLayout where
  getTypeAllocSize : Nat → Nat

/-- The analyses `isOptimizable` and `fuseLoops` get from the analysis manager. -/
structure FunctionAnalysisManager where
  DT : DominatorTree
  PDT : PostDominatorTree
  SE : ScalarEvolution
  DI : DependenceInfo
  DL : DataLayout

/-- The lambda `strutturaAdeguata` (LoopFusionOpt.cpp 319-342). -/
def strutturaAdeguata (F : Func) (L : Loop) : Bool :=
  match L.preheader, L.latch, L.getExitBlock, L.header with
  | some Preheader, some Latch, some _, some _ =>
    if (getSingleSuccessor F Preheader).isNone then false
    else if (getSinglePredecessor F Latch).isNone then false
    else true
  | _, _, _, _ => false

/-- The exit point of First computed by `adjacentControll` (LoopFusionOpt.cpp 358-365). -/
def firstExitBB (F : Func) (First : Loop) : Option Nat :=
  if First.isGuarded then
    match First.getExitBlock with
    | some Exit => getSingleSuccessor F Exit
    | none => none
  else First.getExitBlock

/-- The entry point of Second computed by `adjacentControll` (LoopFusionOpt.cpp 372-379):
the parent block of the guard branch, or the preheader. -/
def secondEntryBB (Second : Loop) : Option Nat :=
  if Second.isGuarded then Second.guardBranch
  else Second.preheader

/-- The lambda `adjacentControll` (LoopFusionOpt.cpp 352-394). -/
def adjacentControll (F : Func) (First Second : Loop) : Bool :=
  match firstExitBB F First with
  | none => false
  | some e =>
    match secondEntryBB Second with
    | none => false
    | some s => decide (e = s)

/-- The lambda `sameLoopTripCountControll` (LoopFusionOpt.cpp 398-429). -/
def sameLoopTripCountControll (FAM : FunctionAnalysisManager) (First Second : Loop) : Bool :=
  let TC1 := FAM.SE.getBackedgeTakenCount First
  let TC2 := FAM.SE.getBackedgeTakenCount Second
  if TC1 = SCEV.couldNotCompute ∨ TC2 = SCEV.couldNotCompute then false
  else if TC1.getType ≠ TC2.getType then false
  else FAM.SE.isKnownPredicateEQ TC1 TC2

/-- `BranchInst::isConditional` for the terminator of block `b`: a conditional branch has
two successor slots. -/
def isConditional (F : Func) (b : Nat) : Bool :=
  match F.findBlock b with
  | some B => decide (B.term.succs.length = 2)
  | none => false

/-- `BranchInst::getCondition` for the terminator of block `b`. -/
def getCondition (F : Func) (b : Nat) : Option Value :=
  match F.findBlock b with
  | some B => B.term.operands.head?
  | none => none

/-- `dyn_cast<ICmpInst>` of a guard condition: the comparison instruction, when the value
is one. -/
def asICmp (F : Func) (v : Option Value) : Option Instr :=
  match v with
  | some (Value.inst id) =>
    match F.findInst id with
    | some (_, C) =>
      match C.op with
      | Opcode.icmp _ => some C
      | _ => none
    | none => none
  | _ => none

/-- `Instruction::isIdenticalTo` for two comparisons: same operation (with its predicate)
and the same operands. -/
def isIdenticalTo (C1 C2 : Instr) : Bool :=
  decide (C1.op = C2.op) && decide (C1.operands = C2.operands)

/-- The guard-equivalence part of `controlFlowEqControll` for two guarded loops
(LoopFusionOpt.cpp 447-481): `none` stands for `return false`, otherwise the two entry
blocks `E1`, `E2` (the parents of the guard branches). -/
def guardEntries (F : Func) (First Second : Loop) : Option (Nat × Nat) :=
  match First.guardBranch, Second.guardBranch with
  | some G1, some G2 =>
    if !isConditional F G1 || !isConditional F G2 then none
    else
      match asICmp F (getCondition F G1), asICmp F (getCondition F G2) with
      | some C1, some C2 => if !isIdenticalTo C1 C2 then none else some (G1, G2)
      | _, _ => none
  | _, _ => none

/-- The lambda `controlFlowEqControll` (LoopFusionOpt.cpp 434-500). -/
def controlFlowEqControll (F : Func) (FAM : FunctionAnalysisManager) (First Second : Loop) :
    Bool :=
  if First.isGuarded != Second.isGuarded then false
  else
    let entries : Option (Option Nat × Option Nat) :=
      if First.isGuarded && Second.isGuarded then
        (guardEntries F First Second).map (fun e => (some e.1, some e.2))
      else some (First.header, Second.header)
    match entries with
    | none => false
    | some (some E1, some E2) =>
      let dom := FAM.DT.dominates E1 E2
      let pdom := FAM.PDT.dominates E2 E1
      if !dom || !pdom then false else true
    | some (_, _) => false

/-- The lambda `getInstructionPointer` (LoopFusionOpt.cpp 513-519): the pointer operand of
a store (operand 1) or of a load (operand 0), nothing for any other instruction. -/
def getInstructionPointer (Inst : Instr) : Option Value :=
  match Inst.op with
  | Opcode.store => Inst.operands[1]?
  | Opcode.load => Inst.operands[0]?
  | _ => none

/-- `dyn_cast<GetElementPtrInst>(P)` followed by `getResultElementType()`: the result
element type when the pointer is computed by an element-address instruction. -/
def gepElemTy (F : Func) (P : Value) : Option Nat :=
  match P with
  | Value.inst id =>
    match F.findInst id with
    | some (_, G) =>
      match G.op with
      | Opcode.gep ty => some ty
      | _ => none
    | none => none
  | _ => none

/-- The conversion `(int64_t)ElemSize` of an unsigned 64-bit number. -/
def toInt64 (n : Nat) : Int :=
  if n % 2 ^ 64 < 2 ^ 63 then ((n % 2 ^ 64 : Nat) : Int) else ((n % 2 ^ 64 : Nat) : Int) - 2 ^ 64

/-- Steps 7 of the pair loop (LoopFusionOpt.cpp 564-582): the element type chosen for the
pair, `GEP1`'s when `P1` is an element-address computation, otherwise `GEP2`'s. -/
def pairElemTy (F : Func) (P1 P2 : Value) : Option Nat :=
  match gepElemTy F P1 with
  | some ty => some ty
  | none => gepElemTy F P2

/-- `ElementOffset` (LoopFusionOpt.cpp 581-582): the signed 64-bit quotient, truncated
toward zero, of the byte distance by the element size. -/
def elementOffset (ByteOffset : Int) (ElemSize : Nat) : Int :=
  Int.tdiv ByteOffset (toInt64 ElemSize)

/-- The body of the innermost loop of `notDependenciesControll` (LoopFusionOpt.cpp
527-591) for one pair: `true` when the body reaches `return false`, `false` when it runs
into a `continue` or falls through. -/
def pairRejects (F : Func) (FAM : FunctionAnalysisManager) (I1 I2 : Instr) : Bool :=
  if !FAM.DI.depends I1.id I2.id then false
  else
    match getInstructionPointer I1, getInstructionPointer I2 with
    | some P1, some P2 =>
      match FAM.SE.getSCEV P1, FAM.SE.getSCEV P2 with
      | SCEV.addRec start1 Step1, SCEV.addRec start2 Step2 =>
        if Step1 ≠ Step2 then false
        else
          match FAM.SE.getMinusSCEV start1 start2 with
          | SCEV.constant _ ByteOffset =>
            match pairElemTy F P1 P2 with
            | some ElemTy =>
              let ElemSize := FAM.DL.getTypeAllocSize ElemTy % 2 ^ 64
              if ElemSize = 0 then false
              else decide (elementOffset ByteOffset ElemSize < 0)
            | none => false
          | _ => false
      | _, _ => false
    | _, _ => false

/-- The lambda `notDependenciesControll` (LoopFusionOpt.cpp 505-601): the four nested
loops over the blocks and instructions of First and of Second.  A terminator has no
pointer operand, so a pair with a terminator always runs into the `continue` of step 2
and only the non-terminator instructions are listed. -/
def notDependenciesControll (F : Func) (FAM : FunctionAnalysisManager) (First Second : Loop) :
    Bool :=
  First.blocks.all fun BB1 =>
    (F.instsOf BB1).all fun I1 =>
      Second.blocks.all fun BB2 =>
        (F.instsOf BB2).all fun I2 => !pairRejects F FAM I1 I2

/-- `LoopFusionOpt::isOptimizable` (LoopFusionOpt.cpp 297-624).  A null loop pointer is
`none`. -/
def isOptimizable (F : Func) (FAM : FunctionAnalysisManager) (First Second : Option Loop) :
    Bool :=
  match First, Second with
  | some First, some Second =>
    if !strutturaAdeguata F First || !strutturaAdeguata F Second then false
    else
      let Adj := adjacentControll F First Second
      let TC := sameLoopTripCountControll FAM First Second
      let CF := controlFlowEqControll F FAM First Second
      let Dep := notDependenciesControll F FAM First Second
      Adj && TC && CF && Dep
  | _, _ => false

/-- The function under transformation together with the record of the `deleteBlock`
calls made so far: for each call the block and whether the asserted `BB->use_empty()` held
when the call was made. -/
structure FuseState where
  F : Func
  asserts : List (Nat × Bool)
deriving DecidableEq, Repr

/-- The helper `deleteBlock` (LoopFusionOpt.cpp 77-86) for a non-null block.  The
assertion is recorded, not enforced: the statements after it are those of a build
without assertions. -/
def deleteBlock (s : FuseState) (BB : Nat) : FuseState :=
  { F := eraseBlock s.F BB, asserts := s.asserts ++ [(BB, use_empty s.F BB)] }

/-- The lambda `isLCSSAPhi` (LoopFusionOpt.cpp 142-157); `parent` is `PHI->getParent()`. -/
def isLCSSAPhi (PHI : Instr) (parent : Nat) (L : Loop) : Bool :=
  if L.contains parent then false
  else PHI.incoming.all (fun b => L.contains b)

/-- Step 1 of `fuseLoops` (LoopFusionOpt.cpp 136-137). -/
def unifyInductionVariables (F : Func) (firstIV secondIV : Nat) : Func :=
  eraseInst (replaceAllUsesWith F (Value.inst secondIV) (Value.inst firstIV)) secondIV

/-- The four `replacePhiUsesWith` calls of step 2 (LoopFusionOpt.cpp 162-168). -/
def resourcePhis (F : Func) (firstPreheader firstLatch firstBody secondPreheader secondLatch
    secondHeader secondExit : Nat) : Func :=
  let F1 := replacePhiUsesWith F secondHeader (some secondLatch) firstLatch
  let F2 := replacePhiUsesWith F1 secondHeader (some secondPreheader) firstPreheader
  let F3 := replacePhiUsesWith F2 secondPreheader (getSinglePredecessor F2 secondPreheader) firstBody
  replacePhiUsesWith F3 secondExit (some secondLatch) firstLatch

/-- The merge nodes of a block, by identity (LoopFusionOpt.cpp 172-181). -/
def phisOf (F : Func) (b : Nat) : List Nat :=
  ((F.instsOf b).filter (fun I => decide (I.op = Opcode.phi))).map (fun I => I.id)

/-- The test of LoopFusionOpt.cpp 190-191 on `in0`: the merge node of First's exit block
that `in0` is, when it is one and `isLCSSAPhi` accepts it. -/
def forwardedLCSSA (F : Func) (First : Loop) (firstExit : Nat) (in0 : Value) : Option Instr :=
  match in0 with
  | Value.inst id =>
    match F.findInst id with
    | some (parent, lcssaPHI) =>
      if lcssaPHI.op = Opcode.phi ∧ firstExit = parent ∧ isLCSSAPhi lcssaPHI parent First = true
      then some lcssaPHI else none
    | none => none
  | _ => none

/-- One turn of the loop over `firstHeaderPHIs` (LoopFusionOpt.cpp 195-197). -/
def updateFirstPhi (lcssaValue in1 : Value) (F : Func) (firstPHI : Nat) : Option Func :=
  match F.findInst firstPHI with
  | some (_, P) =>
    match P.operands[1]? with
    | some v =>
      if v = lcssaValue then
        some (updateInst F firstPHI (fun I => { I with operands := I.operands.set 1 in1 }))
      else some F
    | none => none
  | none => none

/-- One turn of the loop over `secondHeaderPHIs` (LoopFusionOpt.cpp 185-207); `none` when
a positional access is out of range. -/
def reconcilePhi (First : Loop) (firstExit : Nat) (firstHeaderPHIs : List Nat)
    (insertBefore : InsertPt) (F : Func) (phi : Nat) : Option Func :=
  match F.findInst phi with
  | some (_, PHI) =>
    match PHI.operands[0]?, PHI.operands[1]? with
    | some in0, some in1 =>
      match forwardedLCSSA F First firstExit in0 with
      | some lcssaPHI =>
        match lcssaPHI.operands[0]? with
        | some lcssaValue =>
          match firstHeaderPHIs.foldlM (updateFirstPhi lcssaValue in1) F with
          | some F1 =>
            let F2 := replaceAllUsesWith F1 (Value.inst phi) lcssaValue
            let F3 := eraseInst F2 phi
            some (eraseInst F3 lcssaPHI.id)
          | none => none
        | none => none
      | none => some (moveBefore F phi insertBefore)
    | _, _ => none
  | none => none

/-- `phi->setIncomingBlock(0, firstLatch)` (LoopFusionOpt.cpp 217). -/
def setIncomingBlock0 (firstLatch : Nat) (F : Func) (phi : Nat) : Option Func :=
  match F.findInst phi with
  | some (_, P) =>
    if 0 < P.incoming.length then
      some (updateInst F phi (fun I => { I with incoming := I.incoming.set 0 firstLatch }))
    else none
  | none => none

/-- The relocation of the merge nodes of First's exit block (LoopFusionOpt.cpp 213-222). -/
def moveLCSSA (F : Func) (firstExit firstLatch secondExit : Nat) : Option Func :=
  let movePoint := getFirstNonPHI F secondExit
  let lcssaToMove := phisOf F firstExit
  match lcssaToMove.foldlM (setIncomingBlock0 firstLatch) F with
  | some F1 => some (lcssaToMove.foldl (fun G phi => moveBefore G phi movePoint) F1)
  | none => none

/-- Step 2 of `fuseLoops` (LoopFusionOpt.cpp 162-222). -/
def fixPhis (F : Func) (First : Loop) (firstPreheader firstLatch firstExit firstBody firstHeader
    secondPreheader secondLatch secondExit secondHeader : Nat) : Option Func :=
  let F1 := resourcePhis F firstPreheader firstLatch firstBody secondPreheader secondLatch
    secondHeader secondExit
  let secondHeaderPHIs := phisOf F1 secondHeader
  let firstHeaderPHIs := phisOf F1 firstHeader
  let insertBefore := getFirstNonPHI F1 firstHeader
  match secondHeaderPHIs.foldlM (reconcilePhi First firstExit firstHeaderPHIs insertBefore) F1 with
  | some F2 => moveLCSSA F2 firstExit firstLatch secondExit
  | none => none

/-- The result of the guarded step: it returned `nullptr` out of `fuseLoops`, or it ran
through. -/
inductive GuardStep where
  | returnedNull (s : FuseState)
  | done (s : FuseState)
deriving DecidableEq, Repr

/-- The list `toMove` of step 3 (LoopFusionOpt.cpp 246-250): the non-terminator
instructions of Second's guard block other than the guard condition.  The condition is
read once per non-terminator instruction; `none` when it is read from a branch that has
none. -/
def guardInstsToMove (F : Func) (secondGuard : Nat) : Option (List Nat) :=
  match F.instsOf secondGuard with
  | [] => some []
  | insts =>
    match getCondition F secondGuard with
    | none => none
    | some cond =>
      some ((insts.filter (fun I => decide (Value.inst I.id ≠ cond))).map (fun I => I.id))

/-- Step 3 of `fuseLoops` for two guarded loops (LoopFusionOpt.cpp 226-259); `firstGuard`
and `secondGuard` are the parent blocks of the guard branches.  `none` when a positional
access is out of range. -/
def unifyGuards (s : FuseState) (firstGuard secondGuard firstExit secondExit : Nat) :
    Option GuardStep :=
  match getSingleSuccessor s.F secondExit with
  | none => some (GuardStep.returnedNull s)
  | some guardDest =>
    match setSuccessor s.F firstGuard 1 guardDest with
    | none => none
    | some F1 =>
      let F2 := replacePhiUsesWith F1 guardDest (some secondGuard) firstGuard
      let F3 := replaceSuccessorWith F2 secondGuard guardDest secondGuard
      match setSuccessor F3 firstExit 0 firstExit with
      | none => none
      | some F4 =>
        let insertPt := getFirstNonPHI F4 guardDest
        match guardInstsToMove F4 secondGuard with
        | none => none
        | some toMove =>
          let F5 := toMove.foldl (fun G inst => moveBefore G inst insertPt) F4
          let F6 := replacePhiUsesWith F5 guardDest (some firstExit) secondExit
          let s1 := deleteBlock { s with F := F6 } secondGuard
          some (GuardStep.done (deleteBlock s1 firstExit))

/-- Step 4 of `fuseLoops` (LoopFusionOpt.cpp 265-271). -/
def spliceControlFlow (s : FuseState) (firstLatch firstBody secondPreheader secondLatch
    secondBody secondHeader secondExit : Nat) : Option FuseState :=
  match setSuccessor s.F firstLatch 1 secondExit with
  | none => none
  | some F1 =>
    let F2 := replaceSuccessorWith F1 firstBody firstLatch secondHeader
    let F3 := replaceSuccessorWith F2 secondBody secondLatch firstLatch
    let F4 := replaceSuccessorWith F3 secondLatch secondExit secondLatch
    let s1 := deleteBlock { s with F := F4 } secondLatch
    some (deleteBlock s1 secondPreheader)

/-- Step 5 of `fuseLoops` (LoopFusionOpt.cpp 275-285): the blocks of Second, its latch and
preheader left out, join First and move right before First's latch. -/
def rehomeBlocks (s : FuseState) (First Second : Loop) (firstLatch secondPreheader
    secondLatch : Nat) : Loop × FuseState :=
  let secondBlocks := Second.blocks.filter
    (fun BB => !(decide (BB = secondLatch) || decide (BB = secondPreheader)))
  ({ First with blocks := First.blocks ++ secondBlocks },
   { s with F := secondBlocks.foldl (fun G BB => moveBlockBefore G BB firstLatch) s.F })

/-- Steps 4 and 5 and the return of `fuseLoops` (LoopFusionOpt.cpp 265-287). -/
def finishFusion (s : FuseState) (First Second : Loop) (firstLatch firstBody secondPreheader
    secondLatch secondBody secondHeader secondExit : Nat) : Option (Option Loop × FuseState) :=
  match spliceControlFlow s firstLatch firstBody secondPreheader secondLatch secondBody
      secondHeader secondExit with
  | none => none
  | some s1 =>
    let r := rehomeBlocks s1 First Second firstLatch secondPreheader secondLatch
    some (some r.1, r.2)

/-- `LoopFusionOpt::fuseLoops` (LoopFusionOpt.cpp 91-288).  The result is `none` when the
run makes a positional access that is out of range (undefined behaviour of the C++
code); otherwise it is the returned loop pointer (`none` for `nullptr`, else First with
its new block list) together with the function after the call and the record of the
`deleteBlock` assertions. -/
def fuseLoops (F : Func) (FAM : FunctionAnalysisManager) (First Second : Option Loop) :
    Option (Option Loop × FuseState) :=
  let s0 : FuseState := { F := F, asserts := [] }
  match First, Second with
  | some First, some Second =>
    match First.preheader, First.latch, First.getExitBlock,
        Second.preheader, Second.latch, Second.getExitBlock with
    | some firstPreheader, some firstLatch, some firstExit,
        some secondPreheader, some secondLatch, some secondExit =>
      match getSingleSuccessor F firstPreheader, getSinglePredecessor F firstLatch,
          getSingleSuccessor F secondPreheader, getSinglePredecessor F secondLatch with
      | some firstHeader, some firstBody, some secondHeader, some secondBody =>
        match FAM.SE.getInductionVariable First, FAM.SE.getInductionVariable Second with
        | some firstIV, some secondIV =>
          let F1 := unifyInductionVariables F firstIV secondIV
          match fixPhis F1 First firstPreheader firstLatch firstExit firstBody firstHeader
              secondPreheader secondLatch secondExit secondHeader with
          | none => none
          | some F2 =>
            let s2 : FuseState := { F := F2, asserts := [] }
            match First.guardBranch, Second.guardBranch with
            | some firstGuard, some secondGuard =>
              match unifyGuards s2 firstGuard secondGuard firstExit secondExit with
              | none => none
              | some (GuardStep.returnedNull s3) => some (none, s3)
              | some (GuardStep.done s3) =>
                finishFusion s3 First Second firstLatch firstBody secondPreheader secondLatch
                  secondBody secondHeader secondExit
            | _, _ =>
              finishFusion s2 First Second firstLatch firstBody secondPreheader secondLatch
                secondBody secondHeader secondExit
        | _, _ => some (none, s0)
      | _, _, _, _ => some (none, s0)
    | _, _, _, _, _, _ => some (none, s0)
  | _, _ => some (none, s0)

/-- The state of the loop of `runOnLoops` (LoopFusionOpt.cpp 43-69): the function, the
candidate `Prec`, the flag `changed`, and a record of the calls made so far: the pairs
`isOptimizable` was called on, the pairs `fuseLoops` was called on.  `undefined` is set
when a call of `fuseLoops` made a positional access that is out of range; the state is
frozen from then on. -/
structure RunState where
  F : Func
  Prec : Option Loop
  changed : Bool
  optimizableCalls : List (Loop × Loop)
  fuseCalls : List (Loop × Loop)
  undefined : Bool
deriving DecidableEq, Repr

/-- One turn of the loop of `runOnLoops` (LoopFusionOpt.cpp 45-69) for the list entry
`It`; a null entry is `none`.  `Prec && isOptimizable(...)` calls `isOptimizable` only when
`Prec` is not null. -/
def runOnLoopsStep (FAM : FunctionAnalysisManager) (s : RunState) (It : Option Loop) :
    RunState :=
  if s.undefined then s
  else
    match It with
    | none => s
    | some Corr =>
      match s.Prec with
      | none => { s with Prec := some Corr }
      | some Prec =>
        let s1 := { s with optimizableCalls := s.optimizableCalls ++ [(Prec, Corr)] }
        if isOptimizable s.F FAM (some Prec) (some Corr) then
          let s2 := { s1 with fuseCalls := s1.fuseCalls ++ [(Prec, Corr)] }
          match fuseLoops s.F FAM (some Prec) (some Corr) with
          | none => { s2 with undefined := true }
          | some (some Fused, t) => { s2 with F := t.F, Prec := some Fused, changed := true }
          | some (none, t) => { s2 with F := t.F, Prec := some Corr }
        else { s1 with Prec := some Corr }

/-- `LoopFusionOpt::runOnLoops` (LoopFusionOpt.cpp 35-72): the list is walked from its
last entry to its first.  The returned flag is the field `changed` of the final state. -/
def runOnLoops (F : Func) (FAM : FunctionAnalysisManager) (Loops : List (Option Loop)) :
    RunState :=
  Loops.reverse.foldl (runOnLoopsStep FAM)
    { F := F, Prec := none, changed := false, optimizableCalls := [], fuseCalls := [],
      undefined := false }

/-- Every terminator of the function has operands satisfying `R` and every other
instruction satisfies `Q`. -/
def Holds (Q : Instr → Prop) (R : List Value → Prop) (G : Func) : Prop :=
  ∀ B ∈ G.blocks, R B.term.operands ∧ ∀ I ∈ B.insts, Q I

/-- The instruction `I` has been rewritten from Second's induction variable `siv` to
First's induction variable `fiv`: it does not refer to `siv`, it is not `siv`, and it is
an instruction of the original function `F` in which every operand position that referred
to `siv` refers to `fiv`. -/
def IVUnified (F : Func) (fiv siv : Nat) (I : Instr) : Prop :=
  Value.inst siv ∉ I.operands ∧ I.id ≠ siv ∧
    ∃ I0 ∈ F.allInsts, I0.id = I.id ∧ I0.op = I.op ∧
      ∀ k : Nat, I0.operands[k]? = some (Value.inst siv) →
        I.operands[k]? = some (Value.inst fiv)

/-- The merge nodes of block `b` in `G` are those of `F` whose identity is not in `D`, in
the same order and with the same incoming values; block `b` of `G` holds no instruction
that it did not hold in `F`; and no instruction of `G` has an identity in `D`. -/
def MergesKept (F : Func) (b : Nat) (D : List Nat) (G : Func) : Prop :=
  ((G.instsOf b).filter (fun I => decide (I.op = Opcode.phi))).map
      (fun I => (I.id, I.operands))
    = (((F.instsOf b).filter (fun I => decide (I.op = Opcode.phi))).map
        (fun I => (I.id, I.operands))).filter (fun k => decide (k.1 ∉ D)) ∧
  (∀ I ∈ G.instsOf b, I.id ∈ (F.instsOf b).map (fun I => I.id)) ∧
  Holds (fun I => I.id ∉ D) (fun _ => True) G

/-- Every block of the function has a terminator whose operands satisfy `T`, which may
depend on the identity of the block. -/
def HoldsT (T : Nat → List Value → Prop) (G : Func) : Prop :=
  ∀ B ∈ G.blocks, T B.id B.term.operands

/-- Every merge node has one incoming value and one incoming block per predecessor edge
of its block, and at least one. -/
def PhiEntries (F : Func) : Prop :=
  ∀ B ∈ F.blocks, ∀ I ∈ B.insts, I.op = Opcode.phi →
    I.operands.length = (F.preds B.id).length ∧ I.incoming.length = (F.preds B.id).length ∧
      0 < I.operands.length

end LoopFusionOpt

namespace Examples

open IR LICMopt LoopFusionOpt

/-- An unconditional branch to `b`. -/
def br (b : Nat) : Term := { operands := [], succs := [b] }

/-- A conditional branch on `c` to `t` (successor 0) or `e` (successor 1). -/
def condBr (c : Nat) (t e : Nat) : Term := { operands := [Value.inst c], succs := [t, e] }

/-- A return. -/
def ret : Term := { operands := [], succs := [] }

/-- The merge node `id = phi [v0, b0], [v1, b1]`. -/
def phi2 (id : Nat) (v0 : Value) (b0 : Nat) (v1 : Value) (b1 : Nat) : Instr :=
  { id := id, op := Opcode.phi, operands := [v0, v1], incoming := [b0, b1] }

/-- The instruction `id = op operands`. -/
def ins (id : Nat) (op : Opcode) (operands : List Value) : Instr :=
  { id := id, op := op, operands := operands, incoming := [] }

/-- Two adjacent unguarded counted loops over the same array `arg 0`, trip count `arg 1`:
block 0 is First's preheader, 1 its header and body, 2 its latch, 3 its exit block and
Second's preheader, 4 Second's header and body, 5 its latch, 6 its exit block.  First
stores to `a[i]`; Second loads from the address computed by instruction 22, which indexes
the array with `idx`. -/
def twoLoops (idx : List Instr) (loadIndex : Value) (elemTy2 : Nat) : Func :=
  { blocks := [
      { id := 0, insts := [], term := br 1 },
      { id := 1, insts := [phi2 10 (Value.const 0) 0 (Value.inst 11) 2,
                           ins 12 (Opcode.gep 0) [Value.arg 0, Value.inst 10],
                           ins 13 Opcode.store [Value.const 7, Value.inst 12]],
        term := br 2 },
      { id := 2, insts := [ins 11 Opcode.binop [Value.inst 10, Value.const 1],
                           ins 14 (Opcode.icmp 0) [Value.inst 11, Value.arg 1]],
        term := condBr 14 1 3 },
      { id := 3, insts := [], term := br 4 },
      { id := 4, insts := [phi2 20 (Value.const 0) 3 (Value.inst 21) 5] ++ idx ++
                          [ins 22 (Opcode.gep elemTy2) [Value.arg 0, loadIndex],
                           ins 23 Opcode.load [Value.inst 22]],
        term := br 5 },
      { id := 5, insts := [ins 21 Opcode.binop [Value.inst 20, Value.const 1],
                           ins 24 (Opcode.icmp 0) [Value.inst 21, Value.arg 1]],
        term := condBr 24 4 6 },
      { id := 6, insts := [], term := ret } ] }

/-- First of `twoLoops`. -/
def loopA : Loop :=
  { header := some 1, preheader := some 0, latch := some 2, exitBlocks := [3],
    guardBranch := none, blocks := [1, 2] }

/-- Second of `twoLoops`. -/
def loopB : Loop :=
  { header := some 4, preheader := some 3, latch := some 5, exitBlocks := [6],
    guardBranch := none, blocks := [4, 5] }

/-- Dominance in a function whose blocks are numbered along its single chain of blocks. -/
def chainDT : DominatorTree := { dominates := fun a b => decide (a ≤ b) }

/-- Post-dominance in such a function. -/
def chainPDT : PostDominatorTree := { dominates := fun a b => decide (b ≤ a) }

/-- Scalar evolution for `twoLoops`: both loops have the backedge-taken count `unknown 64
100`; the address of the store (instruction 12) is the recurrence `{a,+,step}` and the
address of the load (instruction 22) is `{a + off,+,step}`, written `unknown 64 1` when
`off` is not zero; the difference of the two starts is the constant `-off`.  The
induction variables are the merge nodes 10 and 20. -/
def exampleSE (step off : Int) : ScalarEvolution :=
  { getBackedgeTakenCount := fun _ => SCEV.unknown 64 100,
    isKnownPredicateEQ := fun a b => decide (a = b),
    getSCEV := fun v =>
      if v = Value.inst 12 then SCEV.addRec (SCEV.unknown 64 0) (SCEV.constant 64 step)
      else if v = Value.inst 22 then
        SCEV.addRec (if off = 0 then SCEV.unknown 64 0 else SCEV.unknown 64 1)
          (SCEV.constant 64 step)
      else SCEV.unknown 64 2,
    getMinusSCEV := fun a b =>
      if a = SCEV.unknown 64 0 ∧ b = SCEV.unknown 64 1 then SCEV.constant 64 (-off)
      else if a = b then SCEV.constant 64 0
      else SCEV.unknown 64 3,
    getInductionVariable := fun L => if L.header = some 1 then some 10 else
      if L.header = some 4 ∨ L.header = some 7 then some 20 else none }

/-- The analyses for `twoLoops`: the dependence analysis reports the store 13 and the
load 23 as dependent; type 0 has allocation size `size0`, type 1 has `size1`. -/
def exampleFAM (step off : Int) (size0 size1 : Nat) : FunctionAnalysisManager :=
  { DT := chainDT, PDT := chainPDT, SE := exampleSE step off,
    DI := { depends := fun a b => decide (a = 13 ∧ b = 23) },
    DL := { getTypeAllocSize := fun ty => if ty = 0 then size0 else size1 } }

/-- First writes `a[i]`, Second reads `a[i-1]`, 4-byte elements: instruction 25 computes
`j - 1` and the load address starts 4 bytes before the store address. -/
def writeThenReadPrev : Func :=
  twoLoops [ins 25 Opcode.binop [Value.inst 20, Value.const (-1)]] (Value.inst 25) 0

/-- First writes `a[i]`, Second reads `a[i]`. -/
def writeThenReadSame : Func :=
  twoLoops [] (Value.inst 20) 0

/-- First writes 8-byte elements `a[i]` (element type 0); Second reads 4-byte elements
(element type 1) with twice the index, so both addresses advance 8 bytes per iteration;
the load address starts 4 bytes after the store address. -/
def mixedElementSizes : Func :=
  twoLoops [ins 25 Opcode.binop [Value.inst 20, Value.const 2]] (Value.inst 25) 1

/-- Two adjacent guarded loops: block 0 holds First's guard branch, 1 is First's
preheader, 2 its header and body, 3 its latch, 4 its exit block, 5 holds Second's guard
branch, 6 is Second's preheader, 7 its header and body, 8 its latch, 9 its exit block,
which returns from the function. -/
def guardedLoops : Func :=
  { blocks := [
      { id := 0, insts := [ins 30 (Opcode.icmp 0) [Value.const 0, Value.arg 1]],
        term := condBr 30 1 5 },
      { id := 1, insts := [], term := br 2 },
      { id := 2, insts := [phi2 10 (Value.const 0) 1 (Value.inst 11) 3], term := br 3 },
      { id := 3, insts := [ins 11 Opcode.binop [Value.inst 10, Value.const 1],
                           ins 14 (Opcode.icmp 0) [Value.inst 11, Value.arg 1]],
        term := condBr 14 2 4 },
      { id := 4, insts := [], term := br 5 },
      { id := 5, insts := [ins 31 (Opcode.icmp 0) [Value.const 0, Value.arg 1]],
        term := condBr 31 6 9 },
      { id := 6, insts := [], term := br 7 },
      { id := 7, insts := [phi2 20 (Value.const 0) 6 (Value.inst 21) 8], term := br 8 },
      { id := 8, insts := [ins 21 Opcode.binop [Value.inst 20, Value.const 1],
                           ins 24 (Opcode.icmp 0) [Value.inst 21, Value.arg 1]],
        term := condBr 24 7 9 },
      { id := 9, insts := [], term := ret } ] }

/-- First of `guardedLoops`. -/
def guardedA : Loop :=
  { header := some 2, preheader := some 1, latch := some 3, exitBlocks := [4],
    guardBranch := some 0, blocks := [2, 3] }

/-- Second of `guardedLoops`. -/
def guardedB : Loop :=
  { header := some 7, preheader := some 6, latch := some 8, exitBlocks := [9],
    guardBranch := some 5, blocks := [7, 8] }

/-- Scalar evolution for `guardedLoops`. -/
def guardedSE : ScalarEvolution :=
  { getBackedgeTakenCount := fun _ => SCEV.unknown 64 100,
    isKnownPredicateEQ := fun a b => decide (a = b),
    getSCEV := fun _ => SCEV.unknown 64 2,
    getMinusSCEV := fun _ _ => SCEV.unknown 64 3,
    getInductionVariable := fun L => if L.header = some 2 then some 10 else
      if L.header = some 7 then some 20 else none }

/-- The analyses for `guardedLoops`. -/
def guardedFAM : FunctionAnalysisManager :=
  { DT := chainDT, PDT := chainPDT, SE := guardedSE,
    DI := { depends := fun _ _ => false },
    DL := { getTypeAllocSize := fun _ => 4 } }

/-- The analyses for `twoLoops` when First runs `N` times and Second `N + 1` times: the
backedge-taken count of First is the expression `unknown 64 100` and that of Second the
different expression `unknown 64 101`, and the equality oracle proves two counts equal
only when they are the same expression. -/
def unequalCountsFAM : FunctionAnalysisManager :=
  { DT := chainDT, PDT := chainPDT,
    SE := { exampleSE 4 0 with
      getBackedgeTakenCount := fun L =>
        if L.header = some 1 then SCEV.unknown 64 100 else SCEV.unknown 64 101 },
    DI := { depends := fun a b => decide (a = 13 ∧ b = 23) },
    DL := { getTypeAllocSize := fun _ => 4 } }

/-- A function with one loop, used for the hoisting pass.  Blocks 0, 1, 2 lead to the
preheader 3, which holds a merge node (5) and a binary operation (6); block 4 is the
header and body, 5 the latch, 6 the exit block.  In the loop body: 12 = `arg0 * arg1`,
13 = `12 + 6`, 15 = `5 + 1` (an operand that is a merge node outside the loop),
16 = `1 + 2` (consumed by the merge node 18 of the header). -/
def hoistExample : Func :=
  { blocks := [
      { id := 0, insts := [], term := { operands := [Value.arg 2], succs := [1, 2] } },
      { id := 1, insts := [], term := br 3 },
      { id := 2, insts := [], term := br 3 },
      { id := 3, insts := [phi2 5 (Value.const 0) 1 (Value.const 1) 2,
                           ins 6 Opcode.binop [Value.arg 0, Value.const 1]],
        term := br 4 },
      { id := 4, insts := [phi2 10 (Value.const 0) 3 (Value.inst 11) 5,
                           phi2 18 (Value.const 0) 3 (Value.inst 16) 5,
                           ins 12 Opcode.binop [Value.arg 0, Value.arg 1],
                           ins 13 Opcode.binop [Value.inst 12, Value.inst 6],
                           ins 15 Opcode.binop [Value.inst 5, Value.const 1],
                           ins 16 Opcode.binop [Value.const 1, Value.const 2]],
        term := br 5 },
      { id := 5, insts := [ins 11 Opcode.binop [Value.inst 10, Value.const 1],
                           ins 14 (Opcode.icmp 0) [Value.inst 11, Value.arg 1]],
        term := condBr 14 4 6 },
      { id := 6, insts := [], term := ret } ] }

/-- The loop of `hoistExample`. -/
def hoistLoop : Loop :=
  { header := some 4, preheader := some 3, latch := some 5, exitBlocks := [6],
    guardBranch := none, blocks := [4, 5] }

/-- Dominance in `hoistExample`. -/
def hoistDT : DominatorTree :=
  { dominates := fun a b => decide (a = b ∨ a = 0 ∨ (3 ≤ a ∧ a ≤ b)) }

/-- Two adjacent unguarded counted loops with accumulators. First counts with the merge
node 10 and accumulates in the merge node 15 (instruction 16 adds 1); its exit block 3,
which is Second's preheader, holds the boundary merge node 17 of the accumulated value.
Second counts with the merge node 20 and accumulates in the merge node 25, which starts
from `start` (instruction 26 adds 2); its exit block 6 holds the boundary merge node 27
and instruction 30, which adds the two exported values 17 and 27. -/
def accumulatorLoops (start : Value) : Func :=
  { blocks := [
      { id := 0, insts := [], term := br 1 },
      { id := 1, insts := [phi2 10 (Value.const 0) 0 (Value.inst 11) 2,
                           phi2 15 (Value.const 0) 0 (Value.inst 16) 2,
                           ins 16 Opcode.binop [Value.inst 15, Value.const 1]],
        term := br 2 },
      { id := 2, insts := [ins 11 Opcode.binop [Value.inst 10, Value.const 1],
                           ins 14 (Opcode.icmp 0) [Value.inst 11, Value.arg 1]],
        term := condBr 14 1 3 },
      { id := 3, insts := [{ id := 17, op := Opcode.phi, operands := [Value.inst 16],
                             incoming := [2] }],
        term := br 4 },
      { id := 4, insts := [phi2 20 (Value.const 0) 3 (Value.inst 21) 5,
                           phi2 25 start 3 (Value.inst 26) 5,
                           ins 26 Opcode.binop [Value.inst 25, Value.const 2]],
        term := br 5 },
      { id := 5, insts := [ins 21 Opcode.binop [Value.inst 20, Value.const 1],
                           ins 24 (Opcode.icmp 0) [Value.inst 21, Value.arg 1]],
        term := condBr 24 4 6 },
      { id := 6, insts := [{ id := 27, op := Opcode.phi, operands := [Value.inst 26],
                             incoming := [5] },
                           ins 30 Opcode.binop [Value.inst 17, Value.inst 27]],
        term := ret } ] }

/-- The function `writeThenReadSame` with an exit block 6 that returns Second's induction
variable 20. -/
def returnsSecondIV : Func :=
  { blocks := writeThenReadSame.blocks.map (fun B =>
      if B.id = 6 then { B with term := { operands := [Value.inst 20], succs := [] } } else B) }

end Examples


namespace LocalOpts

/-- The type of a value, as far as the pass looks: an integer type of a given bit width,
or any other type (floating point, vector, pointer). -/
inductive Ty where
  | int (w : Nat)
  | other (n : Nat)
deriving DecidableEq, Repr

/-- The binary operations the pass meets or creates. -/
inductive Opcode where
  | Add
  | Sub
  | Mul
  | SDiv
  | UDiv
  | Shl
  | AShr
  | And
  | Other (n : Nat)
deriving DecidableEq, Repr

/-- A value as the pass sees it through `dyn_cast`: a `ConstantInt` of type `iw` holding
the bit pattern `v` (read modulo `2 ^ w`), a `BinaryOperator` with its two operands, or
anything else (an argument, another instruction, a constant that is not a `ConstantInt`). -/
inductive Val where
  | constInt (w : Nat) (v : Nat)
  | arg (id : Nat) (ty : Ty)
  | binop (op : Opcode) (l r : Val)
deriving DecidableEq, Repr

/-- `Value::getType`.  A binary operator has the type of its operands. -/
def Val.getType : Val → Ty
  | Val.constInt w _ => Ty.int w
  | Val.arg _ ty => ty
  | Val.binop _ l _ => l.getType

/-- The integer a `ConstantInt` holds: its bit width and its bit pattern as an unsigned
number below `2 ^ w` (the `APInt`). -/
structure ConstantInt where
  w : Nat
  v : Nat
deriving DecidableEq, Repr

/-- `dyn_cast<ConstantInt>`. -/
def asConstantInt : Val → Option ConstantInt
  | Val.constInt w v => some { w := w, v := v % 2 ^ w }
  | _ => none

/-- `ConstantInt::isZero`. -/
def ConstantInt.isZero (C : ConstantInt) : Bool := decide (C.v = 0)

/-- `ConstantInt::isOne`. -/
def ConstantInt.isOne (C : ConstantInt) : Bool := decide (C.v = 1)

/-- `ConstantInt::isMinusOne`: all bits set. -/
def ConstantInt.isMinusOne (C : ConstantInt) : Bool := decide (C.v + 1 = 2 ^ C.w)

/-- `ConstantInt::isNegative`: the sign bit is set. -/
def ConstantInt.isNegative (C : ConstantInt) : Bool := decide (2 ^ C.w ≤ 2 * C.v)

/-- `APInt::abs`: the two's complement negation of a negative pattern, the pattern itself
otherwise; the minimum signed value is its own absolute value. -/
def ConstantInt.abs (C : ConstantInt) : Nat :=
  if C.isNegative then (2 ^ C.w - C.v) % 2 ^ C.w else C.v

/-- The position of the highest set bit of `n`, found in at most `fuel` halvings. -/
def logBase2Aux : Nat → Nat → Nat
  | 0, _ => 0
  | fuel + 1, n => if n < 2 then 0 else logBase2Aux fuel (n / 2) + 1

/-- `APInt::logBase2`: the position of the highest set bit. -/
def logBase2 (K : Nat) : Nat := logBase2Aux K K

/-- `APInt::isPowerOf2`: exactly one bit is set. -/
def isPowerOf2 (K : Nat) : Bool := decide (K ≠ 0 ∧ K = 2 ^ logBase2 K)

/-- `BinaryOperator::CreateNeg`: the subtraction of the value from zero. -/
def CreateNeg (w : Nat) (V : Val) : Val :=
  Val.binop Opcode.Sub (Val.constInt w 0) V

/-- `LocalOpts::AlgebraicIdentityOpt2` (LocalOpts.cpp 54-148) for the binary operator `I`:
`some v` when the function calls `I.replaceAllUsesWith(v)` and returns true, `none` when it
returns false. -/
def AlgebraicIdentityOpt2 (I : Val) : Option Val :=
  match I with
  | Val.binop opCode Op1 Op2 =>
    let C1 := asConstantInt Op1
    let C2 := asConstantInt Op2
    match opCode with
    | Opcode.Add =>
      if (C1.map ConstantInt.isZero).getD false then some Op2
      else if (C2.map ConstantInt.isZero).getD false then some Op1
      else none
    | Opcode.Sub =>
      if (C2.map ConstantInt.isZero).getD false then some Op1 else none
    | Opcode.Mul =>
      if (C1.map ConstantInt.isOne).getD false then some Op2
      else if (C2.map ConstantInt.isOne).getD false then some Op1
      else none
    | Opcode.SDiv =>
      if (C2.map ConstantInt.isOne).getD false then some Op1 else none
    | Opcode.UDiv =>
      if (C2.map ConstantInt.isOne).getD false then some Op1 else none
    | _ => none
  | _ => none

/-- The multiplication case of `StrengthReductionOpt` (LocalOpts.cpp 157-227) once the
constant `C` and the other operand `X` are told apart. -/
def strengthReduceMul (C : ConstantInt) (X : Val) : Option Val :=
  if C.isZero || C.isOne || C.isMinusOne then none
  else
    let K := C.abs
    let Neg := C.isNegative
    if isPowerOf2 K then
      let shift := logBase2 K
      match X.getType with
      | Ty.int BitWidth =>
        let ShAmt := Val.constInt BitWidth shift
        let Sh := Val.binop Opcode.Shl X ShAmt
        some (if Neg then CreateNeg BitWidth Sh else Sh)
      | _ => none
    else
      let shiftU := logBase2 K + 1
      match X.getType with
      | Ty.int BitWidth =>
        let ShAmt := Val.constInt BitWidth shiftU
        let Sh := Val.binop Opcode.Shl X ShAmt
        let Sub := Val.binop Opcode.Sub Sh X
        some (if Neg then CreateNeg BitWidth Sub else Sub)
      | _ => none

/-- The signed-division case of `StrengthReductionOpt` (LocalOpts.cpp 229-298) for the
divisor `C` on the right and the dividend `X`. -/
def strengthReduceSDiv (C : ConstantInt) (X : Val) : Option Val :=
  match X.getType with
  | Ty.int BitWidth =>
    if BitWidth = 0 then none
    else if C.isZero || C.isOne || C.isMinusOne then none
    else
      let K := C.abs
      let NegDivisor := C.isNegative
      if !isPowerOf2 K then none
      else
        let shift := logBase2 K
        if shift ≥ BitWidth then none
        else
          let MaskAP := ((1 * 2 ^ shift) % 2 ^ BitWidth + 2 ^ BitWidth - 1) % 2 ^ BitWidth
          let MaskC := Val.constInt BitWidth MaskAP
          let ShAmtSign := Val.constInt BitWidth (BitWidth - 1)
          let Sign := Val.binop Opcode.AShr X ShAmtSign
          let Bias := Val.binop Opcode.And Sign MaskC
          let Adj := Val.binop Opcode.Add X Bias
          let ShAmtK := Val.constInt BitWidth shift
          let Quot := Val.binop Opcode.AShr Adj ShAmtK
          some (if NegDivisor then CreateNeg BitWidth Quot else Quot)
  | _ => none

/-- `LocalOpts::StrengthReductionOpt` (LocalOpts.cpp 150-304) for the binary operator `I`:
`some v` when the function calls `I.replaceAllUsesWith(v)` and returns true, `none` when it
returns false. -/
def StrengthReductionOpt (I : Val) : Option Val :=
  match I with
  | Val.binop Opcode.Mul Op1 Op2 =>
    match asConstantInt Op1, asConstantInt Op2 with
    | none, none => none
    | some _, some _ => none
    | some C1, none => strengthReduceMul C1 Op2
    | none, some C2 => strengthReduceMul C2 Op1
  | Val.binop Opcode.SDiv Op1 Op2 =>
    match asConstantInt Op1, asConstantInt Op2 with
    | none, some C2 => strengthReduceSDiv C2 Op1
    | _, _ => none
  | _ => none

/-- The lambda `sameConst` (LocalOpts.cpp 328-343). -/
def sameConst (A B : Option ConstantInt) : Bool :=
  match A, B with
  | some a, some b => if a.w ≠ b.w then false else if a.v ≠ b.v then false else true
  | _, _ => false

/-- `dyn_cast<BinaryOperator>` followed by the test of the opcode: the two operands when
the value is a binary operator with opcode `op`. -/
def asBinaryOperator (op : Opcode) : Val → Option (Val × Val)
  | Val.binop o l r => if o = op then some (l, r) else none
  | _ => none

/-- Pattern 1 of `MultiInstructionOpt` (LocalOpts.cpp 352-376): `some x` when the pattern
fires. -/
def patternAddSub (OL OR : Val) : Option Val :=
  match asConstantInt OR, asBinaryOperator Opcode.Add OL with
  | some Cout, some (IL, IR) =>
    match asConstantInt IR with
    | some Cin => if sameConst (some Cin) (some Cout) then some IL else none
    | none =>
      match asConstantInt IL with
      | some CinL => if sameConst (some CinL) (some Cout) then some IR else none
      | none => none
  | _, _ => none

/-- Pattern 2 of `MultiInstructionOpt` (LocalOpts.cpp 380-393). -/
def patternFrontSub (OL OR : Val) : Option Val :=
  match asConstantInt OL, asBinaryOperator Opcode.Sub OR with
  | some Cout2, some (IL2, IR2) =>
    match asConstantInt IL2 with
    | some Cin2 => if sameConst (some Cin2) (some Cout2) then some IR2 else none
    | none => none
  | _, _ => none

/-- Pattern 3 of `MultiInstructionOpt` (LocalOpts.cpp 402-430). -/
def patternSubAdd (OL OR : Val) : Option Val :=
  let norm : Option (ConstantInt × Val) :=
    match asConstantInt OL with
    | some Cout => some (Cout, OR)
    | none =>
      match asConstantInt OR with
      | some Cout => some (Cout, OL)
      | none => none
  match norm with
  | none => none
  | some (Cout, OLn) =>
    match asBinaryOperator Opcode.Sub OLn with
    | none => none
    | some (IL, IR) =>
      match asConstantInt IR with
      | none => none
      | some Cin => if sameConst (some Cin) (some Cout) then some IL else none

/-- `LocalOpts::MultiInstructionOpt` (LocalOpts.cpp 308-438) for the instruction `I`:
`some v` when the function calls `I.replaceAllUsesWith(v)` and returns true, `none` when it
returns false. -/
def MultiInstructionOpt (I : Val) : Option Val :=
  match I.getType with
  | Ty.int _ =>
    match I with
    | Val.binop Opcode.Sub OL OR =>
      match patternAddSub OL OR with
      | some x => some x
      | none => patternFrontSub OL OR
    | Val.binop Opcode.Add OL OR => patternSubAdd OL OR
    | _ => none
  | _ => none

/-- The signed reading of a `w`-bit pattern. -/
def toSigned (w : Nat) (x : Nat) : Int :=
  if 2 * (x % 2 ^ w) < 2 ^ w then ((x % 2 ^ w : Nat) : Int) else ((x % 2 ^ w : Nat) : Int) - 2 ^ w

/-- The `w`-bit pattern of an integer. -/
def ofSigned (w : Nat) (z : Int) : Nat :=
  (z % (2 ^ w : Int)).toNat

/-- The value of a binary operation of LLVM on two `w`-bit patterns; `none` when the
result is not defined (division by zero, overflow of the signed division, a shift amount
that is not smaller than the bit width, an operation the pass does not create). -/
def evalBinop (w : Nat) (op : Opcode) (a b : Nat) : Option Nat :=
  match op with
  | Opcode.Add => some ((a + b) % 2 ^ w)
  | Opcode.Sub => some ((a + (2 ^ w - b % 2 ^ w)) % 2 ^ w)
  | Opcode.Mul => some ((a * b) % 2 ^ w)
  | Opcode.Shl => if b < w then some ((a * 2 ^ b) % 2 ^ w) else none
  | Opcode.AShr => if b < w then some (ofSigned w (toSigned w a / 2 ^ b)) else none
  | Opcode.And => some (a &&& b)
  | Opcode.UDiv => if b = 0 then none else some (a / b)
  | Opcode.SDiv =>
    if b = 0 then none
    else if toSigned w a = -(2 ^ (w - 1)) ∧ toSigned w b = -1 then none
    else some (ofSigned w (Int.tdiv (toSigned w a) (toSigned w b)))
  | Opcode.Other _ => none

/-- The value of an expression of integer type under an assignment of bit patterns to the
values the pass does not look into; `none` when it is not defined.  The two operands of a
binary operation have the same type. -/
def eval (env : Nat → Nat) : Val → Option Nat
  | Val.constInt w v => some (v % 2 ^ w)
  | Val.arg id ty =>
    match ty with
    | Ty.int w => some (env id % 2 ^ w)
    | Ty.other _ => none
  | Val.binop op l r =>
    match l.getType, eval env l, eval env r with
    | Ty.int w, some a, some b => if r.getType = Ty.int w then evalBinop w op a b else none
    | _, _, _ => none

end LocalOpts

/-! ## Theorems -/

section FusionLegality

open IR LoopFusionOpt Examples

/-- C1. `isOptimizable` returns true exactly when both loop pointers are non-null, both
loops pass the structural check `strutturaAdeguata`, and the adjacency, trip-count,
control-flow and dependence gates all pass.  Hence it returns false when either loop is
null and when any single gate fails, whatever the other gates return. -/
theorem isOptimizable_iff_all_gates (F : Func) (FAM : FunctionAnalysisManager)
    (First Second : Option Loop) :
    isOptimizable F FAM First Second = true ↔
      ∃ f s, First = some f ∧ Second = some s ∧
        strutturaAdeguata F f = true ∧ strutturaAdeguata F s = true ∧
        adjacentControll F f s = true ∧ sameLoopTripCountControll FAM f s = true ∧
        controlFlowEqControll F FAM f s = true ∧ notDependenciesControll F FAM f s = true := by
  cases First with
  | none => simp [isOptimizable]
  | some f =>
    cases Second with
    | none => simp [isOptimizable]
    | some s =>
      simp only [isOptimizable, Option.some.injEq, exists_and_left, exists_eq_left']
      cases strutturaAdeguata F f <;> cases strutturaAdeguata F s <;>
        cases adjacentControll F f s <;> cases sameLoopTripCountControll FAM f s <;>
        cases controlFlowEqControll F FAM f s <;> cases notDependenciesControll F FAM f s <;>
        simp

/-- The pointer operand exists only for loads and stores. -/
theorem getInstructionPointer_some (I : Instr) (P : Value)
    (h : getInstructionPointer I = some P) : I.op = Opcode.load ∨ I.op = Opcode.store := by
  unfold getInstructionPointer at h
  split at h <;> simp_all

/-- The element type chosen for a pair is that of the first pointer when it is an
element-address computation, otherwise that of the second pointer. -/
theorem pairElemTy_eq_some (F : Func) (P1 P2 : Value) (ty : Nat) :
    pairElemTy F P1 P2 = some ty ↔
      gepElemTy F P1 = some ty ∨ (gepElemTy F P1 = none ∧ gepElemTy F P2 = some ty) := by
  unfold pairElemTy
  cases h : gepElemTy F P1 <;> simp

/-- When one pair makes the dependence check return false. -/
theorem pairRejects_iff (F : Func) (FAM : FunctionAnalysisManager) (I1 I2 : Instr) :
    pairRejects F FAM I1 I2 = true ↔
      FAM.DI.depends I1.id I2.id = true ∧
      ∃ P1 P2, getInstructionPointer I1 = some P1 ∧ getInstructionPointer I2 = some P2 ∧
      ∃ start1 start2 step, FAM.SE.getSCEV P1 = SCEV.addRec start1 step ∧
        FAM.SE.getSCEV P2 = SCEV.addRec start2 step ∧
      ∃ ty d, FAM.SE.getMinusSCEV start1 start2 = SCEV.constant ty d ∧
      ∃ elemTy, pairElemTy F P1 P2 = some elemTy ∧
        FAM.DL.getTypeAllocSize elemTy % 2 ^ 64 ≠ 0 ∧
        elementOffset d (FAM.DL.getTypeAllocSize elemTy % 2 ^ 64) < 0 := by
  constructor
  · intro h
    unfold pairRejects at h
    split at h
    · simp at h
    · rename_i hdep
      split at h
      · rename_i P1 P2 hP1 hP2
        split at h
        · rename_i start1 Step1 start2 Step2 hE1 hE2
          split at h
          · simp at h
          · rename_i hstep
            split at h
            · rename_i ty d hD
              split at h
              · rename_i elemTy hT
                have h2 : (if FAM.DL.getTypeAllocSize elemTy % 2 ^ 64 = 0 then false
                    else decide (elementOffset d (FAM.DL.getTypeAllocSize elemTy % 2 ^ 64) < 0))
                    = true := h
                clear h
                split at h2
                · simp at h2
                · rename_i hz
                  have h := h2
                  refine ⟨by simpa using hdep, P1, P2, hP1, hP2, start1, start2, Step1, hE1, ?_,
                    ty, d, hD, elemTy, hT, hz, by simpa using h⟩
                  rw [hE2]
                  have : Step1 = Step2 := by simpa using hstep
                  rw [this]
              · simp at h
            · simp at h
        · simp at h
      · simp at h
  · rintro ⟨hdep, P1, P2, hP1, hP2, start1, start2, step, hE1, hE2, ty, d, hD, elemTy, hT, hz,
      hneg⟩
    simp only [pairRejects, hdep, hP1, hP2, hE1, hE2, hD, hT]
    simp only [Bool.not_true, Bool.false_eq_true, ↓reduceIte, ne_eq, not_true_eq_false, hz]
    simpa using hneg

/-- C2 (as amended). The dependence gate fails exactly when some instruction `I1` of a
block of First and some instruction `I2` of a block of Second are reported dependent, both
are loads or stores, both addresses are add-recurrences with the identical step, the
difference of the starts is a constant `d`, the element type chosen for the pair (that of
`I1`'s pointer when it is an element-address computation, otherwise that of `I2`'s
pointer) has a non-zero size `s`, and the signed quotient `d / s` is negative.  A pair
that misses one of these conditions never makes the gate fail. -/
theorem dependence_gate_fails_iff (F : Func) (FAM : FunctionAnalysisManager)
    (First Second : Loop) :
    notDependenciesControll F FAM First Second = false ↔
      ∃ BB1 ∈ First.blocks, ∃ I1 ∈ F.instsOf BB1, ∃ BB2 ∈ Second.blocks, ∃ I2 ∈ F.instsOf BB2,
        FAM.DI.depends I1.id I2.id = true ∧
        (I1.op = Opcode.load ∨ I1.op = Opcode.store) ∧
        (I2.op = Opcode.load ∨ I2.op = Opcode.store) ∧
        ∃ P1 P2, getInstructionPointer I1 = some P1 ∧ getInstructionPointer I2 = some P2 ∧
        ∃ start1 start2 step, FAM.SE.getSCEV P1 = SCEV.addRec start1 step ∧
          FAM.SE.getSCEV P2 = SCEV.addRec start2 step ∧
        ∃ ty d, FAM.SE.getMinusSCEV start1 start2 = SCEV.constant ty d ∧
        ∃ elemTy,
          (gepElemTy F P1 = some elemTy ∨ (gepElemTy F P1 = none ∧ gepElemTy F P2 = some elemTy)) ∧
          FAM.DL.getTypeAllocSize elemTy % 2 ^ 64 ≠ 0 ∧
          elementOffset d (FAM.DL.getTypeAllocSize elemTy % 2 ^ 64) < 0 := by
  have key : notDependenciesControll F FAM First Second = false ↔
      ∃ BB1 ∈ First.blocks, ∃ I1 ∈ F.instsOf BB1, ∃ BB2 ∈ Second.blocks, ∃ I2 ∈ F.instsOf BB2,
        pairRejects F FAM I1 I2 = true := by
    rw [← Bool.not_eq_true]
    unfold notDependenciesControll
    simp only [List.all_eq_true, Bool.not_eq_true', Bool.not_eq_false']
    push_neg
    simp only [Bool.not_eq_false]
  rw [key]
  constructor
  · rintro ⟨BB1, h1, I1, hI1, BB2, h2, I2, hI2, hr⟩
    obtain ⟨hdep, P1, P2, hP1, hP2, rest⟩ := (pairRejects_iff F FAM I1 I2).1 hr
    obtain ⟨start1, start2, step, hE1, hE2, ty, d, hD, elemTy, hT, hz, hneg⟩ := rest
    exact ⟨BB1, h1, I1, hI1, BB2, h2, I2, hI2, hdep, getInstructionPointer_some I1 P1 hP1,
      getInstructionPointer_some I2 P2 hP2, P1, P2, hP1, hP2, start1, start2, step, hE1, hE2,
      ty, d, hD, elemTy, (pairElemTy_eq_some F P1 P2 elemTy).1 hT, hz, hneg⟩
  · rintro ⟨BB1, h1, I1, hI1, BB2, h2, I2, hI2, hdep, -, -, P1, P2, hP1, hP2, start1, start2,
      step, hE1, hE2, ty, d, hD, elemTy, hT, hz, hneg⟩
    exact ⟨BB1, h1, I1, hI1, BB2, h2, I2, hI2, (pairRejects_iff F FAM I1 I2).2
      ⟨hdep, P1, P2, hP1, hP2, start1, start2, step, hE1, hE2, ty, d, hD, elemTy,
        (pairElemTy_eq_some F P1 P2 elemTy).2 hT, hz, hneg⟩⟩

/-- C2 as stated fails on `mixedElementSizes`: the store of First (through an
element-address computation with 8-byte elements) and the load of Second (through one
with 4-byte elements) are reported dependent, both addresses are recurrences with step 8,
the start difference is the constant -4, the load's pointer is an element-address
computation with the non-zero element size 4 and -4 / 4 = -1 is negative; yet the
dependence gate passes, because the code divides by the store's element size 8. -/
theorem dependence_gate_ignores_second_element_size :
    notDependenciesControll mixedElementSizes (exampleFAM 8 4 8 4) loopA loopB = true ∧
    ∃ BB1 ∈ loopA.blocks, ∃ I1 ∈ mixedElementSizes.instsOf BB1,
    ∃ BB2 ∈ loopB.blocks, ∃ I2 ∈ mixedElementSizes.instsOf BB2,
      (exampleFAM 8 4 8 4).DI.depends I1.id I2.id = true ∧
      (I1.op = Opcode.load ∨ I1.op = Opcode.store) ∧
      (I2.op = Opcode.load ∨ I2.op = Opcode.store) ∧
      ∃ P1 P2, getInstructionPointer I1 = some P1 ∧ getInstructionPointer I2 = some P2 ∧
      ∃ start1 start2 step, (exampleFAM 8 4 8 4).SE.getSCEV P1 = SCEV.addRec start1 step ∧
        (exampleFAM 8 4 8 4).SE.getSCEV P2 = SCEV.addRec start2 step ∧
      ∃ ty d, (exampleFAM 8 4 8 4).SE.getMinusSCEV start1 start2 = SCEV.constant ty d ∧
      ∃ elemTy,
        (gepElemTy mixedElementSizes P1 = some elemTy ∨
          gepElemTy mixedElementSizes P2 = some elemTy) ∧
        (exampleFAM 8 4 8 4).DL.getTypeAllocSize elemTy % 2 ^ 64 ≠ 0 ∧
        elementOffset d ((exampleFAM 8 4 8 4).DL.getTypeAllocSize elemTy % 2 ^ 64) < 0 := by
  refine ⟨by decide, 1, by decide, ins 13 Opcode.store [Value.const 7, Value.inst 12],
    by decide, 4, by decide, ins 23 Opcode.load [Value.inst 22], by decide, by decide,
    by decide, by decide, Value.inst 12, Value.inst 22, by decide, by decide,
    SCEV.unknown 64 0, SCEV.unknown 64 1, SCEV.constant 64 8, by decide, by decide,
    64, -4, by decide, 1, by decide, by decide, by decide⟩

/-- C3 (as amended). When First stores to `base + s*i` and Second loads from
`base + s*(i-1)`, with `s` the element size and the per-iteration step, and the pair is
reported dependent, the start difference is `+s`, the element distance the check computes
is `+1`, and the pair does not make the dependence check return false. -/
theorem store_then_load_previous_distance (F : Func) (FAM : FunctionAnalysisManager)
    (I1 I2 : Instr) (P1 P2 : Value) (start1 start2 step : SCEV) (ty elemTy : Nat)
    (base : Int) (s : Nat)
    (hstore : I1.op = Opcode.store) (hP1 : I1.operands[1]? = some P1)
    (hload : I2.op = Opcode.load) (hP2 : I2.operands[0]? = some P2)
    (hdep : FAM.DI.depends I1.id I2.id = true)
    (hE1 : FAM.SE.getSCEV P1 = SCEV.addRec start1 step)
    (hE2 : FAM.SE.getSCEV P2 = SCEV.addRec start2 step)
    (hdist : FAM.SE.getMinusSCEV start1 start2 =
      SCEV.constant ty ((base + s * 0) - (base + s * (0 - 1))))
    (hty : pairElemTy F P1 P2 = some elemTy)
    (hsize : FAM.DL.getTypeAllocSize elemTy = s) (hpos : 0 < s) (hlt : s < 2 ^ 63) :
    elementOffset ((base + s * 0) - (base + s * (0 - 1)))
        (FAM.DL.getTypeAllocSize elemTy % 2 ^ 64) = 1 ∧
      pairRejects F FAM I1 I2 = false := by
  have hmod : s % 2 ^ 64 = s := Nat.mod_eq_of_lt (by omega)
  have hd : (base + (s : Int) * 0) - (base + s * (0 - 1)) = s := by ring
  have hoff : elementOffset ((base + s * 0) - (base + s * (0 - 1)))
      (FAM.DL.getTypeAllocSize elemTy % 2 ^ 64) = 1 := by
    rw [hsize, hmod, hd]
    unfold elementOffset toInt64
    rw [hmod, if_pos hlt]
    exact Int.tdiv_self (by exact_mod_cast hpos.ne')
  have _ := hdep
  refine ⟨hoff, ?_⟩
  rw [← Bool.not_eq_true]
  intro hr
  obtain ⟨-, Q1, Q2, hQ1, hQ2, a1, a2, st, hA1, hA2, ty2, d, hD, e, hT, -, hneg⟩ :=
    (pairRejects_iff F FAM I1 I2).1 hr
  have e1 : Q1 = P1 := by
    simp only [getInstructionPointer, hstore] at hQ1
    rw [hP1] at hQ1; exact (Option.some.inj hQ1).symm
  have e2 : Q2 = P2 := by
    simp only [getInstructionPointer, hload] at hQ2
    rw [hP2] at hQ2; exact (Option.some.inj hQ2).symm
  subst e1 e2
  rw [hE1] at hA1; rw [hE2] at hA2
  injection hA1 with h1 h2
  injection hA2 with h3 h4
  subst h1 h3
  rw [hdist] at hD
  injection hD with h5 h6
  rw [hty] at hT
  injection hT with h7
  subst h6 h7
  rw [hoff] at hneg
  exact absurd hneg (by decide)

/-- The scenario of C3 on `writeThenReadPrev` (4-byte elements, `base = 1000`). -/
theorem store_then_load_previous_distance_witness :
    elementOffset ((1000 + ((4 : Nat) : Int) * 0) - (1000 + ((4 : Nat) : Int) * (0 - 1)))
        ((exampleFAM 4 (-4) 4 4).DL.getTypeAllocSize 0 % 2 ^ 64) = 1 ∧
      pairRejects writeThenReadPrev (exampleFAM 4 (-4) 4 4)
        (ins 13 Opcode.store [Value.const 7, Value.inst 12])
        (ins 23 Opcode.load [Value.inst 22]) = false :=
  store_then_load_previous_distance writeThenReadPrev (exampleFAM 4 (-4) 4 4)
    (ins 13 Opcode.store [Value.const 7, Value.inst 12]) (ins 23 Opcode.load [Value.inst 22])
    (Value.inst 12) (Value.inst 22) (SCEV.unknown 64 0) (SCEV.unknown 64 1)
    (SCEV.constant 64 4) 64 0 1000 4 rfl rfl rfl rfl (by decide) (by decide) (by decide)
    (by decide) (by decide) (by decide) (by decide) (by decide)

/-- C3 as stated fails on `writeThenReadPrev`: First stores to `a[i]` (instruction 13,
address `{a,+,4}`), Second loads from `a[i-1]` (instruction 23, address `{a-4,+,4}`), the
pair is reported dependent and the loops pass every other gate; the element distance
computed is `4 / 4 = +1`, not `-1`, and `isOptimizable` returns true. -/
theorem store_then_load_previous_is_accepted :
    ins 13 Opcode.store [Value.const 7, Value.inst 12] ∈ writeThenReadPrev.instsOf 1 ∧
    ins 23 Opcode.load [Value.inst 22] ∈ writeThenReadPrev.instsOf 4 ∧
    (exampleFAM 4 (-4) 4 4).DI.depends 13 23 = true ∧
    (exampleFAM 4 (-4) 4 4).SE.getSCEV (Value.inst 12) =
      SCEV.addRec (SCEV.unknown 64 0) (SCEV.constant 64 4) ∧
    (exampleFAM 4 (-4) 4 4).SE.getSCEV (Value.inst 22) =
      SCEV.addRec (SCEV.unknown 64 1) (SCEV.constant 64 4) ∧
    (exampleFAM 4 (-4) 4 4).SE.getMinusSCEV (SCEV.unknown 64 0) (SCEV.unknown 64 1) =
      SCEV.constant 64 4 ∧
    elementOffset 4 ((exampleFAM 4 (-4) 4 4).DL.getTypeAllocSize 0 % 2 ^ 64) = 1 ∧
    isOptimizable writeThenReadPrev (exampleFAM 4 (-4) 4 4) (some loopA) (some loopB) = true := by
  refine ⟨by decide, by decide, by decide, by decide, by decide, by decide, by decide,
    by decide⟩

end FusionLegality

section Fusion

open IR LoopFusionOpt Examples

/-- Steps 4 and 5 never return `nullptr`. -/
theorem finishFusion_ne_null (s : FuseState) (First Second : Loop) (firstLatch firstBody
    secondPreheader secondLatch secondBody secondHeader secondExit : Nat) (t : FuseState) :
    finishFusion s First Second firstLatch firstBody secondPreheader secondLatch secondBody
      secondHeader secondExit ≠ some (none, t) := by
  unfold finishFusion
  split <;> simp

/-- The failure returns of `fuseLoops` that come before the first edit leave the function
as it was: whenever `fuseLoops` returns `nullptr` for a pair of loops that are not both
guarded, no block, instruction or edge has changed. -/
theorem fuseLoops_null_unchanged_of_not_both_guarded (F : Func) (FAM : FunctionAnalysisManager)
    (First Second : Option Loop) (t : FuseState)
    (hg : ¬ ∃ f s, First = some f ∧ Second = some s ∧ f.guardBranch.isSome = true ∧
      s.guardBranch.isSome = true)
    (h : fuseLoops F FAM First Second = some (none, t)) : t.F = F := by
  unfold fuseLoops at h
  split at h
  · rename_i f s
    split at h
    · split at h
      · split at h
        · dsimp only at h
          split at h
          · simp at h
          · split at h
            · rename_i g1 g2 hg1 hg2
              exact absurd ⟨f, s, rfl, rfl, by simp [hg1], by simp [hg2]⟩ hg
            · exact absurd h (finishFusion_ne_null _ _ _ _ _ _ _ _ _ _ _)
        · simp only [Option.some.injEq, Prod.mk.injEq, true_and] at h
          rw [← h]
      · simp only [Option.some.injEq, Prod.mk.injEq, true_and] at h
        rw [← h]
    · simp only [Option.some.injEq, Prod.mk.injEq, true_and] at h
      rw [← h]
  · simp only [Option.some.injEq, Prod.mk.injEq, true_and] at h
    rw [← h]

/-- The early failure returns on a concrete input: a null Second. -/
theorem fuseLoops_null_unchanged_witness :
    (¬ ∃ f s, some loopA = some f ∧ (none : Option Loop) = some s ∧
        f.guardBranch.isSome = true ∧ s.guardBranch.isSome = true) ∧
      ({ F := writeThenReadSame, asserts := [] } : FuseState).F = writeThenReadSame :=
  ⟨by simp, fuseLoops_null_unchanged_of_not_both_guarded writeThenReadSame
    (exampleFAM 4 0 4 4) (some loopA) none { F := writeThenReadSame, asserts := [] }
    (by simp) (by decide)⟩

set_option maxRecDepth 100000 in
/-- C4 fails on `guardedLoops`: both loops are guarded, every component the early checks
ask for is present, `isOptimizable` accepts the pair, and Second's exit block ends in a
return, so it has no single successor.  `fuseLoops` returns `nullptr` from inside the
guarded step, after Second's induction variable (instruction 20) has been replaced by
First's (instruction 10) and erased: the function is not the one before the call. -/
theorem fuseLoops_null_after_mutation :
    isOptimizable guardedLoops guardedFAM (some guardedA) (some guardedB) = true ∧
    ∃ t, fuseLoops guardedLoops guardedFAM (some guardedA) (some guardedB) = some (none, t) ∧
      t.F ≠ guardedLoops ∧
      guardedLoops.instsOf 7 = [phi2 20 (Value.const 0) 6 (Value.inst 21) 8] ∧
      t.F.instsOf 7 = [] ∧
      guardedLoops.instsOf 8 = [ins 21 Opcode.binop [Value.inst 20, Value.const 1],
        ins 24 (Opcode.icmp 0) [Value.inst 21, Value.arg 1]] ∧
      t.F.instsOf 8 = [ins 21 Opcode.binop [Value.inst 10, Value.const 1],
        ins 24 (Opcode.icmp 0) [Value.inst 21, Value.arg 1]] := by
  refine ⟨by decide, ?_⟩
  refine ⟨{ F := eraseInst (replaceAllUsesWith guardedLoops (Value.inst 20) (Value.inst 10)) 20,
            asserts := [] }, by decide, by decide, by decide, by decide, by decide, by decide⟩

set_option maxRecDepth 100000 in
/-- C5 fails on `writeThenReadSame`, a pair of unguarded loops `isOptimizable` accepts:
`fuseLoops` runs through and returns First, and at the call `deleteBlock(secondLatch)`
(block 5) the asserted `use_empty()` is false, because step 4 has just made the latch's
own terminator name the latch as a successor.  The call on Second's preheader (block 3)
finds no reference left. -/
theorem fuseLoops_deletes_referenced_latch :
    isOptimizable writeThenReadSame (exampleFAM 4 0 4 4) (some loopA) (some loopB) = true ∧
    (fuseLoops writeThenReadSame (exampleFAM 4 0 4 4) (some loopA) (some loopB)).map
        (fun r => (r.1.map (fun L => L.blocks), r.2.asserts))
      = some (some [1, 2, 4], [(5, false), (3, true)]) := by
  refine ⟨by decide, by decide⟩

end Fusion

section DepthFirst

open IR LICMopt

theorem dfsWork_visit_le (bs : List Block) (vis : List Nat) (b : Nat) :
    ((bs.filter (fun B => decide (B.id ∉ vis ++ [b]))).map (fun B => B.term.succs.length)).sum
      ≤ ((bs.filter (fun B => decide (B.id ∉ vis))).map (fun B => B.term.succs.length)).sum := by
  induction bs with
  | nil => simp
  | cons B rest ih =>
    simp only [List.filter_cons]
    by_cases h1 : B.id ∈ vis
    · have h2 : B.id ∈ vis ++ [b] := List.mem_append_left _ h1
      simpa [h1, h2] using ih
    · by_cases h2 : B.id = b
      · have h3 : B.id ∈ vis ++ [b] := by simp [h2]
        simp only [h1, h3, not_true_eq_false, decide_False, not_false_eq_true, decide_True,
          ↓reduceIte, List.map_cons, List.sum_cons, Bool.false_eq_true]
        omega
      · have h3 : B.id ∉ vis ++ [b] := by simp [h1, h2]
        simp only [h1, h3, not_false_eq_true, decide_True, ↓reduceIte, List.map_cons,
          List.sum_cons]
        omega

theorem succs_add_work_le (bs : List Block) (vis : List Nat) (b : Nat) (hb : b ∉ vis) :
    (match bs.find? (fun B : Block => B.id == b) with
      | some B => B.term.succs
      | none => []).length +
      ((bs.filter (fun B => decide (B.id ∉ vis ++ [b]))).map (fun B => B.term.succs.length)).sum
      ≤ ((bs.filter (fun B => decide (B.id ∉ vis))).map (fun B => B.term.succs.length)).sum := by
  induction bs with
  | nil => simp
  | cons B rest ih =>
    by_cases h2 : B.id = b
    · subst h2
      have e1 : (B :: rest).find? (fun X : Block => X.id == B.id) = some B := by
        simp [List.find?_cons]
      have e2 : (B :: rest).filter (fun X => decide (X.id ∉ vis ++ [B.id]))
          = rest.filter (fun X => decide (X.id ∉ vis ++ [B.id])) :=
        List.filter_cons_of_neg (by simp)
      have e3 : (B :: rest).filter (fun X => decide (X.id ∉ vis))
          = B :: rest.filter (fun X => decide (X.id ∉ vis)) :=
        List.filter_cons_of_pos (by simpa using hb)
      have := dfsWork_visit_le rest vis B.id
      rw [e1, e2, e3]
      simp only [List.map_cons, List.sum_cons]
      omega
    · have hne : (B.id == b) = false := by simpa using h2
      simp only [List.find?_cons, hne, List.filter_cons]
      by_cases h1 : B.id ∈ vis
      · have h3 : B.id ∈ vis ++ [b] := List.mem_append_left _ h1
        simpa [h1, h3] using ih
      · have h3 : B.id ∉ vis ++ [b] := by simp [h1, h2]
        simp only [h1, h3, not_false_eq_true, decide_True, ↓reduceIte, List.map_cons,
          List.sum_cons]
        omega

/-- Visiting a block pays for putting its successors on the stack. -/
theorem dfsWork_visit (F : Func) (stack vis : List Nat) (b : Nat) (hb : b ∉ vis) :
    dfsWork F (F.succsOf b ++ stack) (vis ++ [b]) ≤ dfsWork F stack vis := by
  have := succs_add_work_le F.blocks vis b hb
  unfold dfsWork Func.succsOf Func.findBlock
  simp only [List.length_append]
  omega

/-- With enough fuel the walk ends with an empty stack: what it returns contains the
blocks visited so far and the blocks on the stack, and is closed under successors when
every successor of a visited block is visited or on the stack. -/
theorem dfsAux_complete (F : Func) :
    ∀ (fuel : Nat) (stack vis : List Nat), dfsWork F stack vis ≤ fuel →
      (∀ x ∈ vis, x ∈ dfsAux F fuel stack vis) ∧
      (∀ x ∈ stack, x ∈ dfsAux F fuel stack vis) ∧
      ((∀ v ∈ vis, ∀ s ∈ F.succsOf v, s ∈ vis ∨ s ∈ stack) →
        ∀ v ∈ dfsAux F fuel stack vis, ∀ s ∈ F.succsOf v, s ∈ dfsAux F fuel stack vis) := by
  intro fuel
  induction fuel with
  | zero =>
    intro stack vis h
    have hs : stack = [] := by
      unfold dfsWork at h
      exact List.length_eq_zero.mp (by omega)
    subst hs
    refine ⟨fun x hx => by simpa [dfsAux] using hx, by simp, ?_⟩
    intro hc v hv s hs
    simp only [dfsAux] at hv ⊢
    rcases hc v hv s hs with h1 | h1
    · exact h1
    · simp at h1
  | succ n ih =>
    intro stack vis h
    cases stack with
    | nil =>
      refine ⟨fun x hx => by simpa [dfsAux] using hx, by simp, ?_⟩
      intro hc v hv s hs
      simp only [dfsAux] at hv ⊢
      rcases hc v hv s hs with h1 | h1
      · exact h1
      · simp at h1
    | cons b st =>
      by_cases hb : b ∈ vis
      · have hstep : dfsAux F (n + 1) (b :: st) vis = dfsAux F n st vis := by
          simp [dfsAux, hb]
        rw [hstep]
        have hw : dfsWork F st vis ≤ n := by
          unfold dfsWork at h ⊢
          simp only [List.length_cons] at h
          omega
        obtain ⟨i1, i2, i3⟩ := ih st vis hw
        refine ⟨i1, ?_, ?_⟩
        · intro x hx
          rcases List.mem_cons.mp hx with h1 | h1
          · subst h1; exact i1 _ hb
          · exact i2 x h1
        · intro hc
          apply i3
          intro v hv s hs
          rcases hc v hv s hs with h1 | h1
          · exact Or.inl h1
          · rcases List.mem_cons.mp h1 with h2 | h2
            · subst h2; exact Or.inl hb
            · exact Or.inr h2
      · have hstep : dfsAux F (n + 1) (b :: st) vis
            = dfsAux F n (F.succsOf b ++ st) (vis ++ [b]) := by
          simp [dfsAux, hb]
        rw [hstep]
        have hw : dfsWork F (F.succsOf b ++ st) (vis ++ [b]) ≤ n := by
          have h1 := dfsWork_visit F st vis b hb
          unfold dfsWork at h h1 ⊢
          simp only [List.length_cons] at h
          omega
        obtain ⟨i1, i2, i3⟩ := ih (F.succsOf b ++ st) (vis ++ [b]) hw
        refine ⟨fun x hx => i1 x (List.mem_append_left _ hx), ?_, ?_⟩
        · intro x hx
          rcases List.mem_cons.mp hx with h1 | h1
          · subst h1; exact i1 _ (by simp)
          · exact i2 x (List.mem_append_right _ h1)
        · intro hc
          apply i3
          intro v hv s hs
          rcases List.mem_append.mp hv with h1 | h1
          · rcases hc v h1 s hs with h2 | h2
            · exact Or.inl (List.mem_append_left _ h2)
            · rcases List.mem_cons.mp h2 with h3 | h3
              · subst h3; exact Or.inl (by simp)
              · exact Or.inr (List.mem_append_right _ h3)
          · have : v = b := by simpa using h1
            subst this
            exact Or.inr (List.mem_append_left _ hs)

/-- The fuel `depth_first` starts with is enough: the walk visits the start block and,
with every block it visits, all successors of that block. -/
theorem depth_first_closed (F : Func) (h : Nat) :
    h ∈ depth_first F h ∧
      ∀ v ∈ depth_first F h, ∀ s ∈ F.succsOf v, s ∈ depth_first F h := by
  have hw : dfsWork F [h] [] ≤ edgeCount F + 1 := by
    unfold dfsWork edgeCount
    simp
    omega
  obtain ⟨-, i2, i3⟩ := dfsAux_complete F (edgeCount F + 1) [h] [] hw
  exact ⟨i2 h (by simp), i3 (by simp)⟩

/-- Every block reachable from the start block is visited by `depth_first`. -/
theorem depth_first_complete (F : Func) (h b : Nat) (hr : Reachable F h b) :
    b ∈ depth_first F h := by
  induction hr with
  | refl => exact (depth_first_closed F h).1
  | tail _ hstep ih => exact (depth_first_closed F h).2 _ ih _ hstep

theorem dfsAux_nodup (F : Func) :
    ∀ (fuel : Nat) (stack vis : List Nat), vis.Nodup → (dfsAux F fuel stack vis).Nodup := by
  intro fuel
  induction fuel with
  | zero => intro stack vis h; simpa [dfsAux] using h
  | succ n ih =>
    intro stack vis h
    cases stack with
    | nil => simpa [dfsAux] using h
    | cons b st =>
      by_cases hb : b ∈ vis
      · simp only [dfsAux, hb, ↓reduceIte]; exact ih st vis h
      · simp only [dfsAux, hb, ↓reduceIte]
        apply ih
        rw [List.nodup_append]
        exact ⟨h, by simp, by simpa using hb⟩

/-- No block is visited twice. -/
theorem depth_first_nodup (F : Func) (h : Nat) : (depth_first F h).Nodup :=
  dfsAux_nodup F _ _ _ List.nodup_nil

theorem dfsAux_congr (F G : Func) (hs : ∀ b, F.succsOf b = G.succsOf b) :
    ∀ (fuel : Nat) (stack vis : List Nat), dfsAux F fuel stack vis = dfsAux G fuel stack vis := by
  intro fuel
  induction fuel with
  | zero => intro stack vis; simp [dfsAux]
  | succ n ih =>
    intro stack vis
    cases stack with
    | nil => simp [dfsAux]
    | cons b st =>
      simp only [dfsAux, hs b, ih]

end DepthFirst

section Hoisting

open IR LICMopt Examples

/-- The users of a value are the instructions and terminators that have it as an
operand, each with its block. -/
theorem mem_users_iff (F : Func) (id : Nat) (u : User) :
    u ∈ F.users id ↔
      ∃ B ∈ F.blocks, u.block = B.id ∧
        ((∃ J ∈ B.insts, Value.inst id ∈ J.operands ∧ u.isPhi = decide (J.op = Opcode.phi)) ∨
          (Value.inst id ∈ B.term.operands ∧ u.isPhi = false)) := by
  unfold Func.users Block.usersOf
  simp only [List.mem_flatMap, List.mem_append, List.mem_map, List.mem_filter,
    decide_eq_true_eq]
  constructor
  · rintro ⟨B, hB, h | h⟩
    · obtain ⟨J, ⟨hJ, hu⟩, rfl⟩ := h
      exact ⟨B, hB, rfl, Or.inl ⟨J, hJ, hu, rfl⟩⟩
    · split at h
      · rename_i ht
        have : u = { block := B.id, isPhi := false } := by simpa using h
        subst this
        exact ⟨B, hB, rfl, Or.inr ⟨ht, rfl⟩⟩
      · simp at h
  · rintro ⟨B, hB, hb, h | h⟩
    · obtain ⟨J, hJ, hu, hp⟩ := h
      refine ⟨B, hB, Or.inl ⟨J, ⟨hJ, hu⟩, ?_⟩⟩
      cases u; simp_all
    · refine ⟨B, hB, Or.inr ?_⟩
      rw [if_pos h.1]
      cases u; simp_all

/-- C8. `isSafeToMove` returns true exactly when (every user of `I` is inside the loop, or
the block of `I` dominates every exit block) and no merge node inside the loop uses `I`
and the block of `I` dominates the block of every user of `I`. -/
theorem isSafeToMove_iff (F : Func) (L : Loop) (DT : DominatorTree) (ExitBlocks : List Nat)
    (parent : Nat) (I : Instr) :
    isSafeToMove F L DT ExitBlocks parent I = true ↔
      ((∀ u ∈ F.users I.id, u.block ∈ L.blocks) ∨
        (∀ e ∈ ExitBlocks, DT.dominates parent e = true)) ∧
      (∀ u ∈ F.users I.id, ¬ (u.isPhi = true ∧ u.block ∈ L.blocks)) ∧
      (∀ u ∈ F.users I.id, DT.dominates parent u.block = true) := by
  unfold isSafeToMove deadOutsideLoopControll dominatesAllExitsControll
    definedOnlyOnceControll dominatesAllUsesControll Loop.contains
  simp only [Bool.and_eq_true, Bool.or_eq_true, List.all_eq_true, decide_eq_true_eq,
    Bool.not_eq_true', Bool.and_eq_false_imp, decide_eq_false_iff_not, not_and, and_assoc]

/-- What one turn of the operand loop of `isLoopInvariant` accepts. -/
theorem operandInvariant_iff (F : Func) (L : Loop) (movable : List Nat) (v : Value) :
    operandInvariant F L movable v = true ↔
      (∃ c, v = Value.const c) ∨ (∃ n, v = Value.arg n) ∨
        ∃ id, v = Value.inst id ∧ isPhiInst F id = false ∧
          (containsInst F L id = false ∨ id ∈ movable) := by
  cases v with
  | const c => simp [operandInvariant]
  | arg n => simp [operandInvariant]
  | inst id =>
    simp only [operandInvariant, reduceCtorEq, exists_false, Value.inst.injEq, exists_eq_left',
      false_or]
    cases isPhiInst F id <;> cases containsInst F L id <;> simp

/-- C9 (as amended). An instruction is classified loop-invariant exactly when it is a
binary operation and each operand is a constant, a function argument, or the result of an
instruction that is not a merge node and is either outside the loop or already in the
accepted set.  In particular a binary operation whose instruction operands are all
defined outside the loop by instructions that are not merge nodes is classified
invariant. -/
theorem isLoopInvariant_iff (F : Func) (L : Loop) (movable : List Nat) (I : Instr) :
    (isLoopInvariant F L movable I = true ↔
      I.op = Opcode.binop ∧ ∀ v ∈ I.operands,
        (∃ c, v = Value.const c) ∨ (∃ n, v = Value.arg n) ∨
          ∃ id, v = Value.inst id ∧ isPhiInst F id = false ∧
            (containsInst F L id = false ∨ id ∈ movable)) ∧
    (I.op = Opcode.binop →
      (∀ id, Value.inst id ∈ I.operands → isPhiInst F id = false ∧ containsInst F L id = false) →
      isLoopInvariant F L movable I = true) := by
  have key : isLoopInvariant F L movable I = true ↔
      I.op = Opcode.binop ∧ ∀ v ∈ I.operands,
        (∃ c, v = Value.const c) ∨ (∃ n, v = Value.arg n) ∨
          ∃ id, v = Value.inst id ∧ isPhiInst F id = false ∧
            (containsInst F L id = false ∨ id ∈ movable) := by
    unfold isLoopInvariant
    by_cases hb : I.op = Opcode.binop
    · simp only [hb, ne_eq, not_true_eq_false, ↓reduceIte, List.all_eq_true, true_and]
      exact forall₂_congr (fun v _ => operandInvariant_iff F L movable v)
    · simp [hb]
  refine ⟨key, fun hb hout => key.2 ⟨hb, fun v hv => ?_⟩⟩
  cases v with
  | const c => exact Or.inl ⟨c, rfl⟩
  | arg n => exact Or.inr (Or.inl ⟨n, rfl⟩)
  | inst id => exact Or.inr (Or.inr ⟨id, rfl, (hout id hv).1, Or.inl (hout id hv).2⟩)

/-- C9 as stated fails on `hoistExample`: instruction 15 of the loop body is a binary
operation whose operands are the constant 1 and the value of instruction 5, an
instruction outside the loop; it is classified not invariant, because instruction 5 is a
merge node. -/
theorem isLoopInvariant_rejects_outside_phi :
    ins 15 Opcode.binop [Value.inst 5, Value.const 1] ∈ hoistExample.instsOf 4 ∧
    4 ∈ hoistLoop.blocks ∧
    (ins 15 Opcode.binop [Value.inst 5, Value.const 1]).op = Opcode.binop ∧
    (∀ v ∈ (ins 15 Opcode.binop [Value.inst 5, Value.const 1]).operands,
      (∃ c, v = Value.const c) ∨ (∃ n, v = Value.arg n) ∨
        ∃ id, v = Value.inst id ∧
          (containsInst hoistExample hoistLoop id = false ∨ id ∈ ([] : List Nat))) ∧
    isLoopInvariant hoistExample hoistLoop []
      (ins 15 Opcode.binop [Value.inst 5, Value.const 1]) = false := by
  refine ⟨by decide, by decide, rfl, ?_, by decide⟩
  intro v hv
  simp only [ins, List.mem_cons, List.mem_singleton, List.not_mem_nil, or_false] at hv
  rcases hv with rfl | rfl
  · exact Or.inr (Or.inr ⟨5, rfl, Or.inl (by decide)⟩)
  · exact Or.inl ⟨1, rfl⟩

end Hoisting

section Moving

open IR LICMopt

theorem findInstIn_some (bs : List Block) (id b : Nat) (I : Instr)
    (h : findInstIn bs id = some (b, I)) :
    I.id = id ∧ ∃ B ∈ bs, B.id = b ∧ I ∈ B.insts := by
  induction bs with
  | nil => simp [findInstIn] at h
  | cons B rest ih =>
    unfold findInstIn at h
    split at h
    · rename_i J hJ
      simp only [Option.some.injEq, Prod.mk.injEq] at h
      obtain ⟨h1, h2⟩ := h
      subst h2
      have := List.find?_some hJ
      exact ⟨by simpa using this, B, by simp, h1, List.mem_of_find?_eq_some hJ⟩
    · obtain ⟨h1, B', hB', h2⟩ := ih h
      exact ⟨h1, B', List.mem_cons_of_mem _ hB', h2⟩

theorem findInstIn_none (bs : List Block) (id : Nat) (h : findInstIn bs id = none) :
    ∀ B ∈ bs, ∀ J ∈ B.insts, J.id ≠ id := by
  induction bs with
  | nil => simp
  | cons B rest ih =>
    unfold findInstIn at h
    split at h
    · simp at h
    · rename_i hJ
      intro B' hB' J hJ'
      rcases List.mem_cons.mp hB' with h1 | h1
      · subst h1
        have := List.find?_eq_none.mp hJ J hJ'
        simpa using this
      · exact ih h B' h1 J hJ'

/-- Searching a block whose instructions were filtered by `q` and extended by `r` finds
what the search of the original block finds, when `q` keeps every instruction with the
identity looked for and `r` holds none. -/
theorem find_filter_append (l r : List Instr) (q : Instr → Bool) (id : Nat)
    (hq : ∀ a ∈ l, a.id = id → q a = true) (hr : ∀ a ∈ r, a.id ≠ id) :
    (l.filter q ++ r).find? (fun I => I.id == id) = l.find? (fun I => I.id == id) := by
  induction l with
  | nil =>
    simp only [List.filter_nil, List.nil_append, List.find?_nil]
    exact List.find?_eq_none.mpr (fun a ha => by simpa using hr a ha)
  | cons a l ih =>
    have ih' := ih (fun x hx => hq x (List.mem_cons_of_mem _ hx))
    by_cases ha : a.id = id
    · have hqa := hq a (by simp) ha
      simp [List.filter_cons, hqa, List.find?_cons, ha]
    · by_cases hqa : q a = true
      · simp only [List.filter_cons, hqa, ↓reduceIte, List.cons_append, List.find?_cons]
        have : (a.id == id) = false := by simpa using ha
        simp only [this]
        exact ih'
      · simp only [List.filter_cons, hqa, List.find?_cons]
        have : (a.id == id) = false := by simpa using ha
        simp only [this, Bool.false_eq_true, ↓reduceIte]
        exact ih'

theorem findInstIn_hoisted (bs : List Block) (pre : Nat) (M : List Nat) (recs : List Instr)
    (id : Nat) (hid : id ∉ M) (hrecs : ∀ r ∈ recs, r.id ∈ M) :
    findInstIn (bs.map (fun B =>
        { B with insts := B.insts.filter (fun I => decide (I.id ∉ M)) ++
                            (if B.id == pre then recs else []) })) id
      = findInstIn bs id := by
  induction bs with
  | nil => simp [findInstIn]
  | cons B rest ih =>
    simp only [List.map_cons, findInstIn]
    have hf : (B.insts.filter (fun I => decide (I.id ∉ M)) ++
        (if B.id == pre then recs else [])).find? (fun I => I.id == id)
        = B.insts.find? (fun I => I.id == id) := by
      apply find_filter_append
      · intro a _ ha; simpa [ha] using hid
      · intro a ha
        split at ha
        · intro h; exact hid (h ▸ hrecs a ha)
        · simp at ha
    rw [hf, ih]

/-- The instruction found for an identity, without its block. -/
theorem findInst_hoisted (F : Func) (pre : Nat) (M : List Nat) (recs : List Instr)
    (id : Nat) (hid : id ∉ M) (hrecs : ∀ r ∈ recs, r.id ∈ M) :
    (hoisted F pre M recs).findInst id = F.findInst id := by
  unfold Func.findInst hoisted
  exact findInstIn_hoisted F.blocks pre M recs id hid hrecs

theorem filter_not_mem_snoc (l : List Instr) (M : List Nat) (id : Nat) :
    (l.filter (fun I => decide (I.id ∉ M))).filter (fun I => I.id != id)
      = l.filter (fun I => decide (I.id ∉ M ++ [id])) := by
  rw [List.filter_filter]
  apply List.filter_congr
  intro a _
  by_cases h1 : a.id ∈ M <;> by_cases h2 : a.id = id <;> simp [h1, h2]

theorem filter_recs_ne (recs : List Instr) (M : List Nat) (id : Nat) (hid : id ∉ M)
    (hrecs : ∀ r ∈ recs, r.id ∈ M) : recs.filter (fun I => I.id != id) = recs := by
  rw [List.filter_eq_self]
  intro a ha
  have : a.id ≠ id := fun h => hid (h ▸ hrecs a ha)
  simpa using this

/-- One move, in closed form. -/
theorem moveBeforeTerminator_hoisted (F : Func) (pre : Nat) (M : List Nat)
    (recs : List Instr) (id : Nat) (hid : id ∉ M) (hrecs : ∀ r ∈ recs, r.id ∈ M) :
    moveBeforeTerminator (hoisted F pre M recs) pre id
      = hoisted F pre (M ++ [id]) (recs ++ instsWithIds F [id]) := by
  unfold moveBeforeTerminator
  rw [findInst_hoisted F pre M recs id hid hrecs]
  cases hf : F.findInst id with
  | none =>
    have hnone := findInstIn_none F.blocks id hf
    simp only [instsWithIds, List.filterMap_cons, hf, Option.map_none', List.filterMap_nil,
      List.append_nil]
    unfold hoisted
    congr 1
    apply List.map_congr_left
    intro B hB
    congr 2
    apply List.filter_congr
    intro a ha
    have := hnone B hB a ha
    simp [this]
  | some p =>
    obtain ⟨b0, I⟩ := p
    simp only [instsWithIds, List.filterMap_cons, hf, Option.map_some', List.filterMap_nil]
    unfold hoisted appendInst eraseInst
    simp only [List.map_map]
    congr 1
    apply List.map_congr_left
    intro B _
    simp only [Function.comp_apply, List.filter_append, filter_not_mem_snoc]
    by_cases hp : (B.id == pre) = true
    · simp only [hp, ↓reduceIte, filter_recs_ne recs M id hid hrecs, List.append_assoc]
    · simp only [hp, Bool.false_eq_true, ↓reduceIte, List.filter_nil, List.append_nil]

theorem instsWithIds_append (F : Func) (A B : List Nat) :
    instsWithIds F (A ++ B) = instsWithIds F A ++ instsWithIds F B := by
  simp [instsWithIds, List.filterMap_append]

theorem instsWithIds_id (F : Func) (M : List Nat) : ∀ r ∈ instsWithIds F M, r.id ∈ M := by
  intro r hr
  simp only [instsWithIds, List.mem_filterMap, Option.map_eq_some'] at hr
  obtain ⟨id, hid, p, hp, rfl⟩ := hr
  obtain ⟨b, I⟩ := p
  have := (findInstIn_some F.blocks id b I hp).1
  simpa [this] using hid

theorem foldl_move_hoisted (F : Func) (pre : Nat) :
    ∀ (rest M0 : List Nat) (recs0 : List Instr), (M0 ++ rest).Nodup →
      (∀ r ∈ recs0, r.id ∈ M0) →
      rest.foldl (fun G id => moveBeforeTerminator G pre id) (hoisted F pre M0 recs0)
        = hoisted F pre (M0 ++ rest) (recs0 ++ instsWithIds F rest) := by
  intro rest
  induction rest with
  | nil => intro M0 recs0 _ _; simp [instsWithIds]
  | cons id rest ih =>
    intro M0 recs0 hnd hrecs
    have hid : id ∉ M0 := by
      intro h
      have := List.nodup_append.mp hnd
      exact this.2.2 h (by simp)
    simp only [List.foldl_cons]
    rw [moveBeforeTerminator_hoisted F pre M0 recs0 id hid hrecs]
    have hnd' : ((M0 ++ [id]) ++ rest).Nodup := by simpa using hnd
    have hrecs' : ∀ r ∈ recs0 ++ instsWithIds F [id], r.id ∈ M0 ++ [id] := by
      intro r hr
      rcases List.mem_append.mp hr with h | h
      · exact List.mem_append_left _ (hrecs r h)
      · exact List.mem_append_right _ (instsWithIds_id F [id] r h)
    rw [ih (M0 ++ [id]) (recs0 ++ instsWithIds F [id]) hnd' hrecs']
    have e : instsWithIds F (id :: rest) = instsWithIds F [id] ++ instsWithIds F rest := by
      rw [← instsWithIds_append]; rfl
    simp only [List.append_assoc, List.singleton_append, e]

theorem hoisted_nil (F : Func) (pre : Nat) : hoisted F pre [] [] = F := by
  unfold hoisted
  cases F with
  | mk blocks =>
    simp only [List.not_mem_nil, not_false_eq_true, decide_True, List.filter_true,
      ite_self, List.append_nil]
    congr 1
    exact List.map_id' blocks

/-- The moving loop of `runOnLoop` in closed form: the instructions with an identity in
`M` leave their blocks and are placed, in the order of `M`, before the terminator of the
preheader. -/
theorem moveAll_eq_hoisted (F : Func) (pre : Nat) (M : List Nat) (hM : M.Nodup) :
    moveAll F pre M = hoisted F pre M (instsWithIds F M) := by
  have := foldl_move_hoisted F pre M [] [] (by simpa using hM) (by simp)
  rw [hoisted_nil] at this
  simpa [moveAll] using this

end Moving

section Scan

open IR LICMopt

/-- When `isLoopInvariant` accepts (shared form of the characterisation). -/
theorem isLoopInvariant_eq_true_iff (F : Func) (L : Loop) (movable : List Nat) (I : Instr) :
    isLoopInvariant F L movable I = true ↔
      I.op = Opcode.binop ∧ ∀ v ∈ I.operands, operandInvariant F L movable v = true := by
  unfold isLoopInvariant
  by_cases hb : I.op = Opcode.binop
  · simp [hb]
  · simp [hb]

theorem operandInvariant_inst (F : Func) (L : Loop) (movable : List Nat) (id : Nat) :
    operandInvariant F L movable (Value.inst id) = true ↔
      isPhiInst F id = false ∧ (containsInst F L id = false ∨ id ∈ movable) := by
  simp only [operandInvariant]
  cases isPhiInst F id <;> cases containsInst F L id <;> simp

theorem scanStep_subset (F : Func) (L : Loop) (DT : DominatorTree) (EB : List Nat)
    (M : List Nat) (x : Nat × Instr) : ∀ id ∈ M, id ∈ scanStep F L DT EB M x := by
  intro id hid
  unfold scanStep
  split
  · split
    · exact hid
    · exact List.mem_append_left _ hid
  · exact hid

theorem scanStep_accepts (F : Func) (L : Loop) (DT : DominatorTree) (EB : List Nat)
    (M : List Nat) (x : Nat × Instr) (hinv : isLoopInvariant F L M x.2 = true)
    (hsafe : isSafeToMove F L DT EB x.1 x.2 = true) : x.2.id ∈ scanStep F L DT EB M x := by
  unfold scanStep
  rw [hinv, hsafe]
  simp only [Bool.and_self, ↓reduceIte]
  split
  · assumption
  · simp

theorem scanFold_subset (F : Func) (L : Loop) (DT : DominatorTree) (EB : List Nat) :
    ∀ (S : List (Nat × Instr)) (M : List Nat), ∀ id ∈ M,
      id ∈ S.foldl (scanStep F L DT EB) M := by
  intro S
  induction S with
  | nil => intro M id h; simpa using h
  | cons x S ih =>
    intro M id h
    simp only [List.foldl_cons]
    exact ih _ id (scanStep_subset F L DT EB M x id h)

/-- Whatever the scan adds to the set is the identity of an instruction it visited. -/
theorem mem_scanFold (F : Func) (L : Loop) (DT : DominatorTree) (EB : List Nat) :
    ∀ (S : List (Nat × Instr)) (M : List Nat), ∀ id ∈ S.foldl (scanStep F L DT EB) M,
      id ∈ M ∨ ∃ x ∈ S, x.2.id = id := by
  intro S
  induction S with
  | nil => intro M id h; exact Or.inl (by simpa using h)
  | cons x S ih =>
    intro M id h
    simp only [List.foldl_cons] at h
    rcases ih _ id h with h1 | ⟨y, hy, hid⟩
    · unfold scanStep at h1
      split at h1
      · split at h1
        · exact Or.inl h1
        · rcases List.mem_append.mp h1 with h2 | h2
          · exact Or.inl h2
          · exact Or.inr ⟨x, by simp, (List.mem_singleton.mp h2).symm⟩
      · exact Or.inl h1
    · exact Or.inr ⟨y, List.mem_cons_of_mem _ hy, hid⟩

/-- Whatever the scan adds to the set passed both checks when it was visited. -/
theorem mem_scanFold_accepted (F : Func) (L : Loop) (DT : DominatorTree) (EB : List Nat) :
    ∀ (S : List (Nat × Instr)) (M : List Nat), ∀ id ∈ S.foldl (scanStep F L DT EB) M,
      id ∈ M ∨ ∃ pre x post, S = pre ++ x :: post ∧ x.2.id = id ∧
        isLoopInvariant F L (pre.foldl (scanStep F L DT EB) M) x.2 = true ∧
        isSafeToMove F L DT EB x.1 x.2 = true := by
  intro S
  induction S with
  | nil => intro M id h; exact Or.inl (by simpa using h)
  | cons x S ih =>
    intro M id h
    simp only [List.foldl_cons] at h
    rcases ih _ id h with h1 | ⟨pre, y, post, hS, hid, hinv, hsafe⟩
    · by_cases hM : id ∈ M
      · exact Or.inl hM
      · right
        unfold scanStep at h1
        split at h1
        · rename_i hacc
          split at h1
          · exact absurd h1 hM
          · rcases List.mem_append.mp h1 with h2 | h2
            · exact absurd h2 hM
            · have hx : x.2.id = id := (List.mem_singleton.mp h2).symm
              simp only [Bool.and_eq_true] at hacc
              exact ⟨[], x, S, rfl, hx, by simpa using hacc.1, hacc.2⟩
        · exact absurd h1 hM
    · exact Or.inr ⟨x :: pre, y, post, by simp [hS], hid, by simpa using hinv, hsafe⟩

theorem operandInvariant_mono (F : Func) (L : Loop) (M M' : List Nat)
    (hsub : ∀ id ∈ M, id ∈ M') (v : Value) (h : operandInvariant F L M v = true) :
    operandInvariant F L M' v = true := by
  cases v with
  | const c => simp [operandInvariant]
  | arg n => simp [operandInvariant]
  | inst id =>
    rw [operandInvariant_inst] at h ⊢
    exact ⟨h.1, h.2.imp (fun c => c) (hsub id)⟩

theorem scanFold_nodup (F : Func) (L : Loop) (DT : DominatorTree) (EB : List Nat) :
    ∀ (S : List (Nat × Instr)) (M : List Nat), M.Nodup →
      (S.foldl (scanStep F L DT EB) M).Nodup := by
  intro S
  induction S with
  | nil => intro M h; simpa using h
  | cons x S ih =>
    intro M h
    simp only [List.foldl_cons]
    apply ih
    unfold scanStep
    split
    · split
      · exact h
      · rename_i hx
        rw [List.nodup_append]
        exact ⟨h, by simp, by simpa using hx⟩
    · exact h

/-- The accepted set has no duplicates. -/
theorem collectMovable_nodup (F : Func) (L : Loop) (DT : DominatorTree) :
    (collectMovable F L DT).Nodup :=
  scanFold_nodup F L DT L.exitBlocks _ _ List.nodup_nil

/-- The heart of the single-scan argument: if the definitions of operands are visited
before their users, an instruction the scan visited and did not accept does not pass the
two checks against the final accepted set either. -/
theorem scan_rejects_for_good (F : Func) (L : Loop) (DT : DominatorTree)
    (hord : DefsVisitedFirst F L) (x : Nat × Instr) (hx : x ∈ scanInsts F L)
    (hnot : x.2.id ∉ collectMovable F L DT)
    (hinv : isLoopInvariant F L (collectMovable F L DT) x.2 = true)
    (hsafe : isSafeToMove F L DT L.exitBlocks x.1 x.2 = true) : False := by
  obtain ⟨pre, post, hS⟩ := List.append_of_mem hx
  have hfin : collectMovable F L DT
      = (x :: post).foldl (scanStep F L DT L.exitBlocks)
          (pre.foldl (scanStep F L DT L.exitBlocks) []) := by
    unfold collectMovable scanFrom
    rw [hS, List.foldl_append]
  rw [isLoopInvariant_eq_true_iff] at hinv
  obtain ⟨hop, hops⟩ := hinv
  have hinv' : isLoopInvariant F L (pre.foldl (scanStep F L DT L.exitBlocks) []) x.2 = true := by
    rw [isLoopInvariant_eq_true_iff]
    refine ⟨hop, fun v hv => ?_⟩
    have h1 := hops v hv
    cases v with
    | const c => simp [operandInvariant]
    | arg n => simp [operandInvariant]
    | inst id =>
      rw [operandInvariant_inst] at h1 ⊢
      refine ⟨h1.1, h1.2.imp (fun c => c) (fun hm => ?_)⟩
      rw [hfin] at hm
      rcases mem_scanFold F L DT L.exitBlocks _ _ id hm with h2 | ⟨y, hy, hid⟩
      · exact h2
      · exact absurd hid
          (hord pre x post hS (by rw [hop]; exact fun h => Opcode.noConfusion h) id hv h1.1 y hy)
  apply hnot
  rw [hfin]
  simp only [List.foldl_cons]
  apply scanFold_subset
  exact scanStep_accepts F L DT L.exitBlocks _ x hinv' hsafe

theorem foldl_fixed {α β : Type} (f : β → α → β) (S : List α) (M : β)
    (h : ∀ x ∈ S, f M x = M) : S.foldl f M = M := by
  induction S with
  | nil => rfl
  | cons x S ih =>
    simp only [List.foldl_cons]
    rw [h x (by simp)]
    exact ih (fun y hy => h y (List.mem_cons_of_mem _ hy))

/-- Every instruction of a loop block that the walk reaches is visited by the scan. -/
theorem mem_scanInsts (F : Func) (L : Loop) (h b : Nat) (I : Instr)
    (hh : L.header = some h) (hb : b ∈ L.blocks) (hreach : Reachable F h b)
    (hI : I ∈ F.instsOf b) : (b, I) ∈ scanInsts F L := by
  unfold scanInsts scanBlocks
  rw [hh]
  simp only [List.mem_flatMap, List.mem_filter, List.mem_map, Prod.mk.injEq]
  exact ⟨b, ⟨depth_first_complete F h b hreach, by simpa [Loop.contains] using hb⟩, I, hI,
    rfl, rfl⟩

end Scan

section ScanMaximal

open IR LICMopt Examples

theorem defsVisitedFirstCheck_sound (F : Func) :
    ∀ (S : List (Nat × Instr)), defsVisitedFirstCheck F S = true →
      ∀ pre bi post, S = pre ++ bi :: post → bi.2.op ≠ Opcode.phi →
        ∀ id, Value.inst id ∈ bi.2.operands → isPhiInst F id = false →
          ∀ x ∈ bi :: post, x.2.id ≠ id := by
  intro S
  induction S with
  | nil => intro _ pre bi post h; simp at h
  | cons a S ih =>
    intro hc pre bi post hS hop id hid hphi x hx
    simp only [defsVisitedFirstCheck, Bool.and_eq_true, Bool.or_eq_true, decide_eq_true_eq,
      List.all_eq_true] at hc
    cases pre with
    | nil =>
      simp only [List.nil_append, List.cons.injEq] at hS
      obtain ⟨rfl, rfl⟩ := hS
      rcases hc.1 with h1 | h1
      · exact absurd h1 hop
      · have h2 := h1 _ hid
        simp only [hphi, Bool.false_or, List.all_eq_true, decide_eq_true_eq] at h2
        exact h2 x hx
    | cons p pre =>
      simp only [List.cons_append, List.cons.injEq] at hS
      exact ih hc.2 pre bi post hS.2 hop id hid hphi x hx

/-- The check decides the order property of the scan. -/
theorem defsVisitedFirst_of_check (F : Func) (L : Loop)
    (h : defsVisitedFirstCheck F (scanInsts F L) = true) : DefsVisitedFirst F L :=
  defsVisitedFirstCheck_sound F _ h

theorem mem_scanInsts_iff (F : Func) (L : Loop) (x : Nat × Instr) (hx : x ∈ scanInsts F L) :
    x.1 ∈ L.blocks ∧ x.2 ∈ F.instsOf x.1 := by
  unfold scanInsts scanBlocks at hx
  simp only [List.mem_flatMap, List.mem_map] at hx
  obtain ⟨b, hb, I, hI, rfl⟩ := hx
  refine ⟨?_, hI⟩
  split at hb
  · simp only [List.mem_filter, Loop.contains, decide_eq_true_eq] at hb
    exact hb.2
  · simp at hb

theorem instsOf_mem (F : Func) (b : Nat) (I : Instr) (h : I ∈ F.instsOf b) :
    ∃ B ∈ F.blocks, B.id = b ∧ I ∈ B.insts := by
  unfold Func.instsOf Func.findBlock at h
  split at h
  · rename_i B hB
    exact ⟨B, List.mem_of_find?_eq_some hB, by simpa using List.find?_some hB, h⟩
  · simp at h

theorem mem_allInsts (F : Func) (I : Instr) :
    I ∈ F.allInsts ↔ ∃ B ∈ F.blocks, I ∈ B.insts := by
  simp [Func.allInsts, List.mem_flatMap]

theorem instsOf_subset_allInsts (F : Func) (b : Nat) (I : Instr) (h : I ∈ F.instsOf b) :
    I ∈ F.allInsts := by
  obtain ⟨B, hB, -, hI⟩ := instsOf_mem F b I h
  exact (mem_allInsts F I).2 ⟨B, hB, hI⟩

/-- With unique identities an instruction is determined by its identity. -/
theorem eq_of_id_eq (F : Func) (hu : UniqueIds F) (I J : Instr) (hI : I ∈ F.allInsts)
    (hJ : J ∈ F.allInsts) (h : I.id = J.id) : I = J :=
  List.inj_on_of_nodup_map hu hI hJ h

/-- With unique identities the blocks of a function share no instruction. -/
theorem block_eq_of_mem (F : Func) (hu : UniqueIds F) (B1 B2 : Block) (h1 : B1 ∈ F.blocks)
    (h2 : B2 ∈ F.blocks) (I : Instr) (hI1 : I ∈ B1.insts) (hI2 : I ∈ B2.insts) : B1 = B2 := by
  have hnd : F.allInsts.Nodup := List.Nodup.of_map _ hu
  unfold Func.allInsts at hnd
  rw [List.nodup_flatMap] at hnd
  by_contra hne
  have hsym : Symmetric (fun a b : Block => List.Disjoint a.insts b.insts) :=
    fun a b h => h.symm
  have := List.Pairwise.forall hsym hnd.2 h1 h2 hne
  exact this hI1 hI2

/-- With unique identities looking up the identity of an instruction of block `b` gives
back that instruction and `b`. -/
theorem findInst_of_mem (F : Func) (hu : UniqueIds F) (b : Nat) (I : Instr)
    (h : I ∈ F.instsOf b) : F.findInst I.id = some (b, I) := by
  obtain ⟨B, hB, hb, hI⟩ := instsOf_mem F b I h
  cases hf : F.findInst I.id with
  | none => exact absurd rfl (findInstIn_none F.blocks I.id hf B hB I hI)
  | some p =>
    obtain ⟨b', J⟩ := p
    obtain ⟨hid, B', hB', hb', hJ⟩ := findInstIn_some F.blocks I.id b' J hf
    have e : J = I :=
      eq_of_id_eq F hu J I ((mem_allInsts F J).2 ⟨B', hB', hJ⟩) ((mem_allInsts F I).2 ⟨B, hB, hI⟩)
        hid
    subst e
    have e2 : B' = B := block_eq_of_mem F hu B' B hB' hB J hJ hI
    subst e2
    rw [← hb', hb]

/-- Every accepted identity is that of a visited binary operation that passed both checks
when it was visited. -/
theorem collectMovable_accepted (F : Func) (L : Loop) (DT : DominatorTree) (id : Nat)
    (h : id ∈ collectMovable F L DT) :
    ∃ pre x post, scanInsts F L = pre ++ x :: post ∧ x.2.id = id ∧
      isLoopInvariant F L (pre.foldl (scanStep F L DT L.exitBlocks) []) x.2 = true ∧
      isSafeToMove F L DT L.exitBlocks x.1 x.2 = true := by
  rcases mem_scanFold_accepted F L DT L.exitBlocks _ _ id h with h1 | h1
  · simp at h1
  · exact h1

/-- With unique identities an accepted identity is not that of a merge node. -/
theorem accepted_not_phi (F : Func) (L : Loop) (DT : DominatorTree) (hu : UniqueIds F)
    (id : Nat) (h : id ∈ collectMovable F L DT) : isPhiInst F id = false := by
  obtain ⟨pre, x, post, hS, hid, hinv, -⟩ := collectMovable_accepted F L DT id h
  have hx : x ∈ scanInsts F L := by rw [hS]; simp
  have hf := findInst_of_mem F hu x.1 x.2 (mem_scanInsts_iff F L x hx).2
  rw [hid] at hf
  have hop := ((isLoopInvariant_eq_true_iff F L _ x.2).1 hinv).1
  simp [isPhiInst, hf, hop]

/-- C10. The single depth-first scan of `runOnLoop` computes a maximal set.  For a
function with unique instruction identities and a loop all of whose blocks are reachable
from the header, if the scan visits the definition of every operand that is not a merge
node before its user, then after the scan no instruction of a loop block outside the
accepted set is a binary operation that passes `isSafeToMove` and has every operand a
constant, an argument, a definition outside the loop that is not a merge node, or a
member of the accepted set; and a rescan that starts from the final accepted set accepts
nothing new. -/
theorem single_scan_is_maximal (F : Func) (L : Loop) (DT : DominatorTree) (h : Nat)
    (hu : UniqueIds F) (hh : L.header = some h)
    (hreach : ∀ b ∈ L.blocks, Reachable F h b) (hord : DefsVisitedFirst F L) :
    (∀ b ∈ L.blocks, ∀ I ∈ F.instsOf b, I.id ∉ collectMovable F L DT →
      ¬ (I.op = Opcode.binop ∧ isSafeToMove F L DT L.exitBlocks b I = true ∧
          ∀ v ∈ I.operands, (∃ c, v = Value.const c) ∨ (∃ n, v = Value.arg n) ∨
            ∃ id, v = Value.inst id ∧
              ((isPhiInst F id = false ∧ containsInst F L id = false) ∨
                id ∈ collectMovable F L DT))) ∧
    scanFrom F L DT (collectMovable F L DT) = collectMovable F L DT := by
  constructor
  · intro b hb I hI hnot ⟨hop, hsafe, hops⟩
    have hx := mem_scanInsts F L h b I hh hb (hreach b hb) hI
    refine scan_rejects_for_good F L DT hord (b, I) hx hnot ?_ hsafe
    rw [isLoopInvariant_eq_true_iff]
    refine ⟨hop, fun v hv => ?_⟩
    rcases hops v hv with ⟨c, rfl⟩ | ⟨n, rfl⟩ | ⟨id, rfl, h1 | h1⟩
    · simp [operandInvariant]
    · simp [operandInvariant]
    · exact (operandInvariant_inst F L _ id).2 ⟨h1.1, Or.inl h1.2⟩
    · exact (operandInvariant_inst F L _ id).2 ⟨accepted_not_phi F L DT hu id h1, Or.inr h1⟩
  · unfold scanFrom
    apply foldl_fixed
    intro x hx
    unfold scanStep
    split
    · rename_i hacc
      split
      · rfl
      · rename_i hnot
        simp only [Bool.and_eq_true] at hacc
        exact absurd (scan_rejects_for_good F L DT hord x hx hnot hacc.1 hacc.2) id
    · rfl

/-- The scan of `hoistExample` meets the hypotheses of C10. -/
theorem single_scan_is_maximal_witness :
    (UniqueIds hoistExample ∧ hoistLoop.header = some 4 ∧
      (∀ b ∈ hoistLoop.blocks, Reachable hoistExample 4 b) ∧
      DefsVisitedFirst hoistExample hoistLoop) ∧
    ((∀ b ∈ hoistLoop.blocks, ∀ I ∈ hoistExample.instsOf b,
      I.id ∉ collectMovable hoistExample hoistLoop hoistDT →
      ¬ (I.op = Opcode.binop ∧
          isSafeToMove hoistExample hoistLoop hoistDT hoistLoop.exitBlocks b I = true ∧
          ∀ v ∈ I.operands, (∃ c, v = Value.const c) ∨ (∃ n, v = Value.arg n) ∨
            ∃ id, v = Value.inst id ∧
              ((isPhiInst hoistExample id = false ∧ containsInst hoistExample hoistLoop id = false) ∨
                id ∈ collectMovable hoistExample hoistLoop hoistDT))) ∧
    scanFrom hoistExample hoistLoop hoistDT (collectMovable hoistExample hoistLoop hoistDT)
      = collectMovable hoistExample hoistLoop hoistDT) := by
  have hu : UniqueIds hoistExample := by unfold UniqueIds; decide
  have hr : ∀ b ∈ hoistLoop.blocks, Reachable hoistExample 4 b := by
    intro b hb
    have : b = 4 ∨ b = 5 := by simpa [hoistLoop] using hb
    rcases this with rfl | rfl
    · exact Relation.ReflTransGen.refl
    · exact Relation.ReflTransGen.single (by decide)
  have ho : DefsVisitedFirst hoistExample hoistLoop :=
    defsVisitedFirst_of_check hoistExample hoistLoop (by decide)
  exact ⟨⟨hu, rfl, hr, ho⟩, single_scan_is_maximal hoistExample hoistLoop hoistDT 4 hu rfl hr ho⟩

end ScanMaximal

section HoistedFacts

open IR LICMopt Examples

theorem findBlock_hoisted (F : Func) (pre : Nat) (M : List Nat) (recs : List Instr) (b : Nat) :
    (hoisted F pre M recs).findBlock b =
      (F.findBlock b).map (fun B =>
        { B with insts := B.insts.filter (fun I => decide (I.id ∉ M)) ++
                            (if B.id == pre then recs else []) }) := by
  unfold Func.findBlock hoisted
  rw [List.find?_map]
  rfl

theorem findBlock_id (F : Func) (b : Nat) (B : Block) (h : F.findBlock b = some B) :
    B.id = b := by
  unfold Func.findBlock at h
  simpa using List.find?_some h

theorem succsOf_hoisted (F : Func) (pre : Nat) (M : List Nat) (recs : List Instr) (b : Nat) :
    (hoisted F pre M recs).succsOf b = F.succsOf b := by
  unfold Func.succsOf
  rw [findBlock_hoisted]
  cases F.findBlock b <;> rfl

theorem edgeCount_hoisted (F : Func) (pre : Nat) (M : List Nat) (recs : List Instr) :
    edgeCount (hoisted F pre M recs) = edgeCount F := by
  unfold edgeCount hoisted
  simp [List.map_map, Function.comp_def]

theorem depth_first_hoisted (F : Func) (pre : Nat) (M : List Nat) (recs : List Instr)
    (h : Nat) : depth_first (hoisted F pre M recs) h = depth_first F h := by
  unfold depth_first
  rw [edgeCount_hoisted]
  exact dfsAux_congr _ _ (succsOf_hoisted F pre M recs) _ _ _

/-- A block other than the preheader keeps the instructions that were not moved. -/
theorem instsOf_hoisted_ne (F : Func) (pre : Nat) (M : List Nat) (recs : List Instr)
    (b : Nat) (hb : b ≠ pre) :
    (hoisted F pre M recs).instsOf b = (F.instsOf b).filter (fun I => decide (I.id ∉ M)) := by
  unfold Func.instsOf
  rw [findBlock_hoisted]
  cases hf : F.findBlock b with
  | none => simp
  | some B =>
    have hid := findBlock_id F b B hf
    have hne : B.id ≠ pre := by rw [hid]; exact hb
    simp [hne]

/-- The preheader keeps its instructions that were not moved and receives the moved
ones at its end. -/
theorem instsOf_hoisted_pre (F : Func) (pre : Nat) (M : List Nat) (recs : List Instr)
    (hpre : pre ∈ F.blocks.map (fun B => B.id)) :
    (hoisted F pre M recs).instsOf pre
      = (F.instsOf pre).filter (fun I => decide (I.id ∉ M)) ++ recs := by
  unfold Func.instsOf
  rw [findBlock_hoisted]
  cases hf : F.findBlock pre with
  | none =>
    exfalso
    unfold Func.findBlock at hf
    rw [List.find?_eq_none] at hf
    obtain ⟨B, hB, hid⟩ := List.mem_map.mp hpre
    exact hf B hB (by simpa using hid)
  | some B =>
    have hid := findBlock_id F pre B hf
    simp [hid]

theorem mem_allInsts_hoisted (F : Func) (pre : Nat) (M : List Nat) (recs : List Instr)
    (J : Instr) :
    J ∈ (hoisted F pre M recs).allInsts ↔
      (J ∈ F.allInsts ∧ J.id ∉ M) ∨ (J ∈ recs ∧ pre ∈ F.blocks.map (fun B => B.id)) := by
  simp only [Func.allInsts, hoisted, List.mem_flatMap, List.mem_map, exists_exists_and_eq_and,
    List.mem_append, List.mem_filter, decide_eq_true_eq]
  constructor
  · rintro ⟨B, hB, h | h⟩
    · exact Or.inl ⟨⟨B, hB, h.1⟩, h.2⟩
    · split at h
      · rename_i hp
        exact Or.inr ⟨h, B, hB, by simpa using hp⟩
      · simp at h
  · rintro (⟨⟨B, hB, hJ⟩, hM⟩ | ⟨hJ, B, hB, hp⟩)
    · exact ⟨B, hB, Or.inl ⟨hJ, hM⟩⟩
    · exact ⟨B, hB, Or.inr (by simpa [hp] using hJ)⟩

theorem mem_instsWithIds (F : Func) (M : List Nat) (J : Instr) :
    J ∈ instsWithIds F M ↔ ∃ id ∈ M, ∃ b, F.findInst id = some (b, J) := by
  simp only [instsWithIds, List.mem_filterMap, Option.map_eq_some', Prod.exists,
    exists_eq_right]

theorem instsWithIds_subset (F : Func) (M : List Nat) (J : Instr) (h : J ∈ instsWithIds F M) :
    J ∈ F.allInsts := by
  obtain ⟨id, -, b, hf⟩ := (mem_instsWithIds F M J).1 h
  obtain ⟨-, B, hB, -, hJ⟩ := findInstIn_some F.blocks id b J hf
  exact (mem_allInsts F J).2 ⟨B, hB, hJ⟩

theorem terms_hoisted (F : Func) (pre : Nat) (M : List Nat) (recs : List Instr) :
    (hoisted F pre M recs).blocks.map (fun B => (B.id, B.term))
      = F.blocks.map (fun B => (B.id, B.term)) := by
  simp [hoisted, List.map_map, Function.comp_def]

/-- The function `runOnLoop` returns for a loop with a preheader, in closed form. -/
theorem runOnLoop_eq_hoisted (F : Func) (L : Loop) (DT : DominatorTree) (pre : Nat)
    (hpre : L.preheader = some pre) :
    runOnLoop F (some L) DT =
      (!(collectMovable F L DT).isEmpty,
       hoisted F pre (collectMovable F L DT) (instsWithIds F (collectMovable F L DT))) := by
  simp only [runOnLoop, hpre]
  rw [moveAll_eq_hoisted F pre _ (collectMovable_nodup F L DT)]

/-- C6 (as amended). For a function with unique instruction identities and a loop whose
preheader is a block of the function: every binary operation of a loop block reachable
from the header that passes `isSafeToMove` and has only constants, function arguments
and results of instructions outside the loop that are not merge nodes as operands is in
the preheader after `runOnLoop` and in no other block; and `runOnLoop` changes no
instruction and no terminator: the function has the same instructions, each with the
operand list it had, and the same terminators. -/
theorem runOnLoop_hoists_invariant (F : Func) (L : Loop) (DT : DominatorTree)
    (h pre b : Nat) (I : Instr) (hu : UniqueIds F)
    (hh : L.header = some h) (hpre : L.preheader = some pre)
    (hpreB : pre ∈ F.blocks.map (fun B => B.id))
    (hb : b ∈ L.blocks) (hreach : Reachable F h b) (hI : I ∈ F.instsOf b)
    (hop : I.op = Opcode.binop)
    (hops : ∀ v ∈ I.operands, (∃ c, v = Value.const c) ∨ (∃ n, v = Value.arg n) ∨
      ∃ id, v = Value.inst id ∧ isPhiInst F id = false ∧ containsInst F L id = false)
    (hsafe : isSafeToMove F L DT L.exitBlocks b I = true) :
    I ∈ (runOnLoop F (some L) DT).2.instsOf pre ∧
    (∀ b', b' ≠ pre → I ∉ (runOnLoop F (some L) DT).2.instsOf b') ∧
    (∀ J, J ∈ (runOnLoop F (some L) DT).2.allInsts ↔ J ∈ F.allInsts) ∧
    (runOnLoop F (some L) DT).2.blocks.map (fun B => (B.id, B.term))
      = F.blocks.map (fun B => (B.id, B.term)) := by
  rw [runOnLoop_eq_hoisted F L DT pre hpre]
  simp only
  have hx := mem_scanInsts F L h b I hh hb hreach hI
  have hacc : I.id ∈ collectMovable F L DT := by
    obtain ⟨p, q, hS⟩ := List.append_of_mem hx
    unfold collectMovable scanFrom
    rw [hS, List.foldl_append, List.foldl_cons]
    apply scanFold_subset
    apply scanStep_accepts F L DT L.exitBlocks _ (b, I) _ hsafe
    rw [isLoopInvariant_eq_true_iff]
    refine ⟨hop, fun v hv => ?_⟩
    rcases hops v hv with ⟨c, rfl⟩ | ⟨n, rfl⟩ | ⟨id, rfl, h1, h2⟩
    · simp [operandInvariant]
    · simp [operandInvariant]
    · exact (operandInvariant_inst F L _ id).2 ⟨h1, Or.inl h2⟩
  have hfind := findInst_of_mem F hu b I hI
  have hrec : I ∈ instsWithIds F (collectMovable F L DT) :=
    (mem_instsWithIds F _ I).2 ⟨I.id, hacc, b, hfind⟩
  refine ⟨?_, ?_, ?_, terms_hoisted F pre _ _⟩
  · rw [instsOf_hoisted_pre F pre _ _ hpreB]
    exact List.mem_append_right _ hrec
  · intro b' hb' hmem
    rw [instsOf_hoisted_ne F pre _ _ b' hb'] at hmem
    simp only [List.mem_filter, decide_eq_true_eq] at hmem
    exact hmem.2 hacc
  · intro J
    rw [mem_allInsts_hoisted]
    constructor
    · rintro (h1 | h1)
      · exact h1.1
      · exact instsWithIds_subset F _ J h1.1
    · intro hJ
      by_cases hM : J.id ∈ collectMovable F L DT
      · right
        refine ⟨(mem_instsWithIds F _ J).2 ⟨J.id, hM, ?_⟩, hpreB⟩
        obtain ⟨B, hB, hJB⟩ := (mem_allInsts F J).1 hJ
        cases hf : F.findInst J.id with
        | none => exact absurd rfl (findInstIn_none F.blocks J.id hf B hB J hJB)
        | some p =>
          obtain ⟨b0, K⟩ := p
          obtain ⟨hid, B', hB', -, hK⟩ := findInstIn_some F.blocks J.id b0 K hf
          have e : K = J := eq_of_id_eq F hu K J ((mem_allInsts F K).2 ⟨B', hB', hK⟩) hJ hid
          exact ⟨b0, by rw [e]⟩
      · exact Or.inl ⟨hJ, hM⟩

/-- C6 on `hoistExample`: instruction 12 (`arg0 * arg1`) of the loop body is hoisted. -/
theorem runOnLoop_hoists_invariant_witness :
    ins 12 Opcode.binop [Value.arg 0, Value.arg 1]
        ∈ (runOnLoop hoistExample (some hoistLoop) hoistDT).2.instsOf 3 ∧
    (∀ b', b' ≠ 3 → ins 12 Opcode.binop [Value.arg 0, Value.arg 1]
        ∉ (runOnLoop hoistExample (some hoistLoop) hoistDT).2.instsOf b') ∧
    (∀ J, J ∈ (runOnLoop hoistExample (some hoistLoop) hoistDT).2.allInsts
        ↔ J ∈ hoistExample.allInsts) ∧
    (runOnLoop hoistExample (some hoistLoop) hoistDT).2.blocks.map (fun B => (B.id, B.term))
      = hoistExample.blocks.map (fun B => (B.id, B.term)) :=
  runOnLoop_hoists_invariant hoistExample hoistLoop hoistDT 4 3 4
    (ins 12 Opcode.binop [Value.arg 0, Value.arg 1]) (by unfold UniqueIds; decide) rfl rfl
    (by decide) (by decide) Relation.ReflTransGen.refl (by decide) rfl
    (by
      intro v hv
      simp only [ins, List.mem_cons, List.mem_singleton, List.not_mem_nil, or_false] at hv
      rcases hv with rfl | rfl
      · exact Or.inr (Or.inl ⟨0, rfl⟩)
      · exact Or.inr (Or.inl ⟨1, rfl⟩))
    (by decide)

/-- C6 as stated fails on `hoistExample`: instruction 16 (`1 + 2`) is a binary operation
of the loop body whose operands are constants and the loop has a preheader, yet after
`runOnLoop` it is still in the loop body and not in the preheader: the merge node 18 of
the header consumes it, so `isSafeToMove` rejects it. -/
theorem runOnLoop_keeps_value_used_by_loop_phi :
    hoistLoop.preheader = some 3 ∧ 4 ∈ hoistLoop.blocks ∧
    ins 16 Opcode.binop [Value.const 1, Value.const 2] ∈ hoistExample.instsOf 4 ∧
    (ins 16 Opcode.binop [Value.const 1, Value.const 2]).op = Opcode.binop ∧
    (∀ v ∈ (ins 16 Opcode.binop [Value.const 1, Value.const 2]).operands,
      ∃ c, v = Value.const c) ∧
    ins 16 Opcode.binop [Value.const 1, Value.const 2]
      ∉ (runOnLoop hoistExample (some hoistLoop) hoistDT).2.instsOf 3 ∧
    ins 16 Opcode.binop [Value.const 1, Value.const 2]
      ∈ (runOnLoop hoistExample (some hoistLoop) hoistDT).2.instsOf 4 := by
  refine ⟨rfl, by decide, by decide, rfl, ?_, by decide, by decide⟩
  intro v hv
  simp only [ins, List.mem_cons, List.mem_singleton, List.not_mem_nil, or_false] at hv
  rcases hv with rfl | rfl
  · exact ⟨1, rfl⟩
  · exact ⟨2, rfl⟩

end HoistedFacts

section Idempotence

open IR LICMopt Examples

/-- Moving instructions that do not use a value leaves the users of the value as they
were. -/
theorem users_hoisted (F : Func) (pre : Nat) (M : List Nat) (recs : List Instr) (id : Nat)
    (h1 : ∀ J ∈ F.allInsts, J.id ∈ M → Value.inst id ∉ J.operands)
    (h2 : ∀ r ∈ recs, Value.inst id ∉ r.operands) :
    (hoisted F pre M recs).users id = F.users id := by
  unfold Func.users hoisted
  simp only [List.flatMap_map]
  apply List.flatMap_congr
  intro B hB
  unfold Block.usersOf
  simp only
  congr 2
  rw [List.filter_append, List.filter_filter]
  have e1 : (if B.id == pre then recs else []).filter
      (fun I => decide (Value.inst id ∈ I.operands)) = [] := by
    rw [List.filter_eq_nil_iff]
    intro a ha
    split at ha
    · simpa using h2 a ha
    · simp at ha
  rw [e1, List.append_nil]
  apply List.filter_congr
  intro a ha
  by_cases hu : Value.inst id ∈ a.operands
  · have hM : a.id ∉ M := fun hm => h1 a ((mem_allInsts F a).2 ⟨B, hB, ha⟩) hm hu
    simp [hu, hM]
  · simp [hu]

theorem isSafeToMove_congr (F G : Func) (L : Loop) (DT : DominatorTree) (EB : List Nat)
    (parent : Nat) (I : Instr) (h : G.users I.id = F.users I.id) :
    isSafeToMove G L DT EB parent I = isSafeToMove F L DT EB parent I := by
  unfold isSafeToMove deadOutsideLoopControll definedOnlyOnceControll dominatesAllUsesControll
  rw [h]

theorem scanBlocks_hoisted (F : Func) (L : Loop) (pre : Nat) (M : List Nat)
    (recs : List Instr) : scanBlocks (hoisted F pre M recs) L = scanBlocks F L := by
  unfold scanBlocks
  cases L.header with
  | none => rfl
  | some h => simp only [depth_first_hoisted]

theorem mem_scanInsts_char (F : Func) (L : Loop) (x : Nat × Instr) :
    x ∈ scanInsts F L ↔ x.1 ∈ scanBlocks F L ∧ x.2 ∈ F.instsOf x.1 := by
  unfold scanInsts
  simp only [List.mem_flatMap, List.mem_map]
  constructor
  · rintro ⟨b, hb, I, hI, rfl⟩
    exact ⟨hb, hI⟩
  · rintro ⟨h1, h2⟩
    exact ⟨x.1, h1, x.2, h2, rfl⟩

theorem scanBlocks_subset (F : Func) (L : Loop) (b : Nat) (h : b ∈ scanBlocks F L) :
    b ∈ L.blocks := by
  unfold scanBlocks at h
  split at h
  · simp only [List.mem_filter, Loop.contains, decide_eq_true_eq] at h
    exact h.2
  · simp at h

/-- After the move, the scan visits the instructions it visited before that were not
accepted, when the preheader is not a block of the loop. -/
theorem mem_scanInsts_hoisted (F : Func) (L : Loop) (pre : Nat) (M : List Nat)
    (recs : List Instr) (hpre : pre ∉ L.blocks) (x : Nat × Instr)
    (hx : x ∈ scanInsts (hoisted F pre M recs) L) : x ∈ scanInsts F L ∧ x.2.id ∉ M := by
  rw [mem_scanInsts_char, scanBlocks_hoisted] at hx
  have hb := scanBlocks_subset F L x.1 hx.1
  have hne : x.1 ≠ pre := fun h => hpre (h ▸ hb)
  rw [instsOf_hoisted_ne F pre M recs x.1 hne] at hx
  simp only [List.mem_filter, decide_eq_true_eq] at hx
  exact ⟨(mem_scanInsts_char F L x).2 ⟨hx.1, hx.2.1⟩, hx.2.2⟩

/-- An instruction of the loop that uses an instruction of the loop is accepted only
after the instruction it uses. -/
theorem accepted_user_has_accepted_operand (F : Func) (L : Loop) (DT : DominatorTree)
    (hu : UniqueIds F) (b : Nat) (I : Instr) (hb : b ∈ L.blocks) (hI : I ∈ F.instsOf b)
    (J : Instr) (hJ : J ∈ F.allInsts) (hJM : J.id ∈ collectMovable F L DT)
    (huse : Value.inst I.id ∈ J.operands) : I.id ∈ collectMovable F L DT := by
  obtain ⟨p, x, q, hS, hid, hinv, -⟩ := collectMovable_accepted F L DT J.id hJM
  have hx : x ∈ scanInsts F L := by rw [hS]; simp
  have hxa := instsOf_subset_allInsts F x.1 x.2 (mem_scanInsts_iff F L x hx).2
  have e : x.2 = J := eq_of_id_eq F hu x.2 J hxa hJ hid
  rw [isLoopInvariant_eq_true_iff, e] at hinv
  have h1 := (operandInvariant_inst F L _ I.id).1 (hinv.2 _ huse)
  have hc : containsInst F L I.id = true := by
    simp [containsInst, findInst_of_mem F hu b I hI, Loop.contains, hb]
  rcases h1.2 with h2 | h2
  · rw [hc] at h2; exact absurd h2 (by decide)
  · unfold collectMovable scanFrom
    rw [hS, List.foldl_append]
    exact scanFold_subset F L DT L.exitBlocks _ _ _ h2

theorem collectMovable_eq_nil (G : Func) (L : Loop) (DT : DominatorTree)
    (h : ∀ x ∈ scanInsts G L, ¬ (isLoopInvariant G L [] x.2 = true ∧
      isSafeToMove G L DT L.exitBlocks x.1 x.2 = true)) : collectMovable G L DT = [] := by
  unfold collectMovable scanFrom
  apply foldl_fixed
  intro x hx
  unfold scanStep
  split
  · rename_i hacc
    simp only [Bool.and_eq_true] at hacc
    exact absurd hacc (h x hx)
  · rfl

/-- The scan of the function a first run returns accepts nothing. -/
theorem second_scan_accepts_nothing (F : Func) (L : Loop) (DT : DominatorTree) (pre : Nat)
    (hu : UniqueIds F) (hpl : pre ∉ L.blocks) (hord : DefsVisitedFirst F L) :
    collectMovable
      (hoisted F pre (collectMovable F L DT) (instsWithIds F (collectMovable F L DT))) L DT
      = [] := by
  have hrecs := instsWithIds_id F (collectMovable F L DT)
  apply collectMovable_eq_nil
  rintro x hx ⟨hinv, hsafe⟩
  obtain ⟨hxF, hxM⟩ := mem_scanInsts_hoisted F L pre _ _ hpl x hx
  have hxm := mem_scanInsts_iff F L x hxF
  have husers : (hoisted F pre (collectMovable F L DT)
      (instsWithIds F (collectMovable F L DT))).users x.2.id = F.users x.2.id := by
    apply users_hoisted
    · intro J hJ hJM huse
      exact hxM (accepted_user_has_accepted_operand F L DT hu x.1 x.2 hxm.1 hxm.2 J hJ
        hJM huse)
    · intro r hr huse
      exact hxM (accepted_user_has_accepted_operand F L DT hu x.1 x.2 hxm.1 hxm.2 r
        (instsWithIds_subset F _ r hr) (hrecs r hr) huse)
  rw [isSafeToMove_congr F _ L DT L.exitBlocks x.1 x.2 husers] at hsafe
  refine scan_rejects_for_good F L DT hord x hxF hxM ?_ hsafe
  rw [isLoopInvariant_eq_true_iff] at hinv ⊢
  refine ⟨hinv.1, fun v hv => ?_⟩
  have h1 := hinv.2 v hv
  cases v with
  | const c => simp [operandInvariant]
  | arg n => simp [operandInvariant]
  | inst id =>
    rw [operandInvariant_inst] at h1 ⊢
    by_cases hM : id ∈ collectMovable F L DT
    · exact ⟨accepted_not_phi F L DT hu id hM, Or.inr hM⟩
    · have hf := findInst_hoisted F pre _ _ id hM hrecs
      have e1 : isPhiInst (hoisted F pre (collectMovable F L DT)
          (instsWithIds F (collectMovable F L DT))) id = isPhiInst F id := by
        simp only [isPhiInst, hf]
      have e2 : containsInst (hoisted F pre (collectMovable F L DT)
          (instsWithIds F (collectMovable F L DT))) L id = containsInst F L id := by
        simp only [containsInst, hf]
      rw [e1, e2] at h1
      rcases h1.2 with h2 | h2
      · exact ⟨h1.1, Or.inl h2⟩
      · simp at h2

end Idempotence

section Dominance

open IR LICMopt Examples

theorem LICMopt.PathIn.mono {F : Func} {h : Nat} {S T : List Nat} (hsub : ∀ x ∈ S, x ∈ T) {v : Nat}
    (hp : PathIn F h S v) : PathIn F h T v := by
  induction hp with
  | start => exact PathIn.start
  | step u v _ hu hv ih => exact PathIn.step u v ih (hsub u hu) hv

/-- A `PathIn` is a path in the usual sense. -/
theorem LICMopt.PathIn.toPath {F : Func} {h : Nat} {S : List Nat} {v : Nat} (hp : PathIn F h S v) :
    ∃ p, IsPath F p ∧ p.head? = some h ∧ p.getLast? = some v ∧ ∀ x ∈ p, x ∈ S ∨ x = v := by
  induction hp with
  | start => exact ⟨[h], by simp [IsPath], rfl, rfl, by simp⟩
  | step u v _ hu hv ih =>
    obtain ⟨p, hpath, hhead, hlast, hmem⟩ := ih
    refine ⟨p ++ [v], ?_, ?_, by simp, ?_⟩
    · unfold IsPath at hpath ⊢
      rw [List.chain'_append]
      refine ⟨hpath, by simp, ?_⟩
      intro x hx y hy
      have hxu : x = u := by
        rw [hlast] at hx; simpa using hx.symm
      have hyv : y = v := by simpa using hy.symm
      rw [hxu, hyv]; exact hv
    · cases p with
      | nil => simp at hhead
      | cons a p => simpa using hhead
    · intro x hx
      rcases List.mem_append.mp hx with h1 | h1
      · rcases hmem x h1 with h2 | h2
        · exact Or.inl h2
        · exact Or.inl (h2 ▸ hu)
      · exact Or.inr (by simpa using h1)

theorem append_singleton_eq_append_cons {α : Type} (vis pre post : List α) (b v : α)
    (h : vis ++ [b] = pre ++ v :: post) :
    (post = [] ∧ v = b ∧ pre = vis) ∨ ∃ post', post = post' ++ [b] ∧ vis = pre ++ v :: post' := by
  rcases List.eq_nil_or_concat post with h1 | ⟨post', c, h1⟩
  · subst h1
    have h2 : vis ++ [b] = pre ++ [v] := h
    have := List.append_inj' h2 rfl
    exact Or.inl ⟨rfl, by simpa using this.2.symm, this.1.symm⟩
  · subst h1
    right
    have h2 : vis ++ [b] = (pre ++ v :: post') ++ [c] := by
      rw [h]; simp
    have := List.append_inj' h2 rfl
    have hc : b = c := by simpa using this.2
    subst hc
    exact ⟨post', by simp, this.1⟩

/-- Every block the walk visits is reached from the start block by a path through blocks
visited before it. -/
theorem dfsAux_pathIn (F : Func) (h : Nat) :
    ∀ (fuel : Nat) (stack vis : List Nat), (∀ s ∈ stack, PathIn F h vis s) →
      (∀ pre v post, vis = pre ++ v :: post → PathIn F h pre v) →
      ∀ pre v post, dfsAux F fuel stack vis = pre ++ v :: post → PathIn F h pre v := by
  intro fuel
  induction fuel with
  | zero => intro stack vis _ hQ pre v post hd; exact hQ pre v post (by simpa [dfsAux] using hd)
  | succ n ih =>
    intro stack vis hP hQ pre v post hd
    cases stack with
    | nil => exact hQ pre v post (by simpa [dfsAux] using hd)
    | cons b st =>
      by_cases hb : b ∈ vis
      · simp only [dfsAux, hb, ↓reduceIte] at hd
        exact ih st vis (fun s hs => hP s (List.mem_cons_of_mem _ hs)) hQ pre v post hd
      · simp only [dfsAux, hb, ↓reduceIte] at hd
        have hPb : PathIn F h vis b := hP b (by simp)
        refine ih (F.succsOf b ++ st) (vis ++ [b]) ?_ ?_ pre v post hd
        · intro s hs
          rcases List.mem_append.mp hs with h1 | h1
          · exact PathIn.step b s (hPb.mono (fun x hx => List.mem_append_left _ hx))
              (by simp) h1
          · exact (hP s (List.mem_cons_of_mem _ h1)).mono
              (fun x hx => List.mem_append_left _ hx)
        · intro pre' v' post' hv
          rcases append_singleton_eq_append_cons vis pre' post' b v' hv with
            ⟨-, h2, h3⟩ | ⟨post'', -, h3⟩
          · rw [h2, h3]; exact hPb
          · exact hQ pre' v' post'' h3

/-- A block that dominates a visited block, and is not that block, is visited before it. -/
theorem depth_first_dominator_before (F : Func) (h a b : Nat) (pre post : List Nat)
    (hd : depth_first F h = pre ++ b :: post) (hdom : DominatesFrom F h a b) (hne : a ≠ b) :
    a ∈ pre := by
  have hp : PathIn F h pre b :=
    dfsAux_pathIn F h _ [h] [] (by intro s hs; simp at hs; subst hs; exact PathIn.start)
      (by intro pre v post h; simp at h) pre b post hd
  obtain ⟨p, hpath, hhead, hlast, hmem⟩ := hp.toPath
  rcases hmem a (hdom p hpath hhead hlast) with h1 | h1
  · exact h1
  · exact absurd h1 hne

/-- In a list without duplicates nothing stands both before and after an element. -/
theorem not_before_and_after {α : Type} (l : List α) (hl : l.Nodup) :
    ∀ (p q p' q' : List α) (a x : α), l = p ++ a :: q → l = p' ++ a :: q' →
      x ∈ p' → x ∈ a :: q → False := by
  intro p q p' q' a x h1 h2 hx1 hx2
  rw [h2] at hl
  have hp : p = p' := by
    have hl2 := hl
    rw [← h2, h1] at hl2
    have e : p ++ a :: q = p' ++ a :: q' := by rw [← h1, h2]
    clear h1 h2 hx1 hx2
    induction p generalizing p' with
    | nil =>
      cases p' with
      | nil => rfl
      | cons c p' =>
        simp only [List.nil_append, List.cons_append, List.cons.injEq] at e
        obtain ⟨rfl, e2⟩ := e
        simp only [List.nil_append, List.nodup_cons] at hl2
        exact absurd (by rw [e2]; simp) hl2.1
    | cons c p ih =>
      cases p' with
      | nil =>
        simp only [List.nil_append, List.cons_append, List.cons.injEq] at e
        obtain ⟨rfl, e2⟩ := e
        simp only [List.nil_append, List.nodup_cons] at hl
        exact absurd (by rw [← e2]; simp) hl.1
      | cons c' p' =>
        simp only [List.cons_append, List.cons.injEq] at e
        obtain ⟨rfl, e2⟩ := e
        simp only [List.cons_append, List.nodup_cons] at hl hl2
        rw [ih p' hl.2 hl2.2 e2]
  subst hp
  have hq : q = q' := by
    have e : p ++ a :: q = p ++ a :: q' := by rw [← h1, h2]
    simpa using e
  subst hq
  rw [List.nodup_append] at hl
  exact hl.2.2 hx1 hx2

theorem instsOf_nodup (F : Func) (hu : UniqueIds F) (b : Nat) : (F.instsOf b).Nodup := by
  have hnd : F.allInsts.Nodup := List.Nodup.of_map _ hu
  unfold Func.allInsts at hnd
  rw [List.nodup_flatMap] at hnd
  unfold Func.instsOf Func.findBlock
  split
  · rename_i B hB
    exact hnd.1 B (List.mem_of_find?_eq_some hB)
  · exact List.nodup_nil

theorem scanBlocks_nodup (F : Func) (L : Loop) : (scanBlocks F L).Nodup := by
  unfold scanBlocks
  split
  · exact (depth_first_nodup F _).filter _
  · exact List.nodup_nil

/-- With unique identities the scan visits no instruction twice. -/
theorem scanInsts_nodup (F : Func) (L : Loop) (hu : UniqueIds F) : (scanInsts F L).Nodup := by
  unfold scanInsts
  rw [List.nodup_flatMap]
  constructor
  · intro b _
    exact (instsOf_nodup F hu b).map (fun I J h => by simpa using h)
  · refine (scanBlocks_nodup F L).imp ?_
    intro a b hab x hx1 hx2
    simp only [List.mem_map] at hx1 hx2
    obtain ⟨I, -, rfl⟩ := hx1
    obtain ⟨J, -, hJ⟩ := hx2
    simp only [Prod.mk.injEq] at hJ
    exact hab hJ.1.symm

theorem flatMap_split {α β : Type} (g : α → List β) (r1 r2 : List α) (b : α) :
    (r1 ++ b :: r2).flatMap g = r1.flatMap g ++ (g b ++ r2.flatMap g) := by
  simp [List.flatMap_append]

/-- If every use that is not a merge node is dominated by its definition, the scan visits
definitions before uses. -/
theorem defsVisitedFirst_of_usesDominated (F : Func) (L : Loop) (hu : UniqueIds F)
    (hdom : UsesDominated F L) : DefsVisitedFirst F L := by
  intro pre bi post hS hop id hid hphi x hx hxid
  have hbi : bi ∈ scanInsts F L := by rw [hS]; simp
  have hxS : x ∈ scanInsts F L := by
    rw [hS]; exact List.mem_append_right _ hx
  obtain ⟨hb, hI⟩ := mem_scanInsts_iff F L bi hbi
  obtain ⟨hbd, hD⟩ := mem_scanInsts_iff F L x hxS
  have hfind := findInst_of_mem F hu x.1 x.2 hD
  rw [hxid] at hfind
  have hDop : x.2.op ≠ Opcode.phi := by
    simpa [isPhiInst, hfind] using hphi
  have hnd := scanInsts_nodup F L hu
  -- the header exists, since the scan is not empty
  cases hh : L.header with
  | none => simp [scanInsts, scanBlocks, hh] at hbi
  | some h =>
    have hb1 : bi.1 ∈ scanBlocks F L := ((mem_scanInsts_char F L bi).1 hbi).1
    have hx1 : x.1 ∈ scanBlocks F L := ((mem_scanInsts_char F L x).1 hxS).1
    obtain ⟨s1, s2, hs⟩ := List.append_of_mem hb1
    rcases hdom h hh bi.1 hb bi.2 hI hop id hid x.1 x.2 hfind hDop hbd with
      ⟨hsame, l1, l2, l3, hl⟩ | ⟨hne, hd⟩
    · -- same block: the definition stands earlier in the block
      have e : scanInsts F L =
          (s1.flatMap (fun b => (F.instsOf b).map (fun I => (b, I))) ++
            (l1 ++ x.2 :: l2).map (fun I => (bi.1, I))) ++
            (bi.1, bi.2) :: (l3.map (fun I => (bi.1, I)) ++
              s2.flatMap (fun b => (F.instsOf b).map (fun I => (b, I)))) := by
        unfold scanInsts
        rw [hs, flatMap_split, hl]
        simp
      have hxmem : x ∈ s1.flatMap (fun b => (F.instsOf b).map (fun I => (b, I))) ++
            (l1 ++ x.2 :: l2).map (fun I => (bi.1, I)) := by
        apply List.mem_append_right
        rw [← hsame]
        simp
      exact not_before_and_after _ hnd pre post _ _ bi x hS (by simpa using e) hxmem hx
    · -- another block: it dominates the block of the use, so it is visited before
      have hsb : scanBlocks F L = (depth_first F h).filter (fun b => L.contains b) := by
        simp [scanBlocks, hh]
      have hbR : bi.1 ∈ depth_first F h := by
        rw [hsb] at hb1; exact (List.mem_filter.mp hb1).1
      obtain ⟨r1, r2, hr⟩ := List.append_of_mem hbR
      have hxr1 : x.1 ∈ r1 := depth_first_dominator_before F h x.1 bi.1 r1 r2 hr hd hne
      have hfil : scanBlocks F L =
          r1.filter (fun b => L.contains b) ++ bi.1 :: r2.filter (fun b => L.contains b) := by
        rw [hsb, hr, List.filter_append, List.filter_cons]
        simp [Loop.contains, hb]
      obtain ⟨i1, i2, hi⟩ := List.append_of_mem hI
      have e : scanInsts F L =
          ((r1.filter (fun b => L.contains b)).flatMap
              (fun b => (F.instsOf b).map (fun I => (b, I))) ++
            i1.map (fun I => (bi.1, I))) ++
            (bi.1, bi.2) :: (i2.map (fun I => (bi.1, I)) ++
              (r2.filter (fun b => L.contains b)).flatMap
                (fun b => (F.instsOf b).map (fun I => (b, I)))) := by
        unfold scanInsts
        rw [hfil, flatMap_split, hi]
        simp
      have hxmem : x ∈ (r1.filter (fun b => L.contains b)).flatMap
              (fun b => (F.instsOf b).map (fun I => (b, I))) ++
            i1.map (fun I => (bi.1, I)) := by
        apply List.mem_append_left
        simp only [List.mem_flatMap, List.mem_filter, List.mem_map]
        exact ⟨x.1, ⟨hxr1, by simpa [Loop.contains] using hbd⟩, x.2, hD, rfl⟩
      exact not_before_and_after _ hnd pre post _ _ bi x hS (by simpa using e) hxmem hx

end Dominance

section IdempotenceOfHoisting

open IR LICMopt Examples

theorem beforeCheck_sound (D I : Instr) (l : List Instr) (h : beforeCheck D I l = true) :
    Before D I l := by
  unfold beforeCheck at h
  have hmem := of_decide_eq_true h
  have hsplit := List.takeWhile_append_dropWhile (fun J => decide (J ≠ D)) l
  cases hd : l.dropWhile (fun J => decide (J ≠ D)) with
  | nil => rw [hd] at hmem; simp at hmem
  | cons J rest =>
    have hJ : J = D := by
      have := List.head_dropWhile_not (fun J => decide (J ≠ D)) l (by rw [hd]; simp)
      simp only [hd, List.head_cons] at this
      simpa using this
    rw [hd] at hmem hsplit
    simp only [List.tail_cons] at hmem
    obtain ⟨l2, l3, hr⟩ := List.append_of_mem hmem
    refine ⟨l.takeWhile (fun J => decide (J ≠ D)), l2, l3, ?_⟩
    rw [hJ, hr] at hsplit
    rw [List.append_assoc, List.cons_append]
    exact hsplit.symm

/-- A header dominates every block entered through it. -/
theorem dominatesFrom_header (F : Func) (h b : Nat) : DominatesFrom F h h b := by
  intro p _ hhead _
  cases p with
  | nil => simp at hhead
  | cons a p =>
    have : a = h := by simpa using hhead
    simp [this]

theorem usesDominated_of_check (F : Func) (L : Loop) (h : Nat) (hh : L.header = some h)
    (hc : usesDominatedCheck F L h = true) : UsesDominated F L := by
  intro h' hh' b hb I hI hop id hid bd D hfind hDop hbd
  have e : h' = h := by rw [hh] at hh'; exact (Option.some.inj hh').symm
  subst e
  unfold usesDominatedCheck at hc
  rw [List.all_eq_true] at hc
  have h1 := hc b hb
  rw [List.all_eq_true] at h1
  have h2 := h1 I hI
  simp only [Bool.or_eq_true, decide_eq_true_eq, hop, false_or] at h2
  rw [List.all_eq_true] at h2
  have h3 := h2 (Value.inst id) hid
  simp only [hfind, Bool.or_eq_true, decide_eq_true_eq, hDop, false_or, Bool.and_eq_true,
    Bool.not_eq_true', Loop.contains, decide_eq_false_iff_not, hbd, not_true_eq_false] at h3
  rcases h3 with ⟨h4, h5⟩ | ⟨h4, h5⟩
  · exact Or.inl ⟨h4, beforeCheck_sound D I _ h5⟩
  · exact Or.inr ⟨h4, h5 ▸ dominatesFrom_header F h' b⟩

/-- C7. Hoisting is idempotent.  For a function with unique instruction identities and a
loop whose preheader is not one of its blocks, if every use inside the loop that is not a
merge node is dominated by its definition, then running `runOnLoop` on the result of a
first run returns false and leaves the function as the first run left it: it moves no
instruction. -/
theorem runOnLoop_idempotent (F : Func) (L : Loop) (DT : DominatorTree) (hu : UniqueIds F)
    (hpre : ∀ pre, L.preheader = some pre → pre ∉ L.blocks)
    (hdom : UsesDominated F L) :
    runOnLoop (runOnLoop F (some L) DT).2 (some L) DT
      = (false, (runOnLoop F (some L) DT).2) := by
  cases hp : L.preheader with
  | none => simp [runOnLoop, hp]
  | some pre =>
    have hord := defsVisitedFirst_of_usesDominated F L hu hdom
    have hnone := second_scan_accepts_nothing F L DT pre hu (hpre pre hp) hord
    rw [runOnLoop_eq_hoisted F L DT pre hp]
    simp only [runOnLoop, hp, hnone, moveAll, List.foldl_nil, List.isEmpty_nil, Bool.not_true]

set_option maxRecDepth 100000 in
/-- C7 on `hoistExample`: the first run moves instructions, the second run moves none
and changes nothing. -/
theorem runOnLoop_idempotent_witness :
    (UniqueIds hoistExample ∧ (∀ pre, hoistLoop.preheader = some pre → pre ∉ hoistLoop.blocks) ∧
      UsesDominated hoistExample hoistLoop) ∧
    (runOnLoop hoistExample (some hoistLoop) hoistDT).1 = true ∧
    runOnLoop (runOnLoop hoistExample (some hoistLoop) hoistDT).2 (some hoistLoop) hoistDT
      = (false, (runOnLoop hoistExample (some hoistLoop) hoistDT).2) := by
  have hu : UniqueIds hoistExample := by unfold UniqueIds; decide
  have hp : ∀ pre, hoistLoop.preheader = some pre → pre ∉ hoistLoop.blocks := by
    intro pre h
    have : pre = 3 := by simpa [hoistLoop] using h.symm
    subst this
    decide
  have hd : UsesDominated hoistExample hoistLoop :=
    usesDominated_of_check hoistExample hoistLoop 4 rfl (by decide)
  exact ⟨⟨hu, hp, hd⟩, by decide, runOnLoop_idempotent hoistExample hoistLoop hoistDT hu hp hd⟩

end IdempotenceOfHoisting

section MergeNodes

open IR LICMopt Examples

theorem isLoopInvariant_of_phi (F : Func) (L : Loop) (M : List Nat) (I : Instr)
    (h : I.op = Opcode.phi) : isLoopInvariant F L M I = false := by
  simp [isLoopInvariant, h]

theorem isLoopInvariant_of_phi_operand (F : Func) (L : Loop) (M : List Nat) (I : Instr)
    (id : Nat) (hid : Value.inst id ∈ I.operands) (hphi : isPhiInst F id = true) :
    isLoopInvariant F L M I = false := by
  cases h : isLoopInvariant F L M I with
  | false => rfl
  | true =>
    have h2 := ((isLoopInvariant_eq_true_iff F L M I).1 h).2 _ hid
    have h3 := ((operandInvariant_inst F L M id).1 h2).1
    rw [hphi] at h3
    exact absurd h3 (by decide)

/-- An instruction of the function is found under its identity. -/
theorem findInst_of_mem_allInsts (F : Func) (hu : UniqueIds F) (I : Instr)
    (hI : I ∈ F.allInsts) : ∃ b, F.findInst I.id = some (b, I) := by
  cases h : F.findInst I.id with
  | none =>
    obtain ⟨B, hB, hIB⟩ := (mem_allInsts F I).1 hI
    exact absurd rfl (findInstIn_none F.blocks I.id h B hB I hIB)
  | some p =>
    obtain ⟨b, J⟩ := p
    obtain ⟨hid, B, hB, -, hJB⟩ := findInstIn_some F.blocks I.id b J h
    have hJ : J ∈ F.allInsts := (mem_allInsts F J).2 ⟨B, hB, hJB⟩
    have : J = I := eq_of_id_eq F hu J I hJ hI hid
    exact ⟨b, by rw [this]⟩

/-- The scan accepts no merge node. -/
theorem phi_not_accepted (F : Func) (L : Loop) (DT : DominatorTree) (hu : UniqueIds F)
    (I : Instr) (hI : I ∈ F.allInsts) (hphi : I.op = Opcode.phi) :
    I.id ∉ collectMovable F L DT := by
  intro hmem
  have h1 := accepted_not_phi F L DT hu I.id hmem
  obtain ⟨b, hb⟩ := findInst_of_mem_allInsts F hu I hI
  simp [isPhiInst, hb, hphi] at h1

/-- The instructions the moving loop places in the preheader are no merge nodes. -/
theorem instsWithIds_not_phi (F : Func) (L : Loop) (DT : DominatorTree) (hu : UniqueIds F)
    (J : Instr) (hJ : J ∈ instsWithIds F (collectMovable F L DT)) : J.op ≠ Opcode.phi := by
  obtain ⟨id, hid, b, hb⟩ := (mem_instsWithIds F _ J).1 hJ
  have h1 := accepted_not_phi F L DT hu id hid
  simpa [isPhiInst, hb] using h1

theorem filter_phi_hoisted (l recs : List Instr) (M : List Nat)
    (h1 : ∀ I ∈ l, I.op = Opcode.phi → I.id ∉ M) (h2 : ∀ J ∈ recs, J.op ≠ Opcode.phi) :
    (l.filter (fun I => decide (I.id ∉ M)) ++ recs).filter (fun I => decide (I.op = Opcode.phi))
      = l.filter (fun I => decide (I.op = Opcode.phi)) := by
  rw [List.filter_append, List.filter_filter]
  have e1 : recs.filter (fun I => decide (I.op = Opcode.phi)) = [] := by
    rw [List.filter_eq_nil_iff]
    intro J hJ
    simpa using h2 J hJ
  rw [e1, List.append_nil]
  apply List.filter_congr
  intro I hI
  by_cases hp : I.op = Opcode.phi
  · simp [hp, h1 I hI hp]
  · simp [hp]

/-- C11. A merge node is never classified loop-invariant, whatever its operands and
whatever has been accepted so far; an instruction with a merge node among its direct
operands is never classified loop-invariant; and, in a function with unique instruction
identities, `runOnLoop` accepts no merge node and moves none: every block holds the same
merge nodes in the same order after the call as before. -/
theorem phi_never_invariant_nor_moved (F : Func) (L : Loop) (DT : DominatorTree)
    (hu : UniqueIds F) :
    (∀ M I, I.op = Opcode.phi → isLoopInvariant F L M I = false) ∧
    (∀ M I id, Value.inst id ∈ I.operands → isPhiInst F id = true →
      isLoopInvariant F L M I = false) ∧
    (∀ I ∈ F.allInsts, I.op = Opcode.phi → I.id ∉ collectMovable F L DT) ∧
    (runOnLoop F (some L) DT).2.blocks.map
        (fun B => (B.id, B.insts.filter (fun I => decide (I.op = Opcode.phi))))
      = F.blocks.map (fun B => (B.id, B.insts.filter (fun I => decide (I.op = Opcode.phi)))) := by
  refine ⟨fun M I h => isLoopInvariant_of_phi F L M I h,
    fun M I id h1 h2 => isLoopInvariant_of_phi_operand F L M I id h1 h2,
    fun I hI hphi => phi_not_accepted F L DT hu I hI hphi, ?_⟩
  cases hp : L.preheader with
  | none => simp [runOnLoop, hp]
  | some pre =>
    rw [runOnLoop_eq_hoisted F L DT pre hp]
    simp only [hoisted, List.map_map]
    apply List.map_congr_left
    intro B hB
    simp only [Function.comp, Prod.mk.injEq, true_and]
    apply filter_phi_hoisted
    · intro I hI hphi
      exact phi_not_accepted F L DT hu I ((mem_allInsts F I).2 ⟨B, hB, hI⟩) hphi
    · intro J hJ
      split at hJ
      · exact instsWithIds_not_phi F L DT hu J hJ
      · simp at hJ

set_option maxRecDepth 100000 in
/-- C11 on `hoistExample`: the run moves instructions, and the merge nodes 10 and 18 of
the header, whose operands 0 are constants, stay where they are. -/
theorem phi_never_invariant_nor_moved_witness :
    UniqueIds hoistExample ∧
    (runOnLoop hoistExample (some hoistLoop) hoistDT).1 = true ∧
    ((∀ M I, I.op = Opcode.phi → isLoopInvariant hoistExample hoistLoop M I = false) ∧
    (∀ M I id, Value.inst id ∈ I.operands → isPhiInst hoistExample id = true →
      isLoopInvariant hoistExample hoistLoop M I = false) ∧
    (∀ I ∈ hoistExample.allInsts, I.op = Opcode.phi →
      I.id ∉ collectMovable hoistExample hoistLoop hoistDT) ∧
    (runOnLoop hoistExample (some hoistLoop) hoistDT).2.blocks.map
        (fun B => (B.id, B.insts.filter (fun I => decide (I.op = Opcode.phi))))
      = hoistExample.blocks.map
          (fun B => (B.id, B.insts.filter (fun I => decide (I.op = Opcode.phi))))) := by
  have hu : UniqueIds hoistExample := by unfold UniqueIds; decide
  exact ⟨hu, by decide, phi_never_invariant_nor_moved hoistExample hoistLoop hoistDT hu⟩

end MergeNodes

section PreheaderLayout

open IR LICMopt Examples

/-- An accepted identity names an instruction the scan visited. -/
theorem accepted_visited (F : Func) (L : Loop) (DT : DominatorTree) (id : Nat)
    (h : id ∈ collectMovable F L DT) :
    ∃ b ∈ L.blocks, ∃ I ∈ F.instsOf b, I.id = id := by
  obtain ⟨pre, x, post, hS, hid, -, -⟩ := collectMovable_accepted F L DT id h
  have hx : x ∈ scanInsts F L := by rw [hS]; simp
  obtain ⟨hb, hI⟩ := mem_scanInsts_iff F L x hx
  exact ⟨x.1, hb, x.2, hI, hid⟩

/-- An instruction with an accepted identity sits in a block of the loop. -/
theorem accepted_block_in_loop (F : Func) (L : Loop) (DT : DominatorTree) (hu : UniqueIds F)
    (B : Block) (hB : B ∈ F.blocks) (I : Instr) (hI : I ∈ B.insts)
    (h : I.id ∈ collectMovable F L DT) : B.id ∈ L.blocks := by
  obtain ⟨b, hb, J, hJ, hid⟩ := accepted_visited F L DT I.id h
  obtain ⟨B2, hB2, hid2, hJB⟩ := instsOf_mem F b J hJ
  have hIJ : J = I :=
    eq_of_id_eq F hu J I ((mem_allInsts F J).2 ⟨B2, hB2, hJB⟩) ((mem_allInsts F I).2 ⟨B, hB, hI⟩) hid
  rw [hIJ] at hJB
  have : B2 = B := block_eq_of_mem F hu B2 B hB2 hB I hJB hI
  rw [← this, hid2]; exact hb

theorem instsWithIds_ids (F : Func) :
    ∀ (M : List Nat), (∀ id ∈ M, ∃ p, F.findInst id = some p) →
      (instsWithIds F M).map (fun I => I.id) = M := by
  intro M
  induction M with
  | nil => intro _; rfl
  | cons id M ih =>
    intro h
    obtain ⟨p, hp⟩ := h id (by simp)
    have hid : p.2.id = id := (findInstIn_some F.blocks id p.1 p.2 hp).1
    have ih2 := ih (fun i hi => h i (List.mem_cons_of_mem _ hi))
    unfold instsWithIds at ih2 ⊢
    simp [List.filterMap_cons, hp, hid, ih2]

/-- The instructions found under the accepted identities carry exactly these identities,
in the order of acceptance. -/
theorem accepted_ids (F : Func) (L : Loop) (DT : DominatorTree) (hu : UniqueIds F) :
    (instsWithIds F (collectMovable F L DT)).map (fun I => I.id) = collectMovable F L DT := by
  apply instsWithIds_ids
  intro id hid
  obtain ⟨b, -, I, hI, hid2⟩ := accepted_visited F L DT id hid
  exact ⟨(b, I), hid2 ▸ findInst_of_mem F hu b I hI⟩

/-- C12. After `runOnLoop` on a loop with a preheader that is not one of its blocks, in a
function with unique instruction identities: the blocks are the former blocks, in order and
with their terminators; the preheader holds its former instructions followed by the
accepted instructions in the order in which the scan accepted them, all before its
terminator; every other block holds its former instructions without the accepted ones, in
their former order; and every accepted instruction comes from a block of the loop, which
is not the preheader, so it no longer appears in its original block. -/
theorem runOnLoop_preheader_layout (F : Func) (L : Loop) (DT : DominatorTree) (pre : Nat)
    (hu : UniqueIds F) (hp : L.preheader = some pre) (hpre : pre ∉ L.blocks) :
    (runOnLoop F (some L) DT).2.blocks = F.blocks.map (fun B =>
        { B with insts :=
            if B.id = pre then B.insts ++ instsWithIds F (collectMovable F L DT)
            else B.insts.filter (fun I => decide (I.id ∉ collectMovable F L DT)) }) ∧
    (instsWithIds F (collectMovable F L DT)).map (fun I => I.id) = collectMovable F L DT ∧
    (∀ J ∈ instsWithIds F (collectMovable F L DT), ∃ b ∈ L.blocks, J ∈ F.instsOf b) ∧
    (∀ B ∈ F.blocks, ∀ I ∈ B.insts, I.id ∈ collectMovable F L DT →
      B.id ∈ L.blocks ∧ B.id ≠ pre) := by
  have hloop : ∀ B ∈ F.blocks, ∀ I ∈ B.insts, I.id ∈ collectMovable F L DT →
      B.id ∈ L.blocks ∧ B.id ≠ pre := by
    intro B hB I hI hM
    have := accepted_block_in_loop F L DT hu B hB I hI hM
    exact ⟨this, fun e => hpre (e ▸ this)⟩
  refine ⟨?_, ?_, ?_, hloop⟩
  · rw [runOnLoop_eq_hoisted F L DT pre hp]
    simp only [hoisted]
    apply List.map_congr_left
    intro B hB
    by_cases hBp : B.id = pre
    · have hkeep : B.insts.filter (fun I => decide (I.id ∉ collectMovable F L DT)) = B.insts := by
        rw [List.filter_eq_self]
        intro I hI
        simp only [decide_eq_true_eq]
        intro hM
        exact (hloop B hB I hI hM).2 hBp
      rw [hkeep]
      simp [hBp]
    · simp [hBp]
  · exact accepted_ids F L DT hu
  · intro J hJ
    obtain ⟨id, hid, b, hb⟩ := (mem_instsWithIds F _ J).1 hJ
    obtain ⟨b2, hb2, I, hI, hid2⟩ := accepted_visited F L DT id hid
    have := findInst_of_mem F hu b2 I hI
    rw [hid2, hb] at this
    simp only [Option.some.injEq, Prod.mk.injEq] at this
    exact ⟨b2, hb2, this.2 ▸ hI⟩

set_option maxRecDepth 100000 in
/-- C12 on `hoistExample`: the scan accepts 12 and then 13; the preheader 3 holds its two
former instructions followed by 12 and 13, and the header 4 keeps its other
instructions in order. -/
theorem runOnLoop_preheader_layout_witness :
    (UniqueIds hoistExample ∧ hoistLoop.preheader = some 3 ∧ 3 ∉ hoistLoop.blocks) ∧
    collectMovable hoistExample hoistLoop hoistDT = [12, 13] ∧
    (runOnLoop hoistExample (some hoistLoop) hoistDT).2.instsOf 3 =
      [phi2 5 (Value.const 0) 1 (Value.const 1) 2,
       ins 6 Opcode.binop [Value.arg 0, Value.const 1],
       ins 12 Opcode.binop [Value.arg 0, Value.arg 1],
       ins 13 Opcode.binop [Value.inst 12, Value.inst 6]] ∧
    (runOnLoop hoistExample (some hoistLoop) hoistDT).2.instsOf 4 =
      [phi2 10 (Value.const 0) 3 (Value.inst 11) 5,
       phi2 18 (Value.const 0) 3 (Value.inst 16) 5,
       ins 15 Opcode.binop [Value.inst 5, Value.const 1],
       ins 16 Opcode.binop [Value.const 1, Value.const 2]] ∧
    ((runOnLoop hoistExample (some hoistLoop) hoistDT).2.blocks = hoistExample.blocks.map (fun B =>
        { B with insts :=
            (if B.id = 3 then B.insts ++ instsWithIds hoistExample
              (collectMovable hoistExample hoistLoop hoistDT)
            else B.insts.filter
              (fun I => decide (I.id ∉ collectMovable hoistExample hoistLoop hoistDT))) }) ∧
    (instsWithIds hoistExample (collectMovable hoistExample hoistLoop hoistDT)).map (fun I => I.id)
      = collectMovable hoistExample hoistLoop hoistDT ∧
    (∀ J ∈ instsWithIds hoistExample (collectMovable hoistExample hoistLoop hoistDT),
      ∃ b ∈ hoistLoop.blocks, J ∈ hoistExample.instsOf b) ∧
    (∀ B ∈ hoistExample.blocks, ∀ I ∈ B.insts,
      I.id ∈ collectMovable hoistExample hoistLoop hoistDT →
      B.id ∈ hoistLoop.blocks ∧ B.id ≠ 3)) := by
  have hu : UniqueIds hoistExample := by unfold UniqueIds; decide
  exact ⟨⟨hu, rfl, by decide⟩, by decide, by decide, by decide,
    runOnLoop_preheader_layout hoistExample hoistLoop hoistDT 3 hu rfl (by decide)⟩

end PreheaderLayout

section ChangeReport

open IR LICMopt Examples

/-- The instructions of the preheader after a run on a loop whose preheader is a block of
the function outside the loop. -/
theorem instsOf_preheader_after (F : Func) (L : Loop) (DT : DominatorTree) (pre : Nat)
    (hu : UniqueIds F) (hp : L.preheader = some pre) (hpre : pre ∉ L.blocks)
    (hblk : pre ∈ F.blocks.map (fun B => B.id)) :
    (runOnLoop F (some L) DT).2.instsOf pre
      = F.instsOf pre ++ instsWithIds F (collectMovable F L DT) := by
  rw [runOnLoop_eq_hoisted F L DT pre hp]
  simp only []
  rw [instsOf_hoisted_pre F pre _ _ hblk]
  congr 1
  rw [List.filter_eq_self]
  intro I hI
  simp only [decide_eq_true_eq]
  intro hM
  obtain ⟨B, hB, hid, hIB⟩ := instsOf_mem F pre I hI
  have := accepted_block_in_loop F L DT hu B hB I hIB hM
  rw [hid] at this
  exact hpre this

/-- C13. `runOnLoop` returns true exactly when the loop is not null, has a preheader and
the set of accepted (and then moved) instructions is not empty; when it returns false the
function after the call is the function before it, so every block holds exactly its former
instructions; and for a preheader that is a block of the function outside the loop, with
unique instruction identities, it returns true exactly when the preheader holds an
instruction after the call that it did not hold before. -/
theorem runOnLoop_true_iff_moved (F : Func) (Lo : Option Loop) (DT : DominatorTree) :
    ((runOnLoop F Lo DT).1 = true ↔
      ∃ L pre, Lo = some L ∧ L.preheader = some pre ∧ collectMovable F L DT ≠ []) ∧
    ((runOnLoop F Lo DT).1 = false → (runOnLoop F Lo DT).2 = F) ∧
    (∀ L pre, Lo = some L → L.preheader = some pre → UniqueIds F → pre ∉ L.blocks →
      pre ∈ F.blocks.map (fun B => B.id) →
      ((runOnLoop F Lo DT).1 = true ↔
        ∃ J, J ∈ (runOnLoop F Lo DT).2.instsOf pre ∧ J ∉ F.instsOf pre)) := by
  have hfst : (runOnLoop F Lo DT).1 = true ↔
      ∃ L pre, Lo = some L ∧ L.preheader = some pre ∧ collectMovable F L DT ≠ [] := by
    cases Lo with
    | none => simp [runOnLoop]
    | some L =>
      cases hp : L.preheader with
      | none => simp [runOnLoop, hp]
      | some pre =>
        constructor
        · intro h
          refine ⟨L, pre, rfl, hp, ?_⟩
          intro hM
          simp [runOnLoop, hp, hM] at h
        · rintro ⟨L2, pre2, hL2, -, h⟩
          have hL : L2 = L := (Option.some.inj hL2).symm
          subst hL
          cases hM : collectMovable F L2 DT with
          | nil => exact absurd hM h
          | cons a l => simp [runOnLoop, hp, hM]
  refine ⟨hfst, ?_, ?_⟩
  · intro h
    cases Lo with
    | none => rfl
    | some L =>
      cases hp : L.preheader with
      | none => simp [runOnLoop, hp]
      | some pre =>
        have hM : collectMovable F L DT = [] := by
          by_contra hne
          have : (runOnLoop F (some L) DT).1 = true := hfst.2 ⟨L, pre, rfl, hp, hne⟩
          rw [h] at this
          exact absurd this (by decide)
        simp [runOnLoop, hp, hM, moveAll]
  · intro L pre hLo hp hu hpre hblk
    subst hLo
    rw [hfst, instsOf_preheader_after F L DT pre hu hp hpre hblk]
    have hids := accepted_ids F L DT hu
    constructor
    · rintro ⟨L2, pre2, hL2, -, hne⟩
      have hL : L2 = L := (Option.some.inj hL2).symm
      subst hL
      cases hrec : instsWithIds F (collectMovable F L2 DT) with
      | nil => rw [hrec] at hids; exact absurd hids.symm hne
      | cons J rest =>
        refine ⟨J, by simp, ?_⟩
        intro hJ
        obtain ⟨B, hB, hid, hJB⟩ := instsOf_mem F pre J hJ
        have hJM : J.id ∈ collectMovable F L2 DT :=
          instsWithIds_id F _ J (by rw [hrec]; simp)
        have := accepted_block_in_loop F L2 DT hu B hB J hJB hJM
        rw [hid] at this
        exact hpre this
    · rintro ⟨J, hJ, hJn⟩
      refine ⟨L, pre, rfl, hp, ?_⟩
      intro hM
      rw [hM] at hJ
      simp [instsWithIds] at hJ
      exact hJn hJ

set_option maxRecDepth 100000 in
/-- C13 on `hoistExample`: the run returns true and the preheader gains the instruction
12; a run without a loop returns false and changes nothing. -/
theorem runOnLoop_true_iff_moved_witness :
    (runOnLoop hoistExample (some hoistLoop) hoistDT).1 = true ∧
    ins 12 Opcode.binop [Value.arg 0, Value.arg 1]
      ∈ (runOnLoop hoistExample (some hoistLoop) hoistDT).2.instsOf 3 ∧
    ins 12 Opcode.binop [Value.arg 0, Value.arg 1] ∉ hoistExample.instsOf 3 ∧
    runOnLoop hoistExample none hoistDT = (false, hoistExample) ∧
    ((runOnLoop hoistExample (some hoistLoop) hoistDT).1 = true ↔
      ∃ L pre, some hoistLoop = some L ∧ L.preheader = some pre ∧
        collectMovable hoistExample L hoistDT ≠ []) :=
  ⟨by decide, by decide, by decide, rfl,
    (runOnLoop_true_iff_moved hoistExample (some hoistLoop) hoistDT).1⟩

end ChangeReport

section Gates

open IR LoopFusionOpt Examples

theorem getSingleSuccessor_isSome (F : Func) (b : Nat) :
    (getSingleSuccessor F b).isSome = true ↔ ∃ s, F.succsOf b = [s] := by
  unfold getSingleSuccessor
  split
  · rename_i s hs; simp [hs]
  · rename_i h
    simp only [Option.isSome_none, Bool.false_eq_true, false_iff, not_exists]
    intro s hs; exact h s hs

theorem getSingleSuccessor_eq_some (F : Func) (b s : Nat) :
    getSingleSuccessor F b = some s ↔ F.succsOf b = [s] := by
  unfold getSingleSuccessor
  split
  · rename_i t ht; simp [ht]
  · rename_i h
    constructor
    · intro h2; exact absurd h2 (by simp)
    · intro hs; exact absurd hs (h s)

theorem getSinglePredecessor_isSome (F : Func) (b : Nat) :
    (getSinglePredecessor F b).isSome = true ↔ ∃ p, F.preds b = [p] := by
  unfold getSinglePredecessor
  split
  · rename_i p hp; simp [hp]
  · rename_i h
    simp only [Option.isSome_none, Bool.false_eq_true, false_iff, not_exists]
    intro p hp; exact h p hp

theorem getExitBlock_eq_some (L : Loop) (e : Nat) :
    L.getExitBlock = some e ↔ L.exitBlocks = [e] := by
  unfold Loop.getExitBlock
  split
  · rename_i t ht; simp [ht]
  · rename_i h
    constructor
    · intro h2; exact absurd h2 (by simp)
    · intro hs; exact absurd hs (h e)

theorem strutturaAdeguata_iff (F : Func) (L : Loop) :
    strutturaAdeguata F L = true ↔
      (∃ p, L.preheader = some p ∧ ∃ s, F.succsOf p = [s]) ∧
      (∃ l, L.latch = some l ∧ ∃ q, F.preds l = [q]) ∧
      (∃ e, L.exitBlocks = [e]) ∧ (∃ h, L.header = some h) := by
  unfold strutturaAdeguata
  cases hp : L.preheader with
  | none => simp
  | some p =>
    cases hl : L.latch with
    | none => simp
    | some l =>
      cases he : L.getExitBlock with
      | none =>
        simp only [Bool.false_eq_true, false_iff]
        rintro ⟨-, -, ⟨e, hE⟩, -⟩
        rw [(getExitBlock_eq_some L e).2 hE] at he
        exact absurd he (by simp)
      | some e =>
        have hE := (getExitBlock_eq_some L e).1 he
        cases hh : L.header with
        | none => simp
        | some h =>
          have h1 := getSingleSuccessor_isSome F p
          have h2 := getSinglePredecessor_isSome F l
          simp only [Option.some.injEq, exists_eq_left', hE, List.cons.injEq, and_true,
            exists_eq', ← h1, ← h2]
          cases h3 : getSingleSuccessor F p <;> cases h4 : getSinglePredecessor F l <;> simp

/-- C14. The structural check accepts a loop exactly when the loop has a preheader whose
terminator has exactly one successor, a latch with exactly one predecessor edge, exactly
one exit block and a header; and when the check fails for First or for Second,
`isOptimizable` returns false. -/
theorem strutturaAdeguata_iff_canonical (F : Func) (FAM : FunctionAnalysisManager)
    (First Second : Loop) :
    (∀ L, strutturaAdeguata F L = true ↔
      (∃ p, L.preheader = some p ∧ ∃ s, F.succsOf p = [s]) ∧
      (∃ l, L.latch = some l ∧ ∃ q, F.preds l = [q]) ∧
      (∃ e, L.exitBlocks = [e]) ∧ (∃ h, L.header = some h)) ∧
    (strutturaAdeguata F First = false ∨ strutturaAdeguata F Second = false →
      isOptimizable F FAM (some First) (some Second) = false) := by
  refine ⟨fun L => strutturaAdeguata_iff F L, ?_⟩
  rintro (h | h) <;> simp [isOptimizable, h]

/-- C14 on `writeThenReadSame`: the loop `loopA` passes the check, the same loop without
its latch fails it and the pair is rejected. -/
theorem strutturaAdeguata_iff_canonical_witness :
    strutturaAdeguata writeThenReadSame loopA = true ∧
    strutturaAdeguata writeThenReadSame { loopA with latch := none } = false ∧
    isOptimizable writeThenReadSame (exampleFAM 4 0 4 4)
      (some { loopA with latch := none }) (some loopB) = false :=
  ⟨by decide, by decide,
    (strutturaAdeguata_iff_canonical writeThenReadSame (exampleFAM 4 0 4 4)
      { loopA with latch := none } loopB).2 (Or.inl (by decide))⟩

/-- C15. The adjacency gate passes exactly when there is a block `e` that is the exit
point of First and the entry point of Second: the exit point of First is its single exit
block when First has no guard branch and the single successor of its single exit block
when it has one; the entry point of Second is its preheader when Second has no guard
branch and the block holding the guard branch when it has one. -/
theorem adjacentControll_iff (F : Func) (First Second : Loop) :
    adjacentControll F First Second = true ↔
      ∃ e,
        ((First.guardBranch = none ∧ First.exitBlocks = [e]) ∨
          (First.guardBranch ≠ none ∧ ∃ x, First.exitBlocks = [x] ∧ F.succsOf x = [e])) ∧
        ((Second.guardBranch = none ∧ Second.preheader = some e) ∨
          Second.guardBranch = some e) := by
  have hfirst : ∀ e, firstExitBB F First = some e ↔
      ((First.guardBranch = none ∧ First.exitBlocks = [e]) ∨
        (First.guardBranch ≠ none ∧ ∃ x, First.exitBlocks = [x] ∧ F.succsOf x = [e])) := by
    intro e
    unfold firstExitBB Loop.isGuarded
    cases hg : First.guardBranch with
    | none => simp [getExitBlock_eq_some]
    | some g =>
      simp only [Option.isSome_some, ↓reduceIte, reduceCtorEq, false_and, ne_eq,
        not_false_eq_true, true_and, false_or]
      cases hx : First.getExitBlock with
      | none =>
        simp only [reduceCtorEq, false_iff, not_exists, not_and]
        intro x hx2
        rw [(getExitBlock_eq_some First x).2 hx2] at hx
        exact absurd hx (by simp)
      | some x =>
        have hx2 := (getExitBlock_eq_some First x).1 hx
        simp only [getSingleSuccessor_eq_some]
        constructor
        · intro h; exact ⟨x, hx2, h⟩
        · rintro ⟨y, hy, h⟩
          rw [hx2] at hy
          have : x = y := by simpa using hy
          rw [this]; exact h
  have hsecond : ∀ e, secondEntryBB Second = some e ↔
      ((Second.guardBranch = none ∧ Second.preheader = some e) ∨
        Second.guardBranch = some e) := by
    intro e
    unfold secondEntryBB Loop.isGuarded
    cases hg : Second.guardBranch with
    | none => simp
    | some g => simp
  unfold adjacentControll
  constructor
  · intro h
    cases h1 : firstExitBB F First with
    | none => simp [h1] at h
    | some e =>
      cases h2 : secondEntryBB Second with
      | none => simp [h1, h2] at h
      | some s =>
        simp only [h1, h2, decide_eq_true_eq] at h
        subst h
        exact ⟨e, (hfirst e).1 h1, (hsecond e).1 h2⟩
  · rintro ⟨e, h1, h2⟩
    simp [(hfirst e).2 h1, (hsecond e).2 h2]

theorem isOptimizable_gates (F : Func) (FAM : FunctionAnalysisManager) (First Second : Loop)
    (h : isOptimizable F FAM (some First) (some Second) = true) :
    strutturaAdeguata F First = true ∧ strutturaAdeguata F Second = true ∧
      adjacentControll F First Second = true ∧ sameLoopTripCountControll FAM First Second = true ∧
      controlFlowEqControll F FAM First Second = true ∧
      notDependenciesControll F FAM First Second = true := by
  unfold isOptimizable at h
  simp only [Bool.or_eq_true, Bool.not_eq_true', Bool.and_eq_true] at h
  split at h
  · exact absurd h (by decide)
  · rename_i hn
    simp only [not_or, Bool.not_eq_false] at hn
    simp only [Bool.and_eq_true] at h
    exact ⟨hn.1, hn.2, h.1.1.1, h.1.1.2, h.1.2, h.2⟩

/-- Every pair `fuseLoops` was called on passed `isOptimizable` on the function of that
moment. -/
theorem runOnLoopsStep_fuseCalls (FAM : FunctionAnalysisManager) (P : Loop × Loop → Prop)
    (hP : ∀ G A B, isOptimizable G FAM (some A) (some B) = true → P (A, B))
    (s : RunState) (It : Option Loop) (hs : ∀ p ∈ s.fuseCalls, P p) :
    ∀ p ∈ (runOnLoopsStep FAM s It).fuseCalls, P p := by
  unfold runOnLoopsStep
  split
  · exact hs
  · cases It with
    | none => exact hs
    | some Corr =>
      cases hPrec : s.Prec with
      | none => exact hs
      | some Prec =>
        simp only []
        split
        · rename_i hopt
          have hnew : ∀ p ∈ s.fuseCalls ++ [(Prec, Corr)], P p := by
            intro p hp
            rcases List.mem_append.mp hp with h1 | h1
            · exact hs p h1
            · rw [List.mem_singleton.mp h1]; exact hP _ _ _ hopt
          split <;> exact hnew
        · exact hs

theorem runOnLoops_fuseCalls (F : Func) (FAM : FunctionAnalysisManager)
    (Loops : List (Option Loop)) (P : Loop × Loop → Prop)
    (hP : ∀ G A B, isOptimizable G FAM (some A) (some B) = true → P (A, B)) :
    ∀ p ∈ (runOnLoops F FAM Loops).fuseCalls, P p := by
  unfold runOnLoops
  generalize Loops.reverse = l
  have : ∀ (l : List (Option Loop)) (s : RunState), (∀ p ∈ s.fuseCalls, P p) →
      ∀ p ∈ (l.foldl (runOnLoopsStep FAM) s).fuseCalls, P p := by
    intro l
    induction l with
    | nil => intro s hs; exact hs
    | cons a l ih =>
      intro s hs
      exact ih _ (runOnLoopsStep_fuseCalls FAM P hP s a hs)
  exact this l _ (by simp)

theorem sameLoopTripCountControll_iff (FAM : FunctionAnalysisManager) (First Second : Loop) :
    sameLoopTripCountControll FAM First Second = true ↔
      FAM.SE.getBackedgeTakenCount First ≠ SCEV.couldNotCompute ∧
      FAM.SE.getBackedgeTakenCount Second ≠ SCEV.couldNotCompute ∧
      (FAM.SE.getBackedgeTakenCount First).getType
        = (FAM.SE.getBackedgeTakenCount Second).getType ∧
      FAM.SE.isKnownPredicateEQ (FAM.SE.getBackedgeTakenCount First)
        (FAM.SE.getBackedgeTakenCount Second) = true := by
  unfold sameLoopTripCountControll
  simp only []
  split
  · rename_i h
    simp only [Bool.false_eq_true, false_iff, not_and]
    intro h1 h2
    rcases h with h | h
    · exact absurd h h1
    · exact absurd h h2
  · rename_i h
    simp only [not_or] at h
    split
    · rename_i h2
      simp only [Bool.false_eq_true, false_iff, not_and]
      intro _ _ h3
      exact absurd h3 h2
    · rename_i h2
      simp only [ne_eq, Decidable.not_not] at h2
      simp [h.1, h.2, h2]

/-- C16. The trip-count gate passes exactly when neither backedge-taken count is "could
not compute", the two counts have the same type and the equality oracle proves them
equal; when the gate fails `isOptimizable` returns false; and when the oracle does not
prove the two counts equal (as for `N` and `N + 1`) the gate fails and no run of
`runOnLoops` with these analyses calls `fuseLoops` on the pair. -/
theorem sameLoopTripCountControll_gate (FAM : FunctionAnalysisManager) (First Second : Loop) :
    (sameLoopTripCountControll FAM First Second = true ↔
      FAM.SE.getBackedgeTakenCount First ≠ SCEV.couldNotCompute ∧
      FAM.SE.getBackedgeTakenCount Second ≠ SCEV.couldNotCompute ∧
      (FAM.SE.getBackedgeTakenCount First).getType
        = (FAM.SE.getBackedgeTakenCount Second).getType ∧
      FAM.SE.isKnownPredicateEQ (FAM.SE.getBackedgeTakenCount First)
        (FAM.SE.getBackedgeTakenCount Second) = true) ∧
    (sameLoopTripCountControll FAM First Second = false →
      ∀ F, isOptimizable F FAM (some First) (some Second) = false) ∧
    (FAM.SE.isKnownPredicateEQ (FAM.SE.getBackedgeTakenCount First)
        (FAM.SE.getBackedgeTakenCount Second) = false →
      sameLoopTripCountControll FAM First Second = false ∧
      ∀ F Loops, (First, Second) ∉ (runOnLoops F FAM Loops).fuseCalls) := by
  have hopt : sameLoopTripCountControll FAM First Second = false →
      ∀ F, isOptimizable F FAM (some First) (some Second) = false := by
    intro h F
    cases ho : isOptimizable F FAM (some First) (some Second) with
    | false => rfl
    | true =>
      have := (isOptimizable_gates F FAM First Second ho).2.2.2.1
      rw [h] at this
      exact absurd this (by decide)
  refine ⟨sameLoopTripCountControll_iff FAM First Second, hopt, ?_⟩
  intro hne
  have hfalse : sameLoopTripCountControll FAM First Second = false := by
    cases h : sameLoopTripCountControll FAM First Second with
    | false => rfl
    | true =>
      have := ((sameLoopTripCountControll_iff FAM First Second).1 h).2.2.2
      rw [hne] at this
      exact absurd this (by decide)
  refine ⟨hfalse, ?_⟩
  intro F Loops hmem
  have := runOnLoops_fuseCalls F FAM Loops
    (fun p => sameLoopTripCountControll FAM p.1 p.2 = true)
    (fun G A B h => (isOptimizable_gates G FAM A B h).2.2.2.1) _ hmem
  simp only [] at this
  rw [hfalse] at this
  exact absurd this (by decide)

set_option maxRecDepth 100000 in
/-- C16 on `writeThenReadSame`: with the counts `N` and `N + 1` the gate fails,
`runOnLoops` calls `isOptimizable` on the pair, does not call `fuseLoops`, returns false
and leaves the function as it was; with equal counts it calls `fuseLoops` on the pair and
returns true. -/
theorem sameLoopTripCountControll_gate_witness :
    unequalCountsFAM.SE.isKnownPredicateEQ (unequalCountsFAM.SE.getBackedgeTakenCount loopA)
      (unequalCountsFAM.SE.getBackedgeTakenCount loopB) = false ∧
    (sameLoopTripCountControll unequalCountsFAM loopA loopB = false ∧
      ∀ F Loops, (loopA, loopB) ∉ (runOnLoops F unequalCountsFAM Loops).fuseCalls) ∧
    runOnLoops writeThenReadSame unequalCountsFAM [some loopB, some loopA] =
      { F := writeThenReadSame, Prec := some loopB, changed := false,
        optimizableCalls := [(loopA, loopB)], fuseCalls := [], undefined := false } ∧
    (runOnLoops writeThenReadSame (exampleFAM 4 0 4 4) [some loopB, some loopA]).fuseCalls
      = [(loopA, loopB)] ∧
    (runOnLoops writeThenReadSame (exampleFAM 4 0 4 4) [some loopB, some loopA]).changed
      = true :=
  ⟨by decide,
    (sameLoopTripCountControll_gate unequalCountsFAM loopA loopB).2.2 (by decide),
    by decide, by decide, by decide⟩

end Gates

section ControlFlowGate

open IR LoopFusionOpt Examples

/-- C15 on `writeThenReadSame`: First's exit block 3 is Second's preheader; and on
`guardedLoops`: the successor 5 of First's exit block 4 holds Second's guard branch. -/
theorem adjacentControll_iff_witness :
    adjacentControll writeThenReadSame loopA loopB = true ∧
    adjacentControll guardedLoops guardedA guardedB = true ∧
    adjacentControll writeThenReadSame loopB loopA = false ∧
    ∃ e, ((loopA.guardBranch = none ∧ loopA.exitBlocks = [e]) ∨
          (loopA.guardBranch ≠ none ∧
            ∃ x, loopA.exitBlocks = [x] ∧ writeThenReadSame.succsOf x = [e])) ∧
        ((loopB.guardBranch = none ∧ loopB.preheader = some e) ∨
          loopB.guardBranch = some e) :=
  ⟨by decide, by decide, by decide,
    (adjacentControll_iff writeThenReadSame loopA loopB).1 (by decide)⟩

theorem asICmp_eq_some (F : Func) (v : Option Value) (C : Instr) :
    asICmp F v = some C ↔
      ∃ id b pred, v = some (Value.inst id) ∧ F.findInst id = some (b, C) ∧
        C.op = Opcode.icmp pred := by
  unfold asICmp
  constructor
  · intro h
    split at h
    · rename_i id
      split at h
      · rename_i b C2 hf
        split at h
        · rename_i pred hop
          have : C2 = C := by simpa using h
          subst this
          exact ⟨id, b, pred, rfl, hf, hop⟩
        · exact absurd h (by simp)
      · exact absurd h (by simp)
    · exact absurd h (by simp)
  · rintro ⟨id, b, pred, rfl, hf, hop⟩
    simp [hf, hop]

theorem guardEntries_eq_some (F : Func) (First Second : Loop) (E1 E2 : Nat) :
    guardEntries F First Second = some (E1, E2) ↔
      First.guardBranch = some E1 ∧ Second.guardBranch = some E2 ∧
      isConditional F E1 = true ∧ isConditional F E2 = true ∧
      ∃ C1 C2, asICmp F (getCondition F E1) = some C1 ∧
        asICmp F (getCondition F E2) = some C2 ∧
        C1.op = C2.op ∧ C1.operands = C2.operands := by
  unfold guardEntries
  cases h1 : First.guardBranch with
  | none => simp
  | some G1 =>
    cases h2 : Second.guardBranch with
    | none => simp
    | some G2 =>
      simp only [Bool.or_eq_true, Bool.not_eq_true', Option.some.injEq]
      by_cases hc1 : isConditional F G1 = true
      · by_cases hc2 : isConditional F G2 = true
        · simp only [hc1, hc2, Bool.true_eq_false, or_self, ↓reduceIte]
          cases ha : asICmp F (getCondition F G1) with
          | none =>
            simp only [reduceCtorEq, false_iff]
            rintro ⟨rfl, rfl, -, -, C1, C2, hC1, -⟩
            rw [ha] at hC1; exact absurd hC1 (by simp)
          | some C1 =>
            cases hb : asICmp F (getCondition F G2) with
            | none =>
              simp only [reduceCtorEq, false_iff]
              rintro ⟨rfl, rfl, -, -, C1', C2, -, hC2, -⟩
              rw [hb] at hC2; exact absurd hC2 (by simp)
            | some C2 =>
              simp only [isIdenticalTo, Bool.not_eq_true', Bool.and_eq_false_imp,
                decide_eq_true_eq, decide_eq_false_iff_not]
              by_cases hid : C1.op = C2.op ∧ C1.operands = C2.operands
              · have : ¬ (C1.op = C2.op → ¬C1.operands = C2.operands) := fun h => h hid.1 hid.2
                simp only [this, ↓reduceIte, Option.some.injEq, Prod.mk.injEq]
                constructor
                · rintro ⟨rfl, rfl⟩
                  rw [ha, hb]
                  exact ⟨rfl, rfl, hc1, hc2, C1, C2, rfl, rfl, hid.1, hid.2⟩
                · rintro ⟨rfl, rfl, -⟩; exact ⟨rfl, rfl⟩
              · have : (C1.op = C2.op → ¬C1.operands = C2.operands) :=
                  fun h1 h2 => hid ⟨h1, h2⟩
                rw [if_pos this]
                simp only [reduceCtorEq, false_iff]
                rintro ⟨rfl, rfl, -, -, C1', C2', hC1, hC2, h3, h4⟩
                rw [ha] at hC1; rw [hb] at hC2
                have e1 : C1 = C1' := by simpa using hC1
                have e2 : C2 = C2' := by simpa using hC2
                subst e1 e2
                exact hid ⟨h3, h4⟩
        · have hc2' : isConditional F G2 = false := by simpa using hc2
          simp only [hc2', or_true, ↓reduceIte, reduceCtorEq, false_iff]
          rintro ⟨-, rfl, -, h, -⟩
          rw [hc2'] at h; exact absurd h (by decide)
      · have hc1' : isConditional F G1 = false := by simpa using hc1
        simp only [hc1', true_or, ↓reduceIte, reduceCtorEq, false_iff]
        rintro ⟨rfl, -, h, -⟩
        rw [hc1'] at h; exact absurd h (by decide)

/-- The gate passes exactly when the two loops agree on having a guard branch and the two
entries it computes exist and pass the dominance and the post-dominance query: the entries
are the blocks holding the guard branches, with identical comparisons as conditions, when
both loops have a guard branch, and the two headers when neither has one. -/
theorem controlFlowEqControll_iff (F : Func) (FAM : FunctionAnalysisManager)
    (First Second : Loop) :
    controlFlowEqControll F FAM First Second = true ↔
      ∃ E1 E2,
        ((First.isGuarded = true ∧ Second.isGuarded = true ∧
            guardEntries F First Second = some (E1, E2)) ∨
          (First.isGuarded = false ∧ Second.isGuarded = false ∧
            First.header = some E1 ∧ Second.header = some E2)) ∧
        FAM.DT.dominates E1 E2 = true ∧ FAM.PDT.dominates E2 E1 = true := by
  unfold controlFlowEqControll
  cases hg1 : First.isGuarded <;> cases hg2 : Second.isGuarded
  · -- neither loop has a guard branch
    simp only [bne_self_eq_false, Bool.false_eq_true, ↓reduceIte, Bool.and_self,
      false_and, true_and, false_or]
    cases h1 : First.header with
    | none => simp
    | some E1 =>
      cases h2 : Second.header with
      | none => simp
      | some E2 =>
        cases hd : FAM.DT.dominates E1 E2 <;> cases hp : FAM.PDT.dominates E2 E1 <;>
          simp [hd, hp]
        exact ⟨E1, E2, ⟨rfl, rfl⟩, hd, hp⟩
  · simp
  · simp
  · simp only [bne_self_eq_false, Bool.false_eq_true, ↓reduceIte, Bool.and_self,
      true_and, false_and, or_false]
    cases he : guardEntries F First Second with
    | none => simp
    | some e =>
      obtain ⟨E1, E2⟩ := e
      cases hd : FAM.DT.dominates E1 E2 <;> cases hp : FAM.PDT.dominates E2 E1 <;>
        simp [hd, hp]
      exact ⟨E1, E2, ⟨rfl, rfl⟩, hd, hp⟩

/-- C17. The control-flow gate fails when exactly one of the two loops has a guard
branch.  When both have one, the gate passes exactly when both guard branches are
conditional, the condition of each is an integer comparison, the two comparisons have the
same operation (predicate included) and the same operands, and the dominance and
post-dominance queries on the two guard blocks are true.  When neither has one, the result
does not depend on the function, so no guard condition is examined. -/
theorem controlFlowEqControll_guards (F : Func) (FAM : FunctionAnalysisManager)
    (First Second : Loop) :
    (First.isGuarded ≠ Second.isGuarded → controlFlowEqControll F FAM First Second = false) ∧
    (First.isGuarded = true → Second.isGuarded = true →
      (controlFlowEqControll F FAM First Second = true ↔
        ∃ G1 G2, First.guardBranch = some G1 ∧ Second.guardBranch = some G2 ∧
          isConditional F G1 = true ∧ isConditional F G2 = true ∧
          (∃ C1 C2 c1 c2 b1 b2 p1 p2,
            getCondition F G1 = some (Value.inst c1) ∧ F.findInst c1 = some (b1, C1) ∧
            C1.op = Opcode.icmp p1 ∧
            getCondition F G2 = some (Value.inst c2) ∧ F.findInst c2 = some (b2, C2) ∧
            C2.op = Opcode.icmp p2 ∧
            C1.op = C2.op ∧ C1.operands = C2.operands) ∧
          FAM.DT.dominates G1 G2 = true ∧ FAM.PDT.dominates G2 G1 = true)) ∧
    (First.isGuarded = false → Second.isGuarded = false →
      ∀ F2, controlFlowEqControll F2 FAM First Second
        = controlFlowEqControll F FAM First Second) := by
  refine ⟨?_, ?_, ?_⟩
  · intro h
    unfold controlFlowEqControll
    have : (First.isGuarded != Second.isGuarded) = true := by simpa using h
    simp [this]
  · intro h1 h2
    rw [controlFlowEqControll_iff]
    constructor
    · rintro ⟨E1, E2, h | h, hd, hp⟩
      · obtain ⟨hG1, hG2, hc1, hc2, C1, C2, hC1, hC2, hop, hops⟩ :=
          (guardEntries_eq_some F First Second E1 E2).1 h.2.2
        obtain ⟨c1, b1, p1, e1, f1, o1⟩ := (asICmp_eq_some F _ C1).1 hC1
        obtain ⟨c2, b2, p2, e2, f2, o2⟩ := (asICmp_eq_some F _ C2).1 hC2
        exact ⟨E1, E2, hG1, hG2, hc1, hc2,
          ⟨C1, C2, c1, c2, b1, b2, p1, p2, e1, f1, o1, e2, f2, o2, hop, hops⟩, hd, hp⟩
      · rw [h1] at h; exact absurd h.1 (by decide)
    · rintro ⟨G1, G2, hG1, hG2, hc1, hc2,
        ⟨C1, C2, c1, c2, b1, b2, p1, p2, e1, f1, o1, e2, f2, o2, hop, hops⟩, hd, hp⟩
      refine ⟨G1, G2, Or.inl ⟨h1, h2, ?_⟩, hd, hp⟩
      exact (guardEntries_eq_some F First Second G1 G2).2 ⟨hG1, hG2, hc1, hc2, C1, C2,
        (asICmp_eq_some F _ C1).2 ⟨c1, b1, p1, e1, f1, o1⟩,
        (asICmp_eq_some F _ C2).2 ⟨c2, b2, p2, e2, f2, o2⟩, hop, hops⟩
  · intro h1 h2 F2
    unfold controlFlowEqControll
    simp [h1, h2]

/-- C17 on the examples: two guarded loops with identical guard comparisons pass, a
guarded loop paired with an unguarded one fails, and so do two guarded loops whose guard
comparisons differ in an operand. -/
theorem controlFlowEqControll_guards_witness :
    controlFlowEqControll guardedLoops guardedFAM guardedA guardedB = true ∧
    controlFlowEqControll guardedLoops guardedFAM guardedA
      { guardedB with guardBranch := none } = false ∧
    controlFlowEqControll
      (updateInst guardedLoops 31 (fun I => { I with operands := [Value.const 1, Value.arg 1] }))
      guardedFAM guardedA guardedB = false ∧
    (guardedA.isGuarded ≠ ({ guardedB with guardBranch := none } : Loop).isGuarded →
      controlFlowEqControll guardedLoops guardedFAM guardedA
        { guardedB with guardBranch := none } = false) :=
  ⟨by decide, by decide, by decide,
    (controlFlowEqControll_guards guardedLoops guardedFAM guardedA
      { guardedB with guardBranch := none }).1⟩

end ControlFlowGate

section FusionSteps

open IR LoopFusionOpt Examples

/-- What a run of `fuseLoops` that returns a loop went through. -/
theorem fuseLoops_success (F : Func) (FAM : FunctionAnalysisManager) (First Second : Loop)
    (Fused : Loop) (t : FuseState)
    (h : fuseLoops F FAM (some First) (some Second) = some (some Fused, t)) :
    ∃ fp fl fe sp sl se fh fb sh sb fiv siv F2 s3,
      First.preheader = some fp ∧ First.latch = some fl ∧ First.getExitBlock = some fe ∧
      Second.preheader = some sp ∧ Second.latch = some sl ∧ Second.getExitBlock = some se ∧
      getSingleSuccessor F fp = some fh ∧ getSinglePredecessor F fl = some fb ∧
      getSingleSuccessor F sp = some sh ∧ getSinglePredecessor F sl = some sb ∧
      FAM.SE.getInductionVariable First = some fiv ∧
      FAM.SE.getInductionVariable Second = some siv ∧
      fixPhis (unifyInductionVariables F fiv siv) First fp fl fe fb fh sp sl se sh = some F2 ∧
      ((∃ g1 g2, First.guardBranch = some g1 ∧ Second.guardBranch = some g2 ∧
          unifyGuards { F := F2, asserts := [] } g1 g2 fe se = some (GuardStep.done s3)) ∨
        ((First.guardBranch = none ∨ Second.guardBranch = none) ∧
          s3 = { F := F2, asserts := [] })) ∧
      finishFusion s3 First Second fl fb sp sl sb sh se = some (some Fused, t) := by
  unfold fuseLoops at h
  simp only [] at h
  split at h
  · rename_i fp fl fe sp sl se h1 h2 h3 h4 h5 h6
    split at h
    · rename_i fh fb sh sb h7 h8 h9 h10
      split at h
      · rename_i fiv siv h11 h12
        split at h
        · exact absurd h (by simp)
        · rename_i F2 h13
          split at h
          · rename_i g1 g2 h14 h15
            split at h
            · exact absurd h (by simp)
            · exact absurd h (by simp)
            · rename_i s3 h16
              exact ⟨fp, fl, fe, sp, sl, se, fh, fb, sh, sb, fiv, siv, F2, s3,
                h1, h2, h3, h4, h5, h6, h7, h8, h9, h10, h11, h12, h13,
                Or.inl ⟨g1, g2, h14, h15, h16⟩, h⟩
          · rename_i hng
            refine ⟨fp, fl, fe, sp, sl, se, fh, fb, sh, sb, fiv, siv, F2, _,
                h1, h2, h3, h4, h5, h6, h7, h8, h9, h10, h11, h12, h13,
                Or.inr ⟨?_, rfl⟩, h⟩
            cases hg1 : First.guardBranch with
            | none => exact Or.inl rfl
            | some g1 =>
              cases hg2 : Second.guardBranch with
              | none => exact Or.inr rfl
              | some g2 => exact absurd hg2 (hng g1 g2 hg1)
      · exact absurd h (by simp)
    · exact absurd h (by simp)
  · exact absurd h (by simp)

end FusionSteps

section Skeleton

open IR LoopFusionOpt Examples

theorem findBlock_map (F : Func) (f : Block → Block) (hf : ∀ B, (f B).id = B.id) (b : Nat) :
    ({ blocks := F.blocks.map f } : Func).findBlock b = (F.findBlock b).map f := by
  unfold Func.findBlock
  simp only [List.find?_map]
  have : ((fun B : Block => B.id == b) ∘ f) = (fun B : Block => B.id == b) := by
    funext B; simp [hf B]
  rw [this]

theorem succsAt_map (F : Func) (f : Block → Block)
    (hf : ∀ B, (f B).id = B.id ∧ (f B).term.succs = B.term.succs) (b : Nat) :
    ({ blocks := F.blocks.map f } : Func).succsAt b = F.succsAt b := by
  unfold Func.succsAt
  rw [findBlock_map F f (fun B => (hf B).1)]
  cases F.findBlock b with
  | none => rfl
  | some B => simp [(hf B).2]

theorem skeleton_map (F : Func) (f : Block → Block)
    (hf : ∀ B, (f B).id = B.id ∧ (f B).term.succs = B.term.succs) :
    ({ blocks := F.blocks.map f } : Func).skeleton = F.skeleton := by
  unfold Func.skeleton
  simp only [List.map_map]
  apply List.map_congr_left
  intro B _
  simp [(hf B).1, (hf B).2]

theorem succsAt_of_skeleton (F G : Func) (h : G.skeleton = F.skeleton) (b : Nat) :
    G.succsAt b = F.succsAt b := by
  have key : ∀ (H : Func), H.succsAt b
      = (H.skeleton.find? (fun p => p.1 == b)).map (fun p => p.2) := by
    intro H
    unfold Func.succsAt Func.findBlock Func.skeleton
    simp only [List.find?_map, Option.map_map]
    rfl
  rw [key G, key F, h]

theorem skeleton_eraseInst (F : Func) (id : Nat) : (eraseInst F id).skeleton = F.skeleton :=
  skeleton_map F _ (fun _ => ⟨rfl, rfl⟩)

theorem skeleton_appendInst (F : Func) (b : Nat) (I : Instr) :
    (appendInst F b I).skeleton = F.skeleton :=
  skeleton_map F _ (fun B => by by_cases h : (B.id == b) = true <;> simp [h])

theorem skeleton_mapInsts (F : Func) (f : Instr → Instr) (g : Term → Term)
    (hg : ∀ T, (g T).succs = T.succs) : (mapInsts F f g).skeleton = F.skeleton :=
  skeleton_map F _ (fun B => ⟨rfl, hg B.term⟩)

theorem skeleton_replaceAllUsesWith (F : Func) (old new : Value) :
    (replaceAllUsesWith F old new).skeleton = F.skeleton :=
  skeleton_mapInsts F _ _ (fun _ => rfl)

theorem skeleton_updateInst (F : Func) (id : Nat) (f : Instr → Instr) :
    (updateInst F id f).skeleton = F.skeleton :=
  skeleton_mapInsts F _ _ (fun _ => rfl)

theorem skeleton_updateBlock (F : Func) (b : Nat) (f : Block → Block)
    (hf : ∀ B, (f B).id = B.id ∧ (f B).term.succs = B.term.succs) :
    (updateBlock F b f).skeleton = F.skeleton :=
  skeleton_map F _ (fun B => by by_cases h : B.id = b <;> simp [h, hf B])

theorem skeleton_replacePhiUsesWith (F : Func) (b : Nat) (Old : Option Nat) (New : Nat) :
    (replacePhiUsesWith F b Old New).skeleton = F.skeleton := by
  unfold replacePhiUsesWith
  cases Old with
  | none => rfl
  | some o => exact skeleton_updateBlock F b _ (fun _ => ⟨rfl, rfl⟩)

theorem skeleton_insertAt (F : Func) (pt : InsertPt) (I : Instr) :
    (insertAt F pt I).skeleton = F.skeleton := by
  cases pt with
  | before t => exact skeleton_map F _ (fun _ => ⟨rfl, rfl⟩)
  | atEnd b => exact skeleton_appendInst F b I

theorem skeleton_moveBefore (F : Func) (id : Nat) (pt : InsertPt) :
    (moveBefore F id pt).skeleton = F.skeleton := by
  unfold moveBefore
  split
  · rfl
  · split
    · rw [skeleton_insertAt, skeleton_eraseInst]
    · rfl

theorem skeleton_foldl {α : Type} (f : Func → α → Func)
    (hf : ∀ G x, (f G x).skeleton = G.skeleton) :
    ∀ (l : List α) (F : Func), (l.foldl f F).skeleton = F.skeleton := by
  intro l
  induction l with
  | nil => intro F; rfl
  | cons a l ih => intro F; simp only [List.foldl_cons]; rw [ih, hf]

theorem skeleton_foldlM {α : Type} (f : Func → α → Option Func)
    (hf : ∀ G x G2, f G x = some G2 → G2.skeleton = G.skeleton) :
    ∀ (l : List α) (F F2 : Func), l.foldlM f F = some F2 → F2.skeleton = F.skeleton := by
  intro l
  induction l with
  | nil =>
    intro F F2 h
    simp only [List.foldlM_nil, Option.pure_def, Option.some.injEq] at h
    rw [h]
  | cons a l ih =>
    intro F F2 h
    simp only [List.foldlM_cons, Option.bind_eq_bind] at h
    cases h1 : f F a with
    | none => rw [h1] at h; exact absurd h (by simp)
    | some G =>
      rw [h1] at h
      simp only [Option.some_bind] at h
      rw [ih G F2 h, hf F a G h1]

theorem skeleton_unifyInductionVariables (F : Func) (a b : Nat) :
    (unifyInductionVariables F a b).skeleton = F.skeleton := by
  unfold unifyInductionVariables
  rw [skeleton_eraseInst, skeleton_replaceAllUsesWith]

theorem skeleton_resourcePhis (F : Func) (fp fl fb sp sl sh se : Nat) :
    (resourcePhis F fp fl fb sp sl sh se).skeleton = F.skeleton := by
  unfold resourcePhis
  simp only [skeleton_replacePhiUsesWith]

theorem skeleton_updateFirstPhi (lcssaValue in1 : Value) (G : Func) (x : Nat) (G2 : Func)
    (h : updateFirstPhi lcssaValue in1 G x = some G2) : G2.skeleton = G.skeleton := by
  unfold updateFirstPhi at h
  split at h
  · split at h
    · split at h
      · simp only [Option.some.injEq] at h
        rw [← h, skeleton_updateInst]
      · simp only [Option.some.injEq] at h
        rw [h]
    · exact absurd h (by simp)
  · exact absurd h (by simp)

theorem skeleton_reconcilePhi (First : Loop) (fe : Nat) (fhp : List Nat) (ib : InsertPt)
    (G : Func) (x : Nat) (G2 : Func)
    (h : reconcilePhi First fe fhp ib G x = some G2) : G2.skeleton = G.skeleton := by
  unfold reconcilePhi at h
  split at h
  · split at h
    · split at h
      · split at h
        · split at h
          · rename_i F1 hF1
            simp only [Option.some.injEq] at h
            rw [← h, skeleton_eraseInst, skeleton_eraseInst, skeleton_replaceAllUsesWith]
            exact skeleton_foldlM _ (skeleton_updateFirstPhi _ _) _ _ _ hF1
          · exact absurd h (by simp)
        · exact absurd h (by simp)
      · simp only [Option.some.injEq] at h
        rw [← h, skeleton_moveBefore]
    · exact absurd h (by simp)
  · exact absurd h (by simp)

theorem skeleton_setIncomingBlock0 (fl : Nat) (G : Func) (x : Nat) (G2 : Func)
    (h : setIncomingBlock0 fl G x = some G2) : G2.skeleton = G.skeleton := by
  unfold setIncomingBlock0 at h
  split at h
  · split at h
    · simp only [Option.some.injEq] at h
      rw [← h, skeleton_updateInst]
    · exact absurd h (by simp)
  · exact absurd h (by simp)

theorem skeleton_moveLCSSA (F : Func) (fe fl se : Nat) (G : Func)
    (h : moveLCSSA F fe fl se = some G) : G.skeleton = F.skeleton := by
  unfold moveLCSSA at h
  simp only [] at h
  split at h
  · rename_i F1 hF1
    simp only [Option.some.injEq] at h
    rw [← h, skeleton_foldl _ (fun G x => skeleton_moveBefore G x _)]
    exact skeleton_foldlM _ (skeleton_setIncomingBlock0 fl) _ _ _ hF1
  · exact absurd h (by simp)

/-- The merge-node step of the fusion leaves the control-flow skeleton as it is. -/
theorem skeleton_fixPhis (F : Func) (First : Loop) (fp fl fe fb fh sp sl se sh : Nat)
    (G : Func) (h : fixPhis F First fp fl fe fb fh sp sl se sh = some G) :
    G.skeleton = F.skeleton := by
  unfold fixPhis at h
  simp only [] at h
  split at h
  · rename_i F2 hF2
    rw [skeleton_moveLCSSA _ _ _ _ _ h,
      skeleton_foldlM _ (skeleton_reconcilePhi _ _ _ _) _ _ _ hF2, skeleton_resourcePhis]
  · exact absurd h (by simp)

end Skeleton

section ControlFlowEdits

open IR LoopFusionOpt Examples

theorem findBlock_updateBlock (F : Func) (b : Nat) (f : Block → Block)
    (hf : ∀ B, (f B).id = B.id) (x : Nat) :
    (updateBlock F b f).findBlock x
      = if x = b then (F.findBlock b).map f else F.findBlock x := by
  unfold updateBlock
  rw [findBlock_map F _ (fun B => by by_cases h : B.id = b <;> simp [h, hf B])]
  cases hx : F.findBlock x with
  | none =>
    by_cases hxb : x = b
    · subst hxb; simp [hx]
    · simp [hxb]
  | some B =>
    have hid := findBlock_id F x B hx
    by_cases hxb : x = b
    · subst hxb; simp [hx, hid]
    · have : B.id ≠ b := by rw [hid]; exact hxb
      simp [hxb, this]

theorem succsAt_updateBlock (F : Func) (b : Nat) (f : Block → Block)
    (hf : ∀ B, (f B).id = B.id) (x : Nat) :
    (updateBlock F b f).succsAt x
      = if x = b then (F.findBlock b).map (fun B => (f B).term.succs) else F.succsAt x := by
  unfold Func.succsAt
  rw [findBlock_updateBlock F b f hf]
  by_cases hxb : x = b
  · simp only [hxb, ↓reduceIte]
    cases F.findBlock b <;> rfl
  · simp [hxb]

theorem succsAt_setSuccessor (F : Func) (b i n : Nat) (G : Func)
    (h : setSuccessor F b i n = some G) :
    (∃ l, F.succsAt b = some l ∧ i < l.length) ∧
    ∀ x, G.succsAt x = if x = b then (F.succsAt b).map (fun l => l.set i n) else F.succsAt x := by
  unfold setSuccessor at h
  split at h
  · rename_i B hB
    split at h
    · rename_i hi
      simp only [Option.some.injEq] at h
      subst h
      refine ⟨⟨B.term.succs, by simp [Func.succsAt, hB], hi⟩, ?_⟩
      intro x
      refine (succsAt_updateBlock F b _ ?_ x).trans ?_
      · intro B; rfl
      · by_cases hx : x = b
        · simp only [hx, ↓reduceIte, Func.succsAt]; cases F.findBlock b <;> rfl
        · simp [hx, Func.succsAt]
    · exact absurd h (by simp)
  · exact absurd h (by simp)

theorem succsAt_replaceSuccessorWith (F : Func) (b o n x : Nat) :
    (replaceSuccessorWith F b o n).succsAt x
      = if x = b then (F.succsAt b).map (fun l => l.map (fun y => if y = o then n else y))
        else F.succsAt x := by
  unfold replaceSuccessorWith
  refine (succsAt_updateBlock F b _ ?_ x).trans ?_
  · intro B; rfl
  · by_cases hx : x = b
    · simp only [hx, ↓reduceIte, Func.succsAt]; cases F.findBlock b <;> rfl
    · simp [hx, Func.succsAt]

theorem find_filter_ne (l : List Block) (b x : Nat) (hx : x ≠ b) :
    (l.filter (fun B => B.id != b)).find? (fun B => B.id == x)
      = l.find? (fun B => B.id == x) := by
  induction l with
  | nil => rfl
  | cons B l ih =>
    by_cases hB : B.id = b
    · have h1 : (B.id != b) = false := by simp [hB]
      have h2 : (B.id == x) = false := by
        simp only [beq_eq_false_iff_ne, ne_eq]
        intro e; exact hx (e ▸ hB)
      rw [List.filter_cons_of_neg (by simp [h1]), List.find?_cons, h2]
      exact ih
    · have h1 : (B.id != b) = true := by simp [hB]
      have e : (B :: l).filter (fun B => B.id != b) = B :: l.filter (fun B => B.id != b) :=
        List.filter_cons_of_pos h1
      rw [e, List.find?_cons, List.find?_cons, ih]

theorem find_filter_self (l : List Block) (b : Nat) :
    (l.filter (fun B => B.id != b)).find? (fun B => B.id == b) = none := by
  rw [List.find?_eq_none]
  intro B hB
  have := (List.mem_filter.mp hB).2
  simpa using this

theorem findBlock_eraseBlock (F : Func) (b x : Nat) :
    (eraseBlock F b).findBlock x = if x = b then none else F.findBlock x := by
  unfold eraseBlock Func.findBlock
  by_cases hx : x = b
  · subst hx; simp only [↓reduceIte]; exact find_filter_self _ _
  · simp only [hx, ↓reduceIte]; exact find_filter_ne _ _ _ hx

theorem succsAt_eraseBlock (F : Func) (b x : Nat) :
    (eraseBlock F b).succsAt x = if x = b then none else F.succsAt x := by
  unfold Func.succsAt
  rw [findBlock_eraseBlock]
  by_cases hx : x = b <;> simp [hx]

theorem mem_insertBlockBefore (X : Block) (t : Nat) (l : List Block) (B : Block)
    (h : B ∈ insertBlockBefore X t l) : B = X ∨ B ∈ l := by
  induction l with
  | nil => simp [insertBlockBefore] at h
  | cons C l ih =>
    unfold insertBlockBefore at h
    split at h
    · rcases List.mem_cons.mp h with h1 | h1
      · exact Or.inl h1
      · exact Or.inr h1
    · rcases List.mem_cons.mp h with h1 | h1
      · exact Or.inr (by simp [h1])
      · rcases ih h1 with h2 | h2
        · exact Or.inl h2
        · exact Or.inr (List.mem_cons_of_mem _ h2)

theorem find_insertBlockBefore_ne (X : Block) (t x : Nat) (hX : X.id ≠ x) :
    ∀ (l : List Block), (insertBlockBefore X t l).find? (fun B => B.id == x)
      = l.find? (fun B => B.id == x) := by
  have hX2 : (X.id == x) = false := by simpa using hX
  intro l
  induction l with
  | nil => rfl
  | cons C l ih =>
    unfold insertBlockBefore
    split
    · rw [List.find?_cons, hX2]
    · rw [List.find?_cons, List.find?_cons, ih]

theorem find_insertBlockBefore_self (X : Block) (t : Nat) :
    ∀ (l : List Block), (l.find? (fun B => B.id == t)).isSome = true →
      l.find? (fun B => B.id == X.id) = none →
      (insertBlockBefore X t l).find? (fun B => B.id == X.id) = some X := by
  intro l
  induction l with
  | nil => intro ht _; simp at ht
  | cons C l ih =>
    intro ht hn
    rw [List.find?_cons] at hn
    have hC : (C.id == X.id) = false := by
      cases h : C.id == X.id with
      | false => rfl
      | true => rw [h] at hn; exact absurd hn (by simp)
    rw [hC] at hn
    unfold insertBlockBefore
    split
    · rw [List.find?_cons]; simp
    · rename_i hCt
      have hCt2 : (C.id == t) = false := by simpa using hCt
      rw [List.find?_cons, hCt2] at ht
      rw [List.find?_cons, hC]
      exact ih ht hn

/-- Moving a block before a block of the function keeps every block findable under its
identity. -/
theorem findBlock_moveBlockBefore (F : Func) (b t : Nat)
    (ht : (F.findBlock t).isSome = true) (x : Nat) :
    (moveBlockBefore F b t).findBlock x = F.findBlock x := by
  unfold moveBlockBefore
  split
  · rfl
  · rename_i hbt
    split
    · rename_i X hX
      have hXid := findBlock_id F b X hX
      have ht2 : ((eraseBlock F b).blocks.find? (fun B => B.id == t)).isSome = true := by
        have := findBlock_eraseBlock F b t
        unfold Func.findBlock at this
        have htb : t ≠ b := fun e => hbt e.symm
        rw [this, if_neg htb]; exact ht
      by_cases hx : X.id = x
      · have hxb : x = b := by rw [← hx, hXid]
        have hnone := findBlock_eraseBlock F b b
        unfold Func.findBlock at hnone hX ⊢
        simp only [↓reduceIte] at hnone
        simp only []
        rw [hxb, hX]
        rw [← hXid] at hnone ht2 ⊢
        exact find_insertBlockBefore_self X t _ ht2 hnone
      · have hxb : x ≠ b := by rw [← hXid]; exact fun e => hx e.symm
        have hne := findBlock_eraseBlock F b x
        unfold Func.findBlock at hne ⊢
        simp only []
        rw [find_insertBlockBefore_ne X t x hx, hne, if_neg hxb]
    · rfl

theorem mem_moveBlockBefore (F : Func) (b t : Nat) (B : Block)
    (h : B ∈ (moveBlockBefore F b t).blocks) : B ∈ F.blocks := by
  unfold moveBlockBefore at h
  split at h
  · exact h
  · split at h
    · rename_i X hX
      rcases mem_insertBlockBefore X t _ B h with h1 | h1
      · rw [h1]; exact List.mem_of_find?_eq_some hX
      · exact (List.mem_filter.mp h1).1
    · exact h

theorem rehome_fold (fl : Nat) :
    ∀ (l : List Nat) (F : Func), (F.findBlock fl).isSome = true →
      (∀ x, (l.foldl (fun G BB => moveBlockBefore G BB fl) F).findBlock x = F.findBlock x) ∧
      (∀ B ∈ (l.foldl (fun G BB => moveBlockBefore G BB fl) F).blocks, B ∈ F.blocks) := by
  intro l
  induction l with
  | nil => intro F _; exact ⟨fun _ => rfl, fun _ h => h⟩
  | cons a l ih =>
    intro F hF
    simp only [List.foldl_cons]
    have h1 := findBlock_moveBlockBefore F a fl hF
    have h2 := ih (moveBlockBefore F a fl) (by rw [h1]; exact hF)
    exact ⟨fun x => by rw [h2.1, h1], fun B hB => mem_moveBlockBefore F a fl B (h2.2 B hB)⟩

end ControlFlowEdits

section Splice

open IR LoopFusionOpt Examples

theorem succsOf_eq_getD (F : Func) (b : Nat) : F.succsOf b = (F.succsAt b).getD [] := by
  unfold Func.succsOf Func.succsAt
  cases F.findBlock b <;> rfl

/-- The guard step changes the successors of the two guard blocks and of First's exit
block only. -/
theorem succsAt_unifyGuards (s : FuseState) (g1 g2 fe se : Nat) (s3 : FuseState)
    (h : unifyGuards s g1 g2 fe se = some (GuardStep.done s3)) (x : Nat)
    (h1 : x ≠ g1) (h2 : x ≠ g2) (h3 : x ≠ fe) : s3.F.succsAt x = s.F.succsAt x := by
  unfold unifyGuards at h
  split at h
  · exact absurd h (by simp)
  · rename_i guardDest _
    split at h
    · exact absurd h (by simp)
    · rename_i F1 hF1
      simp only [] at h
      split at h
      · exact absurd h (by simp)
      · rename_i F4 hF4
        split at h
        · exact absurd h (by simp)
        · rename_i toMove _
          simp only [Option.some.injEq, GuardStep.done.injEq] at h
          subst h
          simp only [deleteBlock]
          rw [succsAt_eraseBlock, if_neg h3, succsAt_eraseBlock, if_neg h2,
            succsAt_of_skeleton _ _ (skeleton_replacePhiUsesWith _ _ _ _),
            succsAt_of_skeleton _ _ (skeleton_foldl _ (fun G i => skeleton_moveBefore G i _) _ _),
            (succsAt_setSuccessor _ _ _ _ _ hF4).2, if_neg h3,
            succsAt_replaceSuccessorWith, if_neg h2,
            succsAt_of_skeleton _ _ (skeleton_replacePhiUsesWith _ _ _ _),
            (succsAt_setSuccessor _ _ _ _ _ hF1).2, if_neg h1]

end Splice

section Preservation

open IR LoopFusionOpt Examples

theorem holds_of_subset (Q : Instr → Prop) (R : List Value → Prop) (F G : Func)
    (h : Holds Q R F)
    (hsub : ∀ B2 ∈ G.blocks, ∃ B ∈ F.blocks, B2.term.operands = B.term.operands ∧
      ∀ I ∈ B2.insts, I ∈ B.insts) : Holds Q R G := by
  intro B2 hB2
  obtain ⟨B, hB, ht, hi⟩ := hsub B2 hB2
  exact ⟨ht ▸ (h B hB).1, fun I hI => (h B hB).2 I (hi I hI)⟩

theorem holds_map (Q : Instr → Prop) (R : List Value → Prop) (F : Func) (f : Block → Block)
    (h : Holds Q R F)
    (hf : ∀ B ∈ F.blocks, (R B.term.operands ∧ ∀ I ∈ B.insts, Q I) →
      (R (f B).term.operands ∧ ∀ I ∈ (f B).insts, Q I)) :
    Holds Q R { blocks := F.blocks.map f } := by
  intro B2 hB2
  obtain ⟨B, hB, rfl⟩ := List.mem_map.mp hB2
  exact hf B hB (h B hB)

theorem holds_findInst (Q : Instr → Prop) (R : List Value → Prop) (F : Func) (h : Holds Q R F)
    (id b : Nat) (I : Instr) (hf : F.findInst id = some (b, I)) : Q I := by
  obtain ⟨-, B, hB, -, hI⟩ := findInstIn_some F.blocks id b I hf
  exact (h B hB).2 I hI

theorem holds_eraseInst (Q : Instr → Prop) (R : List Value → Prop) (F : Func) (id : Nat)
    (h : Holds Q R F) : Holds Q R (eraseInst F id) :=
  holds_map Q R F _ h (fun _ _ hB => ⟨hB.1, fun I hI => hB.2 I (List.mem_filter.mp hI).1⟩)

theorem holds_appendInst (Q : Instr → Prop) (R : List Value → Prop) (F : Func) (b : Nat)
    (I : Instr) (h : Holds Q R F) (hI : Q I) : Holds Q R (appendInst F b I) :=
  holds_map Q R F _ h (fun B _ hB => by
    by_cases hb : (B.id == b) = true
    · simp only [hb, ↓reduceIte]
      refine ⟨hB.1, fun J hJ => ?_⟩
      rcases List.mem_append.mp hJ with h1 | h1
      · exact hB.2 J h1
      · rw [List.mem_singleton.mp h1]; exact hI
    · simp only [hb]; exact hB)

theorem mem_insertBeforeIn (I : Instr) (t : Nat) (l : List Instr) (J : Instr)
    (h : J ∈ insertBeforeIn I t l) : J = I ∨ J ∈ l := by
  induction l with
  | nil => simp [insertBeforeIn] at h
  | cons C l ih =>
    unfold insertBeforeIn at h
    split at h
    · rcases List.mem_cons.mp h with h1 | h1
      · exact Or.inl h1
      · exact Or.inr h1
    · rcases List.mem_cons.mp h with h1 | h1
      · exact Or.inr (by simp [h1])
      · rcases ih h1 with h2 | h2
        · exact Or.inl h2
        · exact Or.inr (List.mem_cons_of_mem _ h2)

theorem holds_insertAt (Q : Instr → Prop) (R : List Value → Prop) (F : Func) (pt : InsertPt)
    (I : Instr) (h : Holds Q R F) (hI : Q I) : Holds Q R (insertAt F pt I) := by
  cases pt with
  | before t =>
    exact holds_map Q R F _ h (fun B _ hB => ⟨hB.1, fun J hJ => by
      rcases mem_insertBeforeIn I t B.insts J hJ with h1 | h1
      · rw [h1]; exact hI
      · exact hB.2 J h1⟩)
  | atEnd b => exact holds_appendInst Q R F b I h hI

theorem holds_moveBefore (Q : Instr → Prop) (R : List Value → Prop) (F : Func) (id : Nat)
    (pt : InsertPt) (h : Holds Q R F) : Holds Q R (moveBefore F id pt) := by
  unfold moveBefore
  split
  · exact h
  · split
    · rename_i b I hf
      exact holds_insertAt Q R _ pt I (holds_eraseInst Q R F id h) (holds_findInst Q R F h id b I hf)
    · exact h

theorem holds_mapInsts (Q : Instr → Prop) (R : List Value → Prop) (F : Func)
    (f : Instr → Instr) (g : Term → Term) (h : Holds Q R F)
    (hf : ∀ I, Q I → Q (f I)) (hg : ∀ T, R T.operands → R (g T).operands) :
    Holds Q R (mapInsts F f g) :=
  holds_map Q R F _ h (fun B _ hB => ⟨hg _ hB.1, fun J hJ => by
    obtain ⟨I, hI, rfl⟩ := List.mem_map.mp hJ
    exact hf I (hB.2 I hI)⟩)

theorem holds_updateInst (Q : Instr → Prop) (R : List Value → Prop) (F : Func) (id : Nat)
    (f : Instr → Instr) (h : Holds Q R F) (hf : ∀ I, I.id = id → Q I → Q (f I)) :
    Holds Q R (updateInst F id f) :=
  holds_mapInsts Q R F _ _ h (fun I hI => by
    by_cases hid : I.id = id
    · simp only [hid, ↓reduceIte]; exact hf I hid hI
    · simp only [hid, ↓reduceIte]; exact hI) (fun _ hT => hT)

theorem holds_updateBlock (Q : Instr → Prop) (R : List Value → Prop) (F : Func) (b : Nat)
    (f : Block → Block) (h : Holds Q R F)
    (hf : ∀ B, (R B.term.operands ∧ ∀ I ∈ B.insts, Q I) →
      (R (f B).term.operands ∧ ∀ I ∈ (f B).insts, Q I)) :
    Holds Q R (updateBlock F b f) :=
  holds_map Q R F _ h (fun B _ hB => by
    by_cases hb : B.id = b
    · simp only [hb, ↓reduceIte]; exact hf B hB
    · simp only [hb, ↓reduceIte]; exact hB)

theorem mem_replacePhiUsesInList (l : List Instr) (o n : Nat) (J : Instr)
    (h : J ∈ replacePhiUsesInList l o n) :
    J ∈ l ∨ ∃ I ∈ l, J = replaceIncomingBlockWith I o n := by
  induction l with
  | nil => simp [replacePhiUsesInList] at h
  | cons C l ih =>
    unfold replacePhiUsesInList at h
    split at h
    · rcases List.mem_cons.mp h with h1 | h1
      · exact Or.inr ⟨C, by simp, h1⟩
      · rcases ih h1 with h2 | ⟨I, hI, h2⟩
        · exact Or.inl (List.mem_cons_of_mem _ h2)
        · exact Or.inr ⟨I, List.mem_cons_of_mem _ hI, h2⟩
    · exact Or.inl h

theorem holds_replacePhiUsesWith (Q : Instr → Prop) (R : List Value → Prop) (F : Func)
    (b : Nat) (Old : Option Nat) (New : Nat) (h : Holds Q R F)
    (hQ : ∀ I inc, Q I → Q { I with incoming := inc }) :
    Holds Q R (replacePhiUsesWith F b Old New) := by
  unfold replacePhiUsesWith
  cases Old with
  | none => exact h
  | some o =>
    exact holds_updateBlock Q R F b _ h (fun B hB => ⟨hB.1, fun J hJ => by
      rcases mem_replacePhiUsesInList B.insts o New J hJ with h1 | ⟨I, hI, h1⟩
      · exact hB.2 J h1
      · rw [h1]; exact hQ I _ (hB.2 I hI)⟩)

theorem holds_setSuccessor (Q : Instr → Prop) (R : List Value → Prop) (F : Func)
    (b i n : Nat) (G : Func) (h : Holds Q R F) (hs : setSuccessor F b i n = some G) :
    Holds Q R G := by
  unfold setSuccessor at hs
  split at hs
  · split at hs
    · simp only [Option.some.injEq] at hs
      rw [← hs]
      exact holds_updateBlock Q R F b _ h (fun _ hB => hB)
    · exact absurd hs (by simp)
  · exact absurd hs (by simp)

theorem holds_replaceSuccessorWith (Q : Instr → Prop) (R : List Value → Prop) (F : Func)
    (b o n : Nat) (h : Holds Q R F) : Holds Q R (replaceSuccessorWith F b o n) :=
  holds_updateBlock Q R F b _ h (fun _ hB => hB)

theorem holds_eraseBlock (Q : Instr → Prop) (R : List Value → Prop) (F : Func) (b : Nat)
    (h : Holds Q R F) : Holds Q R (eraseBlock F b) :=
  fun B hB => h B (List.mem_filter.mp hB).1

theorem holds_moveBlockBefore (Q : Instr → Prop) (R : List Value → Prop) (F : Func)
    (b t : Nat) (h : Holds Q R F) : Holds Q R (moveBlockBefore F b t) :=
  fun B hB => h B (mem_moveBlockBefore F b t B hB)

theorem holds_foldl {α : Type} (Q : Instr → Prop) (R : List Value → Prop) (f : Func → α → Func)
    (hf : ∀ G x, Holds Q R G → Holds Q R (f G x)) :
    ∀ (l : List α) (F : Func), Holds Q R F → Holds Q R (l.foldl f F) := by
  intro l
  induction l with
  | nil => intro F h; exact h
  | cons a l ih => intro F h; exact ih _ (hf F a h)

theorem holds_foldlM {α : Type} (Q : Instr → Prop) (R : List Value → Prop)
    (f : Func → α → Option Func) (S : α → Prop)
    (hf : ∀ G x G2, S x → Holds Q R G → f G x = some G2 → Holds Q R G2) :
    ∀ (l : List α) (F F2 : Func), (∀ x ∈ l, S x) → Holds Q R F → l.foldlM f F = some F2 →
      Holds Q R F2 := by
  intro l
  induction l with
  | nil =>
    intro F F2 _ h e
    simp only [List.foldlM_nil, Option.pure_def, Option.some.injEq] at e
    rw [← e]; exact h
  | cons a l ih =>
    intro F F2 hS h e
    simp only [List.foldlM_cons, Option.bind_eq_bind] at e
    cases h1 : f F a with
    | none => rw [h1] at e; exact absurd e (by simp)
    | some G =>
      rw [h1] at e
      simp only [Option.some_bind] at e
      exact ih G F2 (fun x hx => hS x (List.mem_cons_of_mem _ hx))
        (hf F a G (hS a (by simp)) h h1) e

end Preservation

section InductionVariables

open IR LoopFusionOpt Examples

theorem not_mem_map_subst (l : List Value) (old new v : Value) (hv : v ∉ l) (hn : new ≠ v) :
    v ∉ l.map (fun x => if x = old then new else x) := by
  intro h
  obtain ⟨x, hx, e⟩ := List.mem_map.mp h
  by_cases hxo : x = old
  · rw [if_pos hxo] at e; exact hn e
  · rw [if_neg hxo] at e; exact hv (e ▸ hx)

theorem ivUnified_incoming (F : Func) (fiv siv : Nat) (I : Instr) (inc : List Nat)
    (h : IVUnified F fiv siv I) : IVUnified F fiv siv { I with incoming := inc } := h

/-- The state right after the induction variables are unified. -/
theorem holds_unifyInductionVariables (F : Func) (fiv siv : Nat) (hne : fiv ≠ siv) :
    Holds (IVUnified F fiv siv) (fun ops => Value.inst siv ∉ ops)
      (unifyInductionVariables F fiv siv) := by
  have hv : Value.inst fiv ≠ Value.inst siv := fun e => hne (by injection e)
  intro B2 hB2
  simp only [unifyInductionVariables, eraseInst, replaceAllUsesWith, mapInsts, List.map_map,
    List.mem_map, Function.comp] at hB2
  obtain ⟨B, hB, rfl⟩ := hB2
  refine ⟨?_, ?_⟩
  · simp only []
    intro h
    obtain ⟨x, hx, e⟩ := List.mem_map.mp h
    by_cases hxo : x = Value.inst siv
    · rw [if_pos hxo] at e; exact hv e
    · rw [if_neg hxo] at e; exact hxo e
  · intro J hJ
    simp only [List.mem_filter, List.mem_map, bne_iff_ne, ne_eq] at hJ
    obtain ⟨⟨I, hI, rfl⟩, hid⟩ := hJ
    refine ⟨?_, hid, I, (mem_allInsts F I).2 ⟨B, hB, hI⟩, rfl, rfl, ?_⟩
    · simp only []
      intro h
      obtain ⟨x, hx, e⟩ := List.mem_map.mp h
      by_cases hxo : x = Value.inst siv
      · rw [if_pos hxo] at e; exact hv e
      · rw [if_neg hxo] at e; exact hxo e
    · intro k hk
      simp only [List.getElem?_map, hk, Option.map_some', ↓reduceIte]

theorem holds_replaceAllUsesWith_iv (F G : Func) (fiv siv phi : Nat) (lv : Value)
    (h : Holds (IVUnified F fiv siv) (fun ops => Value.inst siv ∉ ops) G)
    (hlv : lv ≠ Value.inst siv) (hphi : phi ≠ fiv) :
    Holds (IVUnified F fiv siv) (fun ops => Value.inst siv ∉ ops)
      (replaceAllUsesWith G (Value.inst phi) lv) := by
  unfold replaceAllUsesWith
  apply holds_mapInsts _ _ G _ _ h
  · intro I hI
    obtain ⟨h1, h2, I0, hI0, e1, e2, h3⟩ := hI
    refine ⟨not_mem_map_subst _ _ _ _ h1 hlv, h2, I0, hI0, e1, e2, ?_⟩
    intro k hk
    have := h3 k hk
    simp only [List.getElem?_map, this, Option.map_some', Option.some.injEq]
    have hne : Value.inst fiv ≠ Value.inst phi := fun e => hphi (by injection e with e; exact e.symm)
    rw [if_neg hne]
  · intro T hT
    exact not_mem_map_subst _ _ _ _ hT hlv

theorem holds_setOperand1_iv (F G : Func) (fiv siv x : Nat) (in1 : Value)
    (h : Holds (IVUnified F fiv siv) (fun ops => Value.inst siv ∉ ops) G)
    (hin : in1 ≠ Value.inst siv)
    (hx : ∀ I0 ∈ F.allInsts, I0.id = x → I0.operands[1]? ≠ some (Value.inst siv)) :
    Holds (IVUnified F fiv siv) (fun ops => Value.inst siv ∉ ops)
      (updateInst G x (fun I => { I with operands := I.operands.set 1 in1 })) := by
  apply holds_updateInst _ _ G x _ h
  intro I hid hI
  obtain ⟨h1, h2, I0, hI0, e1, e2, h3⟩ := hI
  refine ⟨?_, h2, I0, hI0, e1, e2, ?_⟩
  · intro hm
    rcases List.mem_or_eq_of_mem_set hm with h4 | h4
    · exact h1 h4
    · exact hin h4.symm
  · intro k hk
    by_cases hk1 : k = 1
    · subst hk1
      exact absurd hk (hx I0 hI0 (e1.trans hid))
    · simp only []
      rw [List.getElem?_set_ne (Ne.symm hk1)]
      exact h3 k hk

theorem mem_of_getElem?_eq_some (l : List Value) (k : Nat) (v : Value) (h : l[k]? = some v) :
    v ∈ l := by
  rw [List.getElem?_eq_some_iff] at h
  obtain ⟨hk, e⟩ := h
  rw [← e]; exact List.getElem_mem hk

theorem holds_updateFirstPhi_iv (F : Func) (fiv siv : Nat) (lv in1 : Value)
    (hin : in1 ≠ Value.inst siv) (G : Func) (x : Nat) (G2 : Func)
    (hx : ∀ I0 ∈ F.allInsts, I0.id = x → I0.operands[1]? ≠ some (Value.inst siv))
    (h : Holds (IVUnified F fiv siv) (fun ops => Value.inst siv ∉ ops) G)
    (e : updateFirstPhi lv in1 G x = some G2) :
    Holds (IVUnified F fiv siv) (fun ops => Value.inst siv ∉ ops) G2 := by
  unfold updateFirstPhi at e
  split at e
  · split at e
    · split at e
      · simp only [Option.some.injEq] at e
        rw [← e]
        exact holds_setOperand1_iv F G fiv siv x in1 h hin hx
      · simp only [Option.some.injEq] at e
        rw [← e]; exact h
    · exact absurd e (by simp)
  · exact absurd e (by simp)

theorem forwardedLCSSA_some (G : Func) (First : Loop) (fe : Nat) (in0 : Value) (P : Instr)
    (h : forwardedLCSSA G First fe in0 = some P) : ∃ id b, G.findInst id = some (b, P) := by
  unfold forwardedLCSSA at h
  split at h
  · rename_i id
    split at h
    · rename_i parent lcssaPHI hf
      split at h
      · simp only [Option.some.injEq] at h
        rw [← h]; exact ⟨id, parent, hf⟩
      · exact absurd h (by simp)
    · exact absurd h (by simp)
  · exact absurd h (by simp)

theorem holds_reconcilePhi_iv (F : Func) (fiv siv : Nat) (First : Loop) (fe : Nat)
    (fhp : List Nat) (ib : InsertPt) (G : Func) (phi : Nat) (G2 : Func)
    (hfhp : ∀ x ∈ fhp, ∀ I0 ∈ F.allInsts, I0.id = x → I0.operands[1]? ≠ some (Value.inst siv))
    (hphi : phi ≠ fiv)
    (h : Holds (IVUnified F fiv siv) (fun ops => Value.inst siv ∉ ops) G)
    (e : reconcilePhi First fe fhp ib G phi = some G2) :
    Holds (IVUnified F fiv siv) (fun ops => Value.inst siv ∉ ops) G2 := by
  unfold reconcilePhi at e
  split at e
  · rename_i b PHI hPHI
    have hQ := holds_findInst _ _ G h phi b PHI hPHI
    split at e
    · rename_i in0 in1 hin0 hin1
      have hin1' : in1 ≠ Value.inst siv := by
        intro e2
        exact hQ.1 (e2 ▸ mem_of_getElem?_eq_some _ _ _ hin1)
      split at e
      · rename_i lcssaPHI hl
        obtain ⟨id, parent, hfl⟩ := forwardedLCSSA_some G First fe in0 lcssaPHI hl
        have hQl := holds_findInst _ _ G h id parent lcssaPHI hfl
        split at e
        · rename_i lv hlv
          have hlv' : lv ≠ Value.inst siv := by
            intro e2
            exact hQl.1 (e2 ▸ mem_of_getElem?_eq_some _ _ _ hlv)
          split at e
          · rename_i F1 hF1
            simp only [Option.some.injEq] at e
            rw [← e]
            apply holds_eraseInst
            apply holds_eraseInst
            apply holds_replaceAllUsesWith_iv F F1 fiv siv phi lv _ hlv' hphi
            exact holds_foldlM _ _ (updateFirstPhi lv in1)
              (fun x => ∀ I0 ∈ F.allInsts, I0.id = x → I0.operands[1]? ≠ some (Value.inst siv))
              (fun G x G2 hx hG e => holds_updateFirstPhi_iv F fiv siv lv in1 hin1' G x G2 hx hG e)
              fhp G F1 hfhp h hF1
          · exact absurd e (by simp)
        · exact absurd e (by simp)
      · simp only [Option.some.injEq] at e
        rw [← e]
        exact holds_moveBefore _ _ G phi ib h
    · exact absurd e (by simp)
  · exact absurd e (by simp)

theorem holds_setIncomingBlock0_iv (F : Func) (fiv siv : Nat) (fl : Nat) (G : Func) (x : Nat)
    (G2 : Func) (h : Holds (IVUnified F fiv siv) (fun ops => Value.inst siv ∉ ops) G)
    (e : setIncomingBlock0 fl G x = some G2) :
    Holds (IVUnified F fiv siv) (fun ops => Value.inst siv ∉ ops) G2 := by
  unfold setIncomingBlock0 at e
  split at e
  · split at e
    · simp only [Option.some.injEq] at e
      rw [← e]
      exact holds_updateInst _ _ G x _ h (fun I _ hI => ivUnified_incoming F fiv siv I _ hI)
    · exact absurd e (by simp)
  · exact absurd e (by simp)

theorem holds_moveLCSSA_iv (F : Func) (fiv siv : Nat) (G : Func) (fe fl se : Nat) (G2 : Func)
    (h : Holds (IVUnified F fiv siv) (fun ops => Value.inst siv ∉ ops) G)
    (e : moveLCSSA G fe fl se = some G2) :
    Holds (IVUnified F fiv siv) (fun ops => Value.inst siv ∉ ops) G2 := by
  unfold moveLCSSA at e
  simp only [] at e
  split at e
  · rename_i F1 hF1
    simp only [Option.some.injEq] at e
    rw [← e]
    apply holds_foldl _ _ _ (fun G x hG => holds_moveBefore _ _ G x _ hG)
    exact holds_foldlM _ _ (setIncomingBlock0 fl) (fun _ => True)
      (fun G x G2 _ hG e => holds_setIncomingBlock0_iv F fiv siv fl G x G2 hG e)
      _ G F1 (fun _ _ => trivial) h hF1
  · exact absurd e (by simp)

theorem holds_resourcePhis_iv (F : Func) (fiv siv : Nat) (G : Func)
    (fp fl fb sp sl sh se : Nat)
    (h : Holds (IVUnified F fiv siv) (fun ops => Value.inst siv ∉ ops) G) :
    Holds (IVUnified F fiv siv) (fun ops => Value.inst siv ∉ ops)
      (resourcePhis G fp fl fb sp sl sh se) := by
  unfold resourcePhis
  simp only []
  apply holds_replacePhiUsesWith _ _ _ _ _ _ _ (ivUnified_incoming F fiv siv)
  apply holds_replacePhiUsesWith _ _ _ _ _ _ _ (ivUnified_incoming F fiv siv)
  apply holds_replacePhiUsesWith _ _ _ _ _ _ _ (ivUnified_incoming F fiv siv)
  exact holds_replacePhiUsesWith _ _ _ _ _ _ h (ivUnified_incoming F fiv siv)

theorem holds_fixPhis_iv (F : Func) (fiv siv : Nat) (G : Func) (First : Loop)
    (fp fl fe fb fh sp sl se sh : Nat) (G2 : Func)
    (hsh : ∀ phi ∈ phisOf (resourcePhis G fp fl fb sp sl sh se) sh, phi ≠ fiv)
    (hfh : ∀ x ∈ phisOf (resourcePhis G fp fl fb sp sl sh se) fh,
      ∀ I0 ∈ F.allInsts, I0.id = x → I0.operands[1]? ≠ some (Value.inst siv))
    (h : Holds (IVUnified F fiv siv) (fun ops => Value.inst siv ∉ ops) G)
    (e : fixPhis G First fp fl fe fb fh sp sl se sh = some G2) :
    Holds (IVUnified F fiv siv) (fun ops => Value.inst siv ∉ ops) G2 := by
  unfold fixPhis at e
  simp only [] at e
  split at e
  · rename_i F2 hF2
    apply holds_moveLCSSA_iv F fiv siv F2 fe fl se G2 _ e
    exact holds_foldlM _ _ _ (fun phi => phi ≠ fiv)
      (fun G x G2 hx hG e => holds_reconcilePhi_iv F fiv siv First fe _ _ G x G2 hfh hx hG e)
      _ _ F2 hsh (holds_resourcePhis_iv F fiv siv G fp fl fb sp sl sh se h) hF2
  · exact absurd e (by simp)

theorem holds_unifyGuards (Q : Instr → Prop) (R : List Value → Prop)
    (hQ : ∀ I inc, Q I → Q { I with incoming := inc })
    (s : FuseState) (g1 g2 fe se : Nat) (s3 : FuseState) (h : Holds Q R s.F)
    (e : unifyGuards s g1 g2 fe se = some (GuardStep.done s3)) : Holds Q R s3.F := by
  unfold unifyGuards at e
  split at e
  · exact absurd e (by simp)
  · split at e
    · exact absurd e (by simp)
    · rename_i F1 hF1
      simp only [] at e
      split at e
      · exact absurd e (by simp)
      · rename_i F4 hF4
        split at e
        · exact absurd e (by simp)
        · simp only [Option.some.injEq, GuardStep.done.injEq] at e
          rw [← e]
          simp only [deleteBlock]
          apply holds_eraseBlock
          apply holds_eraseBlock
          apply holds_replacePhiUsesWith _ _ _ _ _ _ _ hQ
          apply holds_foldl _ _ _ (fun G x hG => holds_moveBefore _ _ G x _ hG)
          apply holds_setSuccessor _ _ _ _ _ _ _ _ hF4
          apply holds_replaceSuccessorWith
          apply holds_replacePhiUsesWith _ _ _ _ _ _ _ hQ
          exact holds_setSuccessor _ _ _ _ _ _ _ h hF1

theorem holds_finishFusion (Q : Instr → Prop) (R : List Value → Prop)
    (s : FuseState) (First Second : Loop) (fl fb sp sl sb sh se : Nat) (r : Option Loop)
    (t : FuseState) (h : Holds Q R s.F)
    (e : finishFusion s First Second fl fb sp sl sb sh se = some (r, t)) : Holds Q R t.F := by
  unfold finishFusion at e
  split at e
  · exact absurd e (by simp)
  · rename_i s1 hs1
    simp only [Option.some.injEq, Prod.mk.injEq] at e
    rw [← e.2]
    simp only [rehomeBlocks]
    apply holds_foldl _ _ _ (fun G x hG => holds_moveBlockBefore _ _ G x _ hG)
    unfold spliceControlFlow at hs1
    split at hs1
    · exact absurd hs1 (by simp)
    · rename_i F1 hF1
      simp only [Option.some.injEq] at hs1
      rw [← hs1]
      simp only [deleteBlock]
      apply holds_eraseBlock
      apply holds_eraseBlock
      apply holds_replaceSuccessorWith
      apply holds_replaceSuccessorWith
      apply holds_replaceSuccessorWith
      exact holds_setSuccessor _ _ _ _ _ _ _ h hF1

end InductionVariables

section InductionVariableClaim

open IR LICMopt LoopFusionOpt Examples

theorem instsOf_map (F : Func) (f : Block → Block) (hid : ∀ B, (f B).id = B.id) (b : Nat) :
    ({ blocks := F.blocks.map f } : Func).instsOf b
      = match F.findBlock b with
        | some B => (f B).insts
        | none => [] := by
  unfold Func.instsOf
  rw [findBlock_map F f hid]
  cases F.findBlock b <;> rfl

/-- The instructions of every block of the second function carry the identity and the
operation of an instruction of the same block of the first. -/
theorem shadows_map (F : Func) (f : Block → Block) (hid : ∀ B, (f B).id = B.id)
    (hf : ∀ B, ∀ J ∈ (f B).insts, ∃ I ∈ B.insts, J.id = I.id ∧ J.op = I.op) (b : Nat) :
    ∀ J ∈ ({ blocks := F.blocks.map f } : Func).instsOf b,
      ∃ I ∈ F.instsOf b, J.id = I.id ∧ J.op = I.op := by
  intro J hJ
  rw [instsOf_map F f hid] at hJ
  unfold Func.instsOf
  cases hB : F.findBlock b with
  | none => rw [hB] at hJ; simp at hJ
  | some B => rw [hB] at hJ; exact hf B J hJ

theorem shadows_replacePhiUsesWith (F : Func) (x : Nat) (Old : Option Nat) (New : Nat)
    (b : Nat) :
    ∀ J ∈ (replacePhiUsesWith F x Old New).instsOf b,
      ∃ I ∈ F.instsOf b, J.id = I.id ∧ J.op = I.op := by
  unfold replacePhiUsesWith
  cases Old with
  | none => intro J hJ; exact ⟨J, hJ, rfl, rfl⟩
  | some o =>
    unfold updateBlock
    apply shadows_map
    · intro B; by_cases h : B.id = x <;> simp [h]
    · intro B J hJ
      by_cases h : B.id = x
      · simp only [h, ↓reduceIte] at hJ
        rcases mem_replacePhiUsesInList B.insts o New J hJ with h1 | ⟨I, hI, h1⟩
        · exact ⟨J, h1, rfl, rfl⟩
        · exact ⟨I, hI, by rw [h1]; rfl, by rw [h1]; rfl⟩
      · simp only [h, ↓reduceIte] at hJ
        exact ⟨J, hJ, rfl, rfl⟩

theorem shadows_eraseInst (F : Func) (id : Nat) (b : Nat) :
    ∀ J ∈ (eraseInst F id).instsOf b, ∃ I ∈ F.instsOf b, J.id = I.id ∧ J.op = I.op := by
  unfold eraseInst
  apply shadows_map
  · intro B; rfl
  · intro B J hJ
    exact ⟨J, (List.mem_filter.mp hJ).1, rfl, rfl⟩

theorem shadows_replaceAllUsesWith (F : Func) (old new : Value) (b : Nat) :
    ∀ J ∈ (replaceAllUsesWith F old new).instsOf b,
      ∃ I ∈ F.instsOf b, J.id = I.id ∧ J.op = I.op := by
  unfold replaceAllUsesWith mapInsts
  apply shadows_map
  · intro B; rfl
  · intro B J hJ
    obtain ⟨I, hI, rfl⟩ := List.mem_map.mp hJ
    exact ⟨I, hI, rfl, rfl⟩

theorem shadows_unifyInductionVariables (F : Func) (fiv siv : Nat) (b : Nat) :
    ∀ J ∈ (unifyInductionVariables F fiv siv).instsOf b,
      ∃ I ∈ F.instsOf b, J.id = I.id ∧ J.op = I.op := by
  intro J hJ
  unfold unifyInductionVariables at hJ
  obtain ⟨J1, hJ1, a1, b1⟩ := shadows_eraseInst _ _ b J hJ
  obtain ⟨I, hI, a2, b2⟩ := shadows_replaceAllUsesWith _ _ _ b J1 hJ1
  exact ⟨I, hI, a1.trans a2, b1.trans b2⟩

theorem phisOf_resourcePhis_unify (F : Func) (fiv siv : Nat) (fp fl fb sp sl sh se b : Nat) :
    ∀ id ∈ phisOf (resourcePhis (unifyInductionVariables F fiv siv) fp fl fb sp sl sh se) b,
      ∃ I ∈ F.instsOf b, I.op = Opcode.phi ∧ I.id = id := by
  intro id hid
  simp only [phisOf, List.mem_map, List.mem_filter, decide_eq_true_eq] at hid
  obtain ⟨J, ⟨hJ, hop⟩, rfl⟩ := hid
  unfold resourcePhis at hJ
  simp only [] at hJ
  obtain ⟨J1, hJ1, a1, b1⟩ := shadows_replacePhiUsesWith _ _ _ _ b J hJ
  obtain ⟨J2, hJ2, a2, b2⟩ := shadows_replacePhiUsesWith _ _ _ _ b J1 hJ1
  obtain ⟨J3, hJ3, a3, b3⟩ := shadows_replacePhiUsesWith _ _ _ _ b J2 hJ2
  obtain ⟨J4, hJ4, a4, b4⟩ := shadows_replacePhiUsesWith _ _ _ _ b J3 hJ3
  obtain ⟨I, hI, a5, b5⟩ := shadows_unifyInductionVariables F fiv siv b J4 hJ4
  exact ⟨I, hI, by rw [← b5, ← b4, ← b3, ← b2, ← b1]; exact hop,
    by rw [← a5, ← a4, ← a3, ← a2, ← a1]⟩

end InductionVariableClaim

section LocalOptsBasics

open LocalOpts

theorem logBase2Aux_spec : ∀ (fuel n : Nat), 1 ≤ n → n ≤ fuel →
    2 ^ logBase2Aux fuel n ≤ n ∧ n < 2 ^ (logBase2Aux fuel n + 1) := by
  intro fuel
  induction fuel with
  | zero => intro n h1 h2; omega
  | succ f ih =>
    intro n h1 h2
    unfold logBase2Aux
    by_cases hn : n < 2
    · rw [if_pos hn]
      exact ⟨by simpa using h1, by simpa using hn⟩
    · simp only [hn, ↓reduceIte]
      have h3 : 1 ≤ n / 2 := by omega
      have h4 : n / 2 ≤ f := by omega
      obtain ⟨a, b⟩ := ih (n / 2) h3 h4
      constructor
      · rw [pow_succ]; omega
      · rw [pow_succ]
        rw [pow_succ] at b
        omega

theorem logBase2_spec (K : Nat) (h : 1 ≤ K) :
    2 ^ logBase2 K ≤ K ∧ K < 2 ^ (logBase2 K + 1) :=
  logBase2Aux_spec K K h (le_refl K)

theorem logBase2_unique (K k : Nat) (h1 : 2 ^ k ≤ K) (h2 : K < 2 ^ (k + 1)) :
    logBase2 K = k := by
  have hK : 1 ≤ K := le_trans Nat.one_le_two_pow h1
  obtain ⟨a, b⟩ := logBase2_spec K hK
  have e1 : logBase2 K < k + 1 := (Nat.pow_lt_pow_iff_right (by norm_num)).1 (lt_of_le_of_lt a h2)
  have e2 : k < logBase2 K + 1 := (Nat.pow_lt_pow_iff_right (by norm_num)).1 (lt_of_le_of_lt h1 b)
  omega

theorem logBase2_pow (k : Nat) : logBase2 (2 ^ k) = k :=
  logBase2_unique (2 ^ k) k (le_refl _) (Nat.pow_lt_pow_right (by norm_num) (Nat.lt_succ_self k))

theorem isPowerOf2_iff (K : Nat) : isPowerOf2 K = true ↔ ∃ k, K = 2 ^ k := by
  unfold isPowerOf2
  simp only [decide_eq_true_eq]
  constructor
  · rintro ⟨-, h⟩; exact ⟨_, h⟩
  · rintro ⟨k, rfl⟩
    exact ⟨by positivity, by rw [logBase2_pow]⟩

theorem ofSigned_lt (w : Nat) (z : Int) : ofSigned w z < 2 ^ w := by
  unfold ofSigned
  have h1 : (0 : Int) < 2 ^ w := by positivity
  have h2 := Int.emod_lt_of_pos z h1
  have h3 := Int.emod_nonneg z (ne_of_gt h1)
  zify
  rw [Int.toNat_of_nonneg h3]
  exact_mod_cast h2

theorem ofSigned_toSigned (w a : Nat) (h : a < 2 ^ w) : ofSigned w (toSigned w a) = a := by
  unfold ofSigned toSigned
  rw [Nat.mod_eq_of_lt h]
  have hpos : (0 : Int) < 2 ^ w := by positivity
  split
  · rw [Int.emod_eq_of_lt (by positivity) (by exact_mod_cast h)]
    simp
  · have : ((a : Int) - 2 ^ w) % 2 ^ w = a := by
      rw [Int.sub_emod, Int.emod_self, sub_zero, Int.emod_emod_of_dvd _ (dvd_refl _)]
      exact Int.emod_eq_of_lt (by positivity) (by exact_mod_cast h)
    rw [this]; simp

theorem ofSigned_natCast (w n : Nat) : ofSigned w (n : Int) = n % 2 ^ w := by
  unfold ofSigned
  rw [show ((2 : Int) ^ w) = ((2 ^ w : Nat) : Int) by push_cast; rfl, ← Int.natCast_mod,
    Int.toNat_natCast]

/-- Two integers that agree modulo `2 ^ w` have the same bit pattern. -/
theorem ofSigned_congr (w : Nat) (a b : Int) (h : (2 ^ w : Int) ∣ a - b) :
    ofSigned w a = ofSigned w b := by
  unfold ofSigned
  rw [Int.emod_emod_of_dvd a (dvd_refl _) |>.symm]
  have : a % (2 ^ w : Int) = b % (2 ^ w : Int) := Int.emod_eq_emod_iff_emod_sub_eq_zero.2
    (Int.emod_eq_zero_of_dvd h)
  rw [Int.emod_emod_of_dvd a (dvd_refl _), this]

theorem toSigned_modEq (w a : Nat) : (2 ^ w : Int) ∣ toSigned w a - (a : Int) := by
  unfold toSigned
  have h1 : ((a % 2 ^ w : Nat) : Int) = (a : Int) - 2 ^ w * ((a : Int) / 2 ^ w) := by
    have h2 := Int.emod_add_ediv (a : Int) (2 ^ w)
    have h3 : ((a % 2 ^ w : Nat) : Int) = (a : Int) % 2 ^ w := by
      rw [Int.natCast_mod]; push_cast; rfl
    rw [h3]; linarith
  split
  · rw [h1]; exact ⟨-((a : Int) / 2 ^ w), by ring⟩
  · rw [h1]; exact ⟨-((a : Int) / 2 ^ w) - 1, by ring⟩

theorem toSigned_range (w a : Nat) (hw : 1 ≤ w) :
    -(2 ^ (w - 1) : Int) ≤ toSigned w a ∧ toSigned w a < 2 ^ (w - 1) := by
  have hpow : (2 : Int) ^ w = 2 * 2 ^ (w - 1) := by
    calc (2 : Int) ^ w = 2 ^ (w - 1 + 1) := by rw [Nat.sub_add_cancel hw]
      _ = 2 * 2 ^ (w - 1) := by rw [pow_succ]; ring
  have hlt : a % 2 ^ w < 2 ^ w := Nat.mod_lt _ (by positivity)
  have hlt' : ((a % 2 ^ w : Nat) : Int) < 2 ^ w := by exact_mod_cast hlt
  have hnn : (0 : Int) ≤ ((a % 2 ^ w : Nat) : Int) := by positivity
  unfold toSigned
  split
  · rename_i h
    have h' : (2 : Int) * ((a % 2 ^ w : Nat) : Int) < 2 ^ w := by exact_mod_cast h
    constructor
    · have : (0 : Int) ≤ 2 ^ (w - 1) := by positivity
      linarith
    · linarith
  · rename_i h
    have h' : (2 : Int) ^ w ≤ 2 * ((a % 2 ^ w : Nat) : Int) := by
      have := Nat.le_of_not_lt h
      exact_mod_cast this
    constructor
    · linarith
    · have : (0 : Int) < 2 ^ (w - 1) := by positivity
      linarith

/-- An integer in the signed range is the signed reading of its bit pattern. -/
theorem toSigned_ofSigned (w : Nat) (z : Int) (hw : 1 ≤ w)
    (h1 : -(2 ^ (w - 1) : Int) ≤ z) (h2 : z < 2 ^ (w - 1)) :
    toSigned w (ofSigned w z) = z := by
  have hr := toSigned_range w (ofSigned w z) hw
  have hd := toSigned_modEq w (ofSigned w z)
  have hz : (2 ^ w : Int) ∣ ((ofSigned w z : Nat) : Int) - z := by
    unfold ofSigned
    have hpos : (0 : Int) < 2 ^ w := by positivity
    rw [Int.toNat_of_nonneg (Int.emod_nonneg z (ne_of_gt hpos))]
    exact ⟨-(z / 2 ^ w), by have := Int.emod_add_ediv z (2 ^ w); linarith⟩
  have hsum : (2 ^ w : Int) ∣ toSigned w (ofSigned w z) - z := by
    have := dvd_add hd hz
    simpa using this
  obtain ⟨c, hc⟩ := hsum
  have hpow : (2 : Int) ^ w = 2 * 2 ^ (w - 1) := by
    calc (2 : Int) ^ w = 2 ^ (w - 1 + 1) := by rw [Nat.sub_add_cancel hw]
      _ = 2 * 2 ^ (w - 1) := by rw [pow_succ]; ring
  have hp : (0 : Int) < 2 ^ (w - 1) := by positivity
  have hc0 : c = 0 := by
    by_contra hne
    rcases lt_or_gt_of_ne hne with h | h
    · have : c ≤ -1 := by omega
      nlinarith
    · have : 1 ≤ c := by omega
      nlinarith
  rw [hc0] at hc
  linarith

theorem eval_lt (env : Nat → Nat) : ∀ (V : Val) (w a : Nat), V.getType = Ty.int w →
    eval env V = some a → a < 2 ^ w := by
  intro V
  induction V with
  | constInt w0 v =>
    intro w a ht he
    simp only [Val.getType, Ty.int.injEq] at ht
    simp only [eval, Option.some.injEq] at he
    subst ht; rw [← he]; exact Nat.mod_lt _ (by positivity)
  | arg id ty =>
    intro w a ht he
    simp only [Val.getType] at ht
    subst ht
    simp only [eval, Option.some.injEq] at he
    rw [← he]; exact Nat.mod_lt _ (by positivity)
  | binop op l r ihl ihr =>
    intro w a ht he
    simp only [Val.getType] at ht
    unfold eval at he
    rw [ht] at he
    cases hl : eval env l with
    | none => rw [hl] at he; simp at he
    | some x =>
      cases hr : eval env r with
      | none => rw [hl, hr] at he; simp at he
      | some y =>
        rw [hl, hr] at he
        simp only [] at he
        split at he
        · have hx := ihl w x ht hl
          have hm : 0 < 2 ^ w := by positivity
          cases op with
          | Add => simp only [evalBinop, Option.some.injEq] at he; rw [← he]; exact Nat.mod_lt _ hm
          | Sub => simp only [evalBinop, Option.some.injEq] at he; rw [← he]; exact Nat.mod_lt _ hm
          | Mul => simp only [evalBinop, Option.some.injEq] at he; rw [← he]; exact Nat.mod_lt _ hm
          | Shl =>
            simp only [evalBinop] at he
            split at he
            · simp only [Option.some.injEq] at he; rw [← he]; exact Nat.mod_lt _ hm
            · exact absurd he (by simp)
          | AShr =>
            simp only [evalBinop] at he
            split at he
            · simp only [Option.some.injEq] at he; rw [← he]; exact ofSigned_lt _ _
            · exact absurd he (by simp)
          | And =>
            simp only [evalBinop, Option.some.injEq] at he
            rw [← he]; exact lt_of_le_of_lt Nat.and_le_left hx
          | UDiv =>
            simp only [evalBinop] at he
            split at he
            · exact absurd he (by simp)
            · simp only [Option.some.injEq] at he
              rw [← he]; exact lt_of_le_of_lt (Nat.div_le_self _ _) hx
          | SDiv =>
            simp only [evalBinop] at he
            split at he
            · exact absurd he (by simp)
            · split at he
              · exact absurd he (by simp)
              · simp only [Option.some.injEq] at he; rw [← he]; exact ofSigned_lt _ _
          | Other n => simp [evalBinop] at he
        · exact absurd he (by simp)

end LocalOptsBasics

section AlgebraicIdentities

open LocalOpts

theorem asConstantInt_eq_some (V : Val) (C : ConstantInt) :
    asConstantInt V = some C ↔ ∃ w v, V = Val.constInt w v ∧ C = { w := w, v := v % 2 ^ w } := by
  cases V with
  | constInt w v =>
    simp only [asConstantInt, Option.some.injEq, Val.constInt.injEq]
    constructor
    · intro h; exact ⟨w, v, ⟨rfl, rfl⟩, h.symm⟩
    · rintro ⟨w2, v2, ⟨rfl, rfl⟩, h⟩; exact h.symm
  | arg id ty => simp [asConstantInt]
  | binop op l r => simp [asConstantInt]

theorem isZero_getD (V : Val) :
    ((asConstantInt V).map ConstantInt.isZero).getD false = true ↔
      ∃ w c, V = Val.constInt w c ∧ c % 2 ^ w = 0 := by
  cases V with
  | constInt w v =>
    simp only [asConstantInt, Option.map_some', Option.getD_some, ConstantInt.isZero,
      decide_eq_true_eq, Val.constInt.injEq]
    constructor
    · intro h; exact ⟨w, v, ⟨rfl, rfl⟩, by simpa using h⟩
    · rintro ⟨w2, c, ⟨rfl, rfl⟩, h⟩; simpa using h
  | arg id ty => simp [asConstantInt]
  | binop op l r => simp [asConstantInt]

theorem isOne_getD (V : Val) :
    ((asConstantInt V).map ConstantInt.isOne).getD false = true ↔
      ∃ w c, V = Val.constInt w c ∧ c % 2 ^ w = 1 := by
  cases V with
  | constInt w v =>
    simp only [asConstantInt, Option.map_some', Option.getD_some, ConstantInt.isOne,
      decide_eq_true_eq, Val.constInt.injEq]
    constructor
    · intro h; exact ⟨w, v, ⟨rfl, rfl⟩, by simpa using h⟩
    · rintro ⟨w2, c, ⟨rfl, rfl⟩, h⟩; simpa using h
  | arg id ty => simp [asConstantInt]
  | binop op l r => simp [asConstantInt]

theorem eval_binop (env : Nat → Nat) (op : Opcode) (l r : Val) (v : Nat) :
    eval env (Val.binop op l r) = some v ↔
      ∃ w a b, l.getType = Ty.int w ∧ r.getType = Ty.int w ∧ eval env l = some a ∧
        eval env r = some b ∧ evalBinop w op a b = some v := by
  constructor
  · intro h
    unfold eval at h
    split at h
    · rename_i w a b h1 h2 h3
      split at h
      · rename_i h4
        exact ⟨w, a, b, h1, h4, h2, h3, h⟩
      · exact absurd h (by simp)
    · exact absurd h (by simp)
  · rintro ⟨w, a, b, h1, h2, h3, h4, h5⟩
    unfold eval
    rw [h1, h3, h4]
    simp only [h2, ↓reduceIte]
    exact h5

theorem eval_constInt (env : Nat → Nat) (w c : Nat) :
    eval env (Val.constInt w c) = some (c % 2 ^ w) := rfl

theorem toSigned_one (w : Nat) (hw : 2 ≤ w) : toSigned w 1 = 1 := by
  have h4 : 4 ≤ 2 ^ w := by
    calc 4 = 2 ^ 2 := by norm_num
      _ ≤ 2 ^ w := Nat.pow_le_pow_right (by norm_num) hw
  unfold toSigned
  rw [Nat.mod_eq_of_lt (by omega)]
  rw [if_pos (by omega)]
  rfl

/-- The signed division by the constant one gives the dividend back, when defined. -/
theorem sdiv_one (w a v : Nat) (hw : 2 ^ w ≠ 1) (ha : a < 2 ^ w)
    (h : evalBinop w Opcode.SDiv a 1 = some v) : v = a := by
  simp only [evalBinop, one_ne_zero, ↓reduceIte] at h
  split at h
  · exact absurd h (by simp)
  · rename_i hov
    simp only [Option.some.injEq] at h
    by_cases hw2 : 2 ≤ w
    · rw [toSigned_one w hw2, Int.tdiv_one, ofSigned_toSigned w a ha] at h
      exact h.symm
    · have hw1 : w = 1 := by
        have : w ≠ 0 := by intro e; rw [e] at hw; exact hw rfl
        omega
      subst hw1
      have ha2 : a = 0 ∨ a = 1 := by
        have : a < 2 := by simpa using ha
        omega
      rcases ha2 with rfl | rfl
      · rw [← h]; decide
      · exact absurd ⟨by decide, by decide⟩ hov

/-- C30. `AlgebraicIdentityOpt2` returns true exactly for a binary operation of one of
the shapes `x + 0`, `0 + x`, `x - 0`, `x * 1`, `1 * x`, `x sdiv 1`, `x udiv 1` whose zero
or one is a `ConstantInt`; the value it replaces the uses with is the `x` of such a
shape; and whenever the instruction has a defined value, `x` has the same value. -/
theorem AlgebraicIdentityOpt2_iff (I : Val) :
    (∀ x, AlgebraicIdentityOpt2 I = some x →
      (∃ w c, c % 2 ^ w = 0 ∧
        (I = Val.binop Opcode.Add x (Val.constInt w c) ∨
          I = Val.binop Opcode.Add (Val.constInt w c) x ∨
          I = Val.binop Opcode.Sub x (Val.constInt w c))) ∨
      (∃ w c, c % 2 ^ w = 1 ∧
        (I = Val.binop Opcode.Mul x (Val.constInt w c) ∨
          I = Val.binop Opcode.Mul (Val.constInt w c) x ∨
          I = Val.binop Opcode.SDiv x (Val.constInt w c) ∨
          I = Val.binop Opcode.UDiv x (Val.constInt w c)))) ∧
    ((AlgebraicIdentityOpt2 I).isSome = true ↔
      ∃ x,
        (∃ w c, c % 2 ^ w = 0 ∧
          (I = Val.binop Opcode.Add x (Val.constInt w c) ∨
            I = Val.binop Opcode.Add (Val.constInt w c) x ∨
            I = Val.binop Opcode.Sub x (Val.constInt w c))) ∨
        (∃ w c, c % 2 ^ w = 1 ∧
          (I = Val.binop Opcode.Mul x (Val.constInt w c) ∨
            I = Val.binop Opcode.Mul (Val.constInt w c) x ∨
            I = Val.binop Opcode.SDiv x (Val.constInt w c) ∨
            I = Val.binop Opcode.UDiv x (Val.constInt w c)))) ∧
    (∀ x, AlgebraicIdentityOpt2 I = some x →
      ∀ env v, eval env I = some v → eval env x = some v) := by
  have hshape : ∀ x, AlgebraicIdentityOpt2 I = some x →
      (∃ w c, c % 2 ^ w = 0 ∧
        (I = Val.binop Opcode.Add x (Val.constInt w c) ∨
          I = Val.binop Opcode.Add (Val.constInt w c) x ∨
          I = Val.binop Opcode.Sub x (Val.constInt w c))) ∨
      (∃ w c, c % 2 ^ w = 1 ∧
        (I = Val.binop Opcode.Mul x (Val.constInt w c) ∨
          I = Val.binop Opcode.Mul (Val.constInt w c) x ∨
          I = Val.binop Opcode.SDiv x (Val.constInt w c) ∨
          I = Val.binop Opcode.UDiv x (Val.constInt w c))) := by
    intro x h
    cases I with
    | constInt w v => simp [AlgebraicIdentityOpt2] at h
    | arg id ty => simp [AlgebraicIdentityOpt2] at h
    | binop op Op1 Op2 =>
      cases op <;> simp only [AlgebraicIdentityOpt2] at h
      · -- Add
        split at h
        · rename_i h1
          obtain ⟨w, c, rfl, hc⟩ := (isZero_getD Op1).1 h1
          simp only [Option.some.injEq] at h
          exact Or.inl ⟨w, c, hc, Or.inr (Or.inl (by rw [h]))⟩
        · split at h
          · rename_i h2
            obtain ⟨w, c, rfl, hc⟩ := (isZero_getD Op2).1 h2
            simp only [Option.some.injEq] at h
            exact Or.inl ⟨w, c, hc, Or.inl (by rw [h])⟩
          · exact absurd h (by simp)
      · -- Sub
        split at h
        · rename_i h2
          obtain ⟨w, c, rfl, hc⟩ := (isZero_getD Op2).1 h2
          simp only [Option.some.injEq] at h
          exact Or.inl ⟨w, c, hc, Or.inr (Or.inr (by rw [h]))⟩
        · exact absurd h (by simp)
      · -- Mul
        split at h
        · rename_i h1
          obtain ⟨w, c, rfl, hc⟩ := (isOne_getD Op1).1 h1
          simp only [Option.some.injEq] at h
          exact Or.inr ⟨w, c, hc, Or.inr (Or.inl (by rw [h]))⟩
        · split at h
          · rename_i h2
            obtain ⟨w, c, rfl, hc⟩ := (isOne_getD Op2).1 h2
            simp only [Option.some.injEq] at h
            exact Or.inr ⟨w, c, hc, Or.inl (by rw [h])⟩
          · exact absurd h (by simp)
      · -- SDiv
        split at h
        · rename_i h2
          obtain ⟨w, c, rfl, hc⟩ := (isOne_getD Op2).1 h2
          simp only [Option.some.injEq] at h
          exact Or.inr ⟨w, c, hc, Or.inr (Or.inr (Or.inl (by rw [h])))⟩
        · exact absurd h (by simp)
      · -- UDiv
        split at h
        · rename_i h2
          obtain ⟨w, c, rfl, hc⟩ := (isOne_getD Op2).1 h2
          simp only [Option.some.injEq] at h
          exact Or.inr ⟨w, c, hc, Or.inr (Or.inr (Or.inr (by rw [h])))⟩
        · exact absurd h (by simp)
      all_goals exact absurd h (by simp)
  refine ⟨hshape, ?_, ?_⟩
  · constructor
    · intro h
      cases hI : AlgebraicIdentityOpt2 I with
      | none => rw [hI] at h; exact absurd h (by simp)
      | some x => exact ⟨x, hshape x hI⟩
    · rintro ⟨x, ⟨w, c, hc, h | h | h⟩ | ⟨w, c, hc, h | h | h | h⟩⟩
      · subst h
        have h2 := (isZero_getD (Val.constInt w c)).2 ⟨w, c, rfl, hc⟩
        simp only [AlgebraicIdentityOpt2, h2]
        split <;> rfl
      · subst h
        have h2 := (isZero_getD (Val.constInt w c)).2 ⟨w, c, rfl, hc⟩
        simp [AlgebraicIdentityOpt2, h2]
      · subst h
        have h2 := (isZero_getD (Val.constInt w c)).2 ⟨w, c, rfl, hc⟩
        simp [AlgebraicIdentityOpt2, h2]
      · subst h
        have h2 := (isOne_getD (Val.constInt w c)).2 ⟨w, c, rfl, hc⟩
        simp only [AlgebraicIdentityOpt2, h2]
        split <;> rfl
      · subst h
        have h2 := (isOne_getD (Val.constInt w c)).2 ⟨w, c, rfl, hc⟩
        simp [AlgebraicIdentityOpt2, h2]
      · subst h
        have h2 := (isOne_getD (Val.constInt w c)).2 ⟨w, c, rfl, hc⟩
        simp [AlgebraicIdentityOpt2, h2]
      · subst h
        have h2 := (isOne_getD (Val.constInt w c)).2 ⟨w, c, rfl, hc⟩
        simp [AlgebraicIdentityOpt2, h2]
  · intro x h env v hv
    rcases hshape x h with ⟨w, c, hc, hI | hI | hI⟩ | ⟨w, c, hc, hI | hI | hI | hI⟩
    all_goals
      subst hI
      obtain ⟨w2, a, b, h1, h2, h3, h4, h5⟩ := (eval_binop env _ _ _ v).1 hv
    · -- x + 0
      have hw : w = w2 := by simpa [Val.getType] using h2
      subst hw
      rw [eval_constInt, hc] at h4
      have hb : b = 0 := by simpa using h4.symm
      subst hb
      have ha := eval_lt env x w a h1 h3
      simp only [evalBinop, add_zero, Option.some.injEq] at h5
      rw [Nat.mod_eq_of_lt ha] at h5
      rw [h3, h5]
    · -- 0 + x
      have hw : w = w2 := by simpa [Val.getType] using h1
      subst hw
      rw [eval_constInt, hc] at h3
      have hb : a = 0 := by simpa using h3.symm
      subst hb
      have hb2 := eval_lt env x w b h2 h4
      simp only [evalBinop, zero_add, Option.some.injEq] at h5
      rw [Nat.mod_eq_of_lt hb2] at h5
      rw [h4, h5]
    · -- x - 0
      have hw : w = w2 := by simpa [Val.getType] using h2
      subst hw
      rw [eval_constInt, hc] at h4
      have hb : b = 0 := by simpa using h4.symm
      subst hb
      have ha := eval_lt env x w a h1 h3
      simp only [evalBinop, Nat.zero_mod, Nat.sub_zero, Nat.add_mod_right,
        Option.some.injEq] at h5
      rw [Nat.mod_eq_of_lt ha] at h5
      rw [h3, h5]
    · -- x * 1
      have hw : w = w2 := by simpa [Val.getType] using h2
      subst hw
      rw [eval_constInt, hc] at h4
      have hb : b = 1 := by simpa using h4.symm
      subst hb
      have ha := eval_lt env x w a h1 h3
      simp only [evalBinop, mul_one, Option.some.injEq] at h5
      rw [Nat.mod_eq_of_lt ha] at h5
      rw [h3, h5]
    · -- 1 * x
      have hw : w = w2 := by simpa [Val.getType] using h1
      subst hw
      rw [eval_constInt, hc] at h3
      have hb : a = 1 := by simpa using h3.symm
      subst hb
      have hb2 := eval_lt env x w b h2 h4
      simp only [evalBinop, one_mul, Option.some.injEq] at h5
      rw [Nat.mod_eq_of_lt hb2] at h5
      rw [h4, h5]
    · -- x sdiv 1
      have hw : w = w2 := by simpa [Val.getType] using h2
      subst hw
      rw [eval_constInt, hc] at h4
      have hb : b = 1 := by simpa using h4.symm
      subst hb
      have ha := eval_lt env x w a h1 h3
      have hw1 : 2 ^ w ≠ 1 := by
        intro e; rw [e, Nat.mod_one] at hc; exact absurd hc (by decide)
      rw [h3, sdiv_one w a v hw1 ha h5]
    · -- x udiv 1
      have hw : w = w2 := by simpa [Val.getType] using h2
      subst hw
      rw [eval_constInt, hc] at h4
      have hb : b = 1 := by simpa using h4.symm
      subst hb
      simp only [evalBinop, one_ne_zero, ↓reduceIte, Nat.div_one, Option.some.injEq] at h5
      rw [h3, h5]

/-- C30 on 8-bit examples: `x + 0` and `1 * x` are replaced by `x`; `0 - x` and
`1 sdiv x` are not replaced. -/
theorem AlgebraicIdentityOpt2_iff_witness :
    AlgebraicIdentityOpt2 (Val.binop Opcode.Add (Val.arg 0 (Ty.int 8)) (Val.constInt 8 0))
      = some (Val.arg 0 (Ty.int 8)) ∧
    AlgebraicIdentityOpt2 (Val.binop Opcode.Mul (Val.constInt 8 1) (Val.arg 0 (Ty.int 8)))
      = some (Val.arg 0 (Ty.int 8)) ∧
    AlgebraicIdentityOpt2 (Val.binop Opcode.Sub (Val.constInt 8 0) (Val.arg 0 (Ty.int 8)))
      = none ∧
    AlgebraicIdentityOpt2 (Val.binop Opcode.SDiv (Val.constInt 8 1) (Val.arg 0 (Ty.int 8)))
      = none ∧
    (∀ env v,
      eval env (Val.binop Opcode.Add (Val.arg 0 (Ty.int 8)) (Val.constInt 8 0)) = some v →
      eval env (Val.arg 0 (Ty.int 8)) = some v) :=
  ⟨by decide, by decide, by decide, by decide,
    (AlgebraicIdentityOpt2_iff
      (Val.binop Opcode.Add (Val.arg 0 (Ty.int 8)) (Val.constInt 8 0))).2.2 _ (by decide)⟩

end AlgebraicIdentities

section Cancellation

open LocalOpts

theorem sameConst_eq_true (a b : ConstantInt) :
    sameConst (some a) (some b) = true ↔ a.w = b.w ∧ a.v = b.v := by
  unfold sameConst
  by_cases h1 : a.w = b.w <;> by_cases h2 : a.v = b.v <;> simp [h1, h2]

theorem sameConst_constInt (w c w2 d : Nat) :
    sameConst (asConstantInt (Val.constInt w c)) (asConstantInt (Val.constInt w2 d)) = true ↔
      w = w2 ∧ c % 2 ^ w = d % 2 ^ w2 := by
  simp only [asConstantInt]
  exact sameConst_eq_true _ _

theorem asConstantInt_eq_none (V : Val) :
    asConstantInt V = none ↔ ∀ w c, V ≠ Val.constInt w c := by
  cases V <;> simp [asConstantInt]

theorem asConstantInt_constInt (w v : Nat) :
    asConstantInt (Val.constInt w v) = some { w := w, v := v % 2 ^ w } := rfl

theorem asConstantInt_binop (op : Opcode) (l r : Val) :
    asConstantInt (Val.binop op l r) = none := rfl

theorem asBinaryOperator_eq_some (op : Opcode) (V l r : Val) :
    asBinaryOperator op V = some (l, r) ↔ V = Val.binop op l r := by
  cases V with
  | constInt w v => simp [asBinaryOperator]
  | arg id ty => simp [asBinaryOperator]
  | binop o a b =>
    simp only [asBinaryOperator, Val.binop.injEq]
    by_cases h : o = op
    · simp [h]
    · simp [h]

theorem patternAddSub_eq_some (OL OR x : Val) (h : patternAddSub OL OR = some x) :
    ∃ w c d, c % 2 ^ w = d % 2 ^ w ∧ OR = Val.constInt w d ∧
      (OL = Val.binop Opcode.Add x (Val.constInt w c) ∨
        (OL = Val.binop Opcode.Add (Val.constInt w c) x ∧ asConstantInt x = none)) := by
  unfold patternAddSub at h
  split at h
  · rename_i Cout IL IR hC hB
    obtain ⟨w2, d, rfl, rfl⟩ := (asConstantInt_eq_some OR _).1 hC
    have hOL := (asBinaryOperator_eq_some _ _ _ _).1 hB
    split at h
    · rename_i Cin hCin
      obtain ⟨w, c, rfl, rfl⟩ := (asConstantInt_eq_some IR _).1 hCin
      split at h
      · rename_i hs
        have hs2 := (sameConst_eq_true _ _).1 hs
        simp only at hs2
        obtain ⟨hw, hv⟩ := hs2
        subst hw
        simp only [Option.some.injEq] at h
        subst h
        exact ⟨w, c, d, hv, rfl, Or.inl hOL⟩
      · exact absurd h (by simp)
    · rename_i hIR
      split at h
      · rename_i CinL hCinL
        obtain ⟨w, c, rfl, rfl⟩ := (asConstantInt_eq_some IL _).1 hCinL
        split at h
        · rename_i hs
          have hs2 := (sameConst_eq_true _ _).1 hs
          simp only at hs2
          obtain ⟨hw, hv⟩ := hs2
          subst hw
          simp only [Option.some.injEq] at h
          subst h
          exact ⟨w, c, d, hv, rfl, Or.inr ⟨hOL, hIR⟩⟩
        · exact absurd h (by simp)
      · exact absurd h (by simp)
  · exact absurd h (by simp)

theorem patternFrontSub_eq_some (OL OR x : Val) (h : patternFrontSub OL OR = some x) :
    ∃ w c d, c % 2 ^ w = d % 2 ^ w ∧ OL = Val.constInt w d ∧
      OR = Val.binop Opcode.Sub (Val.constInt w c) x := by
  unfold patternFrontSub at h
  split at h
  · rename_i Cout IL IR hC hB
    obtain ⟨w2, d, rfl, rfl⟩ := (asConstantInt_eq_some OL _).1 hC
    have hOR := (asBinaryOperator_eq_some _ _ _ _).1 hB
    split at h
    · rename_i Cin hCin
      obtain ⟨w, c, rfl, rfl⟩ := (asConstantInt_eq_some IL _).1 hCin
      split at h
      · rename_i hs
        have hs2 := (sameConst_eq_true _ _).1 hs
        simp only at hs2
        obtain ⟨hw, hv⟩ := hs2
        subst hw
        simp only [Option.some.injEq] at h
        subst h
        exact ⟨w, c, d, hv, rfl, hOR⟩
      · exact absurd h (by simp)
    · exact absurd h (by simp)
  · exact absurd h (by simp)

theorem patternSubAdd_eq_some (OL OR x : Val) (h : patternSubAdd OL OR = some x) :
    ∃ w c d, c % 2 ^ w = d % 2 ^ w ∧
      ((OL = Val.binop Opcode.Sub x (Val.constInt w c) ∧ OR = Val.constInt w d) ∨
        (OL = Val.constInt w d ∧ OR = Val.binop Opcode.Sub x (Val.constInt w c))) := by
  have key : ∀ (Cout : ConstantInt) (OLn : Val),
      (match asBinaryOperator Opcode.Sub OLn with
        | none => none
        | some (IL, IR) =>
          match asConstantInt IR with
          | none => none
          | some Cin => if sameConst (some Cin) (some Cout) then some IL else none) = some x →
      ∃ c, c % 2 ^ Cout.w = Cout.v ∧ OLn = Val.binop Opcode.Sub x (Val.constInt Cout.w c) := by
    intro Cout OLn h
    split at h
    · exact absurd h (by simp)
    · rename_i IL IR hB
      have hO := (asBinaryOperator_eq_some _ _ _ _).1 hB
      split at h
      · exact absurd h (by simp)
      · rename_i Cin hCin
        obtain ⟨w, c, rfl, rfl⟩ := (asConstantInt_eq_some IR _).1 hCin
        split at h
        · rename_i hs
          have hs2 := (sameConst_eq_true _ _).1 hs
          simp only at hs2
          obtain ⟨hw, hv⟩ := hs2
          subst hw
          simp only [Option.some.injEq] at h
          subst h
          exact ⟨c, hv, hO⟩
        · exact absurd h (by simp)
  unfold patternSubAdd at h
  cases hOL : asConstantInt OL with
  | some Cout =>
    rw [hOL] at h
    obtain ⟨w, d, rfl, rfl⟩ := (asConstantInt_eq_some OL _).1 hOL
    obtain ⟨c, hc, hO⟩ := key _ _ h
    exact ⟨w, c, d, hc, Or.inr ⟨rfl, hO⟩⟩
  | none =>
    rw [hOL] at h
    cases hOR : asConstantInt OR with
    | some Cout =>
      rw [hOR] at h
      obtain ⟨w, d, rfl, rfl⟩ := (asConstantInt_eq_some OR _).1 hOR
      obtain ⟨c, hc, hO⟩ := key _ _ h
      exact ⟨w, c, d, hc, Or.inl ⟨hO, rfl⟩⟩
    | none =>
      rw [hOR] at h
      exact absurd h (by simp)

theorem MultiInstructionOpt_eq_some (I x : Val) (h : MultiInstructionOpt I = some x) :
    ∃ w c d, c % 2 ^ w = d % 2 ^ w ∧
      (I = Val.binop Opcode.Sub (Val.binop Opcode.Add x (Val.constInt w c)) (Val.constInt w d) ∨
        I = Val.binop Opcode.Sub (Val.binop Opcode.Add (Val.constInt w c) x) (Val.constInt w d) ∨
        I = Val.binop Opcode.Sub (Val.constInt w d) (Val.binop Opcode.Sub (Val.constInt w c) x) ∨
        I = Val.binop Opcode.Add (Val.binop Opcode.Sub x (Val.constInt w c)) (Val.constInt w d) ∨
        I = Val.binop Opcode.Add (Val.constInt w d) (Val.binop Opcode.Sub x (Val.constInt w c))) := by
  cases I with
  | constInt w v =>
    simp only [MultiInstructionOpt] at h
    split at h <;> exact absurd h (by simp)
  | arg id ty =>
    simp only [MultiInstructionOpt] at h
    split at h <;> exact absurd h (by simp)
  | binop op OL OR =>
    cases op <;> simp only [MultiInstructionOpt] at h <;> split at h
    case Add.h_1 =>
      obtain ⟨w, c, d, hcd, ⟨rfl, rfl⟩ | ⟨rfl, rfl⟩⟩ := patternSubAdd_eq_some _ _ _ h
      · exact ⟨w, c, d, hcd, Or.inr (Or.inr (Or.inr (Or.inl rfl)))⟩
      · exact ⟨w, c, d, hcd, Or.inr (Or.inr (Or.inr (Or.inr rfl)))⟩
    case Sub.h_1 =>
      cases h1 : patternAddSub OL OR with
      | some y =>
        rw [h1] at h
        simp only [Option.some.injEq] at h
        subst h
        obtain ⟨w, c, d, hcd, rfl, rfl | ⟨rfl, _⟩⟩ := patternAddSub_eq_some _ _ _ h1
        · exact ⟨w, c, d, hcd, Or.inl rfl⟩
        · exact ⟨w, c, d, hcd, Or.inr (Or.inl rfl)⟩
      | none =>
        rw [h1] at h
        obtain ⟨w, c, d, hcd, rfl, rfl⟩ := patternFrontSub_eq_some _ _ _ h
        exact ⟨w, c, d, hcd, Or.inr (Or.inr (Or.inl rfl))⟩
    all_goals exact absurd h (by simp)

theorem mod_eq_of_zmod (m X a : Nat) (ha : a < m) (h : (X : ZMod m) = (a : ZMod m)) :
    X % m = a := by
  have h2 := (ZMod.natCast_eq_natCast_iff X a m).1 h
  rw [Nat.ModEq, Nat.mod_eq_of_lt ha] at h2
  exact h2

theorem zmod_cast_neg (m b : Nat) (hm : 0 < m) :
    ((m - b % m : Nat) : ZMod m) = -(b : ZMod m) := by
  rw [Nat.cast_sub (Nat.mod_lt b hm).le, ZMod.natCast_self, ZMod.natCast_mod]
  ring

theorem evalBinop_add (w a b : Nat) :
    evalBinop w Opcode.Add a b = some ((a + b) % 2 ^ w) := rfl

theorem evalBinop_sub (w a b : Nat) :
    evalBinop w Opcode.Sub a b = some ((a + (2 ^ w - b % 2 ^ w)) % 2 ^ w) := rfl

theorem eval_binop_typed (env : Nat → Nat) (op : Opcode) (l r : Val) (w a b : Nat)
    (hl : l.getType = Ty.int w) (hr : r.getType = Ty.int w)
    (ha : eval env l = some a) (hb : eval env r = some b) :
    eval env (Val.binop op l r) = evalBinop w op a b := by
  unfold eval
  rw [hl, ha, hb]
  simp only [hr, ↓reduceIte]

/-- The five shapes have the value of `x`. -/
theorem cancel_shapes_value (env : Nat → Nat) (x : Val) (w c d a : Nat)
    (hcd : c % 2 ^ w = d % 2 ^ w) (hx : x.getType = Ty.int w) (ha : eval env x = some a) :
    eval env (Val.binop Opcode.Sub (Val.binop Opcode.Add x (Val.constInt w c))
      (Val.constInt w d)) = some a ∧
    eval env (Val.binop Opcode.Sub (Val.binop Opcode.Add (Val.constInt w c) x)
      (Val.constInt w d)) = some a ∧
    eval env (Val.binop Opcode.Sub (Val.constInt w d)
      (Val.binop Opcode.Sub (Val.constInt w c) x)) = some a ∧
    eval env (Val.binop Opcode.Add (Val.binop Opcode.Sub x (Val.constInt w c))
      (Val.constInt w d)) = some a ∧
    eval env (Val.binop Opcode.Add (Val.constInt w d)
      (Val.binop Opcode.Sub x (Val.constInt w c))) = some a := by
  have hm : 0 < 2 ^ w := Nat.pos_pow_of_pos w (by norm_num)
  have halt := eval_lt env x w a hx ha
  have hC : ∀ k, (Val.constInt w k).getType = Ty.int w := fun _ => rfl
  have hcz : ((c : Nat) : ZMod (2 ^ w)) = (d : ZMod (2 ^ w)) :=
    (ZMod.natCast_eq_natCast_iff c d (2 ^ w)).2 hcd
  have e1 := eval_binop_typed env Opcode.Add x (Val.constInt w c) w a _ hx (hC c) ha
    (eval_constInt env w c)
  have e2 := eval_binop_typed env Opcode.Add (Val.constInt w c) x w _ a (hC c) hx
    (eval_constInt env w c) ha
  have e3 := eval_binop_typed env Opcode.Sub (Val.constInt w c) x w _ a (hC c) hx
    (eval_constInt env w c) ha
  have e4 := eval_binop_typed env Opcode.Sub x (Val.constInt w c) w a _ hx (hC c) ha
    (eval_constInt env w c)
  rw [evalBinop_add] at e1 e2
  rw [evalBinop_sub] at e3 e4
  refine ⟨?_, ?_, ?_, ?_, ?_⟩
  · rw [eval_binop_typed env Opcode.Sub (Val.binop Opcode.Add x (Val.constInt w c)) (Val.constInt w d) w _ _ hx (hC d) e1
      (eval_constInt env w d), evalBinop_sub]
    congr 1
    apply mod_eq_of_zmod _ _ _ halt
    push_cast [ZMod.natCast_mod, zmod_cast_neg _ _ hm, hcz]
    ring
  · rw [eval_binop_typed env Opcode.Sub (Val.binop Opcode.Add (Val.constInt w c) x) (Val.constInt w d) w _ _ (hC c) (hC d) e2
      (eval_constInt env w d), evalBinop_sub]
    congr 1
    apply mod_eq_of_zmod _ _ _ halt
    push_cast [ZMod.natCast_mod, zmod_cast_neg _ _ hm, hcz]
    ring
  · rw [eval_binop_typed env Opcode.Sub (Val.constInt w d) (Val.binop Opcode.Sub (Val.constInt w c) x) w _ _ (hC d) (hC c)
      (eval_constInt env w d) e3, evalBinop_sub]
    congr 1
    apply mod_eq_of_zmod _ _ _ halt
    push_cast [ZMod.natCast_mod, zmod_cast_neg _ _ hm, hcz]
    ring
  · rw [eval_binop_typed env Opcode.Add (Val.binop Opcode.Sub x (Val.constInt w c)) (Val.constInt w d) w _ _ hx (hC d) e4
      (eval_constInt env w d), evalBinop_add]
    congr 1
    apply mod_eq_of_zmod _ _ _ halt
    push_cast [ZMod.natCast_mod, zmod_cast_neg _ _ hm, hcz]
    ring
  · rw [eval_binop_typed env Opcode.Add (Val.constInt w d) (Val.binop Opcode.Sub x (Val.constInt w c)) w _ _ (hC d) hx
      (eval_constInt env w d) e4, evalBinop_add]
    congr 1
    apply mod_eq_of_zmod _ _ _ halt
    push_cast [ZMod.natCast_mod, zmod_cast_neg _ _ hm, hcz]
    ring

end Cancellation

section CancellationClaim

open LocalOpts

/-- C29. `MultiInstructionOpt` replaces an instruction only when it has one of the shapes
`(x + C) - C`, `(C + x) - C`, `C - (C - x)`, `(x - C) + C`, `C + (x - C)` whose inner and
outer constant have the same width and the same value, and the value it replaces the uses
with is that `x`; whenever the replaced instruction has a value, `x` has the same value,
and each of the shapes over an `x` of the constant's width has the value of `x`; when the
two constants differ in width or in value the function returns false. -/
theorem MultiInstructionOpt_cancels (I : Val) :
    (∀ x, MultiInstructionOpt I = some x →
      ∃ w c d, c % 2 ^ w = d % 2 ^ w ∧
        (I = Val.binop Opcode.Sub (Val.binop Opcode.Add x (Val.constInt w c))
            (Val.constInt w d) ∨
          I = Val.binop Opcode.Sub (Val.binop Opcode.Add (Val.constInt w c) x)
            (Val.constInt w d) ∨
          I = Val.binop Opcode.Sub (Val.constInt w d)
            (Val.binop Opcode.Sub (Val.constInt w c) x) ∨
          I = Val.binop Opcode.Add (Val.binop Opcode.Sub x (Val.constInt w c))
            (Val.constInt w d) ∨
          I = Val.binop Opcode.Add (Val.constInt w d)
            (Val.binop Opcode.Sub x (Val.constInt w c)))) ∧
    (∀ x, MultiInstructionOpt I = some x →
      ∀ env v, eval env I = some v → eval env x = some v) ∧
    (∀ x w c d env a, c % 2 ^ w = d % 2 ^ w → x.getType = Ty.int w → eval env x = some a →
      (I = Val.binop Opcode.Sub (Val.binop Opcode.Add x (Val.constInt w c))
          (Val.constInt w d) ∨
        I = Val.binop Opcode.Sub (Val.binop Opcode.Add (Val.constInt w c) x)
          (Val.constInt w d) ∨
        I = Val.binop Opcode.Sub (Val.constInt w d)
          (Val.binop Opcode.Sub (Val.constInt w c) x) ∨
        I = Val.binop Opcode.Add (Val.binop Opcode.Sub x (Val.constInt w c))
          (Val.constInt w d) ∨
        I = Val.binop Opcode.Add (Val.constInt w d)
          (Val.binop Opcode.Sub x (Val.constInt w c))) →
      eval env I = some a ∧ a = a % 2 ^ w) ∧
    (∀ x w c w2 d, (w ≠ w2 ∨ c % 2 ^ w ≠ d % 2 ^ w2) →
      (I = Val.binop Opcode.Sub (Val.binop Opcode.Add x (Val.constInt w c))
          (Val.constInt w2 d) ∨
        (I = Val.binop Opcode.Sub (Val.binop Opcode.Add (Val.constInt w c) x)
          (Val.constInt w2 d) ∧ asConstantInt x = none) ∨
        I = Val.binop Opcode.Sub (Val.constInt w2 d)
          (Val.binop Opcode.Sub (Val.constInt w c) x) ∨
        I = Val.binop Opcode.Add (Val.binop Opcode.Sub x (Val.constInt w c))
          (Val.constInt w2 d) ∨
        I = Val.binop Opcode.Add (Val.constInt w2 d)
          (Val.binop Opcode.Sub x (Val.constInt w c))) →
      MultiInstructionOpt I = none) := by
  refine ⟨MultiInstructionOpt_eq_some I, ?_, ?_, ?_⟩
  · intro x h env v hv
    obtain ⟨w, c, d, hcd, hI⟩ := MultiInstructionOpt_eq_some I x h
    have key : ∃ a, x.getType = Ty.int w ∧ eval env x = some a := by
      rcases hI with hI | hI | hI | hI | hI
      all_goals
        subst hI
        obtain ⟨w2, a, b, h1, h2, h3, h4, h5⟩ := (eval_binop env _ _ _ v).1 hv
      · obtain ⟨w3, a2, b2, g1, g2, g3, g4, g5⟩ := (eval_binop env _ _ _ a).1 h3
        have e : w = w3 := by simpa [Val.getType] using g2
        subst e
        exact ⟨a2, g1, g3⟩
      · obtain ⟨w3, a2, b2, g1, g2, g3, g4, g5⟩ := (eval_binop env _ _ _ a).1 h3
        have e : w = w3 := by simpa [Val.getType] using g1
        subst e
        exact ⟨b2, g2, g4⟩
      · obtain ⟨w3, a2, b2, g1, g2, g3, g4, g5⟩ := (eval_binop env _ _ _ b).1 h4
        have e : w = w3 := by simpa [Val.getType] using g1
        subst e
        exact ⟨b2, g2, g4⟩
      · obtain ⟨w3, a2, b2, g1, g2, g3, g4, g5⟩ := (eval_binop env _ _ _ a).1 h3
        have e : w = w3 := by simpa [Val.getType] using g2
        subst e
        exact ⟨a2, g1, g3⟩
      · obtain ⟨w3, a2, b2, g1, g2, g3, g4, g5⟩ := (eval_binop env _ _ _ b).1 h4
        have e : w = w3 := by simpa [Val.getType] using g2
        subst e
        exact ⟨a2, g1, g3⟩
    obtain ⟨a, hx, ha⟩ := key
    obtain ⟨c1, c2, c3, c4, c5⟩ := cancel_shapes_value env x w c d a hcd hx ha
    have hIa : eval env I = some a := by
      rcases hI with hI | hI | hI | hI | hI <;> subst hI <;> assumption
    rw [hIa] at hv
    rw [ha, hv]
  · intro x w c d env a hcd hx ha hI
    obtain ⟨c1, c2, c3, c4, c5⟩ := cancel_shapes_value env x w c d a hcd hx ha
    refine ⟨?_, (Nat.mod_eq_of_lt (eval_lt env x w a hx ha)).symm⟩
    rcases hI with hI | hI | hI | hI | hI <;> subst hI <;> assumption
  · intro x w c w2 d hne hI
    have hs : sameConst (asConstantInt (Val.constInt w c))
        (asConstantInt (Val.constInt w2 d)) = false := by
      rw [Bool.eq_false_iff]
      intro hs
      have := (sameConst_constInt w c w2 d).1 hs
      rcases hne with hne | hne
      · exact hne this.1
      · exact hne this.2
    simp only [asConstantInt_constInt] at hs
    rcases hI with hI | ⟨hI, hx⟩ | hI | hI | hI
    · subst hI
      simp only [MultiInstructionOpt, patternAddSub, patternFrontSub, asConstantInt_constInt,
        asConstantInt_binop, asBinaryOperator]
      split <;> simp [asConstantInt_constInt, hs]
    · subst hI
      simp only [MultiInstructionOpt, patternAddSub, patternFrontSub, asConstantInt_constInt,
        asConstantInt_binop, asBinaryOperator, hx]
      split <;> simp [asConstantInt_constInt, hs, hx]
    · subst hI
      simp only [MultiInstructionOpt, patternAddSub, patternFrontSub, asConstantInt_constInt,
        asConstantInt_binop, asBinaryOperator]
      split <;> simp [asConstantInt_constInt, hs]
    · subst hI
      simp only [MultiInstructionOpt, patternSubAdd, asConstantInt_constInt,
        asConstantInt_binop, asBinaryOperator]
      split <;> simp [asConstantInt_constInt, hs]
    · subst hI
      simp only [MultiInstructionOpt, patternSubAdd, asConstantInt_constInt,
        asConstantInt_binop, asBinaryOperator]
      split <;> simp [asConstantInt_constInt, hs]

/-- C29 on 8-bit examples: the five shapes are replaced by `x`; with constants of
different value, or with the outer subtraction turned round, nothing is replaced. -/
theorem MultiInstructionOpt_cancels_witness :
    MultiInstructionOpt (Val.binop Opcode.Sub
      (Val.binop Opcode.Add (Val.arg 0 (Ty.int 8)) (Val.constInt 8 200)) (Val.constInt 8 200))
      = some (Val.arg 0 (Ty.int 8)) ∧
    MultiInstructionOpt (Val.binop Opcode.Sub
      (Val.binop Opcode.Add (Val.constInt 8 200) (Val.arg 0 (Ty.int 8))) (Val.constInt 8 200))
      = some (Val.arg 0 (Ty.int 8)) ∧
    MultiInstructionOpt (Val.binop Opcode.Sub (Val.constInt 8 200)
      (Val.binop Opcode.Sub (Val.constInt 8 200) (Val.arg 0 (Ty.int 8))))
      = some (Val.arg 0 (Ty.int 8)) ∧
    MultiInstructionOpt (Val.binop Opcode.Add
      (Val.binop Opcode.Sub (Val.arg 0 (Ty.int 8)) (Val.constInt 8 200)) (Val.constInt 8 200))
      = some (Val.arg 0 (Ty.int 8)) ∧
    MultiInstructionOpt (Val.binop Opcode.Add (Val.constInt 8 200)
      (Val.binop Opcode.Sub (Val.arg 0 (Ty.int 8)) (Val.constInt 8 200)))
      = some (Val.arg 0 (Ty.int 8)) ∧
    MultiInstructionOpt (Val.binop Opcode.Sub
      (Val.binop Opcode.Add (Val.arg 0 (Ty.int 8)) (Val.constInt 8 200)) (Val.constInt 8 201))
      = none ∧
    MultiInstructionOpt (Val.binop Opcode.Sub (Val.constInt 8 200)
      (Val.binop Opcode.Add (Val.arg 0 (Ty.int 8)) (Val.constInt 8 200)))
      = none ∧
    (∀ env v,
      eval env (Val.binop Opcode.Sub
        (Val.binop Opcode.Add (Val.arg 0 (Ty.int 8)) (Val.constInt 8 200))
        (Val.constInt 8 200)) = some v →
      eval env (Val.arg 0 (Ty.int 8)) = some v) :=
  ⟨by decide, by decide, by decide, by decide, by decide, by decide, by decide,
    (MultiInstructionOpt_cancels _).2.1 _ (by decide)⟩

end CancellationClaim

section StrengthReductionMul

open LocalOpts

theorem mod_eq_mod_of_zmod (m X Y : Nat) (h : (X : ZMod m) = (Y : ZMod m)) :
    X % m = Y % m :=
  (ZMod.natCast_eq_natCast_iff X Y m).1 h

theorem pow_lt_pow_two (k w : Nat) (h : 2 ^ k < 2 ^ w) : k < w :=
  (Nat.pow_lt_pow_iff_right (by norm_num : 1 < 2)).1 h

theorem two_pow_pred (w : Nat) (hw : 1 ≤ w) : 2 * 2 ^ (w - 1) = 2 ^ w := by
  obtain ⟨n, rfl⟩ : ∃ n, w = n + 1 := ⟨w - 1, by omega⟩
  rw [Nat.add_sub_cancel, pow_succ]
  ring

/-- A constant `+2^k` or `-2^k` of width `w` that is not zero has `k < w`, and its
absolute value is `2^k`. -/
theorem abs_of_pow2 (w k v : Nat) (h0 : v ≠ 0) (hC : v = 2 ^ k ∨ v = 2 ^ w - 2 ^ k)
    (hv : v < 2 ^ w) :
    k < w ∧ ConstantInt.abs { w := w, v := v } = 2 ^ k ∧
      (ConstantInt.isNegative { w := w, v := v } = true ↔ (v = 2 ^ w - 2 ^ k)) := by
  have hkw : k < w := by
    rcases hC with hC | hC
    · rw [hC] at hv
      exact pow_lt_pow_two k w hv
    · by_contra hge
      have : 2 ^ w ≤ 2 ^ k := Nat.pow_le_pow_right (by norm_num) (by omega)
      exact h0 (by omega)
  have hw1 : 1 ≤ w := by omega
  have h2 := two_pow_pred w hw1
  have hle : 2 ^ k ≤ 2 ^ (w - 1) := Nat.pow_le_pow_right (by norm_num) (by omega)
  have hkpos : 0 < 2 ^ k := Nat.pos_pow_of_pos k (by norm_num)
  refine ⟨hkw, ?_, ?_⟩
  · unfold ConstantInt.abs ConstantInt.isNegative
    simp only [decide_eq_true_eq]
    rcases hC with hC | hC
    · by_cases hn : 2 ^ w ≤ 2 * v
      · rw [if_pos hn]
        have : v = 2 ^ (w - 1) := by omega
        rw [Nat.mod_eq_of_lt (by omega)]
        omega
      · rw [if_neg hn]; exact hC
    · have hn : 2 ^ w ≤ 2 * v := by omega
      rw [if_pos hn, Nat.mod_eq_of_lt (by omega)]
      omega
  · unfold ConstantInt.isNegative
    simp only [decide_eq_true_eq]
    constructor
    · intro hn
      rcases hC with hC | hC
      · omega
      · exact hC
    · intro hC2
      omega

theorem eval_shl (env : Nat → Nat) (X : Val) (w k a : Nat) (hX : X.getType = Ty.int w)
    (ha : eval env X = some a) (hk : k < w) :
    eval env (Val.binop Opcode.Shl X (Val.constInt w k)) = some ((a * 2 ^ k) % 2 ^ w) := by
  have hk2 : k < 2 ^ w := lt_trans hk (Nat.lt_two_pow w)
  rw [eval_binop_typed env Opcode.Shl X (Val.constInt w k) w a (k % 2 ^ w) hX rfl ha
    (eval_constInt env w k), Nat.mod_eq_of_lt hk2]
  simp only [evalBinop, hk, ↓reduceIte]

theorem eval_createNeg (env : Nat → Nat) (V : Val) (w s : Nat) (hV : V.getType = Ty.int w)
    (hs : eval env V = some s) :
    eval env (CreateNeg w V) = some ((2 ^ w - s % 2 ^ w) % 2 ^ w) := by
  unfold CreateNeg
  rw [eval_binop_typed env Opcode.Sub (Val.constInt w 0) V w (0 % 2 ^ w) s rfl hV
    (eval_constInt env w 0) hs]
  simp only [evalBinop, Nat.zero_mod, zero_add]

theorem strengthReduceMul_pow2 (C : ConstantInt) (X : Val) (w k : Nat)
    (hX : X.getType = Ty.int w)
    (h0 : C.v ≠ 0) (h1 : C.v ≠ 1) (hm1 : C.v + 1 ≠ 2 ^ C.w) (hK : C.abs = 2 ^ k) :
    strengthReduceMul C X =
      some (if C.isNegative then CreateNeg w (Val.binop Opcode.Shl X (Val.constInt w k))
        else Val.binop Opcode.Shl X (Val.constInt w k)) := by
  have hp : isPowerOf2 C.abs = true := (isPowerOf2_iff _).2 ⟨k, hK⟩
  have hl : logBase2 C.abs = k := by rw [hK]; exact logBase2_pow k
  unfold strengthReduceMul
  simp only [ConstantInt.isZero, ConstantInt.isOne, ConstantInt.isMinusOne, h0, h1, hm1,
    decide_False, Bool.or_self, Bool.false_eq_true, ↓reduceIte, hp, hl, hX]

theorem StrengthReductionOpt_mul_right (X : Val) (w c : Nat) (hXc : asConstantInt X = none) :
    StrengthReductionOpt (Val.binop Opcode.Mul X (Val.constInt w c)) =
      strengthReduceMul { w := w, v := c % 2 ^ w } X := by
  simp only [StrengthReductionOpt, hXc, asConstantInt_constInt]

theorem StrengthReductionOpt_mul_left (X : Val) (w c : Nat) (hXc : asConstantInt X = none) :
    StrengthReductionOpt (Val.binop Opcode.Mul (Val.constInt w c) X) =
      strengthReduceMul { w := w, v := c % 2 ^ w } X := by
  simp only [StrengthReductionOpt, hXc, asConstantInt_constInt]

/-- C28. For a constant `C = +2^k` or `-2^k` of width `w` other than 0, 1 and -1 (the
minimum signed value included) and a value `x` of width `w` that is not a constant,
`StrengthReductionOpt` substitutes for `x * C`, with the constant on either side, `x`
shifted left by `k`, negated exactly when the sign bit of `C` is set; `k` is smaller than
`w`, and the substituted value equals `x * C` modulo `2^w`. -/
theorem StrengthReductionOpt_mul_pow2 (env : Nat → Nat) (X : Val) (w c k a : Nat)
    (hX : X.getType = Ty.int w) (hXc : asConstantInt X = none) (ha : eval env X = some a)
    (h0 : c % 2 ^ w ≠ 0) (h1 : c % 2 ^ w ≠ 1) (hm1 : c % 2 ^ w + 1 ≠ 2 ^ w)
    (hC : c % 2 ^ w = 2 ^ k ∨ c % 2 ^ w = 2 ^ w - 2 ^ k) :
    ∃ y, StrengthReductionOpt (Val.binop Opcode.Mul X (Val.constInt w c)) = some y ∧
      StrengthReductionOpt (Val.binop Opcode.Mul (Val.constInt w c) X) = some y ∧
      y = (if 2 ^ w ≤ 2 * (c % 2 ^ w)
        then CreateNeg w (Val.binop Opcode.Shl X (Val.constInt w k))
        else Val.binop Opcode.Shl X (Val.constInt w k)) ∧
      k < w ∧
      eval env y = some ((a * c) % 2 ^ w) ∧
      eval env (Val.binop Opcode.Mul X (Val.constInt w c)) = some ((a * c) % 2 ^ w) := by
  have hm : 0 < 2 ^ w := Nat.pos_pow_of_pos w (by norm_num)
  have hv : c % 2 ^ w < 2 ^ w := Nat.mod_lt c hm
  obtain ⟨hkw, habs, hneg⟩ := abs_of_pow2 w k (c % 2 ^ w) h0 hC hv
  have hw1 : 1 ≤ w := by omega
  have hres := strengthReduceMul_pow2 { w := w, v := c % 2 ^ w } X w k hX h0 h1 hm1 habs
  have hsh := eval_shl env X w k a hX ha hkw
  have hle : 2 ^ k ≤ 2 ^ (w - 1) := Nat.pow_le_pow_right (by norm_num) (by omega)
  have h2 := two_pow_pred w hw1
  have hmul : eval env (Val.binop Opcode.Mul X (Val.constInt w c)) =
      some ((a * c) % 2 ^ w) := by
    rw [eval_binop_typed env Opcode.Mul X (Val.constInt w c) w a (c % 2 ^ w) hX rfl ha
      (eval_constInt env w c)]
    simp only [evalBinop, Option.some.injEq]
    exact mod_eq_mod_of_zmod _ _ _ (by push_cast [ZMod.natCast_mod]; rfl)
  refine ⟨_, (StrengthReductionOpt_mul_right X w c hXc).trans hres,
    (StrengthReductionOpt_mul_left X w c hXc).trans hres, ?_, hkw, ?_, hmul⟩
  · simp only [ConstantInt.isNegative, decide_eq_true_eq]
  · by_cases hn : ConstantInt.isNegative { w := w, v := c % 2 ^ w } = true
    · rw [if_pos hn, eval_createNeg env (Val.binop Opcode.Shl X (Val.constInt w k)) w _ hX hsh]
      have hc2 : ((c : Nat) : ZMod (2 ^ w)) = -((2 ^ k : Nat) : ZMod (2 ^ w)) := by
        have e := hneg.1 hn
        have e2 : c % 2 ^ w + 2 ^ k = 2 ^ w := by omega
        have e3 : ((c % 2 ^ w + 2 ^ k : Nat) : ZMod (2 ^ w)) = ((2 ^ w : Nat) : ZMod (2 ^ w)) := by
          rw [e2]
        rw [Nat.cast_add, ZMod.natCast_mod, ZMod.natCast_self] at e3
        exact eq_neg_of_add_eq_zero_left e3
      congr 1
      apply mod_eq_mod_of_zmod
      rw [zmod_cast_neg _ _ hm, ZMod.natCast_mod, Nat.cast_mul, Nat.cast_mul, hc2]
      ring
    · rw [if_neg hn, hsh]
      have e : c % 2 ^ w = 2 ^ k := by
        rcases hC with hC | hC
        · exact hC
        · exact absurd (hneg.2 hC) hn
      congr 1
      apply mod_eq_mod_of_zmod
      rw [Nat.cast_mul, Nat.cast_mul, ← e, ZMod.natCast_mod]

/-- C28 at `x * -128` on 8 bits, the minimum signed value: `x` is shifted left by 7 and
negated, and the value is that of the multiplication. -/
theorem StrengthReductionOpt_mul_pow2_witness :
    ∃ y, StrengthReductionOpt
        (Val.binop Opcode.Mul (Val.arg 0 (Ty.int 8)) (Val.constInt 8 128)) = some y ∧
      StrengthReductionOpt
        (Val.binop Opcode.Mul (Val.constInt 8 128) (Val.arg 0 (Ty.int 8))) = some y ∧
      y = (if 2 ^ 8 ≤ 2 * (128 % 2 ^ 8)
        then CreateNeg 8 (Val.binop Opcode.Shl (Val.arg 0 (Ty.int 8)) (Val.constInt 8 7))
        else Val.binop Opcode.Shl (Val.arg 0 (Ty.int 8)) (Val.constInt 8 7)) ∧
      7 < 8 ∧
      eval (fun _ => 3) y = some ((3 * 128) % 2 ^ 8) ∧
      eval (fun _ => 3) (Val.binop Opcode.Mul (Val.arg 0 (Ty.int 8)) (Val.constInt 8 128))
        = some ((3 * 128) % 2 ^ 8) :=
  StrengthReductionOpt_mul_pow2 (fun _ => 3) (Val.arg 0 (Ty.int 8)) 8 128 7 3 rfl rfl
    (by decide) (by decide) (by decide) (by decide) (Or.inl (by decide))

end StrengthReductionMul

section StrengthReductionMulOther

open LocalOpts

theorem strengthReduceMul_not_pow2 (C : ConstantInt) (X : Val) (w : Nat)
    (hX : X.getType = Ty.int w)
    (h0 : C.v ≠ 0) (h1 : C.v ≠ 1) (hm1 : C.v + 1 ≠ 2 ^ C.w) (hK : isPowerOf2 C.abs = false) :
    strengthReduceMul C X =
      some (if C.isNegative
        then CreateNeg w (Val.binop Opcode.Sub
          (Val.binop Opcode.Shl X (Val.constInt w (logBase2 C.abs + 1))) X)
        else Val.binop Opcode.Sub
          (Val.binop Opcode.Shl X (Val.constInt w (logBase2 C.abs + 1))) X) := by
  unfold strengthReduceMul
  simp only [ConstantInt.isZero, ConstantInt.isOne, ConstantInt.isMinusOne, h0, h1, hm1,
    decide_False, Bool.or_self, Bool.false_eq_true, ↓reduceIte, hK, hX]

theorem not_pow2_of_isPowerOf2_false (K k : Nat) (h : isPowerOf2 K = false) : K ≠ 2 ^ k := by
  intro e
  have := (isPowerOf2_iff K).2 ⟨k, e⟩
  rw [h] at this
  exact absurd this (by decide)

theorem eval_shl_sub (env : Nat → Nat) (X : Val) (w s a : Nat) (hX : X.getType = Ty.int w)
    (ha : eval env X = some a) (hs : s < w) :
    eval env (Val.binop Opcode.Sub (Val.binop Opcode.Shl X (Val.constInt w s)) X) =
      some ((a * (2 ^ s - 1)) % 2 ^ w) := by
  have hm : 0 < 2 ^ w := Nat.pos_pow_of_pos w (by norm_num)
  rw [eval_binop_typed env Opcode.Sub (Val.binop Opcode.Shl X (Val.constInt w s)) X w _ a hX hX
    (eval_shl env X w s a hX ha hs) ha, evalBinop_sub]
  congr 1
  apply mod_eq_mod_of_zmod
  rw [Nat.cast_add, zmod_cast_neg _ _ hm, ZMod.natCast_mod, Nat.cast_mul, Nat.cast_mul,
    Nat.cast_sub Nat.one_le_two_pow]
  push_cast
  ring

/-- C26. For a constant `C` of width `w` that is not zero and whose absolute value is not
a power of two, and a value `x` of width `w` that is not a constant, `StrengthReductionOpt`
substitutes for `x * C`, with the constant on either side, `(x << s) - x` with
`s = floor(log2 |C|) + 1 < w`, negated when the sign bit of `C` is set.  For `C` not
negative the substituted value is `x * (2^s - 1)` modulo `2^w`, and at `x = 1` it differs
from the value `x * C` of the multiplication unless `C + 1 = 2^s`. -/
theorem StrengthReductionOpt_mul_not_pow2 (env : Nat → Nat) (X : Val) (w c a : Nat)
    (hX : X.getType = Ty.int w) (hXc : asConstantInt X = none) (ha : eval env X = some a)
    (h0 : c % 2 ^ w ≠ 0)
    (hK : isPowerOf2 (ConstantInt.abs { w := w, v := c % 2 ^ w }) = false) :
    ∃ y s, s = logBase2 (ConstantInt.abs { w := w, v := c % 2 ^ w }) + 1 ∧
      StrengthReductionOpt (Val.binop Opcode.Mul X (Val.constInt w c)) = some y ∧
      StrengthReductionOpt (Val.binop Opcode.Mul (Val.constInt w c) X) = some y ∧
      y = (if 2 ^ w ≤ 2 * (c % 2 ^ w)
        then CreateNeg w (Val.binop Opcode.Sub (Val.binop Opcode.Shl X (Val.constInt w s)) X)
        else Val.binop Opcode.Sub (Val.binop Opcode.Shl X (Val.constInt w s)) X) ∧
      s < w ∧
      eval env (Val.binop Opcode.Mul X (Val.constInt w c)) = some ((a * c) % 2 ^ w) ∧
      (2 * (c % 2 ^ w) < 2 ^ w →
        eval env y = some ((a * (2 ^ s - 1)) % 2 ^ w) ∧
        (a = 1 → c % 2 ^ w + 1 ≠ 2 ^ s →
          eval env y ≠ eval env (Val.binop Opcode.Mul X (Val.constInt w c)))) := by
  have hm : 0 < 2 ^ w := Nat.pos_pow_of_pos w (by norm_num)
  have hv : c % 2 ^ w < 2 ^ w := Nat.mod_lt c hm
  have hw1 : 1 ≤ w := by
    by_contra h
    have : w = 0 := by omega
    subst this
    exact h0 (by rw [pow_zero, Nat.mod_one])
  have h2 := two_pow_pred w hw1
  -- the absolute value is below 2^(w-1)
  have hKlt : ConstantInt.abs { w := w, v := c % 2 ^ w } < 2 ^ (w - 1) ∧
      1 ≤ ConstantInt.abs { w := w, v := c % 2 ^ w } := by
    have hne := not_pow2_of_isPowerOf2_false _ (w - 1) hK
    revert hne
    unfold ConstantInt.abs ConstantInt.isNegative
    simp only [decide_eq_true_eq]
    by_cases hn : 2 ^ w ≤ 2 * (c % 2 ^ w)
    · rw [if_pos hn, Nat.mod_eq_of_lt (by omega)]
      intro hne
      omega
    · rw [if_neg hn]
      intro hne
      omega
  have h1 : c % 2 ^ w ≠ 1 := by
    intro e
    have hne := not_pow2_of_isPowerOf2_false _ 0 hK
    apply hne
    unfold ConstantInt.abs ConstantInt.isNegative
    simp only [decide_eq_true_eq, e]
    by_cases hn : 2 ^ w ≤ 2 * 1
    · rw [if_pos hn, Nat.mod_eq_of_lt (by omega)]
      omega
    · rw [if_neg hn]; rfl
  have hm1 : c % 2 ^ w + 1 ≠ 2 ^ w := by
    intro e
    have hne := not_pow2_of_isPowerOf2_false _ 0 hK
    apply hne
    unfold ConstantInt.abs ConstantInt.isNegative
    simp only [decide_eq_true_eq]
    have hn : 2 ^ w ≤ 2 * (c % 2 ^ w) := by omega
    rw [if_pos hn, Nat.mod_eq_of_lt (by omega)]
    omega
  obtain ⟨hl1, hl2⟩ := logBase2_spec _ hKlt.2
  have hsw : logBase2 (ConstantInt.abs { w := w, v := c % 2 ^ w }) + 1 < w := by
    have : logBase2 (ConstantInt.abs { w := w, v := c % 2 ^ w }) < w - 1 :=
      pow_lt_pow_two _ _ (lt_of_le_of_lt hl1 hKlt.1)
    omega
  have hres := strengthReduceMul_not_pow2 { w := w, v := c % 2 ^ w } X w hX h0 h1 hm1 hK
  have hmul : eval env (Val.binop Opcode.Mul X (Val.constInt w c)) =
      some ((a * c) % 2 ^ w) := by
    rw [eval_binop_typed env Opcode.Mul X (Val.constInt w c) w a (c % 2 ^ w) hX rfl ha
      (eval_constInt env w c)]
    simp only [evalBinop, Option.some.injEq]
    exact mod_eq_mod_of_zmod _ _ _ (by push_cast [ZMod.natCast_mod]; rfl)
  refine ⟨_, _, rfl, (StrengthReductionOpt_mul_right X w c hXc).trans hres,
    (StrengthReductionOpt_mul_left X w c hXc).trans hres, ?_, hsw, hmul, ?_⟩
  · simp only [ConstantInt.isNegative, decide_eq_true_eq]
  · intro hpos
    have hnn : ConstantInt.isNegative { w := w, v := c % 2 ^ w } = false := by
      simp only [ConstantInt.isNegative, decide_eq_false_iff_not]
      omega
    have habs : ConstantInt.abs { w := w, v := c % 2 ^ w } = c % 2 ^ w := by
      unfold ConstantInt.abs
      rw [hnn]
      rfl
    rw [hnn]
    simp only [Bool.false_eq_true, ↓reduceIte]
    have hy := eval_shl_sub env X w _ a hX ha hsw
    refine ⟨hy, ?_⟩
    intro ha1 hne
    rw [hy, hmul, ha1, one_mul, one_mul]
    intro e
    simp only [Option.some.injEq] at e
    have hs2 : 2 ^ (logBase2 (ConstantInt.abs { w := w, v := c % 2 ^ w }) + 1) ≤ 2 ^ w :=
      Nat.pow_le_pow_right (by norm_num) (le_of_lt hsw)
    have hs1 : 1 ≤ 2 ^ (logBase2 (ConstantInt.abs { w := w, v := c % 2 ^ w }) + 1) :=
      Nat.one_le_two_pow
    rw [Nat.mod_eq_of_lt (by omega)] at e
    apply hne
    omega

/-- C26 at `x * 5` on 8 bits with `x = 1`: the multiplication has the value 5 and the
value substituted for it, `(x << 3) - x`, has the value 7. -/
theorem StrengthReductionOpt_mul_not_pow2_witness :
    ∃ y,
      StrengthReductionOpt
        (Val.binop Opcode.Mul (Val.arg 0 (Ty.int 8)) (Val.constInt 8 5)) = some y ∧
      StrengthReductionOpt
        (Val.binop Opcode.Mul (Val.constInt 8 5) (Val.arg 0 (Ty.int 8))) = some y ∧
      y = Val.binop Opcode.Sub
        (Val.binop Opcode.Shl (Val.arg 0 (Ty.int 8)) (Val.constInt 8 3))
        (Val.arg 0 (Ty.int 8)) ∧
      eval (fun _ => 1)
        (Val.binop Opcode.Mul (Val.arg 0 (Ty.int 8)) (Val.constInt 8 5)) = some 5 ∧
      eval (fun _ => 1) y = some 7 := by
  obtain ⟨y, s, hs, h1, h2, h3, -, h5, h6⟩ :=
    StrengthReductionOpt_mul_not_pow2 (fun _ => 1) (Val.arg 0 (Ty.int 8)) 8 5 1 rfl rfl rfl
      (by decide) (by decide)
  have hs3 : s = 3 := by rw [hs]; decide
  subst hs3
  have h3b : y = Val.binop Opcode.Sub
      (Val.binop Opcode.Shl (Val.arg 0 (Ty.int 8)) (Val.constInt 8 3))
      (Val.arg 0 (Ty.int 8)) := by
    rw [h3]; decide
  exact ⟨y, h1, h2, h3b, h5, (h6 (by decide)).1⟩

end StrengthReductionMulOther

section StrengthReductionSDiv

open LocalOpts

theorem int_ediv_eq (a d q : Int) (hd : 0 < d) (h1 : q * d ≤ a) (h2 : a < (q + 1) * d) :
    a / d = q := by
  have e1 : q ≤ a / d := (Int.le_ediv_iff_mul_le hd).2 h1
  have e2 : a / d < q + 1 := (Int.ediv_lt_iff_lt_mul hd).2 h2
  omega

/-- The quotient truncated toward zero by a positive divisor, as a floor division of the
biased dividend. -/
theorem tdiv_eq_biased (s d : Int) (hd : 0 < d) :
    Int.tdiv s d = (s + (if s < 0 then d - 1 else 0)) / d := by
  by_cases hs : s < 0
  · rw [if_pos hs]
    have e : s = -(-s) := by ring
    have hq := Int.emod_add_ediv (-s) d
    have hr1 := Int.emod_nonneg (-s) (ne_of_gt hd)
    have hr2 := Int.emod_lt_of_pos (-s) hd
    rw [e, Int.neg_tdiv, Int.tdiv_eq_ediv (by omega) (le_of_lt hd), ← e]
    symm
    apply int_ediv_eq _ _ _ hd
    · nlinarith
    · nlinarith
  · rw [if_neg hs, add_zero]
    exact Int.tdiv_eq_ediv (by omega) (le_of_lt hd)

theorem ofSigned_modEq (w : Nat) (z : Int) : (2 ^ w : Int) ∣ ((ofSigned w z : Nat) : Int) - z := by
  unfold ofSigned
  have hpos : (0 : Int) < 2 ^ w := by positivity
  rw [Int.toNat_of_nonneg (Int.emod_nonneg z (ne_of_gt hpos))]
  exact ⟨-(z / 2 ^ w), by have := Int.emod_add_ediv z (2 ^ w); linarith⟩

theorem ofSigned_eq_mod (w n : Nat) (z : Int) (h : (2 ^ w : Int) ∣ (n : Int) - z) :
    n % 2 ^ w = ofSigned w z := by
  rw [← ofSigned_natCast]
  exact ofSigned_congr w _ _ h

/-- The negation `0 - s` of the bit pattern of `q` is the bit pattern of `-q`. -/
theorem neg_ofSigned (w : Nat) (q : Int) :
    (2 ^ w - ofSigned w q % 2 ^ w) % 2 ^ w = ofSigned w (-q) := by
  have hlt := ofSigned_lt w q
  apply ofSigned_eq_mod
  rw [Nat.mod_eq_of_lt hlt, Nat.cast_sub (le_of_lt hlt)]
  obtain ⟨t, ht⟩ := ofSigned_modEq w q
  push_cast
  exact ⟨1 - t, by linarith⟩

theorem toSigned_of_lt (w v : Nat) (h : 2 * v < 2 ^ w) : toSigned w v = (v : Int) := by
  unfold toSigned
  rw [Nat.mod_eq_of_lt (by omega), if_pos h]

theorem toSigned_of_ge (w v : Nat) (h : 2 ^ w ≤ 2 * v) (hv : v < 2 ^ w) :
    toSigned w v = (v : Int) - 2 ^ w := by
  unfold toSigned
  rw [Nat.mod_eq_of_lt hv, if_neg (by omega)]

/-- The arithmetic shift right by `w - 1` gives zero or all ones. -/
theorem sign_pattern (w a : Nat) (hw : 1 ≤ w) :
    ofSigned w (toSigned w a / 2 ^ (w - 1)) = if toSigned w a < 0 then 2 ^ w - 1 else 0 := by
  obtain ⟨r1, r2⟩ := toSigned_range w a hw
  have hp : (0 : Int) < 2 ^ (w - 1) := by positivity
  by_cases hs : toSigned w a < 0
  · rw [if_pos hs, int_ediv_eq _ _ (-1) hp (by linarith) (by linarith)]
    have h1 : (1 : Nat) ≤ 2 ^ w := Nat.one_le_two_pow
    have e := ofSigned_eq_mod w (2 ^ w - 1) (-1)
      ⟨1, by rw [Nat.cast_sub h1]; push_cast; ring⟩
    rw [← e, Nat.mod_eq_of_lt (by omega)]
  · rw [if_neg hs, int_ediv_eq _ _ 0 hp (by linarith) (by linarith)]
    exact ofSigned_natCast w 0 |>.trans (Nat.zero_mod _)

theorem mask_value (w k : Nat) (hk : k < w) :
    ((1 * 2 ^ k) % 2 ^ w + 2 ^ w - 1) % 2 ^ w = 2 ^ k - 1 := by
  have h1 : 2 ^ k < 2 ^ w := Nat.pow_lt_pow_right (by norm_num) hk
  have h2 : 1 ≤ 2 ^ k := Nat.one_le_two_pow
  rw [one_mul, Nat.mod_eq_of_lt h1]
  have e : 2 ^ k + 2 ^ w - 1 = 2 ^ w + (2 ^ k - 1) := by omega
  rw [e, Nat.add_mod_left, Nat.mod_eq_of_lt (by omega)]

theorem and_mask (w k : Nat) (hk : k < w) (s : Int) :
    (if s < 0 then 2 ^ w - 1 else 0) &&& (2 ^ k - 1) = if s < 0 then 2 ^ k - 1 else 0 := by
  have h1 : 2 ^ k < 2 ^ w := Nat.pow_lt_pow_right (by norm_num) hk
  have h2 : 1 ≤ 2 ^ k := Nat.one_le_two_pow
  by_cases hs : s < 0
  · rw [if_pos hs, if_pos hs, Nat.and_comm, Nat.and_pow_two_sub_one_eq_mod,
      Nat.mod_eq_of_lt (by omega)]
  · rw [if_neg hs, if_neg hs, Nat.zero_and]

/-- The value of the shift-and-bias tree the pass builds for a division by `2^k`. -/
theorem eval_quot (env : Nat → Nat) (X : Val) (w k a : Nat) (hX : X.getType = Ty.int w)
    (ha : eval env X = some a) (hk : k < w) :
    eval env (Val.binop Opcode.AShr
      (Val.binop Opcode.Add X
        (Val.binop Opcode.And
          (Val.binop Opcode.AShr X (Val.constInt w (w - 1)))
          (Val.constInt w (((1 * 2 ^ k) % 2 ^ w + 2 ^ w - 1) % 2 ^ w))))
      (Val.constInt w k)) = some (ofSigned w (Int.tdiv (toSigned w a) (2 ^ k))) := by
  have hw1 : 1 ≤ w := by omega
  have hm : 0 < 2 ^ w := Nat.pos_pow_of_pos w (by norm_num)
  have halt := eval_lt env X w a hX ha
  have hwlt : w - 1 < 2 ^ w := lt_of_le_of_lt (Nat.sub_le w 1) (Nat.lt_two_pow w)
  have hklt : k < 2 ^ w := lt_trans hk (Nat.lt_two_pow w)
  have h1 : 2 ^ k < 2 ^ w := Nat.pow_lt_pow_right (by norm_num) hk
  have h2 : 1 ≤ 2 ^ k := Nat.one_le_two_pow
  have hle : 2 ^ k ≤ 2 ^ (w - 1) := Nat.pow_le_pow_right (by norm_num) (by omega)
  have hpp := two_pow_pred w hw1
  -- sign
  have hsign : eval env (Val.binop Opcode.AShr X (Val.constInt w (w - 1))) =
      some (if toSigned w a < 0 then 2 ^ w - 1 else 0) := by
    rw [eval_binop_typed env Opcode.AShr X (Val.constInt w (w - 1)) w a _ hX rfl ha
      (eval_constInt env w (w - 1)), Nat.mod_eq_of_lt hwlt]
    have hlt : w - 1 < w := by omega
    simp only [evalBinop, hlt, ↓reduceIte, Option.some.injEq]
    exact sign_pattern w a hw1
  -- bias
  have hbias : eval env (Val.binop Opcode.And
        (Val.binop Opcode.AShr X (Val.constInt w (w - 1)))
        (Val.constInt w (((1 * 2 ^ k) % 2 ^ w + 2 ^ w - 1) % 2 ^ w))) =
      some (if toSigned w a < 0 then 2 ^ k - 1 else 0) := by
    rw [eval_binop_typed env Opcode.And (Val.binop Opcode.AShr X (Val.constInt w (w - 1)))
      (Val.constInt w (((1 * 2 ^ k) % 2 ^ w + 2 ^ w - 1) % 2 ^ w)) w _ _ hX rfl hsign
      (eval_constInt env w _), Nat.mod_mod, mask_value w k hk]
    simp only [evalBinop, Option.some.injEq]
    exact and_mask w k hk _
  -- adj
  have hadj := eval_binop_typed env Opcode.Add X (Val.binop Opcode.And
        (Val.binop Opcode.AShr X (Val.constInt w (w - 1)))
        (Val.constInt w (((1 * 2 ^ k) % 2 ^ w + 2 ^ w - 1) % 2 ^ w))) w a _ hX hX ha hbias
  rw [evalBinop_add] at hadj
  rw [eval_binop_typed env Opcode.AShr (Val.binop Opcode.Add X (Val.binop Opcode.And
        (Val.binop Opcode.AShr X (Val.constInt w (w - 1)))
        (Val.constInt w (((1 * 2 ^ k) % 2 ^ w + 2 ^ w - 1) % 2 ^ w))))
    (Val.constInt w k) w _ _ hX rfl hadj (eval_constInt env w k), Nat.mod_eq_of_lt hklt]
  simp only [evalBinop, hk, ↓reduceIte, Option.some.injEq]
  congr 1
  obtain ⟨r1, r2⟩ := toSigned_range w a hw1
  have hbc : (((if toSigned w a < 0 then 2 ^ k - 1 else 0 : Nat)) : Int) =
      if toSigned w a < 0 then (2 ^ k : Int) - 1 else 0 := by
    split
    · rw [Nat.cast_sub h2]; push_cast; rfl
    · rfl
  have hpk : (0 : Int) < 2 ^ k := by positivity
  have hleI : (2 ^ k : Int) ≤ 2 ^ (w - 1) := by exact_mod_cast hle
  have hts : toSigned w ((a + if toSigned w a < 0 then 2 ^ k - 1 else 0) % 2 ^ w) =
      toSigned w a + (if toSigned w a < 0 then (2 ^ k : Int) - 1 else 0) := by
    have e : (a + if toSigned w a < 0 then 2 ^ k - 1 else 0) % 2 ^ w =
        ofSigned w (toSigned w a + (if toSigned w a < 0 then (2 ^ k : Int) - 1 else 0)) := by
      apply ofSigned_eq_mod
      obtain ⟨t, ht⟩ := toSigned_modEq w a
      rw [Nat.cast_add, hbc]
      exact ⟨-t, by linarith⟩
    rw [e]
    apply toSigned_ofSigned w _ hw1
    · split <;> linarith
    · split <;> linarith
  rw [hts, tdiv_eq_biased _ _ hpk]

end StrengthReductionSDiv

section StrengthReductionSDivClaim

open LocalOpts

theorem strengthReduceSDiv_pow2 (C : ConstantInt) (X : Val) (w k : Nat)
    (hX : X.getType = Ty.int w) (hk : k < w)
    (h0 : C.v ≠ 0) (h1 : C.v ≠ 1) (hm1 : C.v + 1 ≠ 2 ^ C.w) (hK : C.abs = 2 ^ k) :
    strengthReduceSDiv C X =
      some (if C.isNegative
        then CreateNeg w (Val.binop Opcode.AShr
          (Val.binop Opcode.Add X
            (Val.binop Opcode.And
              (Val.binop Opcode.AShr X (Val.constInt w (w - 1)))
              (Val.constInt w (((1 * 2 ^ k) % 2 ^ w + 2 ^ w - 1) % 2 ^ w))))
          (Val.constInt w k))
        else Val.binop Opcode.AShr
          (Val.binop Opcode.Add X
            (Val.binop Opcode.And
              (Val.binop Opcode.AShr X (Val.constInt w (w - 1)))
              (Val.constInt w (((1 * 2 ^ k) % 2 ^ w + 2 ^ w - 1) % 2 ^ w))))
          (Val.constInt w k)) := by
  have hp : isPowerOf2 C.abs = true := (isPowerOf2_iff _).2 ⟨k, hK⟩
  have hl : logBase2 C.abs = k := by rw [hK]; exact logBase2_pow k
  have hw0 : w ≠ 0 := by omega
  have hkw : ¬ k ≥ w := by omega
  unfold strengthReduceSDiv
  simp only [ConstantInt.isZero, ConstantInt.isOne, ConstantInt.isMinusOne, h0, h1, hm1,
    decide_False, Bool.or_self, Bool.false_eq_true, ↓reduceIte, hp, hl, hX, hw0, hkw,
    Bool.not_true]

theorem strengthReduceSDiv_isSome (C : ConstantInt) (X : Val) (z : Val)
    (h : strengthReduceSDiv C X = some z) : isPowerOf2 C.abs = true := by
  unfold strengthReduceSDiv at h
  split at h
  · split at h
    · exact absurd h (by simp)
    · split at h
      · exact absurd h (by simp)
      · by_cases hp : isPowerOf2 C.abs = true
        · exact hp
        · simp only [hp, Bool.not_false, ↓reduceIte] at h
          exact absurd h (by simp)
  · exact absurd h (by simp)

theorem StrengthReductionOpt_sdiv_eq_some (A B z : Val)
    (h : StrengthReductionOpt (Val.binop Opcode.SDiv A B) = some z) :
    asConstantInt A = none ∧
      ∃ C, asConstantInt B = some C ∧ isPowerOf2 C.abs = true := by
  simp only [StrengthReductionOpt] at h
  split at h
  · rename_i C2 hA hB
    exact ⟨hA, C2, hB, strengthReduceSDiv_isSome C2 A z h⟩
  · exact absurd h (by simp)

/-- C27. For a constant `C = +2^k` or `-2^k` of width `w` other than 0, 1 and -1 (the
minimum signed value included) and a value `x` of width `w` that is not a constant,
`StrengthReductionOpt` substitutes for `x sdiv C` the value
`(x + ((x ashr (w-1)) and (2^k - 1))) ashr k`, negated exactly when the sign bit of `C` is
set; its value is the signed quotient of `x` by `C` truncated toward zero, which is the
value of the division.  A division is rewritten only when the right operand is a
constant whose absolute value is a power of two and the left operand is not a
constant. -/
theorem StrengthReductionOpt_sdiv_pow2 (env : Nat → Nat) (X : Val) (w c k a : Nat)
    (hX : X.getType = Ty.int w) (hXc : asConstantInt X = none) (ha : eval env X = some a)
    (h0 : c % 2 ^ w ≠ 0) (h1 : c % 2 ^ w ≠ 1) (hm1 : c % 2 ^ w + 1 ≠ 2 ^ w)
    (hC : c % 2 ^ w = 2 ^ k ∨ c % 2 ^ w = 2 ^ w - 2 ^ k) :
    ∃ y, StrengthReductionOpt (Val.binop Opcode.SDiv X (Val.constInt w c)) = some y ∧
      y = (if 2 ^ w ≤ 2 * (c % 2 ^ w)
        then CreateNeg w (Val.binop Opcode.AShr
          (Val.binop Opcode.Add X
            (Val.binop Opcode.And
              (Val.binop Opcode.AShr X (Val.constInt w (w - 1)))
              (Val.constInt w (2 ^ k - 1))))
          (Val.constInt w k))
        else Val.binop Opcode.AShr
          (Val.binop Opcode.Add X
            (Val.binop Opcode.And
              (Val.binop Opcode.AShr X (Val.constInt w (w - 1)))
              (Val.constInt w (2 ^ k - 1))))
          (Val.constInt w k)) ∧
      k < w ∧
      eval env y = some (ofSigned w (Int.tdiv (toSigned w a) (toSigned w c))) ∧
      eval env (Val.binop Opcode.SDiv X (Val.constInt w c)) =
        some (ofSigned w (Int.tdiv (toSigned w a) (toSigned w c))) ∧
      (∀ A, StrengthReductionOpt (Val.binop Opcode.SDiv (Val.constInt w c) A) = none) ∧
      (∀ A B z, StrengthReductionOpt (Val.binop Opcode.SDiv A B) = some z →
        asConstantInt A = none ∧
          ∃ C, asConstantInt B = some C ∧ isPowerOf2 C.abs = true) := by
  have hm : 0 < 2 ^ w := Nat.pos_pow_of_pos w (by norm_num)
  have hv : c % 2 ^ w < 2 ^ w := Nat.mod_lt c hm
  obtain ⟨hkw, habs, hneg⟩ := abs_of_pow2 w k (c % 2 ^ w) h0 hC hv
  have hw1 : 1 ≤ w := by omega
  have h2 := two_pow_pred w hw1
  have hle : 2 ^ k ≤ 2 ^ (w - 1) := Nat.pow_le_pow_right (by norm_num) (by omega)
  have hkpos : 0 < 2 ^ k := Nat.pos_pow_of_pos k (by norm_num)
  have hres := strengthReduceSDiv_pow2 { w := w, v := c % 2 ^ w } X w k hX hkw h0 h1 hm1 habs
  rw [mask_value w k hkw] at hres
  have hq := eval_quot env X w k a hX ha hkw
  rw [mask_value w k hkw] at hq
  have hsro : StrengthReductionOpt (Val.binop Opcode.SDiv X (Val.constInt w c)) =
      strengthReduceSDiv { w := w, v := c % 2 ^ w } X := by
    simp only [StrengthReductionOpt, hXc, asConstantInt_constInt]
  -- the signed reading of the constant
  have htc : toSigned w c = toSigned w (c % 2 ^ w) := by
    unfold toSigned
    rw [Nat.mod_mod]
  have hsC : toSigned w c =
      if ConstantInt.isNegative { w := w, v := c % 2 ^ w } = true
      then -(2 ^ k : Int) else 2 ^ k := by
    rw [htc]
    by_cases hn : ConstantInt.isNegative { w := w, v := c % 2 ^ w } = true
    · rw [if_pos hn]
      have e := hneg.1 hn
      have hge : 2 ^ w ≤ 2 * (c % 2 ^ w) := by omega
      rw [toSigned_of_ge w _ hge hv, e, Nat.cast_sub (by omega)]
      push_cast
      ring
    · rw [if_neg hn]
      have e : c % 2 ^ w = 2 ^ k := by
        rcases hC with hC | hC
        · exact hC
        · exact absurd (hneg.2 hC) hn
      have hlt : 2 * (c % 2 ^ w) < 2 ^ w := by
        have : ¬ (2 ^ w ≤ 2 * (c % 2 ^ w)) := by
          simpa [ConstantInt.isNegative] using hn
        omega
      rw [toSigned_of_lt w _ hlt, e]
      push_cast
      rfl
  have hy : eval env (if ConstantInt.isNegative { w := w, v := c % 2 ^ w } = true
        then CreateNeg w (Val.binop Opcode.AShr
          (Val.binop Opcode.Add X
            (Val.binop Opcode.And
              (Val.binop Opcode.AShr X (Val.constInt w (w - 1)))
              (Val.constInt w (2 ^ k - 1))))
          (Val.constInt w k))
        else Val.binop Opcode.AShr
          (Val.binop Opcode.Add X
            (Val.binop Opcode.And
              (Val.binop Opcode.AShr X (Val.constInt w (w - 1)))
              (Val.constInt w (2 ^ k - 1))))
          (Val.constInt w k)) =
      some (ofSigned w (Int.tdiv (toSigned w a) (toSigned w c))) := by
    rw [hsC]
    by_cases hn : ConstantInt.isNegative { w := w, v := c % 2 ^ w } = true
    · rw [if_pos hn, if_pos hn, eval_createNeg env (Val.binop Opcode.AShr
          (Val.binop Opcode.Add X
            (Val.binop Opcode.And
              (Val.binop Opcode.AShr X (Val.constInt w (w - 1)))
              (Val.constInt w (2 ^ k - 1))))
          (Val.constInt w k)) w _ hX hq, neg_ofSigned, Int.tdiv_neg]
    · rw [if_neg hn, if_neg hn, hq]
  have hdiv : eval env (Val.binop Opcode.SDiv X (Val.constInt w c)) =
      some (ofSigned w (Int.tdiv (toSigned w a) (toSigned w c))) := by
    rw [eval_binop_typed env Opcode.SDiv X (Val.constInt w c) w a (c % 2 ^ w) hX rfl ha
      (eval_constInt env w c)]
    have hne : toSigned w (c % 2 ^ w) ≠ -1 := by
      rw [← htc, hsC]
      have hk1 : k ≠ 0 := by
        intro e
        subst e
        rcases hC with hC | hC
        · exact h1 (by simpa using hC)
        · apply hm1
          have : 1 ≤ 2 ^ w := Nat.one_le_two_pow
          rw [hC, pow_zero]
          omega
      have h2k : (2 : Int) ≤ 2 ^ k := by
        have : 2 ^ 1 ≤ 2 ^ k := Nat.pow_le_pow_right (by norm_num) (by omega)
        exact_mod_cast this
      split <;> omega
    rw [← htc] at hne
    simp only [evalBinop, h0, ↓reduceIte, ← htc, hne, and_false]
  refine ⟨_, hsro.trans hres, ?_, hkw, hy, hdiv, ?_, StrengthReductionOpt_sdiv_eq_some⟩
  · simp only [ConstantInt.isNegative, decide_eq_true_eq]
  · intro A
    simp only [StrengthReductionOpt, asConstantInt_constInt]

/-- C27 at `x sdiv -128` on 8 bits with `x = -128`, the minimum signed value on both
sides: the substituted value is 1, the quotient. -/
theorem StrengthReductionOpt_sdiv_pow2_witness :
    ∃ y, StrengthReductionOpt
        (Val.binop Opcode.SDiv (Val.arg 0 (Ty.int 8)) (Val.constInt 8 128)) = some y ∧
      eval (fun _ => 128) y = some 1 ∧
      eval (fun _ => 128)
        (Val.binop Opcode.SDiv (Val.arg 0 (Ty.int 8)) (Val.constInt 8 128)) = some 1 ∧
      StrengthReductionOpt
        (Val.binop Opcode.SDiv (Val.constInt 8 128) (Val.arg 0 (Ty.int 8))) = none ∧
      StrengthReductionOpt
        (Val.binop Opcode.SDiv (Val.arg 0 (Ty.int 8)) (Val.constInt 8 6)) = none := by
  obtain ⟨y, h1, -, -, h4, h5, h6, -⟩ :=
    StrengthReductionOpt_sdiv_pow2 (fun _ => 128) (Val.arg 0 (Ty.int 8)) 8 128 7 128 rfl rfl
      rfl (by decide) (by decide) (by decide) (Or.inl (by decide))
  have e : ofSigned 8 (Int.tdiv (toSigned 8 128) (toSigned 8 128)) = 1 := by decide
  rw [e] at h4 h5
  exact ⟨y, h1, h4, h5, h6 _, by decide⟩

end StrengthReductionSDivClaim

section Driver

open IR LoopFusionOpt

theorem runOnLoopsStep_changed (FAM : FunctionAnalysisManager) (s : RunState)
    (It : Option Loop) :
    (runOnLoopsStep FAM s It).changed = true ↔
      s.changed = true ∨
        ∃ Corr Prec Fused t, It = some Corr ∧ s.undefined = false ∧ s.Prec = some Prec ∧
          isOptimizable s.F FAM (some Prec) (some Corr) = true ∧
          fuseLoops s.F FAM (some Prec) (some Corr) = some (some Fused, t) := by
  unfold runOnLoopsStep
  by_cases hu : s.undefined = true
  · rw [if_pos hu]
    constructor
    · intro h; exact Or.inl h
    · rintro (h | ⟨_, _, _, _, _, h, _⟩)
      · exact h
      · rw [hu] at h; exact absurd h (by decide)
  · rw [if_neg hu]
    have hu2 : s.undefined = false := by simpa using hu
    cases It with
    | none =>
      constructor
      · intro h; exact Or.inl h
      · rintro (h | ⟨_, _, _, _, h, _⟩)
        · exact h
        · exact absurd h (by simp)
    | some Corr =>
      cases hPrec : s.Prec with
      | none =>
        constructor
        · intro h; exact Or.inl h
        · rintro (h | ⟨_, _, _, _, _, _, h, _⟩)
          · exact h
          · exact absurd h (by simp)
      | some Prec =>
        simp only []
        by_cases hopt : isOptimizable s.F FAM (some Prec) (some Corr) = true
        · rw [if_pos hopt]
          cases hf : fuseLoops s.F FAM (some Prec) (some Corr) with
          | none =>
            constructor
            · intro h; exact Or.inl h
            · rintro (h | ⟨C2, P2, Fu, t, h1, _, h3, _, h5⟩)
              · exact h
              · simp only [Option.some.injEq] at h1 h3
                subst h1; subst h3
                rw [hf] at h5
                exact absurd h5 (by simp)
          | some r =>
            obtain ⟨o, t⟩ := r
            cases o with
            | none =>
              constructor
              · intro h; exact Or.inl h
              · rintro (h | ⟨C2, P2, Fu, t2, h1, _, h3, _, h5⟩)
                · exact h
                · simp only [Option.some.injEq] at h1 h3
                  subst h1; subst h3
                  rw [hf] at h5
                  simp at h5
            | some Fused =>
              constructor
              · intro _
                exact Or.inr ⟨Corr, Prec, Fused, t, rfl, hu2, rfl, hopt, hf⟩
              · intro _; rfl
        · rw [if_neg hopt]
          constructor
          · intro h; exact Or.inl h
          · rintro (h | ⟨C2, P2, Fu, t2, h1, _, h3, h4, _⟩)
            · exact h
            · simp only [Option.some.injEq] at h1 h3
              subst h1; subst h3
              exact absurd h4 hopt

theorem foldl_runOnLoopsStep_changed (FAM : FunctionAnalysisManager) :
    ∀ (l : List (Option Loop)) (s : RunState),
      (l.foldl (runOnLoopsStep FAM) s).changed = true ↔
        s.changed = true ∨
          ∃ pre It post, l = pre ++ It :: post ∧
            ∃ Corr Prec Fused t, It = some Corr ∧
              (pre.foldl (runOnLoopsStep FAM) s).undefined = false ∧
              (pre.foldl (runOnLoopsStep FAM) s).Prec = some Prec ∧
              isOptimizable (pre.foldl (runOnLoopsStep FAM) s).F FAM (some Prec) (some Corr)
                = true ∧
              fuseLoops (pre.foldl (runOnLoopsStep FAM) s).F FAM (some Prec) (some Corr)
                = some (some Fused, t) := by
  intro l
  induction l with
  | nil =>
    intro s
    simp
  | cons x l ih =>
    intro s
    rw [List.foldl_cons, ih, runOnLoopsStep_changed]
    constructor
    · rintro ((h | h) | ⟨pre, It, post, hl, h⟩)
      · exact Or.inl h
      · exact Or.inr ⟨[], x, l, rfl, h⟩
      · exact Or.inr ⟨x :: pre, It, post, by rw [hl]; rfl, h⟩
    · rintro (h | ⟨pre, It, post, hl, h⟩)
      · exact Or.inl (Or.inl h)
      · cases pre with
        | nil =>
          simp only [List.nil_append, List.cons.injEq] at hl
          obtain ⟨rfl, rfl⟩ := hl
          exact Or.inl (Or.inr h)
        | cons y pre =>
          simp only [List.cons_append, List.cons.injEq] at hl
          obtain ⟨rfl, rfl⟩ := hl
          exact Or.inr ⟨pre, It, post, rfl, h⟩

/-- A walk that meets too few loops to form a pair calls nothing and changes nothing. -/
theorem foldl_runOnLoopsStep_quiet (FAM : FunctionAnalysisManager) :
    ∀ (l : List (Option Loop)) (s : RunState),
      s.undefined = false →
      (l.filterMap id).length + (if s.Prec.isSome then 1 else 0) < 2 →
      (l.foldl (runOnLoopsStep FAM) s).changed = s.changed ∧
      (l.foldl (runOnLoopsStep FAM) s).optimizableCalls = s.optimizableCalls ∧
      (l.foldl (runOnLoopsStep FAM) s).fuseCalls = s.fuseCalls ∧
      (l.foldl (runOnLoopsStep FAM) s).F = s.F := by
  intro l
  induction l with
  | nil => intro s _ _; exact ⟨rfl, rfl, rfl, rfl⟩
  | cons x l ih =>
    intro s hu hlen
    rw [List.foldl_cons]
    cases x with
    | none =>
      have e : runOnLoopsStep FAM s none = s := by
        unfold runOnLoopsStep
        simp [hu]
      rw [e]
      exact ih s hu (by simpa using hlen)
    | some Corr =>
      have hP : s.Prec = none := by
        cases hp : s.Prec with
        | none => rfl
        | some P =>
          rw [hp] at hlen
          simp at hlen
          omega
      have e : runOnLoopsStep FAM s (some Corr) = { s with Prec := some Corr } := by
        unfold runOnLoopsStep
        simp [hu, hP]
      rw [e]
      have hlen2 : (l.filterMap id).length + 1 < 2 := by
        rw [hP] at hlen
        simpa using hlen
      exact ih _ hu (by simpa using hlen2)

/-- C24. `runOnLoops` walks the list of top-level loops from its last entry to its first
with a candidate `Prec`: a null entry changes nothing; the first loop met becomes the
candidate without any call; for a later loop `Corr`, `isOptimizable(Prec, Corr)` is asked,
`fuseLoops(Prec, Corr)` is called exactly when the answer is true, the loop `fuseLoops`
returns becomes the candidate, and otherwise `Corr` does.  The returned flag is true if
and only if at some entry of the walk `fuseLoops` was called and returned a loop; for a
list with fewer than two non-null loops the flag is false and neither `isOptimizable` nor
`fuseLoops` is called. -/
theorem runOnLoops_greedy_driver (F : Func) (FAM : FunctionAnalysisManager)
    (Loops : List (Option Loop)) :
    runOnLoops F FAM Loops = Loops.reverse.foldl (runOnLoopsStep FAM)
      { F := F, Prec := none, changed := false, optimizableCalls := [], fuseCalls := [],
        undefined := false } ∧
    (∀ s : RunState, s.undefined = false →
      runOnLoopsStep FAM s none = s ∧
      (∀ Corr, s.Prec = none → runOnLoopsStep FAM s (some Corr) = { s with Prec := some Corr }) ∧
      (∀ Corr Prec, s.Prec = some Prec →
        (runOnLoopsStep FAM s (some Corr)).optimizableCalls
          = s.optimizableCalls ++ [(Prec, Corr)] ∧
        (isOptimizable s.F FAM (some Prec) (some Corr) = false →
          runOnLoopsStep FAM s (some Corr) =
            { s with optimizableCalls := s.optimizableCalls ++ [(Prec, Corr)],
                     Prec := some Corr }) ∧
        (isOptimizable s.F FAM (some Prec) (some Corr) = true →
          (runOnLoopsStep FAM s (some Corr)).fuseCalls = s.fuseCalls ++ [(Prec, Corr)] ∧
          (∀ Fused t, fuseLoops s.F FAM (some Prec) (some Corr) = some (some Fused, t) →
            (runOnLoopsStep FAM s (some Corr)).Prec = some Fused ∧
            (runOnLoopsStep FAM s (some Corr)).changed = true ∧
            (runOnLoopsStep FAM s (some Corr)).F = t.F) ∧
          (∀ t, fuseLoops s.F FAM (some Prec) (some Corr) = some (none, t) →
            (runOnLoopsStep FAM s (some Corr)).Prec = some Corr ∧
            (runOnLoopsStep FAM s (some Corr)).changed = s.changed ∧
            (runOnLoopsStep FAM s (some Corr)).F = t.F)))) ∧
    ((runOnLoops F FAM Loops).changed = true ↔
      ∃ pre It post, Loops.reverse = pre ++ It :: post ∧
        ∃ Corr Prec Fused t, It = some Corr ∧
          (runOnLoops F FAM pre.reverse).undefined = false ∧
          (runOnLoops F FAM pre.reverse).Prec = some Prec ∧
          isOptimizable (runOnLoops F FAM pre.reverse).F FAM (some Prec) (some Corr) = true ∧
          fuseLoops (runOnLoops F FAM pre.reverse).F FAM (some Prec) (some Corr)
            = some (some Fused, t)) ∧
    ((Loops.filterMap id).length < 2 →
      (runOnLoops F FAM Loops).changed = false ∧
      (runOnLoops F FAM Loops).optimizableCalls = [] ∧
      (runOnLoops F FAM Loops).fuseCalls = [] ∧
      (runOnLoops F FAM Loops).F = F) := by
  refine ⟨rfl, ?_, ?_, ?_⟩
  · intro s hu
    refine ⟨?_, ?_, ?_⟩
    · unfold runOnLoopsStep
      simp [hu]
    · intro Corr hP
      unfold runOnLoopsStep
      simp [hu, hP]
    · intro Corr Prec hP
      refine ⟨?_, ?_, ?_⟩
      · unfold runOnLoopsStep
        simp only [hu, Bool.false_eq_true, ↓reduceIte, hP]
        split
        · split <;> rfl
        · rfl
      · intro hopt
        unfold runOnLoopsStep
        simp [hu, hP, hopt]
      · intro hopt
        refine ⟨?_, ?_, ?_⟩
        · unfold runOnLoopsStep
          simp only [hu, Bool.false_eq_true, ↓reduceIte, hP, hopt]
          split <;> rfl
        · intro Fused t hf
          unfold runOnLoopsStep
          simp [hu, hP, hopt, hf]
        · intro t hf
          unfold runOnLoopsStep
          simp [hu, hP, hopt, hf]
  · unfold runOnLoops
    rw [foldl_runOnLoopsStep_changed]
    simp only [Bool.false_eq_true, false_or, List.reverse_reverse]
  · intro hlen
    have h := foldl_runOnLoopsStep_quiet FAM Loops.reverse
      { F := F, Prec := none, changed := false, optimizableCalls := [], fuseCalls := [],
        undefined := false } rfl
      (by simpa [List.filterMap_reverse] using hlen)
    exact h

set_option maxRecDepth 100000 in
/-- C24 on the two adjacent loops of `Examples.writeThenReadSame`: the walk over the list with a null
entry pairs `loopA` with `loopB`, calls `fuseLoops` once and reports a change; a list
with one loop calls nothing. -/
theorem runOnLoops_greedy_driver_witness :
    (runOnLoops Examples.writeThenReadSame (Examples.exampleFAM 4 0 4 4)
      [some Examples.loopB, none, some Examples.loopA]).fuseCalls
      = [(Examples.loopA, Examples.loopB)] ∧
    (runOnLoops Examples.writeThenReadSame (Examples.exampleFAM 4 0 4 4)
      [some Examples.loopB, none, some Examples.loopA]).changed = true ∧
    ((runOnLoops Examples.writeThenReadSame (Examples.exampleFAM 4 0 4 4) [none, some Examples.loopA]).changed
      = false ∧
    (runOnLoops Examples.writeThenReadSame (Examples.exampleFAM 4 0 4 4)
      [none, some Examples.loopA]).optimizableCalls = [] ∧
    (runOnLoops Examples.writeThenReadSame (Examples.exampleFAM 4 0 4 4) [none, some Examples.loopA]).fuseCalls
      = [] ∧
    (runOnLoops Examples.writeThenReadSame (Examples.exampleFAM 4 0 4 4) [none, some Examples.loopA]).F
      = Examples.writeThenReadSame) :=
  ⟨by decide, by decide,
    (runOnLoops_greedy_driver Examples.writeThenReadSame (Examples.exampleFAM 4 0 4 4)
      [none, some Examples.loopA]).2.2.2 (by decide)⟩

end Driver

section Rehoming

open IR LoopFusionOpt

theorem ids_of_skeleton (F G : Func) (h : G.skeleton = F.skeleton) :
    G.blocks.map (fun B => B.id) = F.blocks.map (fun B => B.id) := by
  have := congrArg (List.map Prod.fst) h
  unfold Func.skeleton at this
  simpa [List.map_map, Function.comp] using this

theorem ids_updateBlock (F : Func) (b : Nat) (f : Block → Block) (hf : ∀ B, (f B).id = B.id) :
    (updateBlock F b f).blocks.map (fun B => B.id) = F.blocks.map (fun B => B.id) := by
  unfold updateBlock
  simp only [List.map_map]
  apply List.map_congr_left
  intro B _
  by_cases h : B.id = b <;> simp [h, hf B]

theorem ids_setSuccessor (F : Func) (b i x : Nat) (F1 : Func)
    (h : setSuccessor F b i x = some F1) :
    F1.blocks.map (fun B => B.id) = F.blocks.map (fun B => B.id) ∧
      b ∈ F.blocks.map (fun B => B.id) := by
  unfold setSuccessor at h
  split at h
  · rename_i B hB
    split at h
    · simp only [Option.some.injEq] at h
      rw [← h]
      refine ⟨ids_updateBlock F b _ (fun _ => rfl), ?_⟩
      have hid := findBlock_id F b B hB
      unfold Func.findBlock at hB
      exact List.mem_map.mpr ⟨B, List.mem_of_find?_eq_some hB, hid⟩
    · exact absurd h (by simp)
  · exact absurd h (by simp)

theorem ids_replaceSuccessorWith (F : Func) (b Old New : Nat) :
    (replaceSuccessorWith F b Old New).blocks.map (fun B => B.id)
      = F.blocks.map (fun B => B.id) :=
  ids_updateBlock F b _ (fun _ => rfl)

theorem ids_eraseBlock (F : Func) (b : Nat) :
    (eraseBlock F b).blocks.map (fun B => B.id)
      = (F.blocks.map (fun B => B.id)).filter (fun x => x != b) := by
  unfold eraseBlock
  simp only [List.filter_map]
  rfl

theorem ids_unifyGuards (s : FuseState) (g1 g2 fe se : Nat) (s3 : FuseState)
    (h : unifyGuards s g1 g2 fe se = some (GuardStep.done s3)) :
    s3.F.blocks.map (fun B => B.id)
      = ((s.F.blocks.map (fun B => B.id)).filter (fun x => x != g2)).filter
          (fun x => x != fe) := by
  unfold unifyGuards at h
  split at h
  · exact absurd h (by simp)
  · split at h
    · exact absurd h (by simp)
    · rename_i F1 hF1
      simp only [] at h
      split at h
      · exact absurd h (by simp)
      · rename_i F4 hF4
        split at h
        · exact absurd h (by simp)
        · rename_i toMove _
          simp only [Option.some.injEq, GuardStep.done.injEq] at h
          rw [← h]
          unfold deleteBlock
          simp only []
          rw [ids_eraseBlock, ids_eraseBlock,
            ids_of_skeleton _ _ (skeleton_replacePhiUsesWith _ _ _ _),
            ids_of_skeleton _ _ (skeleton_foldl _ (fun G x => skeleton_moveBefore G x _) _ _),
            (ids_setSuccessor _ _ _ _ _ hF4).1, ids_replaceSuccessorWith,
            ids_of_skeleton _ _ (skeleton_replacePhiUsesWith _ _ _ _),
            (ids_setSuccessor _ _ _ _ _ hF1).1]

theorem ids_spliceControlFlow (s : FuseState) (fl fb sp sl sb sh se : Nat) (s1 : FuseState)
    (h : spliceControlFlow s fl fb sp sl sb sh se = some s1) :
    s1.F.blocks.map (fun B => B.id)
      = ((s.F.blocks.map (fun B => B.id)).filter (fun x => x != sl)).filter
          (fun x => x != sp) ∧
      fl ∈ s.F.blocks.map (fun B => B.id) := by
  unfold spliceControlFlow at h
  split at h
  · exact absurd h (by simp)
  · rename_i F1 hF1
    simp only [Option.some.injEq] at h
    rw [← h]
    unfold deleteBlock
    simp only []
    rw [ids_eraseBlock, ids_eraseBlock, ids_replaceSuccessorWith, ids_replaceSuccessorWith,
      ids_replaceSuccessorWith, (ids_setSuccessor _ _ _ _ _ hF1).1]
    exact ⟨rfl, (ids_setSuccessor _ _ _ _ _ hF1).2⟩

theorem filter_split (l1 l2 : List Block) (X : Block)
    (hN : ((l1 ++ X :: l2).map (fun B => B.id)).Nodup) :
    (l1 ++ X :: l2).filter (fun B => B.id != X.id) = l1 ++ l2 := by
  simp only [List.map_append, List.map_cons] at hN
  have hN2 := List.nodup_append.mp hN
  have hX : X.id ∉ l1.map (fun B => B.id) := by
    intro hm
    exact hN2.2.2 hm (List.mem_cons_self _ _)
  have hX2 : X.id ∉ l2.map (fun B => B.id) := (List.nodup_cons.mp hN2.2.1).1
  rw [List.filter_append, List.filter_cons]
  have e1 : l1.filter (fun B => B.id != X.id) = l1 := by
    apply List.filter_eq_self.mpr
    intro B hB
    have : B.id ≠ X.id := fun e => hX (List.mem_map.mpr ⟨B, hB, e⟩)
    simpa using this
  have e2 : l2.filter (fun B => B.id != X.id) = l2 := by
    apply List.filter_eq_self.mpr
    intro B hB
    have : B.id ≠ X.id := fun e => hX2 (List.mem_map.mpr ⟨B, hB, e⟩)
    simpa using this
  rw [e1, e2]
  simp

theorem insertBlockBefore_split (X FL : Block) (t : Nat) (l2 : List Block) (hFL : FL.id = t) :
    ∀ l1 : List Block, (∀ B ∈ l1, B.id ≠ t) →
      insertBlockBefore X t (l1 ++ FL :: l2) = l1 ++ X :: FL :: l2 := by
  intro l1
  induction l1 with
  | nil =>
    intro _
    simp only [List.nil_append, insertBlockBefore, hFL, ↓reduceIte]
  | cons C l1 ih =>
    intro h
    have hC : C.id ≠ t := h C (List.mem_cons_self _ _)
    have e := ih (fun B hB => h B (List.mem_cons_of_mem _ hB))
    rw [List.cons_append, insertBlockBefore, if_neg hC, e]
    rfl

/-- The layout after moving the block `b` right before `fl`, when the blocks already moved
sit right before `fl`. -/
theorem moveBlockBefore_layout (G : Func) (fl b : Nat) (A Mb P : List Block) (FL : Block)
    (hG : G.blocks = A ++ Mb ++ FL :: P) (hFL : FL.id = fl)
    (hN : (G.blocks.map (fun B => B.id)).Nodup)
    (hb : b ∈ G.blocks.map (fun B => B.id)) (hbM : b ∉ Mb.map (fun B => B.id))
    (hbfl : b ≠ fl) :
    ∃ A2 P2 X, X.id = b ∧ (moveBlockBefore G b fl).blocks = A2 ++ (Mb ++ [X]) ++ FL :: P2 ∧
      List.Perm ((moveBlockBefore G b fl).blocks.map (fun B => B.id))
        (G.blocks.map (fun B => B.id)) := by
  obtain ⟨X, hXmem, hXid⟩ := List.mem_map.mp hb
  have hXid2 : X.id = b := hXid
  have hfind : G.findBlock b = some X := by
    cases hf : G.findBlock b with
    | none =>
      unfold Func.findBlock at hf
      have := List.find?_eq_none.mp hf X hXmem
      simp [hXid2] at this
    | some Y =>
      have hYid := findBlock_id G b Y hf
      unfold Func.findBlock at hf
      have hYmem := List.mem_of_find?_eq_some hf
      have : Y = X := by
        have hinj := List.inj_on_of_nodup_map hN
        exact hinj hYmem hXmem (by rw [hYid, hXid2])
      rw [this]
  have hmove : (moveBlockBefore G b fl).blocks
      = insertBlockBefore X fl (G.blocks.filter (fun B => B.id != b)) := by
    unfold moveBlockBefore
    rw [if_neg hbfl, hfind]
    rfl
  have hNG := hN
  rw [hG] at hN hXmem
  have hpre : ∀ B ∈ A ++ Mb, B.id ≠ fl := by
    intro B hB e
    simp only [List.map_append, List.map_cons] at hN
    have hd := (List.nodup_append.mp hN).2.2
    have h1 : B.id ∈ List.map (fun B => B.id) A ++ List.map (fun B => B.id) Mb := by
      rw [← List.map_append]
      exact List.mem_map.mpr ⟨B, hB, rfl⟩
    exact hd h1 (by rw [e, ← hFL]; exact List.mem_cons_self _ _)
  have hXnotM : X ∉ Mb := fun h => hbM (List.mem_map.mpr ⟨X, h, hXid2⟩)
  have hXnotFL : X ≠ FL := fun e => hbfl (by rw [← hXid2, e, hFL])
  simp only [List.mem_append, List.mem_cons] at hXmem
  rcases hXmem with (hA | hM) | hFLX | hP
  · obtain ⟨A1, A2, hA12⟩ := List.append_of_mem hA
    have e1 : G.blocks = A1 ++ X :: (A2 ++ Mb ++ FL :: P) := by
      rw [hG, hA12]; simp
    have hf : G.blocks.filter (fun B => B.id != b) = (A1 ++ A2 ++ Mb) ++ FL :: P := by
      rw [← hXid2, e1, filter_split _ _ _ (by rw [← e1]; exact hNG)]
      simp
    have hpre2 : ∀ B ∈ A1 ++ A2 ++ Mb, B.id ≠ fl := by
      intro B hB
      apply hpre B
      rw [hA12]
      simp only [List.mem_append, List.mem_cons] at hB ⊢
      tauto
    refine ⟨A1 ++ A2, P, X, hXid2, ?_, ?_⟩
    · rw [hmove, hf, insertBlockBefore_split X FL fl P hFL _ hpre2]
      simp
    · rw [hmove, hf, insertBlockBefore_split X FL fl P hFL _ hpre2, e1]
      apply List.Perm.map
      have p1 : List.Perm (A1 ++ A2 ++ Mb ++ X :: FL :: P) (X :: (A1 ++ A2 ++ Mb ++ FL :: P)) :=
        List.perm_middle
      have p2 : List.Perm (A1 ++ X :: (A2 ++ Mb ++ FL :: P))
          (X :: (A1 ++ (A2 ++ Mb ++ FL :: P))) := List.perm_middle
      refine p1.trans ?_
      refine List.Perm.trans ?_ p2.symm
      simp
  · exact absurd hM hXnotM
  · exact absurd hFLX hXnotFL
  · obtain ⟨P1, P2, hP12⟩ := List.append_of_mem hP
    have e1 : G.blocks = (A ++ Mb ++ FL :: P1) ++ X :: P2 := by
      rw [hG, hP12]; simp
    have hf : G.blocks.filter (fun B => B.id != b) = (A ++ Mb) ++ FL :: (P1 ++ P2) := by
      rw [← hXid2, e1, filter_split _ _ _ (by rw [← e1]; exact hNG)]
      simp
    refine ⟨A, P1 ++ P2, X, hXid2, ?_, ?_⟩
    · rw [hmove, hf, insertBlockBefore_split X FL fl _ hFL _ hpre]
      simp
    · rw [hmove, hf, insertBlockBefore_split X FL fl _ hFL _ hpre, e1]
      apply List.Perm.map
      have p1 : List.Perm (A ++ Mb ++ X :: FL :: (P1 ++ P2))
          (X :: (A ++ Mb ++ FL :: (P1 ++ P2))) := List.perm_middle
      have p2 : List.Perm (A ++ Mb ++ FL :: P1 ++ X :: P2)
          (X :: (A ++ Mb ++ FL :: P1 ++ P2)) := List.perm_middle
      refine p1.trans ?_
      refine List.Perm.trans ?_ p2.symm
      simp

/-- The layout after the re-homing loop. -/
theorem rehome_layout (fl : Nat) :
    ∀ (l : List Nat) (G : Func) (A Mb P : List Block) (FL : Block),
      G.blocks = A ++ Mb ++ FL :: P → FL.id = fl →
      (G.blocks.map (fun B => B.id)).Nodup → l.Nodup →
      (∀ b ∈ l, b ∈ G.blocks.map (fun B => B.id) ∧ b ∉ Mb.map (fun B => B.id) ∧ b ≠ fl) →
      ∃ A2 P2 Mb2, (l.foldl (fun G BB => moveBlockBefore G BB fl) G).blocks
          = A2 ++ (Mb ++ Mb2) ++ FL :: P2 ∧ Mb2.map (fun B => B.id) = l := by
  intro l
  induction l with
  | nil =>
    intro G A Mb P FL hG _ _ _ _
    exact ⟨A, P, [], by simpa using hG, rfl⟩
  | cons b l ih =>
    intro G A Mb P FL hG hFL hN hl hmem
    obtain ⟨hb1, hb2, hb3⟩ := hmem b (List.mem_cons_self _ _)
    obtain ⟨A2, P2, X, hX, hG2, hperm⟩ :=
      moveBlockBefore_layout G fl b A Mb P FL hG hFL hN hb1 hb2 hb3
    have hl2 := List.nodup_cons.mp hl
    obtain ⟨A3, P3, Mb3, h3, h4⟩ := ih (moveBlockBefore G b fl) A2 (Mb ++ [X]) P2 FL hG2 hFL
      (hperm.nodup_iff.mpr hN) hl2.2
      (fun c hc => by
        obtain ⟨c1, c2, c3⟩ := hmem c (List.mem_cons_of_mem _ hc)
        refine ⟨hperm.mem_iff.mpr c1, ?_, c3⟩
        simp only [List.map_append, List.map_cons, List.map_nil, List.mem_append,
          List.mem_singleton, not_or]
        refine ⟨c2, ?_⟩
        rw [hX]
        intro e
        exact hl2.1 (e ▸ hc))
    refine ⟨A3, P3, X :: Mb3, ?_, ?_⟩
    · rw [List.foldl_cons, h3]
      simp
    · simp [hX, h4]

end Rehoming

section RehomingClaim

open IR LoopFusionOpt Examples

/-- C21. After a successful `fuseLoops` on a function whose blocks have distinct
identities, with Second's block list free of repetitions, its blocks other than its latch
and preheader being blocks of the function different from First's latch (and, for guarded
loops, from the two blocks the guarded step deletes), and First's latch different from
Second's latch and preheader: the returned loop lists First's blocks followed by those
blocks of Second, and in the block order of the function those blocks sit contiguously,
in the order in which Second listed them, immediately before First's latch. -/
theorem fuseLoops_rehomes_second_blocks (F : Func) (FAM : FunctionAnalysisManager)
    (First Second Fused : Loop) (t : FuseState) (fl sl sp : Nat)
    (h : fuseLoops F FAM (some First) (some Second) = some (some Fused, t))
    (hfl : First.latch = some fl) (hsl : Second.latch = some sl)
    (hsp : Second.preheader = some sp)
    (hN : (F.blocks.map (fun B => B.id)).Nodup) (hS : Second.blocks.Nodup)
    (hmem : ∀ b ∈ Second.blocks, b ≠ sl → b ≠ sp →
      b ∈ F.blocks.map (fun B => B.id) ∧ b ≠ fl)
    (hne : fl ≠ sl ∧ fl ≠ sp)
    (hg : ∀ g1 g2 fe, First.guardBranch = some g1 → Second.guardBranch = some g2 →
      First.getExitBlock = some fe → ∀ b ∈ Second.blocks, b ≠ g2 ∧ b ≠ fe) :
    Fused.blocks = First.blocks ++
      Second.blocks.filter (fun BB => !(decide (BB = sl) || decide (BB = sp))) ∧
    (∀ b ∈ Second.blocks, b ≠ sl → b ≠ sp → b ∈ Fused.blocks) ∧
    ∃ A P, t.F.blocks.map (fun B => B.id) =
      A ++ Second.blocks.filter (fun BB => !(decide (BB = sl) || decide (BB = sp))) ++
        fl :: P := by
  obtain ⟨fp, fl2, fe, sp2, sl2, se, fh, fb, sh, sb, fiv, siv, F2, s3, h1, h2, h3, h4, h5, h6,
    h7, h8, h9, h10, h11, h12, h13, h14, h15⟩ := fuseLoops_success F FAM First Second Fused t h
  rw [hfl] at h2; rw [hsl] at h5; rw [hsp] at h4
  simp only [Option.some.injEq] at h2 h4 h5
  subst h2; subst h4; subst h5
  have hF2 : F2.blocks.map (fun B => B.id) = F.blocks.map (fun B => B.id) := by
    rw [ids_of_skeleton _ _ (skeleton_fixPhis _ _ _ _ _ _ _ _ _ _ _ _ h13),
      ids_of_skeleton _ _ (skeleton_unifyInductionVariables F fiv siv)]
  -- the blocks of the function when step 4 starts
  have hs3 : (s3.F.blocks.map (fun B => B.id)).Nodup ∧
      ∀ b ∈ Second.blocks, b ≠ sl → b ≠ sp → b ∈ s3.F.blocks.map (fun B => B.id) := by
    rcases h14 with ⟨g1, g2, hg1, hg2, hu⟩ | ⟨_, hs⟩
    · have e := ids_unifyGuards _ g1 g2 fe se s3 hu
      simp only [] at e
      rw [hF2] at e
      rw [e]
      refine ⟨(hN.filter _).filter _, ?_⟩
      intro b hb hb1 hb2
      have hb3 := hg g1 g2 fe hg1 hg2 h3 b hb
      simp only [List.mem_filter, bne_iff_ne, ne_eq]
      exact ⟨⟨(hmem b hb hb1 hb2).1, hb3.1⟩, hb3.2⟩
    · rw [hs]
      simp only []
      rw [hF2]
      exact ⟨hN, fun b hb hb1 hb2 => (hmem b hb hb1 hb2).1⟩
  unfold finishFusion at h15
  split at h15
  · exact absurd h15 (by simp)
  · rename_i s1 hs1
    simp only [Option.some.injEq, Prod.mk.injEq] at h15
    obtain ⟨hFused, ht⟩ := h15
    obtain ⟨e1, hflmem⟩ := ids_spliceControlFlow s3 fl fb sp sl sb sh se s1 hs1
    have hN1 : (s1.F.blocks.map (fun B => B.id)).Nodup := by
      rw [e1]; exact (hs3.1.filter _).filter _
    have hfl1 : fl ∈ s1.F.blocks.map (fun B => B.id) := by
      rw [e1]
      simp only [List.mem_filter, bne_iff_ne, ne_eq]
      exact ⟨⟨hflmem, hne.1⟩, hne.2⟩
    have hblocks : Fused.blocks = First.blocks ++
        Second.blocks.filter (fun BB => !(decide (BB = sl) || decide (BB = sp))) := by
      rw [← hFused]
      rfl
    refine ⟨hblocks, ?_, ?_⟩
    · intro b hb hb1 hb2
      rw [hblocks]
      apply List.mem_append_right
      simp only [List.mem_filter, Bool.not_eq_true', Bool.or_eq_false_iff,
        decide_eq_false_iff_not]
      exact ⟨hb, hb1, hb2⟩
    · obtain ⟨FL, hFLmem, hFLid⟩ := List.mem_map.mp hfl1
      obtain ⟨A, P, hAP⟩ := List.append_of_mem hFLmem
      obtain ⟨A2, P2, Mb2, hlay, hMb2⟩ := rehome_layout fl
        (Second.blocks.filter (fun BB => !(decide (BB = sl) || decide (BB = sp))))
        s1.F A [] P FL (by simpa using hAP) hFLid hN1 (hS.filter _)
        (fun b hb => by
          simp only [List.mem_filter, Bool.not_eq_true', Bool.or_eq_false_iff,
            decide_eq_false_iff_not] at hb
          obtain ⟨hb0, hb1, hb2⟩ := hb
          refine ⟨?_, by simp, (hmem b hb0 hb1 hb2).2⟩
          rw [e1]
          simp only [List.mem_filter, bne_iff_ne, ne_eq]
          exact ⟨⟨hs3.2 b hb0 hb1 hb2, hb1⟩, hb2⟩)
      refine ⟨A2.map (fun B => B.id), P2.map (fun B => B.id), ?_⟩
      rw [← ht]
      have : (rehomeBlocks s1 First Second fl sp sl).2.F
          = (Second.blocks.filter (fun BB => !(decide (BB = sl) || decide (BB = sp)))).foldl
              (fun G BB => moveBlockBefore G BB fl) s1.F := rfl
      rw [this, hlay]
      simp [hMb2, hFLid]

set_option maxRecDepth 100000 in
/-- C21 on `writeThenReadSame`: the fusion returns a loop with the blocks 1, 2, 4, and in
the block order 0, 1, 4, 2, 6 of the function Second's block 4 sits right before First's
latch 2. -/
theorem fuseLoops_rehomes_second_blocks_witness :
    ∃ Fused t,
      fuseLoops writeThenReadSame (exampleFAM 4 0 4 4) (some loopA) (some loopB)
        = some (some Fused, t) ∧
      Fused.blocks = [1, 2, 4] ∧
      t.F.blocks.map (fun B => B.id) = [0, 1, 4, 2, 6] ∧
      (Fused.blocks = loopA.blocks ++
        loopB.blocks.filter (fun BB => !(decide (BB = 5) || decide (BB = 3))) ∧
      (∀ b ∈ loopB.blocks, b ≠ 5 → b ≠ 3 → b ∈ Fused.blocks) ∧
      ∃ A P, t.F.blocks.map (fun B => B.id) =
        A ++ loopB.blocks.filter (fun BB => !(decide (BB = 5) || decide (BB = 3))) ++
          2 :: P) := by
  have hsome : (fuseLoops writeThenReadSame (exampleFAM 4 0 4 4) (some loopA) (some loopB)).map
      (fun r => (r.1.map (fun L => L.blocks), r.2.F.blocks.map (fun B => B.id)))
      = some (some [1, 2, 4], [0, 1, 4, 2, 6]) := by decide
  cases hres : fuseLoops writeThenReadSame (exampleFAM 4 0 4 4) (some loopA) (some loopB) with
  | none => rw [hres] at hsome; simp at hsome
  | some r =>
    obtain ⟨Lo, t⟩ := r
    cases Lo with
    | none => rw [hres] at hsome; simp at hsome
    | some Fused =>
      rw [hres] at hsome
      simp only [Option.map_some', Option.some.injEq, Prod.mk.injEq] at hsome
      refine ⟨Fused, t, rfl, hsome.1, hsome.2, ?_⟩
      exact fuseLoops_rehomes_second_blocks writeThenReadSame (exampleFAM 4 0 4 4) loopA loopB
        Fused t 2 5 3 hres rfl rfl rfl (by decide) (by decide) (by decide) (by decide)
        (fun g1 g2 fe hg1 => by simp [loopA] at hg1)

end RehomingClaim

section BlockLists

open IR LICMopt LoopFusionOpt

theorem instsOf_blockwise (F : Func) (g : List Instr → List Instr) (hg : g [] = []) (b : Nat) :
    ({ blocks := F.blocks.map (fun B => { B with insts := g B.insts }) } : Func).instsOf b
      = g (F.instsOf b) := by
  rw [instsOf_map F (fun B => { B with insts := g B.insts }) (fun _ => rfl)]
  unfold Func.instsOf
  cases F.findBlock b with
  | none => exact hg.symm
  | some B => rfl

theorem instsOf_eraseInst (F : Func) (id b : Nat) :
    (eraseInst F id).instsOf b = (F.instsOf b).filter (fun I => I.id != id) :=
  instsOf_blockwise F (fun l => l.filter (fun I => I.id != id)) rfl b

theorem instsOf_mapInsts (F : Func) (f : Instr → Instr) (g : Term → Term) (b : Nat) :
    (mapInsts F f g).instsOf b = (F.instsOf b).map f := by
  unfold mapInsts
  rw [instsOf_map F (fun B => { B with insts := B.insts.map f, term := g B.term })
    (fun _ => rfl)]
  unfold Func.instsOf
  cases F.findBlock b with
  | none => rfl
  | some B => rfl

theorem instsOf_updateBlock_ne (F : Func) (x : Nat) (f : Block → Block)
    (hf : ∀ B, (f B).id = B.id) (b : Nat) (hb : b ≠ x) :
    (updateBlock F x f).instsOf b = F.instsOf b := by
  unfold Func.instsOf
  rw [findBlock_updateBlock F x f hf b, if_neg hb]

theorem instsOf_updateBlock_term (F : Func) (x : Nat) (f : Block → Block)
    (hf : ∀ B, (f B).id = B.id ∧ (f B).insts = B.insts) (b : Nat) :
    (updateBlock F x f).instsOf b = F.instsOf b := by
  unfold Func.instsOf
  rw [findBlock_updateBlock F x f (fun B => (hf B).1) b]
  by_cases hb : b = x
  · rw [if_pos hb, hb]
    cases F.findBlock x with
    | none => rfl
    | some B => exact (hf B).2
  · rw [if_neg hb]

theorem instsOf_setSuccessor (F : Func) (x i n : Nat) (F1 : Func)
    (h : setSuccessor F x i n = some F1) (b : Nat) : F1.instsOf b = F.instsOf b := by
  unfold setSuccessor at h
  split at h
  · split at h
    · simp only [Option.some.injEq] at h
      rw [← h]
      refine instsOf_updateBlock_term F x _ ?_ b
      intro B
      exact ⟨rfl, rfl⟩
    · exact absurd h (by simp)
  · exact absurd h (by simp)

theorem instsOf_replaceSuccessorWith (F : Func) (x o n : Nat) (b : Nat) :
    (replaceSuccessorWith F x o n).instsOf b = F.instsOf b := by
  unfold replaceSuccessorWith
  refine instsOf_updateBlock_term F x _ ?_ b
  intro B
  exact ⟨rfl, rfl⟩

theorem instsOf_eraseBlock (F : Func) (x b : Nat) (hb : b ≠ x) :
    (eraseBlock F x).instsOf b = F.instsOf b := by
  unfold Func.instsOf
  rw [findBlock_eraseBlock, if_neg hb]

theorem instsOf_replacePhiUsesWith_ne (F : Func) (x : Nat) (Old : Option Nat) (New : Nat)
    (b : Nat) (hb : b ≠ x) : (replacePhiUsesWith F x Old New).instsOf b = F.instsOf b := by
  unfold replacePhiUsesWith
  cases Old with
  | none => rfl
  | some o =>
    refine instsOf_updateBlock_ne F x _ ?_ b hb
    intro B
    rfl

theorem instsOf_replacePhiUsesWith (F : Func) (x : Nat) (Old : Option Nat) (New : Nat)
    (b : Nat) :
    (replacePhiUsesWith F x Old New).instsOf b = F.instsOf b ∨
      ∃ o, (replacePhiUsesWith F x Old New).instsOf b
        = replacePhiUsesInList (F.instsOf b) o New := by
  unfold replacePhiUsesWith
  cases Old with
  | none => exact Or.inl rfl
  | some o =>
    by_cases hb : b = x
    · right
      refine ⟨o, ?_⟩
      have e := findBlock_updateBlock F x
        (fun B => { B with insts := replacePhiUsesInList B.insts o New }) (fun _ => rfl) b
      unfold Func.instsOf
      simp only []
      rw [e, if_pos hb, hb]
      cases F.findBlock x with
      | none => rfl
      | some B => rfl
    · left
      refine instsOf_updateBlock_ne F x _ ?_ b hb
      intro B
      rfl

theorem insertBeforeIn_of_not_mem (I : Instr) (t : Nat) :
    ∀ l : List Instr, t ∉ l.map (fun J => J.id) → insertBeforeIn I t l = l := by
  intro l
  induction l with
  | nil => intro _; rfl
  | cons C l ih =>
    intro h
    simp only [List.map_cons, List.mem_cons, not_or] at h
    have hC : C.id ≠ t := fun e => h.1 e.symm
    rw [insertBeforeIn, if_neg hC, ih h.2]

theorem insertBeforeIn_split (I : Instr) (t : Nat) (J : Instr) (l2 : List Instr)
    (hJ : J.id = t) :
    ∀ l1 : List Instr, t ∉ l1.map (fun J => J.id) →
      insertBeforeIn I t (l1 ++ J :: l2) = l1 ++ I :: J :: l2 := by
  intro l1
  induction l1 with
  | nil =>
    intro _
    rw [List.nil_append, insertBeforeIn, if_pos hJ]
    rfl
  | cons C l1 ih =>
    intro h
    simp only [List.map_cons, List.mem_cons, not_or] at h
    have hC : C.id ≠ t := fun e => h.1 e.symm
    rw [List.cons_append, insertBeforeIn, if_neg hC, ih h.2]
    rfl

theorem instsOf_insertAt_before (F : Func) (t : Nat) (I : Instr) (b : Nat) :
    (insertAt F (InsertPt.before t) I).instsOf b = insertBeforeIn I t (F.instsOf b) :=
  instsOf_blockwise F (fun l => insertBeforeIn I t l) rfl b

theorem instsOf_appendInst (F : Func) (x : Nat) (I : Instr) (b : Nat) :
    (appendInst F x I).instsOf b
      = if b = x ∧ (F.findBlock b).isSome = true then F.instsOf b ++ [I] else F.instsOf b := by
  unfold appendInst
  rw [instsOf_map F _ (fun B => by by_cases h : (B.id == x) = true <;> simp [h])]
  unfold Func.instsOf
  cases hB : F.findBlock b with
  | none => simp
  | some B =>
    have hid := findBlock_id F b B hB
    by_cases hb : b = x
    · have : (B.id == x) = true := by simp [hid, hb]
      simp [this, hb]
    · have : (B.id == x) = false := by simp [hid, hb]
      simp [this, hb]

/-- The instructions of a block after `moveBefore`, when the moved instruction is
found. -/
theorem instsOf_moveBefore (F : Func) (id : Nat) (pt : InsertPt) (x : Nat) (I : Instr)
    (hpt : pt ≠ InsertPt.before id) (hf : F.findInst id = some (x, I)) (b : Nat) :
    (moveBefore F id pt).instsOf b =
      match pt with
      | InsertPt.before t => insertBeforeIn I t ((F.instsOf b).filter (fun J => J.id != id))
      | InsertPt.atEnd y =>
        if b = y ∧ (F.findBlock b).isSome = true
        then (F.instsOf b).filter (fun J => J.id != id) ++ [I]
        else (F.instsOf b).filter (fun J => J.id != id) := by
  unfold moveBefore
  rw [if_neg hpt, hf]
  cases pt with
  | before t =>
    simp only []
    rw [instsOf_insertAt_before, instsOf_eraseInst]
  | atEnd y =>
    simp only [insertAt]
    rw [instsOf_appendInst, instsOf_eraseInst]
    have : (eraseInst F id).findBlock b = (F.findBlock b).map
        (fun B => { B with insts := B.insts.filter (fun I => I.id != id) }) :=
      findBlock_map F (fun B => { B with insts := B.insts.filter (fun I => I.id != id) })
        (fun _ => rfl) b
    rw [this]
    simp

theorem filter_id_of_not_mem (id : Nat) (l : List Instr) (h : id ∉ l.map (fun J => J.id)) :
    l.filter (fun J => J.id != id) = l := by
  apply List.filter_eq_self.mpr
  intro J hJ
  have : J.id ≠ id := fun e => h (List.mem_map.mpr ⟨J, hJ, e⟩)
  simpa using this

theorem ids_replacePhiUsesInList (o n : Nat) :
    ∀ l : List Instr, (replacePhiUsesInList l o n).map (fun J => J.id)
      = l.map (fun J => J.id) := by
  intro l
  induction l with
  | nil => rfl
  | cons C l ih =>
    unfold replacePhiUsesInList
    split
    · simp only [List.map_cons, ih]
      rfl
    · rfl

end BlockLists

section UniqueIdentities

open IR LICMopt LoopFusionOpt

theorem uniqueIds_iff (F : Func) :
    UniqueIds F ↔ (∀ B ∈ F.blocks, (B.insts.map (fun I => I.id)).Nodup) ∧
      F.blocks.Pairwise (fun A B =>
        List.Disjoint (A.insts.map (fun I => I.id)) (B.insts.map (fun I => I.id))) := by
  unfold UniqueIds Func.allInsts
  rw [List.map_flatMap, List.nodup_flatMap]

/-- A blockwise edit keeps identities unique when it keeps each block's identities unique
and does not make two blocks share an identity. -/
theorem uniqueIds_map (F : Func) (e : Block → Block) (hu : UniqueIds F)
    (h1 : ∀ B ∈ F.blocks, (B.insts.map (fun I => I.id)).Nodup →
      ((e B).insts.map (fun I => I.id)).Nodup)
    (h2 : F.blocks.Pairwise (fun A B =>
      List.Disjoint (A.insts.map (fun I => I.id)) (B.insts.map (fun I => I.id)) →
      List.Disjoint ((e A).insts.map (fun I => I.id)) ((e B).insts.map (fun I => I.id)))) :
    UniqueIds { blocks := F.blocks.map e } := by
  rw [uniqueIds_iff] at hu ⊢
  constructor
  · intro B hB
    obtain ⟨A, hA, rfl⟩ := List.mem_map.mp hB
    exact h1 A hA (hu.1 A hA)
  · simp only []
    rw [List.pairwise_map]
    exact (hu.2.and h2).imp (fun h => h.2 h.1)

theorem uniqueIds_map_sub (F : Func) (e : Block → Block) (hu : UniqueIds F)
    (h : ∀ B, List.Sublist ((e B).insts.map (fun I => I.id)) (B.insts.map (fun I => I.id))) :
    UniqueIds { blocks := F.blocks.map e } := by
  apply uniqueIds_map F e hu
  · intro B _ hB
    exact hB.sublist (h B)
  · apply List.pairwise_of_forall
    intro A B hd x hx hy
    exact hd ((h A).subset hx) ((h B).subset hy)

theorem uniqueIds_eraseInst (F : Func) (id : Nat) (hu : UniqueIds F) :
    UniqueIds (eraseInst F id) :=
  uniqueIds_map_sub F _ hu (fun _ => (List.filter_sublist _).map _)

theorem uniqueIds_mapInsts (F : Func) (f : Instr → Instr) (g : Term → Term)
    (hf : ∀ I, (f I).id = I.id) (hu : UniqueIds F) : UniqueIds (mapInsts F f g) :=
  uniqueIds_map_sub F _ hu (fun B => by
    simp only [List.map_map]
    have : ((fun I : Instr => I.id) ∘ f) = (fun I : Instr => I.id) := by
      funext I; exact hf I
    rw [this])

theorem uniqueIds_replaceAllUsesWith (F : Func) (old new : Value) (hu : UniqueIds F) :
    UniqueIds (replaceAllUsesWith F old new) :=
  uniqueIds_mapInsts F _ _ (fun _ => rfl) hu

theorem uniqueIds_updateInst (F : Func) (id : Nat) (f : Instr → Instr)
    (hf : ∀ I, (f I).id = I.id) (hu : UniqueIds F) : UniqueIds (updateInst F id f) :=
  uniqueIds_mapInsts F _ _ (fun I => by by_cases h : I.id = id <;> simp [h, hf I]) hu

theorem uniqueIds_updateBlock (F : Func) (x : Nat) (f : Block → Block)
    (hf : ∀ B, (f B).insts.map (fun I => I.id) = B.insts.map (fun I => I.id))
    (hu : UniqueIds F) : UniqueIds (updateBlock F x f) :=
  uniqueIds_map_sub F _ hu (fun B => by
    by_cases h : B.id = x
    · simp only [h, ↓reduceIte]; rw [hf B]
    · simp only [h, ↓reduceIte]; exact List.Sublist.refl _)

theorem uniqueIds_replacePhiUsesWith (F : Func) (x : Nat) (Old : Option Nat) (New : Nat)
    (hu : UniqueIds F) : UniqueIds (replacePhiUsesWith F x Old New) := by
  unfold replacePhiUsesWith
  cases Old with
  | none => exact hu
  | some o => exact uniqueIds_updateBlock F x _ (fun _ => ids_replacePhiUsesInList o New _) hu

theorem mem_ids_insertBeforeIn (I : Instr) (t : Nat) (l : List Instr) (x : Nat)
    (h : x ∈ (insertBeforeIn I t l).map (fun J => J.id)) :
    x ∈ l.map (fun J => J.id) ∨ (x = I.id ∧ t ∈ l.map (fun J => J.id)) := by
  induction l with
  | nil => simp [insertBeforeIn] at h
  | cons C l ih =>
    unfold insertBeforeIn at h
    split at h
    · rename_i hC
      simp only [List.map_cons, List.mem_cons] at h
      rcases h with h | h | h
      · exact Or.inr ⟨h, by simp [hC]⟩
      · exact Or.inl (by simp [h])
      · exact Or.inl (by simp only [List.map_cons, List.mem_cons]; exact Or.inr h)
    · simp only [List.map_cons, List.mem_cons] at h
      rcases h with h | h
      · exact Or.inl (by simp [h])
      · rcases ih h with h2 | ⟨h2, h3⟩
        · exact Or.inl (by simp only [List.map_cons, List.mem_cons]; exact Or.inr h2)
        · exact Or.inr ⟨h2, by simp only [List.map_cons, List.mem_cons]; exact Or.inr h3⟩

theorem nodup_ids_insertBeforeIn (I : Instr) (t : Nat) (l : List Instr)
    (hl : (l.map (fun J => J.id)).Nodup) (hI : I.id ∉ l.map (fun J => J.id)) :
    ((insertBeforeIn I t l).map (fun J => J.id)).Nodup := by
  induction l with
  | nil => simp [insertBeforeIn]
  | cons C l ih =>
    simp only [List.map_cons, List.nodup_cons, List.mem_cons, not_or] at hl hI
    unfold insertBeforeIn
    split
    · simp only [List.map_cons, List.nodup_cons, List.mem_cons, not_or]
      exact ⟨⟨hI.1, hI.2⟩, hl.1, hl.2⟩
    · simp only [List.map_cons, List.nodup_cons]
      refine ⟨?_, ih hl.2 hI.2⟩
      intro hm
      rcases mem_ids_insertBeforeIn I t l C.id hm with h | ⟨h, _⟩
      · exact hl.1 h
      · exact hI.1 h.symm

/-- Linking in an instruction whose identity is not in the function keeps identities
unique; `atEnd` needs the blocks to have distinct identities. -/
theorem uniqueIds_insertAt (F : Func) (pt : InsertPt) (I : Instr) (hu : UniqueIds F)
    (hb : (F.blocks.map (fun B => B.id)).Nodup)
    (hI : I.id ∉ F.allInsts.map (fun J => J.id)) : UniqueIds (insertAt F pt I) := by
  have hIB : ∀ B ∈ F.blocks, I.id ∉ B.insts.map (fun J => J.id) := by
    intro B hB hm
    apply hI
    obtain ⟨J, hJ, hJid⟩ := List.mem_map.mp hm
    exact List.mem_map.mpr ⟨J, (mem_allInsts F J).2 ⟨B, hB, hJ⟩, hJid⟩
  cases pt with
  | before t =>
    apply uniqueIds_map F _ hu
    · intro B hB hN
      exact nodup_ids_insertBeforeIn I t B.insts hN (hIB B hB)
    · have hmem : F.blocks.Pairwise (fun A B => A ∈ F.blocks ∧ B ∈ F.blocks) :=
        List.Pairwise.and_mem.mp (List.pairwise_of_forall (fun _ _ => trivial)) |>.imp
          (fun h => ⟨h.1, h.2.1⟩)
      refine hmem.imp ?_
      rintro A B ⟨hA, hB⟩ hd x hx hy
      rcases mem_ids_insertBeforeIn I t A.insts x hx with h1 | ⟨h1, h1t⟩
      · rcases mem_ids_insertBeforeIn I t B.insts x hy with h2 | ⟨h2, _⟩
        · exact hd h1 h2
        · exact hIB A hA (h2 ▸ h1)
      · rcases mem_ids_insertBeforeIn I t B.insts x hy with h2 | ⟨_, h2t⟩
        · exact hIB B hB (h1 ▸ h2)
        · exact hd h1t h2t
  | atEnd b =>
    unfold insertAt appendInst
    apply uniqueIds_map F _ hu
    · intro B hB hN
      by_cases h : (B.id == b) = true
      · simp only [h, ↓reduceIte, List.map_append, List.map_cons, List.map_nil]
        rw [List.nodup_append]
        refine ⟨hN, List.nodup_singleton _, ?_⟩
        intro x hx hy
        rw [List.mem_singleton] at hy
        exact hIB B hB (hy ▸ hx)
      · simp only [h]
        exact hN
    · have hbp : F.blocks.Pairwise (fun A B => A.id ≠ B.id) := by
        rw [List.Nodup, List.pairwise_map] at hb
        exact hb
      have hmem : F.blocks.Pairwise (fun A B => A ∈ F.blocks ∧ B ∈ F.blocks) :=
        List.Pairwise.and_mem.mp (List.pairwise_of_forall (fun _ _ => trivial)) |>.imp
          (fun h => ⟨h.1, h.2.1⟩)
      refine (hbp.and hmem).imp ?_
      rintro A B ⟨hAB, hA, hB⟩ hd x hx hy
      by_cases ha : (A.id == b) = true
      · have hbb : (B.id == b) = false := by
          have : A.id = b := by simpa using ha
          have : B.id ≠ b := fun e => hAB (this.trans e.symm)
          simpa using this
        simp only [ha, ↓reduceIte, List.map_append, List.map_cons, List.map_nil,
          List.mem_append, List.mem_singleton] at hx
        simp only [hbb] at hy
        rcases hx with hx | hx
        · exact hd hx hy
        · exact hIB B hB (hx ▸ hy)
      · simp only [ha] at hx
        by_cases hbb : (B.id == b) = true
        · simp only [hbb, ↓reduceIte, List.map_append, List.map_cons, List.map_nil,
            List.mem_append, List.mem_singleton] at hy
          rcases hy with hy | hy
          · exact hd hx hy
          · exact hIB A hA (hy ▸ hx)
        · simp only [hbb] at hy
          exact hd hx hy

theorem not_mem_ids_eraseInst (F : Func) (id : Nat) :
    id ∉ (eraseInst F id).allInsts.map (fun J => J.id) := by
  intro hm
  obtain ⟨J, hJ, hJid⟩ := List.mem_map.mp hm
  obtain ⟨B, hB, hJB⟩ := (mem_allInsts _ J).1 hJ
  unfold eraseInst at hB
  obtain ⟨A, _, rfl⟩ := List.mem_map.mp hB
  have := (List.mem_filter.mp hJB).2
  simp [hJid] at this

theorem ids_eraseInst (F : Func) (id : Nat) :
    (eraseInst F id).blocks.map (fun B => B.id) = F.blocks.map (fun B => B.id) :=
  ids_of_skeleton _ _ (skeleton_eraseInst F id)

theorem uniqueIds_moveBefore (F : Func) (id : Nat) (pt : InsertPt) (hu : UniqueIds F)
    (hb : (F.blocks.map (fun B => B.id)).Nodup) : UniqueIds (moveBefore F id pt) := by
  unfold moveBefore
  split
  · exact hu
  · split
    · rename_i x I hf
      have hid : I.id = id := (findInstIn_some F.blocks id x I hf).1
      apply uniqueIds_insertAt _ pt I (uniqueIds_eraseInst F id hu)
      · rw [ids_eraseInst]; exact hb
      · rw [hid]; exact not_mem_ids_eraseInst F id
    · exact hu

end UniqueIdentities

section WellFormedSteps

open IR LICMopt LoopFusionOpt

theorem uniqueIds_unifyInductionVariables (F : Func) (fiv siv : Nat) (hu : UniqueIds F) :
    UniqueIds (unifyInductionVariables F fiv siv) :=
  uniqueIds_eraseInst _ _ (uniqueIds_replaceAllUsesWith F _ _ hu)

theorem uniqueIds_resourcePhis (F : Func) (fp fl fb sp sl sh se : Nat) (hu : UniqueIds F) :
    UniqueIds (resourcePhis F fp fl fb sp sl sh se) := by
  unfold resourcePhis
  exact uniqueIds_replacePhiUsesWith _ _ _ _ (uniqueIds_replacePhiUsesWith _ _ _ _
    (uniqueIds_replacePhiUsesWith _ _ _ _ (uniqueIds_replacePhiUsesWith _ _ _ _ hu)))

theorem uniqueIds_updateFirstPhi (v in1 : Value) (G : Func) (x : Nat) (G2 : Func)
    (hu : UniqueIds G) (h : updateFirstPhi v in1 G x = some G2) : UniqueIds G2 := by
  unfold updateFirstPhi at h
  split at h
  · split at h
    · split at h
      · simp only [Option.some.injEq] at h
        rw [← h]
        exact uniqueIds_updateInst G x _ (fun _ => rfl) hu
      · simp only [Option.some.injEq] at h
        rw [← h]; exact hu
    · exact absurd h (by simp)
  · exact absurd h (by simp)

theorem uniqueIds_foldlM {α : Type} (f : Func → α → Option Func)
    (hf : ∀ G x G2, UniqueIds G → f G x = some G2 → UniqueIds G2) :
    ∀ (l : List α) (F F2 : Func), UniqueIds F → l.foldlM f F = some F2 → UniqueIds F2 := by
  intro l
  induction l with
  | nil =>
    intro F F2 hu h
    simp only [List.foldlM_nil, Option.pure_def, Option.some.injEq] at h
    rw [← h]; exact hu
  | cons a l ih =>
    intro F F2 hu h
    rw [List.foldlM_cons] at h
    cases hfa : f F a with
    | none => rw [hfa] at h; simp at h
    | some G =>
      rw [hfa] at h
      simp only [Option.bind_eq_bind, Option.some_bind] at h
      exact ih G F2 (hf F a G hu hfa) h

/-- Unique instruction identities together with distinct block identities. -/
theorem wf_reconcilePhi (First : Loop) (fe : Nat) (fhp : List Nat) (ib : InsertPt)
    (G : Func) (x : Nat) (G2 : Func)
    (hw : UniqueIds G ∧ (G.blocks.map (fun B => B.id)).Nodup)
    (h : reconcilePhi First fe fhp ib G x = some G2) :
    UniqueIds G2 ∧ (G2.blocks.map (fun B => B.id)).Nodup := by
  refine ⟨?_, by rw [ids_of_skeleton _ _ (skeleton_reconcilePhi _ _ _ _ _ _ _ h)]; exact hw.2⟩
  unfold reconcilePhi at h
  split at h
  · split at h
    · split at h
      · split at h
        · split at h
          · rename_i G1 hG1
            simp only [Option.some.injEq] at h
            rw [← h]
            apply uniqueIds_eraseInst
            apply uniqueIds_eraseInst
            apply uniqueIds_replaceAllUsesWith
            exact uniqueIds_foldlM _ (uniqueIds_updateFirstPhi _ _) _ _ _ hw.1 hG1
          · exact absurd h (by simp)
        · exact absurd h (by simp)
      · simp only [Option.some.injEq] at h
        rw [← h]
        exact uniqueIds_moveBefore G x ib hw.1 hw.2
    · exact absurd h (by simp)
  · exact absurd h (by simp)

theorem wf_foldlM {α : Type} (f : Func → α → Option Func)
    (hf : ∀ G x G2, (UniqueIds G ∧ (G.blocks.map (fun B => B.id)).Nodup) → f G x = some G2 →
      (UniqueIds G2 ∧ (G2.blocks.map (fun B => B.id)).Nodup)) :
    ∀ (l : List α) (F F2 : Func), (UniqueIds F ∧ (F.blocks.map (fun B => B.id)).Nodup) →
      l.foldlM f F = some F2 → (UniqueIds F2 ∧ (F2.blocks.map (fun B => B.id)).Nodup) := by
  intro l
  induction l with
  | nil =>
    intro F F2 hu h
    simp only [List.foldlM_nil, Option.pure_def, Option.some.injEq] at h
    rw [← h]; exact hu
  | cons a l ih =>
    intro F F2 hu h
    rw [List.foldlM_cons] at h
    cases hfa : f F a with
    | none => rw [hfa] at h; simp at h
    | some G =>
      rw [hfa] at h
      simp only [Option.bind_eq_bind, Option.some_bind] at h
      exact ih G F2 (hf F a G hu hfa) h

theorem wf_foldl {α : Type} (f : Func → α → Func)
    (hf : ∀ G x, (UniqueIds G ∧ (G.blocks.map (fun B => B.id)).Nodup) →
      (UniqueIds (f G x) ∧ ((f G x).blocks.map (fun B => B.id)).Nodup)) :
    ∀ (l : List α) (F : Func), (UniqueIds F ∧ (F.blocks.map (fun B => B.id)).Nodup) →
      (UniqueIds (l.foldl f F) ∧ ((l.foldl f F).blocks.map (fun B => B.id)).Nodup) := by
  intro l
  induction l with
  | nil => intro F h; exact h
  | cons a l ih => intro F h; exact ih _ (hf F a h)

theorem wf_moveBefore (G : Func) (id : Nat) (pt : InsertPt)
    (hw : UniqueIds G ∧ (G.blocks.map (fun B => B.id)).Nodup) :
    UniqueIds (moveBefore G id pt) ∧ ((moveBefore G id pt).blocks.map (fun B => B.id)).Nodup :=
  ⟨uniqueIds_moveBefore G id pt hw.1 hw.2,
    by rw [ids_of_skeleton _ _ (skeleton_moveBefore G id pt)]; exact hw.2⟩

theorem wf_setIncomingBlock0 (fl : Nat) (G : Func) (x : Nat) (G2 : Func)
    (hw : UniqueIds G ∧ (G.blocks.map (fun B => B.id)).Nodup)
    (h : setIncomingBlock0 fl G x = some G2) :
    UniqueIds G2 ∧ (G2.blocks.map (fun B => B.id)).Nodup := by
  refine ⟨?_, by rw [ids_of_skeleton _ _ (skeleton_setIncomingBlock0 _ _ _ _ h)]; exact hw.2⟩
  unfold setIncomingBlock0 at h
  split at h
  · split at h
    · simp only [Option.some.injEq] at h
      rw [← h]
      exact uniqueIds_updateInst G x _ (fun _ => rfl) hw.1
    · exact absurd h (by simp)
  · exact absurd h (by simp)

/-- The function on which the loop over the merge nodes of Second's header starts. -/
theorem wf_resourcePhis_unify (F : Func) (fiv siv fp fl fb sp sl sh se : Nat)
    (hw : UniqueIds F ∧ (F.blocks.map (fun B => B.id)).Nodup) :
    UniqueIds (resourcePhis (unifyInductionVariables F fiv siv) fp fl fb sp sl sh se) ∧
    ((resourcePhis (unifyInductionVariables F fiv siv) fp fl fb sp sl sh se).blocks.map
      (fun B => B.id)).Nodup := by
  refine ⟨uniqueIds_resourcePhis _ _ _ _ _ _ _ _ (uniqueIds_unifyInductionVariables F _ _ hw.1),
    ?_⟩
  rw [ids_of_skeleton _ _ (skeleton_resourcePhis _ _ _ _ _ _ _ _),
    ids_of_skeleton _ _ (skeleton_unifyInductionVariables F fiv siv)]
  exact hw.2

/-- With unique identities two different blocks share no instruction identity. -/
theorem ids_disjoint (G : Func) (hu : UniqueIds G) (x y : Nat) (hxy : x ≠ y)
    (I J : Instr) (hI : I ∈ G.instsOf x) (hJ : J ∈ G.instsOf y) : I.id ≠ J.id := by
  intro e
  have h1 := findInst_of_mem G hu x I hI
  have h2 := findInst_of_mem G hu y J hJ
  rw [e, h2] at h1
  simp only [Option.some.injEq, Prod.mk.injEq] at h1
  exact hxy h1.1.symm

theorem instsOf_ids_nodup (G : Func) (hu : UniqueIds G) (x : Nat) :
    ((G.instsOf x).map (fun I => I.id)).Nodup := by
  rw [uniqueIds_iff] at hu
  unfold Func.instsOf Func.findBlock
  split
  · rename_i B hB
    exact hu.1 B (List.mem_of_find?_eq_some hB)
  · exact List.nodup_nil

end WellFormedSteps

section ExitMerges

open IR LICMopt LoopFusionOpt

theorem find?_split {α : Type} (p : α → Bool) :
    ∀ (l : List α) (b : α), l.find? p = some b →
      ∃ as bs, l = as ++ b :: bs ∧ (∀ a ∈ as, p a = false) ∧ p b = true := by
  intro l
  induction l with
  | nil => intro b h; simp at h
  | cons c l ih =>
    intro b h
    rw [List.find?_cons] at h
    cases hc : p c with
    | true =>
      rw [hc] at h
      simp only [Option.some.injEq] at h
      subst h
      exact ⟨[], l, rfl, by simp, hc⟩
    | false =>
      rw [hc] at h
      obtain ⟨as, bs, h1, h2, h3⟩ := ih b h
      refine ⟨c :: as, bs, by rw [h1]; rfl, ?_, h3⟩
      intro a ha
      rcases List.mem_cons.mp ha with e | e
      · rw [e]; exact hc
      · exact h2 a e

theorem findBlock_isSome_iff (G : Func) (b : Nat) :
    (G.findBlock b).isSome = true ↔ b ∈ G.blocks.map (fun B => B.id) := by
  unfold Func.findBlock
  rw [List.find?_isSome]
  simp only [beq_iff_eq, List.mem_map]

/-- The loop `phi->setIncomingBlock(0, firstLatch)` over instructions of one block. -/
theorem setIncoming_fold (fl fe : Nat) :
    ∀ (Q : List Instr) (G G2 : Func), UniqueIds G → (∀ I ∈ Q, I ∈ G.instsOf fe) →
      (Q.map (fun I => I.id)).Nodup →
      (Q.map (fun I => I.id)).foldlM (setIncomingBlock0 fl) G = some G2 →
      (∀ x, G2.instsOf x = (G.instsOf x).map (fun I =>
        if I.id ∈ Q.map (fun I => I.id) then { I with incoming := I.incoming.set 0 fl }
        else I)) ∧
      (∀ I ∈ Q, 0 < I.incoming.length) := by
  intro Q
  induction Q with
  | nil =>
    intro G G2 _ _ _ h
    simp only [List.map_nil, List.foldlM_nil, Option.pure_def, Option.some.injEq] at h
    subst h
    refine ⟨fun x => ?_, fun I hI => absurd hI (List.not_mem_nil _)⟩
    simp
  | cons I Q ih =>
    intro G G2 hu hmem hnd h
    simp only [List.map_cons, List.nodup_cons] at hnd
    rw [List.map_cons, List.foldlM_cons] at h
    have hfind := findInst_of_mem G hu fe I (hmem I (List.mem_cons_self _ _))
    have hstep : setIncomingBlock0 fl G I.id = if 0 < I.incoming.length
        then some (updateInst G I.id (fun I => { I with incoming := I.incoming.set 0 fl }))
        else none := by
      unfold setIncomingBlock0
      rw [hfind]
    rw [hstep] at h
    by_cases hlen : 0 < I.incoming.length
    · rw [if_pos hlen] at h
      simp only [Option.bind_eq_bind, Option.some_bind] at h
      have hx : ∀ x, (updateInst G I.id
          (fun I => { I with incoming := I.incoming.set 0 fl })).instsOf x =
          (G.instsOf x).map (fun K => if K.id = I.id
            then { K with incoming := K.incoming.set 0 fl } else K) := by
        intro x
        unfold updateInst
        rw [instsOf_mapInsts]
      have hmem2 : ∀ K ∈ Q, K ∈ (updateInst G I.id
          (fun I => { I with incoming := I.incoming.set 0 fl })).instsOf fe := by
        intro K hK
        rw [hx]
        refine List.mem_map.mpr ⟨K, hmem K (List.mem_cons_of_mem _ hK), ?_⟩
        have : K.id ≠ I.id := by
          intro e
          exact hnd.1 (List.mem_map.mpr ⟨K, hK, e⟩)
        rw [if_neg this]
      have hu1 : UniqueIds (updateInst G I.id
          (fun I => { I with incoming := I.incoming.set 0 fl })) :=
        uniqueIds_updateInst G I.id _ (fun _ => rfl) hu
      obtain ⟨h1, h2⟩ := ih (updateInst G I.id
        (fun I => { I with incoming := I.incoming.set 0 fl })) G2 hu1 hmem2 hnd.2 h
      refine ⟨fun x => ?_, ?_⟩
      · rw [h1, hx, List.map_map]
        apply List.map_congr_left
        intro K _
        simp only [Function.comp, List.map_cons, List.mem_cons]
        by_cases hK : K.id = I.id
        · have hq : I.id ∉ Q.map (fun I => I.id) := hnd.1
          simp only [hK, ↓reduceIte, true_or, hq]
        · simp only [hK, ↓reduceIte, false_or]
      · intro K hK
        rcases List.mem_cons.mp hK with e | e
        · rw [e]; exact hlen
        · exact h2 K e
    · rw [if_neg hlen] at h
      simp at h

/-- The loop `phi->moveBefore(movePoint)` when the move point is an instruction `J` of
the target block: the moved instructions arrive, in order, right before `J`. -/
theorem move_fold_before (fe se t : Nat) (hne : fe ≠ se) (J : Instr) (hJ : J.id = t)
    (pre post : List Instr) :
    ∀ (Q : List Instr) (G : Func) (M1 : List Instr),
      (UniqueIds G ∧ (G.blocks.map (fun B => B.id)).Nodup) →
      (∀ I ∈ Q, I ∈ G.instsOf fe) → (Q.map (fun I => I.id)).Nodup →
      G.instsOf se = pre ++ M1 ++ J :: post →
      ((Q.map (fun I => I.id)).foldl (fun G p => moveBefore G p (InsertPt.before t)) G).instsOf se
        = pre ++ (M1 ++ Q) ++ J :: post ∧
      (UniqueIds ((Q.map (fun I => I.id)).foldl
          (fun G p => moveBefore G p (InsertPt.before t)) G) ∧
        (((Q.map (fun I => I.id)).foldl
          (fun G p => moveBefore G p (InsertPt.before t)) G).blocks.map
            (fun B => B.id)).Nodup) := by
  intro Q
  induction Q with
  | nil =>
    intro G M1 hw _ _ hse
    simp only [List.map_nil, List.foldl_nil, List.append_nil]
    exact ⟨hse, hw⟩
  | cons I Q ih =>
    intro G M1 hw hmem hnd hse
    simp only [List.map_cons, List.nodup_cons] at hnd
    simp only [List.map_cons, List.foldl_cons]
    have hI := hmem I (List.mem_cons_self _ _)
    have hfind := findInst_of_mem G hw.1 fe I hI
    have hJse : J ∈ G.instsOf se := by rw [hse]; simp
    have htI : t ≠ I.id := by
      rw [← hJ]
      exact fun e => ids_disjoint G hw.1 fe se hne I J hI hJse e.symm
    have hpt : InsertPt.before t ≠ InsertPt.before I.id := by
      intro e
      injection e with e
      exact htI e
    have hall := instsOf_moveBefore G I.id (InsertPt.before t) fe I hpt hfind
    simp only [] at hall
    have hse1 : (moveBefore G I.id (InsertPt.before t)).instsOf se
        = pre ++ (M1 ++ [I]) ++ J :: post := by
      rw [hall, filter_id_of_not_mem I.id (G.instsOf se), hse]
      · have hnd2 := instsOf_ids_nodup G hw.1 se
        rw [hse] at hnd2
        have hnot : t ∉ (pre ++ M1).map (fun K => K.id) := by
          simp only [List.map_append, List.map_cons] at hnd2
          have := (List.nodup_append.mp hnd2).2.2
          intro hm
          rw [List.map_append] at hm
          exact this hm (by rw [hJ]; exact List.mem_cons_self _ _)
        rw [insertBeforeIn_split I t J post hJ (pre ++ M1) hnot]
        simp
      · intro hm
        obtain ⟨K, hK, hKid⟩ := List.mem_map.mp hm
        exact ids_disjoint G hw.1 fe se hne I K hI hK hKid.symm
    have hmem1 : ∀ K ∈ Q, K ∈ (moveBefore G I.id (InsertPt.before t)).instsOf fe := by
      intro K hK
      rw [hall, insertBeforeIn_of_not_mem]
      · refine List.mem_filter.mpr ⟨hmem K (List.mem_cons_of_mem _ hK), ?_⟩
        have : K.id ≠ I.id := fun e => hnd.1 (List.mem_map.mpr ⟨K, hK, e⟩)
        simpa using this
      · intro hm
        obtain ⟨K2, hK2, hK2id⟩ := List.mem_map.mp hm
        have hK3 := (List.mem_filter.mp hK2).1
        exact ids_disjoint G hw.1 fe se hne K2 J hK3 hJse (hK2id.trans hJ.symm)
    obtain ⟨h1, h2⟩ := ih _ (M1 ++ [I]) (wf_moveBefore G I.id _ hw) hmem1 hnd.2 hse1
    refine ⟨?_, h2⟩
    rw [h1]
    simp

/-- The loop `phi->moveBefore(movePoint)` when the target block has no instruction that
is not a merge node: the moved instructions arrive, in order, at its end. -/
theorem move_fold_atEnd (fe se : Nat) (hne : fe ≠ se) (S0 : List Instr) :
    ∀ (Q : List Instr) (G : Func) (M1 : List Instr),
      (UniqueIds G ∧ (G.blocks.map (fun B => B.id)).Nodup) →
      se ∈ G.blocks.map (fun B => B.id) →
      (∀ I ∈ Q, I ∈ G.instsOf fe) → (Q.map (fun I => I.id)).Nodup →
      G.instsOf se = S0 ++ M1 →
      ((Q.map (fun I => I.id)).foldl (fun G p => moveBefore G p (InsertPt.atEnd se)) G).instsOf se
        = S0 ++ (M1 ++ Q) ∧
      (UniqueIds ((Q.map (fun I => I.id)).foldl
          (fun G p => moveBefore G p (InsertPt.atEnd se)) G) ∧
        (((Q.map (fun I => I.id)).foldl
          (fun G p => moveBefore G p (InsertPt.atEnd se)) G).blocks.map
            (fun B => B.id)).Nodup) := by
  intro Q
  induction Q with
  | nil =>
    intro G M1 hw _ _ _ hse
    simp only [List.map_nil, List.foldl_nil, List.append_nil]
    exact ⟨hse, hw⟩
  | cons I Q ih =>
    intro G M1 hw hsemem hmem hnd hse
    simp only [List.map_cons, List.nodup_cons] at hnd
    simp only [List.map_cons, List.foldl_cons]
    have hI := hmem I (List.mem_cons_self _ _)
    have hfind := findInst_of_mem G hw.1 fe I hI
    have hpt : InsertPt.atEnd se ≠ InsertPt.before I.id := by
      intro e
      injection e
    have hall := instsOf_moveBefore G I.id (InsertPt.atEnd se) fe I hpt hfind
    simp only [] at hall
    have hsome := (findBlock_isSome_iff G se).2 hsemem
    have hse1 : (moveBefore G I.id (InsertPt.atEnd se)).instsOf se = S0 ++ (M1 ++ [I]) := by
      rw [hall, if_pos ⟨rfl, hsome⟩, filter_id_of_not_mem I.id (G.instsOf se), hse]
      · simp
      · intro hm
        obtain ⟨K, hK, hKid⟩ := List.mem_map.mp hm
        exact ids_disjoint G hw.1 fe se hne I K hI hK hKid.symm
    have hmem1 : ∀ K ∈ Q, K ∈ (moveBefore G I.id (InsertPt.atEnd se)).instsOf fe := by
      intro K hK
      rw [hall, if_neg (fun h => hne h.1)]
      refine List.mem_filter.mpr ⟨hmem K (List.mem_cons_of_mem _ hK), ?_⟩
      have : K.id ≠ I.id := fun e => hnd.1 (List.mem_map.mpr ⟨K, hK, e⟩)
      simpa using this
    have hw1 := wf_moveBefore G I.id (InsertPt.atEnd se) hw
    have hsemem1 : se ∈ (moveBefore G I.id (InsertPt.atEnd se)).blocks.map (fun B => B.id) := by
      rw [ids_of_skeleton _ _ (skeleton_moveBefore G I.id _)]
      exact hsemem
    obtain ⟨h1, h2⟩ := ih _ (M1 ++ [I]) hw1 hsemem1 hmem1 hnd.2 hse1
    refine ⟨?_, h2⟩
    rw [h1]
    simp

end ExitMerges

section ExitMergeTracking

open IR LICMopt LoopFusionOpt

/-- The relocation of the merge nodes of First's exit block to Second's exit block. -/
theorem moveLCSSA_spec (G G2 : Func) (fe fl se : Nat)
    (hw : UniqueIds G ∧ (G.blocks.map (fun B => B.id)).Nodup) (hne : fe ≠ se)
    (hse : se ∈ G.blocks.map (fun B => B.id))
    (h : moveLCSSA G fe fl se = some G2) :
    ∃ pre rest, G.instsOf se = pre ++ rest ∧ (∀ I ∈ pre, I.op = Opcode.phi) ∧
      (∀ J, rest.head? = some J → J.op ≠ Opcode.phi) ∧
      G2.instsOf se = pre ++
        ((G.instsOf fe).filter (fun I => decide (I.op = Opcode.phi))).map
          (fun I => { I with incoming := I.incoming.set 0 fl }) ++ rest ∧
      (∀ I ∈ (G.instsOf fe).filter (fun I => decide (I.op = Opcode.phi)),
        0 < I.incoming.length) ∧
      (UniqueIds G2 ∧ (G2.blocks.map (fun B => B.id)).Nodup) := by
  unfold moveLCSSA at h
  simp only [] at h
  split at h
  · rename_i F1 hF1
    simp only [Option.some.injEq] at h
    have hQmem : ∀ I ∈ (G.instsOf fe).filter (fun I => decide (I.op = Opcode.phi)),
        I ∈ G.instsOf fe := fun I hI => (List.mem_filter.mp hI).1
    have hQnd : (((G.instsOf fe).filter (fun I => decide (I.op = Opcode.phi))).map
        (fun I => I.id)).Nodup :=
      (instsOf_ids_nodup G hw.1 fe).sublist ((List.filter_sublist _).map _)
    obtain ⟨hx, hlen⟩ := setIncoming_fold fl fe _ G F1 hw.1 hQmem hQnd hF1
    have hw1 := wf_foldlM _ (wf_setIncomingBlock0 fl) _ _ _ hw hF1
    -- Second's exit block is not touched by the first loop
    have hse1 : F1.instsOf se = G.instsOf se := by
      rw [hx]
      conv_rhs => rw [← List.map_id (G.instsOf se)]
      apply List.map_congr_left
      intro K hK
      have : K.id ∉ ((G.instsOf fe).filter (fun I => decide (I.op = Opcode.phi))).map
          (fun I => I.id) := by
        intro hm
        obtain ⟨I, hI, hIid⟩ := List.mem_map.mp hm
        exact ids_disjoint G hw.1 fe se hne I K (hQmem I hI) hK hIid
      rw [if_neg this]
      rfl
    -- the merge nodes to move, after the first loop
    have hmem1 : ∀ I ∈ ((G.instsOf fe).filter (fun I => decide (I.op = Opcode.phi))).map
        (fun I => { I with incoming := I.incoming.set 0 fl }), I ∈ F1.instsOf fe := by
      intro I hI
      obtain ⟨I0, hI0, rfl⟩ := List.mem_map.mp hI
      rw [hx]
      refine List.mem_map.mpr ⟨I0, hQmem I0 hI0, ?_⟩
      rw [if_pos (List.mem_map.mpr ⟨I0, hI0, rfl⟩)]
    have hids : (((G.instsOf fe).filter (fun I => decide (I.op = Opcode.phi))).map
        (fun I => { I with incoming := I.incoming.set 0 fl })).map (fun I => I.id)
        = phisOf G fe := by
      rw [List.map_map]
      rfl
    have hnd1 : ((((G.instsOf fe).filter (fun I => decide (I.op = Opcode.phi))).map
        (fun I => { I with incoming := I.incoming.set 0 fl })).map (fun I => I.id)).Nodup := by
      rw [hids]; exact hQnd
    have hse2 : se ∈ F1.blocks.map (fun B => B.id) := by
      rw [ids_of_skeleton _ _ (skeleton_foldlM _ (skeleton_setIncomingBlock0 fl) _ _ _ hF1)]
      exact hse
    unfold getFirstNonPHI at h
    cases hfind : (G.instsOf se).find? (fun I => decide (I.op ≠ Opcode.phi)) with
    | some J =>
      rw [hfind] at h
      simp only [] at h
      obtain ⟨pre, post, e1, e2, e3⟩ := find?_split _ _ _ hfind
      have hmv := move_fold_before fe se J.id hne J rfl pre post _ F1 [] hw1 hmem1 hnd1
        (by rw [hse1, e1]; simp)
      rw [hids] at hmv
      rw [h] at hmv
      refine ⟨pre, J :: post, e1, ?_, ?_, ?_, hlen, hmv.2⟩
      · intro I hI
        have := e2 I hI
        simpa using this
      · intro K hK
        simp only [List.head?_cons, Option.some.injEq] at hK
        rw [← hK]
        simpa using e3
      · rw [hmv.1]
        simp
    | none =>
      rw [hfind] at h
      simp only [] at h
      have hmv := move_fold_atEnd fe se hne (G.instsOf se) _ F1 [] hw1 hse2 hmem1 hnd1
        (by rw [hse1]; simp)
      rw [hids] at hmv
      rw [h] at hmv
      refine ⟨G.instsOf se, [], by simp, ?_, ?_, ?_, hlen, hmv.2⟩
      · intro I hI
        have := List.find?_eq_none.mp hfind I hI
        simpa using this
      · intro K hK
        simp at hK
      · rw [hmv.1]
        simp
  · exact absurd h (by simp)

end ExitMergeTracking

section MergesKeptSteps

open IR LICMopt LoopFusionOpt

theorem keys_map (f : Instr → Instr) :
    ∀ l : List Instr,
      (∀ I ∈ l, (f I).id = I.id ∧ (f I).op = I.op ∧
        (I.op = Opcode.phi → (f I).operands = I.operands)) →
      ((l.map f).filter (fun I => decide (I.op = Opcode.phi))).map (fun I => (I.id, I.operands))
        = (l.filter (fun I => decide (I.op = Opcode.phi))).map (fun I => (I.id, I.operands)) ∧
      (l.map f).map (fun I => I.id) = l.map (fun I => I.id) := by
  intro l
  induction l with
  | nil => intro _; exact ⟨rfl, rfl⟩
  | cons C l ih =>
    intro h
    obtain ⟨h1, h2, h3⟩ := h C (List.mem_cons_self _ _)
    obtain ⟨i1, i2⟩ := ih (fun I hI => h I (List.mem_cons_of_mem _ hI))
    refine ⟨?_, by simp only [List.map_cons, h1, i2]⟩
    rw [List.map_cons, List.filter_cons, List.filter_cons, h2]
    by_cases hp : C.op = Opcode.phi
    · simp only [hp, decide_True, ↓reduceIte, List.map_cons, h1, h3 hp, i1]
    · simp only [hp, decide_False, Bool.false_eq_true, ↓reduceIte, i1]

theorem keys_replacePhiUsesInList (o n : Nat) :
    ∀ l : List Instr,
      ((replacePhiUsesInList l o n).filter (fun I => decide (I.op = Opcode.phi))).map
          (fun I => (I.id, I.operands))
        = (l.filter (fun I => decide (I.op = Opcode.phi))).map (fun I => (I.id, I.operands)) := by
  intro l
  induction l with
  | nil => rfl
  | cons C l ih =>
    unfold replacePhiUsesInList
    split
    · rename_i hp
      have hp2 : (replaceIncomingBlockWith C o n).op = Opcode.phi := hp
      rw [List.filter_cons, List.filter_cons]
      simp only [hp, hp2, decide_True, ↓reduceIte, List.map_cons, ih]
      rfl
    · rfl

theorem map_subst_of_not_mem (old new : Value) (l : List Value) (h : old ∉ l) :
    l.map (fun v => if v = old then new else v) = l := by
  conv_rhs => rw [← List.map_id l]
  apply List.map_congr_left
  intro v hv
  have : v ≠ old := fun e => h (e ▸ hv)
  rw [if_neg this]
  rfl

theorem mergesKept_operands (F : Func) (b : Nat) (D : List Nat) (G : Func)
    (h : MergesKept F b D G) (I : Instr) (hI : I ∈ G.instsOf b) (hp : I.op = Opcode.phi) :
    ∃ I0 ∈ F.instsOf b, I0.op = Opcode.phi ∧ I0.id = I.id ∧ I0.operands = I.operands := by
  have hm : (I.id, I.operands) ∈
      ((G.instsOf b).filter (fun I => decide (I.op = Opcode.phi))).map
        (fun I => (I.id, I.operands)) :=
    List.mem_map.mpr ⟨I, List.mem_filter.mpr ⟨hI, by simpa using hp⟩, rfl⟩
  rw [h.1] at hm
  obtain ⟨I0, hI0, e⟩ := List.mem_map.mp (List.mem_filter.mp hm).1
  obtain ⟨hI0a, hI0b⟩ := List.mem_filter.mp hI0
  simp only [Prod.mk.injEq] at e
  exact ⟨I0, hI0a, by simpa using hI0b, e.1, e.2⟩

/-- A step that keeps the merge nodes of the block, adds nothing to the block and brings
no erased identity back keeps the relation. -/
theorem mergesKept_of_same (F : Func) (b : Nat) (D : List Nat) (G G2 : Func)
    (h : MergesKept F b D G)
    (hk : ((G2.instsOf b).filter (fun I => decide (I.op = Opcode.phi))).map
        (fun I => (I.id, I.operands))
      = ((G.instsOf b).filter (fun I => decide (I.op = Opcode.phi))).map
        (fun I => (I.id, I.operands)))
    (hi : ∀ I ∈ G2.instsOf b, I.id ∈ (G.instsOf b).map (fun I => I.id))
    (hh : Holds (fun I => I.id ∉ D) (fun _ => True) G2) : MergesKept F b D G2 := by
  refine ⟨hk.trans h.1, ?_, hh⟩
  intro I hI
  obtain ⟨J, hJ, hJid⟩ := List.mem_map.mp (hi I hI)
  rw [← hJid]
  exact h.2.1 J hJ

theorem mergesKept_mapInsts (F : Func) (b : Nat) (D : List Nat) (G : Func)
    (f : Instr → Instr) (g : Term → Term) (h : MergesKept F b D G)
    (hf : ∀ I, (f I).id = I.id ∧ (f I).op = I.op)
    (hop : ∀ I ∈ G.instsOf b, I.op = Opcode.phi → (f I).operands = I.operands) :
    MergesKept F b D (mapInsts G f g) := by
  have hk := keys_map f (G.instsOf b) (fun I hI => ⟨(hf I).1, (hf I).2, hop I hI⟩)
  apply mergesKept_of_same F b D G _ h
  · rw [instsOf_mapInsts]; exact hk.1
  · intro I hI
    rw [instsOf_mapInsts] at hI
    rw [← hk.2]
    exact List.mem_map.mpr ⟨I, hI, rfl⟩
  · exact holds_mapInsts _ _ G f g h.2.2 (fun I hI => by rw [(hf I).1]; exact hI)
      (fun _ _ => trivial)

theorem mergesKept_replaceAllUsesWith (F : Func) (b : Nat) (D : List Nat) (G : Func)
    (old new : Value) (h : MergesKept F b D G)
    (hop : ∀ I ∈ F.instsOf b, I.op = Opcode.phi → old ∉ I.operands) :
    MergesKept F b D (replaceAllUsesWith G old new) := by
  unfold replaceAllUsesWith
  refine mergesKept_mapInsts F b D G _ _ h ?_ ?_
  · intro I
    exact ⟨rfl, rfl⟩
  intro I hI hp
  obtain ⟨I0, hI0, hp0, -, hops⟩ := mergesKept_operands F b D G h I hI hp
  simp only []
  apply map_subst_of_not_mem
  rw [← hops]
  exact hop I0 hI0 hp0

theorem mergesKept_updateInst (F : Func) (b : Nat) (D : List Nat) (G : Func) (x : Nat)
    (f : Instr → Instr) (h : MergesKept F b D G)
    (hf : ∀ I, (f I).id = I.id ∧ (f I).op = I.op)
    (hx : x ∉ (F.instsOf b).map (fun I => I.id)) :
    MergesKept F b D (updateInst G x f) := by
  unfold updateInst
  apply mergesKept_mapInsts F b D G _ _ h
  · intro I
    by_cases hI : I.id = x
    · simp only [hI, ↓reduceIte]
      rw [← hI]
      exact hf I
    · simp only [hI, ↓reduceIte, and_self]
  · intro I hI _
    have : I.id ≠ x := fun e => hx (e ▸ h.2.1 I hI)
    simp only [this, ↓reduceIte]

theorem mergesKept_eraseInst_out (F : Func) (b : Nat) (D : List Nat) (G : Func) (x : Nat)
    (h : MergesKept F b D G) (hx : x ∉ (F.instsOf b).map (fun I => I.id)) :
    MergesKept F b D (eraseInst G x) := by
  have hx2 : x ∉ (G.instsOf b).map (fun I => I.id) := by
    intro hm
    obtain ⟨I, hI, hIid⟩ := List.mem_map.mp hm
    exact hx (hIid ▸ h.2.1 I hI)
  have e : (eraseInst G x).instsOf b = G.instsOf b := by
    rw [instsOf_eraseInst, filter_id_of_not_mem x _ hx2]
  apply mergesKept_of_same F b D G _ h
  · rw [e]
  · intro I hI
    rw [e] at hI
    exact List.mem_map.mpr ⟨I, hI, rfl⟩
  · exact holds_eraseInst _ _ G x h.2.2

theorem mergesKept_eraseInst (F : Func) (b : Nat) (D : List Nat) (G : Func) (d : Nat)
    (h : MergesKept F b D G) : MergesKept F b (d :: D) (eraseInst G d) := by
  refine ⟨?_, ?_, ?_⟩
  · rw [instsOf_eraseInst, List.filter_filter]
    have e1 : (G.instsOf b).filter
        (fun a => decide (a.op = Opcode.phi) && (a.id != d))
        = ((G.instsOf b).filter (fun I => decide (I.op = Opcode.phi))).filter
          (fun I => I.id != d) := by
      rw [List.filter_filter]
      apply List.filter_congr
      intro I _
      exact Bool.and_comm _ _
    rw [e1]
    have e2 : ∀ l : List Instr, (l.filter (fun I => I.id != d)).map (fun I => (I.id, I.operands))
        = (l.map (fun I => (I.id, I.operands))).filter (fun k => k.1 != d) := by
      intro l
      rw [List.filter_map]
      rfl
    rw [e2, h.1, List.filter_filter]
    apply List.filter_congr
    intro k _
    by_cases hk : k.1 = d
    · simp [hk]
    · simp [hk]
  · intro I hI
    rw [instsOf_eraseInst] at hI
    exact h.2.1 I (List.mem_filter.mp hI).1
  · intro B hB
    refine ⟨trivial, ?_⟩
    intro I hI
    have hI2 : I ∈ (eraseInst G d).allInsts := (mem_allInsts _ I).2 ⟨B, hB, hI⟩
    have hd : I.id ≠ d := by
      intro e
      exact not_mem_ids_eraseInst G d (List.mem_map.mpr ⟨I, hI2, e⟩)
    have hD := ((holds_eraseInst _ _ G d h.2.2) B hB).2 I hI
    simp only [List.mem_cons, not_or]
    exact ⟨hd, hD⟩

theorem mergesKept_moveBefore (F : Func) (b : Nat) (D : List Nat) (G : Func) (x : Nat)
    (pt : InsertPt) (h : MergesKept F b D G)
    (hx : x ∉ (F.instsOf b).map (fun I => I.id))
    (hpt1 : ∀ t, pt = InsertPt.before t → t ∉ (F.instsOf b).map (fun I => I.id))
    (hpt2 : ∀ y, pt = InsertPt.atEnd y → y ≠ b) :
    MergesKept F b D (moveBefore G x pt) := by
  have hx2 : x ∉ (G.instsOf b).map (fun I => I.id) := by
    intro hm
    obtain ⟨I, hI, hIid⟩ := List.mem_map.mp hm
    exact hx (hIid ▸ h.2.1 I hI)
  have e : (moveBefore G x pt).instsOf b = G.instsOf b := by
    by_cases hp : pt = InsertPt.before x
    · unfold moveBefore
      rw [if_pos hp]
    · cases hf : G.findInst x with
      | none =>
        unfold moveBefore
        rw [if_neg hp, hf]
      | some r =>
        obtain ⟨y, I⟩ := r
        rw [instsOf_moveBefore G x pt y I hp hf b]
        cases pt with
        | before t =>
          simp only []
          rw [filter_id_of_not_mem x _ hx2, insertBeforeIn_of_not_mem]
          intro hm
          obtain ⟨K, hK, hKid⟩ := List.mem_map.mp hm
          exact hpt1 t rfl (hKid ▸ h.2.1 K hK)
        | atEnd y2 =>
          simp only []
          have : b ≠ y2 := fun e => hpt2 y2 rfl e.symm
          rw [if_neg (fun hc => this hc.1), filter_id_of_not_mem x _ hx2]
  apply mergesKept_of_same F b D G _ h
  · rw [e]
  · intro I hI
    rw [e] at hI
    exact List.mem_map.mpr ⟨I, hI, rfl⟩
  · exact holds_moveBefore _ _ G x pt h.2.2

theorem mergesKept_replacePhiUsesWith (F : Func) (b : Nat) (D : List Nat) (G : Func)
    (x : Nat) (Old : Option Nat) (New : Nat) (h : MergesKept F b D G) :
    MergesKept F b D (replacePhiUsesWith G x Old New) := by
  apply mergesKept_of_same F b D G _ h
  · rcases instsOf_replacePhiUsesWith G x Old New b with e | ⟨o, e⟩
    · rw [e]
    · rw [e, keys_replacePhiUsesInList]
  · intro I hI
    rcases instsOf_replacePhiUsesWith G x Old New b with e | ⟨o, e⟩
    · rw [e] at hI
      exact List.mem_map.mpr ⟨I, hI, rfl⟩
    · rw [e] at hI
      rw [← ids_replacePhiUsesInList o New (G.instsOf b)]
      exact List.mem_map.mpr ⟨I, hI, rfl⟩
  · exact holds_replacePhiUsesWith _ _ G x Old New h.2.2 (fun _ _ hI => hI)

end MergesKeptSteps

section MergesKeptFold

open IR LICMopt LoopFusionOpt

theorem mergesKept_refl (F : Func) (b : Nat) : MergesKept F b [] F := by
  refine ⟨?_, fun I hI => List.mem_map.mpr ⟨I, hI, rfl⟩, fun _ _ => ⟨trivial, fun _ _ => by simp⟩⟩
  symm
  apply List.filter_eq_self.mpr
  intro k _
  simp

theorem mergesKept_unifyInductionVariables (F : Func) (b : Nat) (fiv siv : Nat)
    (hsiv : siv ∉ (F.instsOf b).map (fun I => I.id))
    (hop : ∀ I ∈ F.instsOf b, I.op = Opcode.phi → Value.inst siv ∉ I.operands) :
    MergesKept F b [] (unifyInductionVariables F fiv siv) := by
  unfold unifyInductionVariables
  exact mergesKept_eraseInst_out F b [] _ siv
    (mergesKept_replaceAllUsesWith F b [] F _ _ (mergesKept_refl F b) hop) hsiv

theorem mergesKept_resourcePhis (F : Func) (b : Nat) (D : List Nat) (G : Func)
    (fp fl fb sp sl sh se : Nat) (h : MergesKept F b D G) :
    MergesKept F b D (resourcePhis G fp fl fb sp sl sh se) := by
  unfold resourcePhis
  exact mergesKept_replacePhiUsesWith F b D _ _ _ _ (mergesKept_replacePhiUsesWith F b D _ _ _ _
    (mergesKept_replacePhiUsesWith F b D _ _ _ _ (mergesKept_replacePhiUsesWith F b D _ _ _ _ h)))

theorem mergesKept_updateFirstPhi (F : Func) (b : Nat) (D : List Nat) (v in1 : Value)
    (G : Func) (x : Nat) (G2 : Func) (hx : x ∉ (F.instsOf b).map (fun I => I.id))
    (h : MergesKept F b D G) (e : updateFirstPhi v in1 G x = some G2) :
    MergesKept F b D G2 := by
  unfold updateFirstPhi at e
  split at e
  · split at e
    · split at e
      · simp only [Option.some.injEq] at e
        rw [← e]
        refine mergesKept_updateInst F b D G x _ h ?_ hx
        intro I
        exact ⟨rfl, rfl⟩
      · simp only [Option.some.injEq] at e
        rw [← e]; exact h
    · exact absurd e (by simp)
  · exact absurd e (by simp)

theorem mergesKept_foldlM {α : Type} (F : Func) (b : Nat) (D : List Nat)
    (f : Func → α → Option Func) (S : α → Prop)
    (hf : ∀ G x G2, S x → MergesKept F b D G → f G x = some G2 → MergesKept F b D G2) :
    ∀ (l : List α) (G G2 : Func), (∀ x ∈ l, S x) → MergesKept F b D G →
      l.foldlM f G = some G2 → MergesKept F b D G2 := by
  intro l
  induction l with
  | nil =>
    intro G G2 _ h e
    simp only [List.foldlM_nil, Option.pure_def, Option.some.injEq] at e
    rw [← e]; exact h
  | cons a l ih =>
    intro G G2 hS h e
    rw [List.foldlM_cons] at e
    cases hfa : f G a with
    | none => rw [hfa] at e; simp at e
    | some G1 =>
      rw [hfa] at e
      simp only [Option.bind_eq_bind, Option.some_bind] at e
      exact ih G1 G2 (fun x hx => hS x (List.mem_cons_of_mem _ hx))
        (hf G a G1 (hS a (List.mem_cons_self _ _)) h hfa) e

/-- One turn of the loop over the merge nodes of Second's header keeps the merge nodes
of First's exit block, except the forwarded one it erases. -/
theorem mergesKept_reconcilePhi (F : Func) (b : Nat) (D : List Nat) (First : Loop)
    (fhp : List Nat) (ib : InsertPt) (G : Func) (P : Nat) (G2 : Func)
    (h : MergesKept F b D G)
    (hP : P ∉ (F.instsOf b).map (fun I => I.id))
    (hfhp : ∀ x ∈ fhp, x ∉ (F.instsOf b).map (fun I => I.id))
    (hib1 : ∀ t, ib = InsertPt.before t → t ∉ (F.instsOf b).map (fun I => I.id))
    (hib2 : ∀ y, ib = InsertPt.atEnd y → y ≠ b)
    (hop : ∀ I ∈ F.instsOf b, I.op = Opcode.phi → Value.inst P ∉ I.operands)
    (e : reconcilePhi First b fhp ib G P = some G2) :
    ∃ D2, MergesKept F b D2 G2 := by
  unfold reconcilePhi at e
  split at e
  · split at e
    · split at e
      · rename_i lcssaPHI _
        split at e
        · rename_i lcssaValue _
          split at e
          · rename_i G1 hG1
            simp only [Option.some.injEq] at e
            rw [← e]
            have h1 := mergesKept_foldlM F b D _ (fun x => x ∉ (F.instsOf b).map (fun I => I.id))
              (fun G x G2 hx hG e => mergesKept_updateFirstPhi F b D _ _ G x G2 hx hG e)
              fhp G G1 hfhp h hG1
            have h2 := mergesKept_replaceAllUsesWith F b D G1 (Value.inst P) lcssaValue h1 hop
            have h3 := mergesKept_eraseInst_out F b D _ P h2 hP
            exact ⟨_, mergesKept_eraseInst F b D _ lcssaPHI.id h3⟩
          · exact absurd e (by simp)
        · exact absurd e (by simp)
      · simp only [Option.some.injEq] at e
        rw [← e]
        exact ⟨D, mergesKept_moveBefore F b D G P ib h hP hib1 hib2⟩
    · exact absurd e (by simp)
  · exact absurd e (by simp)

theorem mergesKept_reconcile_fold (F : Func) (b : Nat) (First : Loop)
    (fhp : List Nat) (ib : InsertPt)
    (hfhp : ∀ x ∈ fhp, x ∉ (F.instsOf b).map (fun I => I.id))
    (hib1 : ∀ t, ib = InsertPt.before t → t ∉ (F.instsOf b).map (fun I => I.id))
    (hib2 : ∀ y, ib = InsertPt.atEnd y → y ≠ b) :
    ∀ (Ps : List Nat) (G G2 : Func) (D : List Nat),
      (∀ P ∈ Ps, P ∉ (F.instsOf b).map (fun I => I.id) ∧
        ∀ I ∈ F.instsOf b, I.op = Opcode.phi → Value.inst P ∉ I.operands) →
      MergesKept F b D G →
      Ps.foldlM (reconcilePhi First b fhp ib) G = some G2 →
      ∃ D2, MergesKept F b D2 G2 := by
  intro Ps
  induction Ps with
  | nil =>
    intro G G2 D _ h e
    simp only [List.foldlM_nil, Option.pure_def, Option.some.injEq] at e
    rw [← e]; exact ⟨D, h⟩
  | cons P Ps ih =>
    intro G G2 D hPs h e
    rw [List.foldlM_cons] at e
    cases hfa : reconcilePhi First b fhp ib G P with
    | none => rw [hfa] at e; simp at e
    | some G1 =>
      rw [hfa] at e
      simp only [Option.bind_eq_bind, Option.some_bind] at e
      obtain ⟨hP1, hP2⟩ := hPs P (List.mem_cons_self _ _)
      obtain ⟨D1, h1⟩ := mergesKept_reconcilePhi F b D First fhp ib G P G1 h hP1 hfhp hib1 hib2
        hP2 hfa
      exact ih G1 G2 D1 (fun x hx => hPs x (List.mem_cons_of_mem _ hx)) h1 e

/-- Every instruction of a block after step 1 and the re-sourcing of step 2 carries the
identity and the operation of an instruction of the same block before. -/
theorem shadows_resourcePhis_unify (F : Func) (fiv siv : Nat) (fp fl fb sp sl sh se b : Nat) :
    ∀ J ∈ (resourcePhis (unifyInductionVariables F fiv siv) fp fl fb sp sl sh se).instsOf b,
      ∃ I ∈ F.instsOf b, J.id = I.id ∧ J.op = I.op := by
  intro J hJ
  unfold resourcePhis at hJ
  simp only [] at hJ
  obtain ⟨J1, hJ1, a1, b1⟩ := shadows_replacePhiUsesWith _ _ _ _ b J hJ
  obtain ⟨J2, hJ2, a2, b2⟩ := shadows_replacePhiUsesWith _ _ _ _ b J1 hJ1
  obtain ⟨J3, hJ3, a3, b3⟩ := shadows_replacePhiUsesWith _ _ _ _ b J2 hJ2
  obtain ⟨J4, hJ4, a4, b4⟩ := shadows_replacePhiUsesWith _ _ _ _ b J3 hJ3
  obtain ⟨I, hI, a5, b5⟩ := shadows_unifyInductionVariables F fiv siv b J4 hJ4
  exact ⟨I, hI, by rw [a1, a2, a3, a4, a5], by rw [b1, b2, b3, b4, b5]⟩

/-- The merge nodes of First's exit block when the relocation of step 2 starts. -/
theorem mergesKept_before_moveLCSSA (F : Func) (First : Loop)
    (fiv siv fp fl fe fb fh sp sl se sh : Nat) (Gr : Func)
    (hu : UniqueIds F) (hfh : fh ≠ fe) (hsh : sh ≠ fe)
    (hsiv : siv ∉ (F.instsOf fe).map (fun I => I.id))
    (hop : ∀ I ∈ F.instsOf fe, I.op = Opcode.phi →
      Value.inst siv ∉ I.operands ∧
      ∀ P ∈ F.instsOf sh, P.op = Opcode.phi → Value.inst P.id ∉ I.operands)
    (e : (phisOf (resourcePhis (unifyInductionVariables F fiv siv) fp fl fb sp sl sh se) sh).foldlM
      (reconcilePhi First fe
        (phisOf (resourcePhis (unifyInductionVariables F fiv siv) fp fl fb sp sl sh se) fh)
        (getFirstNonPHI (resourcePhis (unifyInductionVariables F fiv siv) fp fl fb sp sl sh se)
          fh))
      (resourcePhis (unifyInductionVariables F fiv siv) fp fl fb sp sl sh se) = some Gr) :
    ∃ D, MergesKept F fe D Gr := by
  have h0 := mergesKept_resourcePhis F fe [] _ fp fl fb sp sl sh se
    (mergesKept_unifyInductionVariables F fe fiv siv hsiv (fun I hI hp => (hop I hI hp).1))
  have hdis : ∀ x, x ≠ fe → ∀ I ∈ F.instsOf x, I.id ∉ (F.instsOf fe).map (fun I => I.id) := by
    intro x hx I hI hm
    obtain ⟨K, hK, hKid⟩ := List.mem_map.mp hm
    exact ids_disjoint F hu x fe hx I K hI hK hKid.symm
  apply mergesKept_reconcile_fold F fe First _ _ ?_ ?_ ?_ _ _ Gr [] ?_ h0 e
  · intro x hx
    obtain ⟨I, hI, -, hid⟩ := phisOf_resourcePhis_unify F fiv siv _ _ _ _ _ _ _ _ x hx
    rw [← hid]
    exact hdis fh hfh I hI
  · intro t ht
    unfold getFirstNonPHI at ht
    split at ht
    · rename_i J hJ
      injection ht with ht
      have hJm := List.mem_of_find?_eq_some hJ
      obtain ⟨I, hI, hid, -⟩ := shadows_resourcePhis_unify F fiv siv _ _ _ _ _ _ _ _ J hJm
      rw [← ht, hid]
      exact hdis fh hfh I hI
    · exact absurd ht (by simp)
  · intro y hy
    unfold getFirstNonPHI at hy
    split at hy
    · exact absurd hy (by simp)
    · injection hy with hy
      rw [← hy]; exact hfh
  · intro P hP
    obtain ⟨I, hI, hp, hid⟩ := phisOf_resourcePhis_unify F fiv siv _ _ _ _ _ _ _ _ P hP
    rw [← hid]
    exact ⟨hdis sh hsh I hI, fun K hK hKp => (hop K hK hKp).2 I hI hp⟩

end MergesKeptFold

section LaterSteps

open IR LICMopt LoopFusionOpt

theorem succsOf_of_skeleton (F G : Func) (h : G.skeleton = F.skeleton) (b : Nat) :
    G.succsOf b = F.succsOf b := by
  rw [succsOf_eq_getD, succsOf_eq_getD, succsAt_of_skeleton F G h]

theorem getSingleSuccessor_of_skeleton (F G : Func) (h : G.skeleton = F.skeleton) (b : Nat) :
    getSingleSuccessor G b = getSingleSuccessor F b := by
  unfold getSingleSuccessor
  rw [succsOf_of_skeleton F G h]

/-- Moving instructions that are not in a block to a place that is not in that block
leaves the block as it is. -/
theorem instsOf_move_fold_out (x : Nat) (pt : InsertPt) (S : List Instr)
    (hpt1 : ∀ t, pt = InsertPt.before t → t ∉ S.map (fun I => I.id))
    (hpt2 : ∀ y, pt = InsertPt.atEnd y → y ≠ x) :
    ∀ (l : List Nat) (G : Func), G.instsOf x = S → (∀ i ∈ l, i ∉ S.map (fun I => I.id)) →
      (l.foldl (fun G inst => moveBefore G inst pt) G).instsOf x = S := by
  intro l
  induction l with
  | nil => intro G h _; exact h
  | cons i l ih =>
    intro G h hl
    rw [List.foldl_cons]
    apply ih _ _ (fun j hj => hl j (List.mem_cons_of_mem _ hj))
    have hi := hl i (List.mem_cons_self _ _)
    by_cases hp : pt = InsertPt.before i
    · unfold moveBefore
      rw [if_pos hp]; exact h
    · cases hf : G.findInst i with
      | none =>
        unfold moveBefore
        rw [if_neg hp, hf]; exact h
      | some r =>
        obtain ⟨y, I⟩ := r
        rw [instsOf_moveBefore G i pt y I hp hf x, h]
        cases pt with
        | before t =>
          simp only []
          rw [filter_id_of_not_mem i _ hi, insertBeforeIn_of_not_mem I t S (hpt1 t rfl)]
        | atEnd y2 =>
          simp only []
          have : x ≠ y2 := fun e => hpt2 y2 rfl e.symm
          rw [if_neg (fun hc => this hc.1), filter_id_of_not_mem i _ hi]

theorem mem_guardInstsToMove (F : Func) (g : Nat) (l : List Nat)
    (h : guardInstsToMove F g = some l) :
    ∀ i ∈ l, i ∈ (F.instsOf g).map (fun I => I.id) := by
  unfold guardInstsToMove at h
  split at h
  · simp only [Option.some.injEq] at h
    rw [← h]
    intro i hi
    exact absurd hi (List.not_mem_nil _)
  · split at h
    · exact absurd h (by simp)
    · simp only [Option.some.injEq] at h
      rw [← h]
      intro i hi
      obtain ⟨I, hI, hIid⟩ := List.mem_map.mp hi
      exact List.mem_map.mpr ⟨I, (List.mem_filter.mp hI).1, hIid⟩

theorem ids_instsOf_replacePhiUsesWith (F : Func) (x : Nat) (Old : Option Nat) (New : Nat)
    (b : Nat) :
    ((replacePhiUsesWith F x Old New).instsOf b).map (fun I => I.id)
      = (F.instsOf b).map (fun I => I.id) := by
  rcases instsOf_replacePhiUsesWith F x Old New b with e | ⟨o, e⟩
  · rw [e]
  · rw [e, ids_replacePhiUsesInList]

/-- The guarded step leaves every block alone that is not one of the two blocks it deletes
and not the block after Second's exit block. -/
theorem instsOf_unifyGuards (s : FuseState) (g1 g2 fe se : Nat) (s3 : FuseState)
    (hu : UniqueIds s.F)
    (h : unifyGuards s g1 g2 fe se = some (GuardStep.done s3)) (x : Nat)
    (h2 : x ≠ g2) (h3 : x ≠ fe)
    (h4 : ∀ gd, getSingleSuccessor s.F se = some gd → x ≠ gd) :
    s3.F.instsOf x = s.F.instsOf x := by
  unfold unifyGuards at h
  split at h
  · exact absurd h (by simp)
  · rename_i guardDest hgd
    have hxgd : x ≠ guardDest := h4 guardDest hgd
    split at h
    · exact absurd h (by simp)
    · rename_i F1 hF1
      simp only [] at h
      split at h
      · exact absurd h (by simp)
      · rename_i F4 hF4
        split at h
        · exact absurd h (by simp)
        · rename_i toMove htm
          simp only [Option.some.injEq, GuardStep.done.injEq] at h
          rw [← h]
          simp only [deleteBlock]
          have e4 : ∀ y, (F4.instsOf y).map (fun I => I.id)
              = (s.F.instsOf y).map (fun I => I.id) := by
            intro y
            rw [instsOf_setSuccessor _ _ _ _ _ hF4, instsOf_replaceSuccessorWith,
              ids_instsOf_replacePhiUsesWith, instsOf_setSuccessor _ _ _ _ _ hF1]
          have e4x : F4.instsOf x = s.F.instsOf x := by
            rw [instsOf_setSuccessor _ _ _ _ _ hF4, instsOf_replaceSuccessorWith,
              instsOf_replacePhiUsesWith_ne _ _ _ _ _ hxgd, instsOf_setSuccessor _ _ _ _ _ hF1]
          have hdis : ∀ y, y ≠ x → ∀ i ∈ (F4.instsOf y).map (fun I => I.id),
              i ∉ (s.F.instsOf x).map (fun I => I.id) := by
            intro y hy i hi hm
            rw [e4] at hi
            obtain ⟨I, hI, hIid⟩ := List.mem_map.mp hi
            obtain ⟨K, hK, hKid⟩ := List.mem_map.mp hm
            exact ids_disjoint s.F hu y x hy I K hI hK (hIid.trans hKid.symm)
          rw [instsOf_eraseBlock _ _ _ h3, instsOf_eraseBlock _ _ _ h2,
            instsOf_replacePhiUsesWith_ne _ _ _ _ _ hxgd]
          apply instsOf_move_fold_out x _ (s.F.instsOf x) ?_ ?_ toMove F4 e4x
          · intro i hi
            exact hdis g2 (fun e => h2 e.symm) i (mem_guardInstsToMove F4 g2 toMove htm i hi)
          · intro t ht
            unfold getFirstNonPHI at ht
            split at ht
            · rename_i J hJ
              injection ht with ht
              rw [← ht]
              exact hdis guardDest (fun e => hxgd e.symm) J.id
                (List.mem_map.mpr ⟨J, List.mem_of_find?_eq_some hJ, rfl⟩)
            · exact absurd ht (by simp)
          · intro y hy
            unfold getFirstNonPHI at hy
            split at hy
            · exact absurd hy (by simp)
            · injection hy with hy
              rw [← hy]
              exact fun e => hxgd e.symm

/-- Steps 4 and 5 leave every block alone that is not deleted. -/
theorem instsOf_finishFusion (s : FuseState) (First Second : Loop)
    (fl fb sp sl sb sh se : Nat) (r : Option Loop) (t : FuseState)
    (h : finishFusion s First Second fl fb sp sl sb sh se = some (r, t))
    (hfl : fl ≠ sl ∧ fl ≠ sp) (x : Nat) (h1 : x ≠ sl) (h2 : x ≠ sp) :
    t.F.instsOf x = s.F.instsOf x := by
  unfold finishFusion at h
  split at h
  · exact absurd h (by simp)
  · rename_i s1 hs1
    simp only [Option.some.injEq, Prod.mk.injEq] at h
    obtain ⟨-, ht⟩ := h
    obtain ⟨e1, hflmem⟩ := ids_spliceControlFlow s fl fb sp sl sb sh se s1 hs1
    have hfl1 : (s1.F.findBlock fl).isSome = true := by
      rw [findBlock_isSome_iff, e1]
      simp only [List.mem_filter, bne_iff_ne, ne_eq]
      exact ⟨⟨hflmem, hfl.1⟩, hfl.2⟩
    have hs1x : s1.F.instsOf x = s.F.instsOf x := by
      unfold spliceControlFlow at hs1
      split at hs1
      · exact absurd hs1 (by simp)
      · rename_i F1 hF1
        simp only [Option.some.injEq] at hs1
        rw [← hs1]
        simp only [deleteBlock]
        rw [instsOf_eraseBlock _ _ _ h2, instsOf_eraseBlock _ _ _ h1,
          instsOf_replaceSuccessorWith, instsOf_replaceSuccessorWith,
          instsOf_replaceSuccessorWith, instsOf_setSuccessor _ _ _ _ _ hF1]
    rw [← ht, ← hs1x]
    have := (rehome_fold fl (Second.blocks.filter
      (fun BB => !(decide (BB = sl) || decide (BB = sp)))) s1.F hfl1).1 x
    unfold Func.instsOf
    unfold rehomeBlocks
    simp only []
    rw [this]

theorem holds_moveLCSSA (Q : Instr → Prop) (R : List Value → Prop)
    (hQ : ∀ I inc, Q I → Q { I with incoming := inc })
    (G : Func) (fe fl se : Nat) (G2 : Func) (h : Holds Q R G)
    (e : moveLCSSA G fe fl se = some G2) : Holds Q R G2 := by
  unfold moveLCSSA at e
  simp only [] at e
  split at e
  · rename_i F1 hF1
    simp only [Option.some.injEq] at e
    rw [← e]
    apply holds_foldl _ _ _ (fun G x hG => holds_moveBefore _ _ G x _ hG)
    refine holds_foldlM _ _ (setIncomingBlock0 fl) (fun _ => True) ?_ _ _ _
      (fun _ _ => trivial) h hF1
    intro G x G2 _ hG e
    unfold setIncomingBlock0 at e
    split at e
    · split at e
      · simp only [Option.some.injEq] at e
        rw [← e]
        exact holds_updateInst _ _ G x _ hG (fun I _ hI => hQ I _ hI)
      · exact absurd e (by simp)
    · exact absurd e (by simp)
  · exact absurd e (by simp)

end LaterSteps

section ExitMergeClaim

open IR LICMopt LoopFusionOpt Examples

theorem fixPhis_eq_some (F : Func) (First : Loop) (fp fl fe fb fh sp sl se sh : Nat) (F2 : Func)
    (h : fixPhis F First fp fl fe fb fh sp sl se sh = some F2) :
    ∃ Gr, (phisOf (resourcePhis F fp fl fb sp sl sh se) sh).foldlM
        (reconcilePhi First fe (phisOf (resourcePhis F fp fl fb sp sl sh se) fh)
          (getFirstNonPHI (resourcePhis F fp fl fb sp sl sh se) fh))
        (resourcePhis F fp fl fb sp sl sh se) = some Gr ∧
      moveLCSSA Gr fe fl se = some F2 := by
  unfold fixPhis at h
  simp only [] at h
  split at h
  · rename_i Gr hGr
    exact ⟨Gr, hGr, h⟩
  · exact absurd h (by simp)

/-- C22. After a successful `fuseLoops` on a function with unique instruction identities
and distinct block identities, in which the blocks concerned are different blocks,
Second's exit block is a block of the function, Second's induction variable is a merge
node of Second's header and no merge node of First's exit block has a merge node of
Second's header as incoming value: Second's exit block holds its leading merge nodes,
then the merge nodes of First's old exit block that are still in the function, in their
original order, then the rest of the block, which does not start with a merge node; each
of the moved merge nodes names First's latch as incoming block 0 and has the incoming
values it had. -/
theorem fuseLoops_moves_exit_merges (F : Func) (FAM : FunctionAnalysisManager)
    (First Second Fused : Loop) (t : FuseState) (fp fl fe sp sl se fh sh siv : Nat)
    (h : fuseLoops F FAM (some First) (some Second) = some (some Fused, t))
    (hfp : First.preheader = some fp) (hfl : First.latch = some fl)
    (hfe : First.getExitBlock = some fe)
    (hsp : Second.preheader = some sp) (hsl : Second.latch = some sl)
    (hse : Second.getExitBlock = some se)
    (hfh : getSingleSuccessor F fp = some fh) (hsh : getSingleSuccessor F sp = some sh)
    (hsiv : FAM.SE.getInductionVariable Second = some siv)
    (hu : UniqueIds F) (hb : (F.blocks.map (fun B => B.id)).Nodup)
    (hd : fe ≠ se ∧ fh ≠ fe ∧ sh ≠ fe ∧ se ≠ sl ∧ se ≠ sp ∧ fl ≠ sl ∧ fl ≠ sp)
    (hsem : se ∈ F.blocks.map (fun B => B.id))
    (hsivm : ∃ I ∈ F.instsOf sh, I.op = Opcode.phi ∧ I.id = siv)
    (hop : ∀ I ∈ F.instsOf fe, I.op = Opcode.phi →
      ∀ P ∈ F.instsOf sh, P.op = Opcode.phi → Value.inst P.id ∉ I.operands)
    (hg : ∀ g1 g2 gd, First.guardBranch = some g1 → Second.guardBranch = some g2 →
      getSingleSuccessor F se = some gd → se ≠ g2 ∧ se ≠ gd) :
    ∃ pre M rest, t.F.instsOf se = pre ++ M ++ rest ∧
      (∀ I ∈ pre, I.op = Opcode.phi) ∧
      (∀ J, rest.head? = some J → J.op ≠ Opcode.phi) ∧
      M.map (fun I => I.id) =
        (phisOf F fe).filter (fun p => decide (p ∈ t.F.allInsts.map (fun I => I.id))) ∧
      ∀ I ∈ M, I.op = Opcode.phi ∧ I.incoming[0]? = some fl ∧
        ∃ I0 ∈ F.instsOf fe, I0.id = I.id ∧ I.operands = I0.operands := by
  obtain ⟨fp', fl', fe', sp', sl', se', fh', fb, sh', sb, fiv, siv', F2, s3,
    e1, e2, e3, e4, e5, e6, e7, e8, e9, e10, e11, e12, hfix, hguard, hfin⟩ :=
    fuseLoops_success F FAM First Second Fused t h
  have x1 : fp' = fp := Option.some.inj (e1.symm.trans hfp)
  subst x1
  have x2 : fl' = fl := Option.some.inj (e2.symm.trans hfl)
  subst x2
  have x3 : fe' = fe := Option.some.inj (e3.symm.trans hfe)
  subst x3
  have x4 : sp' = sp := Option.some.inj (e4.symm.trans hsp)
  subst x4
  have x5 : sl' = sl := Option.some.inj (e5.symm.trans hsl)
  subst x5
  have x6 : se' = se := Option.some.inj (e6.symm.trans hse)
  subst x6
  have x7 : fh' = fh := Option.some.inj (e7.symm.trans hfh)
  subst x7
  have x9 : sh' = sh := Option.some.inj (e9.symm.trans hsh)
  subst x9
  have x12 : siv' = siv := Option.some.inj (e12.symm.trans hsiv)
  subst x12
  obtain ⟨d1, d2, d3, d4, d5, d6, d7⟩ := hd
  obtain ⟨Gr, hGr, hmv⟩ := fixPhis_eq_some _ _ _ _ _ _ _ _ _ _ _ _ hfix
  -- Second's induction variable is not in First's exit block and not an incoming value
  obtain ⟨Isiv, hIsiv, hIsivp, hIsivid⟩ := hsivm
  have hsivfe : siv' ∉ (F.instsOf fe').map (fun I => I.id) := by
    intro hm
    obtain ⟨K, hK, hKid⟩ := List.mem_map.mp hm
    exact ids_disjoint F hu sh' fe' d3 Isiv K hIsiv hK (hIsivid.trans hKid.symm)
  obtain ⟨D, hkept⟩ := mergesKept_before_moveLCSSA F First fiv siv' fp' fl' fe' fb fh' sp' sl'
    se' sh' Gr hu d2 d3 hsivfe
    (fun I hI hp => ⟨by rw [← hIsivid]; exact hop I hI hp Isiv hIsiv hIsivp, hop I hI hp⟩) hGr
  -- the function when the relocation starts
  have hw0 := wf_resourcePhis_unify F fiv siv' fp' fl' fb sp' sl' sh' se' ⟨hu, hb⟩
  have hwr := wf_foldlM _ (wf_reconcilePhi First fe' _ _) _ _ _ hw0 hGr
  have hskr : Gr.skeleton = F.skeleton := by
    rw [skeleton_foldlM _ (skeleton_reconcilePhi _ _ _ _) _ _ _ hGr, skeleton_resourcePhis,
      skeleton_unifyInductionVariables]
  have hser : se' ∈ Gr.blocks.map (fun B => B.id) := by
    rw [ids_of_skeleton _ _ hskr]; exact hsem
  obtain ⟨pre, rest, -, hpre, hrest, hF2se, hlen, hw2⟩ :=
    moveLCSSA_spec Gr F2 fe' fl' se' hwr d1 hser hmv
  have hsk2 : F2.skeleton = F.skeleton := by
    rw [skeleton_moveLCSSA _ _ _ _ _ hmv, hskr]
  have hholds2 : Holds (fun I => I.id ∉ D) (fun _ => True) F2 :=
    holds_moveLCSSA _ _ (fun _ _ hI => hI) Gr fe' fl' se' F2 hkept.2.2 hmv
  -- steps 3 to 5
  have hs3 : s3.F.instsOf se' = F2.instsOf se' ∧ Holds (fun I => I.id ∉ D) (fun _ => True) s3.F := by
    rcases hguard with ⟨g1, g2, hg1, hg2, hug⟩ | ⟨-, hs⟩
    · refine ⟨?_, holds_unifyGuards _ _ (fun _ _ hI => hI) _ g1 g2 fe' se' s3 hholds2 hug⟩
      have hgs : getSingleSuccessor F2 se' = getSingleSuccessor F se' :=
        getSingleSuccessor_of_skeleton F F2 hsk2 se'
      refine instsOf_unifyGuards _ g1 g2 fe' se' s3 hw2.1 hug se' ?_ (fun e => d1 e.symm) ?_
      · intro e
        cases hgd : getSingleSuccessor F se' with
        | none =>
          unfold unifyGuards at hug
          simp only [] at hug
          rw [hgs, hgd] at hug
          simp at hug
        | some gd => exact (hg g1 g2 gd hg1 hg2 hgd).1 e
      · intro gd hgd
        simp only [] at hgd
        rw [hgs] at hgd
        exact (hg g1 g2 gd hg1 hg2 hgd).2
    · rw [hs]
      exact ⟨rfl, hholds2⟩
  have ht : t.F.instsOf se' = F2.instsOf se' := by
    rw [instsOf_finishFusion s3 First Second fl' fb sp' sl' sb sh' se' _ t hfin ⟨d6, d7⟩ se' d4 d5]
    exact hs3.1
  have hholdst : Holds (fun I => I.id ∉ D) (fun _ => True) t.F :=
    holds_finishFusion _ _ s3 First Second fl' fb sp' sl' sb sh' se' _ t hs3.2 hfin
  refine ⟨pre, _, rest, by rw [ht, hF2se], hpre, hrest, ?_, ?_⟩
  · -- the identities of the moved merge nodes
    have hids : (((Gr.instsOf fe').filter (fun I => decide (I.op = Opcode.phi))).map
        (fun I => { I with incoming := I.incoming.set 0 fl' })).map (fun I => I.id)
        = (phisOf F fe').filter (fun p => decide (p ∉ D)) := by
      have := congrArg (List.map Prod.fst) hkept.1
      rw [List.map_map, List.filter_map, List.map_map] at this
      rw [List.map_map]
      unfold phisOf
      rw [List.filter_map]
      exact this
    rw [hids]
    apply List.filter_congr
    intro p hp
    by_cases hpD : p ∈ D
    · have : p ∉ t.F.allInsts.map (fun I => I.id) := by
        intro hm
        obtain ⟨I, hI, hIid⟩ := List.mem_map.mp hm
        obtain ⟨B, hB, hIB⟩ := (mem_allInsts t.F I).1 hI
        exact ((hholdst B hB).2 I hIB) (hIid ▸ hpD)
      simp [hpD, this]
    · have hpm : p ∈ (phisOf F fe').filter (fun p => decide (p ∉ D)) :=
        List.mem_filter.mpr ⟨hp, by simpa using hpD⟩
      rw [← hids] at hpm
      obtain ⟨I, hI, hIid⟩ := List.mem_map.mp hpm
      have hIt : I ∈ t.F.instsOf se' := by
        rw [ht, hF2se]
        simp only [List.mem_append]
        exact Or.inl (Or.inr hI)
      have : p ∈ t.F.allInsts.map (fun I => I.id) :=
        List.mem_map.mpr ⟨I, instsOf_subset_allInsts t.F se' I hIt, hIid⟩
      simp [hpD, this]
  · intro I hI
    obtain ⟨I1, hI1, rfl⟩ := List.mem_map.mp hI
    obtain ⟨hI1a, hI1b⟩ := List.mem_filter.mp hI1
    have hp : I1.op = Opcode.phi := by simpa using hI1b
    obtain ⟨I0, hI0, -, hid, hops⟩ := mergesKept_operands F fe' D Gr hkept I1 hI1a hp
    refine ⟨hp, ?_, I0, hI0, hid, hops.symm⟩
    have := hlen I1 hI1
    simp only [List.getElem?_set, this, ↓reduceIte]

end ExitMergeClaim

section HeaderMerges

open IR LICMopt LoopFusionOpt

theorem holds_updateFirstPhi_ids (p : Nat → Prop) (v in1 : Value) (G : Func) (x : Nat)
    (G2 : Func) (h : Holds (fun I => p I.id) (fun _ => True) G)
    (e : updateFirstPhi v in1 G x = some G2) : Holds (fun I => p I.id) (fun _ => True) G2 := by
  unfold updateFirstPhi at e
  split at e
  · split at e
    · split at e
      · simp only [Option.some.injEq] at e
        rw [← e]
        exact holds_updateInst _ _ G x _ h (fun _ _ hI => hI)
      · simp only [Option.some.injEq] at e
        rw [← e]; exact h
    · exact absurd e (by simp)
  · exact absurd e (by simp)

theorem holds_reconcilePhi_ids (p : Nat → Prop) (First : Loop) (fe : Nat) (fhp : List Nat)
    (ib : InsertPt) (G : Func) (P : Nat) (G2 : Func)
    (h : Holds (fun I => p I.id) (fun _ => True) G)
    (e : reconcilePhi First fe fhp ib G P = some G2) :
    Holds (fun I => p I.id) (fun _ => True) G2 := by
  unfold reconcilePhi at e
  split at e
  · split at e
    · split at e
      · split at e
        · split at e
          · rename_i G1 hG1
            simp only [Option.some.injEq] at e
            rw [← e]
            apply holds_eraseInst
            apply holds_eraseInst
            unfold replaceAllUsesWith
            refine holds_mapInsts _ _ _ _ _ ?_ ?_ ?_
            rotate_left
            · intro I hI
              exact hI
            · intro T _
              trivial
            exact holds_foldlM _ _ _ (fun _ => True)
              (fun G x G2 _ hG e => holds_updateFirstPhi_ids p _ _ G x G2 hG e) _ _ _
              (fun _ _ => trivial) h hG1
          · exact absurd e (by simp)
        · exact absurd e (by simp)
      · simp only [Option.some.injEq] at e
        rw [← e]
        exact holds_moveBefore _ _ G P ib h
    · exact absurd e (by simp)
  · exact absurd e (by simp)

theorem holds_fixPhis_ids (p : Nat → Prop) (F : Func) (First : Loop)
    (fp fl fe fb fh sp sl se sh : Nat) (F2 : Func)
    (h : Holds (fun I => p I.id) (fun _ => True) F)
    (e : fixPhis F First fp fl fe fb fh sp sl se sh = some F2) :
    Holds (fun I => p I.id) (fun _ => True) F2 := by
  obtain ⟨Gr, hGr, hmv⟩ := fixPhis_eq_some _ _ _ _ _ _ _ _ _ _ _ _ e
  apply holds_moveLCSSA _ _ (fun _ _ hI => hI) Gr fe fl se F2 _ hmv
  refine holds_foldlM _ _ _ (fun _ => True)
    (fun G x G2 _ hG e => holds_reconcilePhi_ids p First fe _ _ G x G2 hG e) _ _ _
    (fun _ _ => trivial) ?_ hGr
  unfold resourcePhis
  simp only []
  apply holds_replacePhiUsesWith _ _ _ _ _ _ _ (fun _ _ hI => hI)
  apply holds_replacePhiUsesWith _ _ _ _ _ _ _ (fun _ _ hI => hI)
  apply holds_replacePhiUsesWith _ _ _ _ _ _ _ (fun _ _ hI => hI)
  exact holds_replacePhiUsesWith _ _ _ _ _ _ h (fun _ _ hI => hI)

/-- No instruction of the function after a successful `fuseLoops` has the identity of
Second's induction variable. -/
theorem erased_secondIV (F : Func) (FAM : FunctionAnalysisManager) (First Second Fused : Loop)
    (t : FuseState) (siv : Nat)
    (h : fuseLoops F FAM (some First) (some Second) = some (some Fused, t))
    (hsiv : FAM.SE.getInductionVariable Second = some siv) :
    ∀ I ∈ t.F.allInsts, I.id ≠ siv := by
  obtain ⟨fp, fl, fe, sp, sl, se, fh, fb, sh, sb, fiv, siv', F2, s3,
    e1, e2, e3, e4, e5, e6, e7, e8, e9, e10, e11, e12, hfix, hguard, hfin⟩ :=
    fuseLoops_success F FAM First Second Fused t h
  have x12 : siv' = siv := Option.some.inj (e12.symm.trans hsiv)
  subst x12
  have h0 : Holds (fun I => I.id ≠ siv') (fun _ => True)
      (unifyInductionVariables F fiv siv') := by
    intro B hB
    refine ⟨trivial, ?_⟩
    intro I hI e
    exact not_mem_ids_eraseInst _ siv'
      (List.mem_map.mpr ⟨I, (mem_allInsts _ I).2 ⟨B, hB, hI⟩, e⟩)
  have h2 := holds_fixPhis_ids (fun i => i ≠ siv') _ First _ _ _ _ _ _ _ _ _ F2 h0 hfix
  have h3 : Holds (fun I => I.id ≠ siv') (fun _ => True) s3.F := by
    rcases hguard with ⟨g1, g2, -, -, hug⟩ | ⟨-, hs⟩
    · exact holds_unifyGuards _ _ (fun _ _ hI => hI) _ g1 g2 fe se s3 h2 hug
    · rw [hs]; exact h2
  have h4 := holds_finishFusion _ _ s3 First Second fl fb sp sl sb sh se _ t h3 hfin
  intro I hI
  obtain ⟨B, hB, hIB⟩ := (mem_allInsts t.F I).1 hI
  exact (h4 B hB).2 I hIB

theorem phisOf_map (f : Instr → Instr) (hf : ∀ I, (f I).id = I.id ∧ (f I).op = I.op) :
    ∀ l : List Instr,
      ((l.map f).filter (fun I => decide (I.op = Opcode.phi))).map (fun I => I.id)
        = (l.filter (fun I => decide (I.op = Opcode.phi))).map (fun I => I.id) := by
  intro l
  induction l with
  | nil => rfl
  | cons C l ih =>
    rw [List.map_cons, List.filter_cons, List.filter_cons, (hf C).2]
    by_cases hp : C.op = Opcode.phi
    · simp only [hp, decide_True, ↓reduceIte, List.map_cons, (hf C).1, ih]
    · simp only [hp, decide_False, Bool.false_eq_true, ↓reduceIte, ih]

theorem phisOf_unifyInductionVariables (F : Func) (fiv siv b : Nat) :
    phisOf (unifyInductionVariables F fiv siv) b = (phisOf F b).filter (fun i => i != siv) := by
  unfold phisOf unifyInductionVariables replaceAllUsesWith
  rw [instsOf_eraseInst, instsOf_mapInsts, List.filter_filter]
  have e1 : ∀ l : List Instr, l.filter
      (fun a => decide (a.op = Opcode.phi) && (a.id != siv))
      = (l.filter (fun I => decide (I.op = Opcode.phi))).filter (fun I => I.id != siv) := by
    intro l
    rw [List.filter_filter]
    apply List.filter_congr
    intro I _
    exact Bool.and_comm _ _
  have e2 : ∀ l : List Instr, (l.filter (fun I => I.id != siv)).map (fun I => I.id)
      = (l.map (fun I => I.id)).filter (fun i => i != siv) := by
    intro l
    rw [List.filter_map]
    rfl
  rw [e1, e2]
  congr 1
  exact phisOf_map (fun I => { I with operands := (I.operands.map
      (fun v => if v = Value.inst siv then Value.inst fiv else v)) })
    (fun _ => ⟨rfl, rfl⟩) (F.instsOf b)

theorem phisOf_replacePhiUsesWith (F : Func) (x : Nat) (Old : Option Nat) (New : Nat) (b : Nat) :
    phisOf (replacePhiUsesWith F x Old New) b = phisOf F b := by
  unfold phisOf
  rcases instsOf_replacePhiUsesWith F x Old New b with e | ⟨o, e⟩
  · rw [e]
  · rw [e]
    have := congrArg (List.map Prod.fst) (keys_replacePhiUsesInList o New (F.instsOf b))
    simpa [List.map_map, Function.comp] using this

theorem phisOf_resourcePhis (F : Func) (fp fl fb sp sl sh se b : Nat) :
    phisOf (resourcePhis F fp fl fb sp sl sh se) b = phisOf F b := by
  unfold resourcePhis
  simp only [phisOf_replacePhiUsesWith]

theorem instsOf_replacePhiUsesWith_self (F : Func) (x o n : Nat) :
    (replacePhiUsesWith F x (some o) n).instsOf x = replacePhiUsesInList (F.instsOf x) o n := by
  unfold replacePhiUsesWith
  have e := findBlock_updateBlock F x
    (fun B => { B with insts := replacePhiUsesInList B.insts o n }) (fun _ => rfl) x
  unfold Func.instsOf
  simp only []
  rw [e, if_pos rfl]
  cases F.findBlock x with
  | none => rfl
  | some B => rfl

/-- The re-sourcing of the merge nodes at the head of Second's header. -/
theorem instsOf_resourcePhis_header (F : Func) (fp fl fb sp sl sh se : Nat)
    (h1 : sh ≠ sp) (h2 : sh ≠ se) :
    (resourcePhis F fp fl fb sp sl sh se).instsOf sh
      = replacePhiUsesInList (replacePhiUsesInList (F.instsOf sh) sl fl) sp fp := by
  unfold resourcePhis
  simp only []
  rw [instsOf_replacePhiUsesWith_ne _ _ _ _ _ h2, instsOf_replacePhiUsesWith_ne _ _ _ _ _ h1,
    instsOf_replacePhiUsesWith_self, instsOf_replacePhiUsesWith_self]

end HeaderMerges

section HeaderMergesGone

open IR LICMopt LoopFusionOpt

theorem shadows_mapInsts (F : Func) (f : Instr → Instr) (g : Term → Term)
    (hf : ∀ I, (f I).id = I.id ∧ (f I).op = I.op) (b : Nat) :
    ∀ J ∈ (mapInsts F f g).instsOf b, ∃ I ∈ F.instsOf b, J.id = I.id ∧ J.op = I.op := by
  intro J hJ
  rw [instsOf_mapInsts] at hJ
  obtain ⟨I, hI, rfl⟩ := List.mem_map.mp hJ
  exact ⟨I, hI, (hf I).1, (hf I).2⟩

theorem shadows_updateFirstPhi (v in1 : Value) (G : Func) (x : Nat) (G2 : Func)
    (e : updateFirstPhi v in1 G x = some G2) (b : Nat) :
    ∀ J ∈ G2.instsOf b, ∃ I ∈ G.instsOf b, J.id = I.id ∧ J.op = I.op := by
  unfold updateFirstPhi at e
  split at e
  · split at e
    · split at e
      · simp only [Option.some.injEq] at e
        rw [← e]
        unfold updateInst
        apply shadows_mapInsts
        intro I
        by_cases hI : I.id = x
        · simp only [hI, ↓reduceIte, and_self]
        · simp only [hI, ↓reduceIte, and_self]
      · simp only [Option.some.injEq] at e
        rw [← e]
        intro J hJ
        exact ⟨J, hJ, rfl, rfl⟩
    · exact absurd e (by simp)
  · exact absurd e (by simp)

theorem shadows_foldlM {α : Type} (f : Func → α → Option Func) (b : Nat)
    (hf : ∀ G x G2, f G x = some G2 →
      ∀ J ∈ G2.instsOf b, ∃ I ∈ G.instsOf b, J.id = I.id ∧ J.op = I.op) :
    ∀ (l : List α) (G G2 : Func), l.foldlM f G = some G2 →
      ∀ J ∈ G2.instsOf b, ∃ I ∈ G.instsOf b, J.id = I.id ∧ J.op = I.op := by
  intro l
  induction l with
  | nil =>
    intro G G2 e J hJ
    simp only [List.foldlM_nil, Option.pure_def, Option.some.injEq] at e
    rw [← e] at hJ
    exact ⟨J, hJ, rfl, rfl⟩
  | cons a l ih =>
    intro G G2 e J hJ
    rw [List.foldlM_cons] at e
    cases hfa : f G a with
    | none => rw [hfa] at e; simp at e
    | some G1 =>
      rw [hfa] at e
      simp only [Option.bind_eq_bind, Option.some_bind] at e
      obtain ⟨J1, hJ1, a1, b1⟩ := ih G1 G2 e J hJ
      obtain ⟨I, hI, a2, b2⟩ := hf G a G1 hfa J1 hJ1
      exact ⟨I, hI, a1.trans a2, b1.trans b2⟩

/-- One turn of the loop over the merge nodes of Second's header takes its merge node
out of a block that does not hold the insertion point. -/
theorem reconcilePhi_removes (First : Loop) (fe : Nat) (fhp : List Nat) (ib : InsertPt)
    (G : Func) (P : Nat) (G2 : Func) (b : Nat)
    (hib0 : ib ≠ InsertPt.before P)
    (hib1 : ∀ t, ib = InsertPt.before t → t ∉ (G.instsOf b).map (fun I => I.id))
    (hib2 : ∀ y, ib = InsertPt.atEnd y → y ≠ b)
    (e : reconcilePhi First fe fhp ib G P = some G2) :
    ∀ J ∈ G2.instsOf b, J.id ≠ P ∧ ∃ I ∈ G.instsOf b, J.id = I.id ∧ J.op = I.op := by
  unfold reconcilePhi at e
  split at e
  · rename_i x PHI hfind
    split at e
    · split at e
      · split at e
        · split at e
          · rename_i G1 hG1
            simp only [Option.some.injEq] at e
            rw [← e]
            intro J hJ
            obtain ⟨J1, hJ1, a1, b1⟩ := shadows_eraseInst _ _ b J hJ
            have hJ1' := hJ1
            rw [instsOf_eraseInst] at hJ1'
            have hne : J1.id ≠ P := by
              have := (List.mem_filter.mp hJ1').2
              simpa using this
            obtain ⟨J2, hJ2, a2, b2⟩ := shadows_eraseInst _ _ b J1 hJ1
            obtain ⟨J3, hJ3, a3, b3⟩ := shadows_replaceAllUsesWith _ _ _ b J2 hJ2
            obtain ⟨I, hI, a4, b4⟩ := shadows_foldlM _ b
              (fun G x G2 e => shadows_updateFirstPhi _ _ G x G2 e b) _ _ _ hG1 J3 hJ3
            exact ⟨by rw [a1]; exact hne, I, hI, by rw [a1, a2, a3, a4], by rw [b1, b2, b3, b4]⟩
          · exact absurd e (by simp)
        · exact absurd e (by simp)
      · simp only [Option.some.injEq] at e
        rw [← e]
        intro J hJ
        rw [instsOf_moveBefore G P ib x PHI hib0 hfind b] at hJ
        have key : J ∈ (G.instsOf b).filter (fun K => K.id != P) := by
          cases ib with
          | before t =>
            simp only [] at hJ
            rw [insertBeforeIn_of_not_mem] at hJ
            · exact hJ
            · intro hm
              obtain ⟨K, hK, hKid⟩ := List.mem_map.mp hm
              exact hib1 t rfl (List.mem_map.mpr ⟨K, (List.mem_filter.mp hK).1, hKid⟩)
          | atEnd y =>
            simp only [] at hJ
            have : b ≠ y := fun e => hib2 y rfl e.symm
            rw [if_neg (fun hc => this hc.1)] at hJ
            exact hJ
        obtain ⟨k1, k2⟩ := List.mem_filter.mp key
        exact ⟨by simpa using k2, J, k1, rfl, rfl⟩
    · exact absurd e (by simp)
  · exact absurd e (by simp)

/-- After the loop over the merge nodes of a block, the block holds no merge node. -/
theorem noPhi_reconcile_fold (G0 : Func) (First : Loop) (fe : Nat) (fhp : List Nat)
    (ib : InsertPt) (b : Nat)
    (hib1 : ∀ t, ib = InsertPt.before t → t ∉ (G0.instsOf b).map (fun I => I.id))
    (hib2 : ∀ y, ib = InsertPt.atEnd y → y ≠ b) :
    ∀ (Ps : List Nat) (G Gr : Func),
      (∀ I ∈ G.instsOf b, I.id ∈ (G0.instsOf b).map (fun I => I.id)) →
      (∀ I ∈ G.instsOf b, I.op = Opcode.phi → I.id ∈ Ps) →
      (∀ P ∈ Ps, ib ≠ InsertPt.before P) →
      Ps.foldlM (reconcilePhi First fe fhp ib) G = some Gr →
      ∀ I ∈ Gr.instsOf b, I.op ≠ Opcode.phi := by
  intro Ps
  induction Ps with
  | nil =>
    intro G Gr _ h2 _ e I hI hp
    simp only [List.foldlM_nil, Option.pure_def, Option.some.injEq] at e
    rw [← e] at hI
    exact absurd (h2 I hI hp) (List.not_mem_nil _)
  | cons P Ps ih =>
    intro G Gr h1 h2 h3 e
    rw [List.foldlM_cons] at e
    cases hfa : reconcilePhi First fe fhp ib G P with
    | none => rw [hfa] at e; simp at e
    | some G1 =>
      rw [hfa] at e
      simp only [Option.bind_eq_bind, Option.some_bind] at e
      have hrem := reconcilePhi_removes First fe fhp ib G P G1 b (h3 P (List.mem_cons_self _ _))
        (fun t ht hm => by
          obtain ⟨K, hK, hKid⟩ := List.mem_map.mp hm
          exact hib1 t ht (hKid ▸ h1 K hK))
        hib2 hfa
      apply ih G1 Gr ?_ ?_ (fun Q hQ => h3 Q (List.mem_cons_of_mem _ hQ)) e
      · intro J hJ
        obtain ⟨-, I, hI, a, -⟩ := hrem J hJ
        rw [a]; exact h1 I hI
      · intro J hJ hp
        obtain ⟨hne, I, hI, a, b2⟩ := hrem J hJ
        have := h2 I hI (b2 ▸ hp)
        rw [← a] at this
        rcases List.mem_cons.mp this with h | h
        · exact absurd h hne
        · exact h

/-- The relocation of the merge nodes of First's exit block leaves the other blocks as
they are. -/
theorem instsOf_moveLCSSA_other (G G2 : Func) (fe fl se : Nat) (hu : UniqueIds G)
    (h : moveLCSSA G fe fl se = some G2) (x : Nat) (hx1 : x ≠ fe) (hx2 : x ≠ se) :
    G2.instsOf x = G.instsOf x := by
  unfold moveLCSSA at h
  simp only [] at h
  split at h
  · rename_i F1 hF1
    simp only [Option.some.injEq] at h
    have hQmem : ∀ I ∈ (G.instsOf fe).filter (fun I => decide (I.op = Opcode.phi)),
        I ∈ G.instsOf fe := fun I hI => (List.mem_filter.mp hI).1
    have hQnd : (((G.instsOf fe).filter (fun I => decide (I.op = Opcode.phi))).map
        (fun I => I.id)).Nodup :=
      (instsOf_ids_nodup G hu fe).sublist ((List.filter_sublist _).map _)
    obtain ⟨hx, -⟩ := setIncoming_fold fl fe _ G F1 hu hQmem hQnd hF1
    have hnot : ∀ K ∈ G.instsOf x, K.id ∉ phisOf G fe := by
      intro K hK hm
      obtain ⟨I, hI, hIid⟩ := List.mem_map.mp hm
      exact ids_disjoint G hu fe x (fun e => hx1 e.symm) I K (hQmem I hI) hK hIid
    have h1x : F1.instsOf x = G.instsOf x := by
      rw [hx]
      conv_rhs => rw [← List.map_id (G.instsOf x)]
      apply List.map_congr_left
      intro K hK
      have := hnot K hK
      unfold phisOf at this
      rw [if_neg this]
      rfl
    rw [← h]
    apply (instsOf_move_fold_out x _ (G.instsOf x) ?_ ?_ _ F1 h1x ?_)
    · intro t ht
      unfold getFirstNonPHI at ht
      split at ht
      · rename_i J hJ
        injection ht with ht
        rw [← ht]
        intro hm
        obtain ⟨K, hK, hKid⟩ := List.mem_map.mp hm
        exact ids_disjoint G hu se x (fun e => hx2 e.symm) J K
          (List.mem_of_find?_eq_some hJ) hK hKid.symm
      · exact absurd ht (by simp)
    · intro y hy
      unfold getFirstNonPHI at hy
      split at hy
      · exact absurd hy (by simp)
      · injection hy with hy
        rw [← hy]
        exact fun e => hx2 e.symm
    · intro i hi hm
      obtain ⟨K, hK, hKid⟩ := List.mem_map.mp hm
      exact hnot K hK (hKid ▸ hi)
  · exact absurd h (by simp)

end HeaderMergesGone

section HeaderMergeClaim

open IR LICMopt LoopFusionOpt Examples

theorem wf_moveLCSSA (G : Func) (fe fl se : Nat) (G2 : Func)
    (hw : UniqueIds G ∧ (G.blocks.map (fun B => B.id)).Nodup)
    (h : moveLCSSA G fe fl se = some G2) :
    UniqueIds G2 ∧ (G2.blocks.map (fun B => B.id)).Nodup := by
  unfold moveLCSSA at h
  simp only [] at h
  split at h
  · rename_i F1 hF1
    simp only [Option.some.injEq] at h
    rw [← h]
    exact wf_foldl _ (fun G x hG => wf_moveBefore G x _ hG) _ _
      (wf_foldlM _ (wf_setIncomingBlock0 fl) _ _ _ hw hF1)
  · exact absurd h (by simp)

theorem isLCSSAPhi_eq_true (PHI : Instr) (parent : Nat) (L : Loop) :
    isLCSSAPhi PHI parent L = true ↔ parent ∉ L.blocks ∧ ∀ x ∈ PHI.incoming, x ∈ L.blocks := by
  unfold isLCSSAPhi Loop.contains
  by_cases h : parent ∈ L.blocks
  · simp [h]
  · simp [h]

theorem forwardedLCSSA_eq_some (G : Func) (First : Loop) (fe : Nat) (in0 : Value) (B : Instr) :
    forwardedLCSSA G First fe in0 = some B ↔
      in0 = Value.inst B.id ∧ G.findInst B.id = some (fe, B) ∧ B.op = Opcode.phi ∧
        fe ∉ First.blocks ∧ ∀ x ∈ B.incoming, x ∈ First.blocks := by
  constructor
  · intro h
    unfold forwardedLCSSA at h
    split at h
    · rename_i id
      split at h
      · rename_i parent X hf
        split at h
        · rename_i hc
          simp only [Option.some.injEq] at h
          subst h
          have hid := (findInstIn_some G.blocks id parent X hf).1
          obtain ⟨c1, c2, c3⟩ := hc
          have c4 := (isLCSSAPhi_eq_true X parent First).1 c3
          subst c2
          subst hid
          exact ⟨rfl, hf, c1, c4.1, c4.2⟩
        · exact absurd h (by simp)
      · exact absurd h (by simp)
    · exact absurd h (by simp)
  · rintro ⟨h1, h2, h3, h4, h5⟩
    unfold forwardedLCSSA
    rw [h1]
    simp only [h2]
    rw [if_pos ⟨h3, trivial, (isLCSSAPhi_eq_true B fe First).2 ⟨h4, h5⟩⟩]

theorem not_mem_subst (old new : Value) (l : List Value) (h : new ≠ old) :
    old ∉ l.map (fun v => if v = old then new else v) := by
  intro hm
  obtain ⟨v, -, hv⟩ := List.mem_map.mp hm
  by_cases e : v = old
  · rw [if_pos e] at hv
    exact h hv
  · rw [if_neg e] at hv
    exact e hv

/-- One turn of the loop over the merge nodes of Second's header goes one of two ways. -/
theorem reconcilePhi_two_ways (First : Loop) (fe : Nat) (fhp : List Nat) (ib : InsertPt)
    (G : Func) (P : Nat) (G2 : Func) (e : reconcilePhi First fe fhp ib G P = some G2) :
    ∃ b PHI in0 in1, G.findInst P = some (b, PHI) ∧ PHI.operands[0]? = some in0 ∧
      PHI.operands[1]? = some in1 ∧
      ((∃ B v G1, in0 = Value.inst B.id ∧ G.findInst B.id = some (fe, B) ∧
          B.op = Opcode.phi ∧ fe ∉ First.blocks ∧ (∀ x ∈ B.incoming, x ∈ First.blocks) ∧
          B.operands[0]? = some v ∧
          fhp.foldlM (updateFirstPhi v in1) G = some G1 ∧
          G2 = eraseInst (eraseInst (replaceAllUsesWith G1 (Value.inst P) v) P) B.id ∧
          (∀ I ∈ G2.allInsts, I.id ≠ P ∧ I.id ≠ B.id ∧
            (v ≠ Value.inst P → Value.inst P ∉ I.operands))) ∨
        ((¬ ∃ B, in0 = Value.inst B.id ∧ G.findInst B.id = some (fe, B) ∧
            B.op = Opcode.phi ∧ fe ∉ First.blocks ∧ ∀ x ∈ B.incoming, x ∈ First.blocks) ∧
          G2 = moveBefore G P ib ∧
          (∀ t, ib = InsertPt.before t → t ≠ P → ∀ x, G2.instsOf x =
            insertBeforeIn PHI t ((G.instsOf x).filter (fun J => J.id != P))) ∧
          (∀ y, ib = InsertPt.atEnd y → ∀ x, G2.instsOf x =
            if x = y ∧ (G.findBlock x).isSome = true
            then (G.instsOf x).filter (fun J => J.id != P) ++ [PHI]
            else (G.instsOf x).filter (fun J => J.id != P)))) := by
  unfold reconcilePhi at e
  split at e
  · rename_i b PHI hfind
    split at e
    · rename_i in0 in1 hin0 hin1
      refine ⟨b, PHI, in0, in1, hfind, hin0, hin1, ?_⟩
      cases hfw : forwardedLCSSA G First fe in0 with
      | some B =>
        rw [hfw] at e
        simp only [] at e
        obtain ⟨c1, c2, c3, c4, c5⟩ := (forwardedLCSSA_eq_some G First fe in0 B).1 hfw
        left
        cases hv : B.operands[0]? with
        | none => rw [hv] at e; exact absurd e (by simp)
        | some v =>
          rw [hv] at e
          simp only [] at e
          cases hG1 : fhp.foldlM (updateFirstPhi v in1) G with
          | none => rw [hG1] at e; exact absurd e (by simp)
          | some G1 =>
            rw [hG1] at e
            simp only [Option.some.injEq] at e
            refine ⟨B, v, G1, c1, c2, c3, c4, c5, hv, hG1, e.symm, ?_⟩
            intro I hI
            rw [← e] at hI
            obtain ⟨Bk, hBk, hIB⟩ := (mem_allInsts _ I).1 hI
            have hB : I.id ≠ B.id := fun x =>
              not_mem_ids_eraseInst _ B.id (List.mem_map.mpr ⟨I, hI, x⟩)
            have hH : Holds (fun I => I.id ≠ P ∧ (v ≠ Value.inst P → Value.inst P ∉ I.operands))
                (fun _ => True)
                (eraseInst (eraseInst (replaceAllUsesWith G1 (Value.inst P) v) P) B.id) := by
              apply holds_eraseInst
              intro B2 hB2
              refine ⟨trivial, ?_⟩
              intro J hJ
              have hJ2 : J ∈ (eraseInst (replaceAllUsesWith G1 (Value.inst P) v) P).allInsts :=
                (mem_allInsts _ J).2 ⟨B2, hB2, hJ⟩
              refine ⟨fun x => not_mem_ids_eraseInst _ P (List.mem_map.mpr ⟨J, hJ2, x⟩), ?_⟩
              intro hvP
              unfold eraseInst replaceAllUsesWith mapInsts at hB2
              simp only [List.map_map] at hB2
              obtain ⟨B3, -, rfl⟩ := List.mem_map.mp hB2
              simp only [Function.comp] at hJ
              obtain ⟨J3, -, rfl⟩ := List.mem_map.mp (List.mem_filter.mp hJ).1
              exact not_mem_subst _ _ _ hvP
            have := (hH Bk hBk).2 I hIB
            exact ⟨this.1, hB, this.2⟩
      | none =>
        rw [hfw] at e
        simp only [Option.some.injEq] at e
        right
        refine ⟨?_, e.symm, ?_, ?_⟩
        · rintro ⟨B, hB⟩
          have := (forwardedLCSSA_eq_some G First fe in0 B).2 hB
          rw [hfw] at this
          exact absurd this (by simp)
        · intro t hib ht x
          subst hib
          rw [← e]
          exact instsOf_moveBefore G P (InsertPt.before t) b PHI (by simpa using ht) hfind x
        · intro y hib x
          subst hib
          rw [← e]
          exact instsOf_moveBefore G P (InsertPt.atEnd y) b PHI (by simp) hfind x
    · exact absurd e (by simp)
  · exact absurd e (by simp)

end HeaderMergeClaim

section HeaderMergeResult

open IR LICMopt LoopFusionOpt Examples

theorem getFirstNonPHI_before (G : Func) (b t : Nat) (h : getFirstNonPHI G b = InsertPt.before t) :
    ∃ J ∈ G.instsOf b, J.id = t := by
  unfold getFirstNonPHI at h
  split at h
  · rename_i J hJ
    simp only [InsertPt.before.injEq] at h
    exact ⟨J, List.mem_of_find?_eq_some hJ, h⟩
  · exact absurd h (by simp)

theorem getFirstNonPHI_atEnd (G : Func) (b y : Nat) (h : getFirstNonPHI G b = InsertPt.atEnd y) :
    y = b := by
  unfold getFirstNonPHI at h
  split at h
  · exact absurd h (by simp)
  · simp only [InsertPt.atEnd.injEq] at h
    exact h.symm

/-- C23 (amended). After a successful `fuseLoops` on a function with unique instruction
identities and distinct block identities, in which Second's header is none of First's
header, the two exit blocks, Second's latch and Second's preheader (and, with guards,
neither Second's guard block nor the block after Second's exit): Second's header holds
no merge node; no instruction has the identity of Second's induction variable, which is
erased before the merge nodes are reconciled; the merge nodes reconciled are those of
Second's header other than the induction variable, read after their incoming blocks were
re-sourced from Second's latch and preheader to First's; the reconciliation runs to its
end; and every turn goes exactly one of two ways, decided on the function as it is at that
turn: when incoming value 0 of the merge node `P` is a merge node `B` of First's exit
block, that block is outside First and all incoming blocks of `B` are in First, the merge
nodes of First's header whose incoming value 1 is `v` (incoming value 0 of `B`) get
incoming value 1 of `P` there, every use of `P` becomes `v`, and `P` and `B` are erased;
otherwise `P` is moved, as it is, to the place that was before the first instruction of
First's header that is not a merge node. -/
theorem fuseLoops_reconciles_header_merges (F : Func) (FAM : FunctionAnalysisManager)
    (First Second Fused : Loop) (t : FuseState)
    (fp fl fe fb sp sl se fh sh fiv siv : Nat) (G0 : Func)
    (h : fuseLoops F FAM (some First) (some Second) = some (some Fused, t))
    (hfp : First.preheader = some fp) (hfl : First.latch = some fl)
    (hfe : First.getExitBlock = some fe)
    (hsp : Second.preheader = some sp) (hsl : Second.latch = some sl)
    (hse : Second.getExitBlock = some se)
    (hfh : getSingleSuccessor F fp = some fh) (hfb : getSinglePredecessor F fl = some fb)
    (hsh : getSingleSuccessor F sp = some sh)
    (hfiv : FAM.SE.getInductionVariable First = some fiv)
    (hsiv : FAM.SE.getInductionVariable Second = some siv)
    (hG0 : G0 = resourcePhis (unifyInductionVariables F fiv siv) fp fl fb sp sl sh se)
    (hu : UniqueIds F) (hb : (F.blocks.map (fun B => B.id)).Nodup)
    (hd : fh ≠ sh ∧ sh ≠ fe ∧ sh ≠ se ∧ sh ≠ sl ∧ sh ≠ sp ∧ fl ≠ sl ∧ fl ≠ sp)
    (hg : ∀ g1 g2 gd, First.guardBranch = some g1 → Second.guardBranch = some g2 →
      getSingleSuccessor F se = some gd → sh ≠ g2 ∧ sh ≠ gd) :
    (∀ I ∈ t.F.instsOf sh, I.op ≠ Opcode.phi) ∧
    (∀ I ∈ t.F.allInsts, I.id ≠ siv) ∧
    phisOf G0 sh = (phisOf F sh).filter (fun i => i != siv) ∧
    G0.instsOf sh = replacePhiUsesInList
      (replacePhiUsesInList ((unifyInductionVariables F fiv siv).instsOf sh) sl fl) sp fp ∧
    (∃ Gr, (phisOf G0 sh).foldlM
      (reconcilePhi First fe (phisOf G0 fh) (getFirstNonPHI G0 fh)) G0 = some Gr) ∧
    ∀ G P G2, reconcilePhi First fe (phisOf G0 fh) (getFirstNonPHI G0 fh) G P = some G2 →
      ∃ b PHI in0 in1, G.findInst P = some (b, PHI) ∧ PHI.operands[0]? = some in0 ∧
        PHI.operands[1]? = some in1 ∧
        ((∃ B v G1, in0 = Value.inst B.id ∧ G.findInst B.id = some (fe, B) ∧
            B.op = Opcode.phi ∧ fe ∉ First.blocks ∧ (∀ x ∈ B.incoming, x ∈ First.blocks) ∧
            B.operands[0]? = some v ∧
            (phisOf G0 fh).foldlM (updateFirstPhi v in1) G = some G1 ∧
            G2 = eraseInst (eraseInst (replaceAllUsesWith G1 (Value.inst P) v) P) B.id ∧
            (∀ I ∈ G2.allInsts, I.id ≠ P ∧ I.id ≠ B.id ∧
              (v ≠ Value.inst P → Value.inst P ∉ I.operands))) ∨
          ((¬ ∃ B, in0 = Value.inst B.id ∧ G.findInst B.id = some (fe, B) ∧
              B.op = Opcode.phi ∧ fe ∉ First.blocks ∧ ∀ x ∈ B.incoming, x ∈ First.blocks) ∧
            G2 = moveBefore G P (getFirstNonPHI G0 fh) ∧
            (∀ t, getFirstNonPHI G0 fh = InsertPt.before t → t ≠ P → ∀ x, G2.instsOf x =
              insertBeforeIn PHI t ((G.instsOf x).filter (fun J => J.id != P))) ∧
            (∀ y, getFirstNonPHI G0 fh = InsertPt.atEnd y → ∀ x, G2.instsOf x =
              if x = y ∧ (G.findBlock x).isSome = true
              then (G.instsOf x).filter (fun J => J.id != P) ++ [PHI]
              else (G.instsOf x).filter (fun J => J.id != P)))) := by
  obtain ⟨fp', fl', fe', sp', sl', se', fh', fb', sh', sb, fiv', siv', F2, s3,
    e1, e2, e3, e4, e5, e6, e7, e8, e9, e10, e11, e12, hfix, hguard, hfin⟩ :=
    fuseLoops_success F FAM First Second Fused t h
  have x1 : fp' = fp := Option.some.inj (e1.symm.trans hfp)
  subst x1
  have x2 : fl' = fl := Option.some.inj (e2.symm.trans hfl)
  subst x2
  have x3 : fe' = fe := Option.some.inj (e3.symm.trans hfe)
  subst x3
  have x4 : sp' = sp := Option.some.inj (e4.symm.trans hsp)
  subst x4
  have x5 : sl' = sl := Option.some.inj (e5.symm.trans hsl)
  subst x5
  have x6 : se' = se := Option.some.inj (e6.symm.trans hse)
  subst x6
  have x7 : fh' = fh := Option.some.inj (e7.symm.trans hfh)
  subst x7
  have x8 : fb' = fb := Option.some.inj (e8.symm.trans hfb)
  subst x8
  have x9 : sh' = sh := Option.some.inj (e9.symm.trans hsh)
  subst x9
  have x11 : fiv' = fiv := Option.some.inj (e11.symm.trans hfiv)
  subst x11
  have x12 : siv' = siv := Option.some.inj (e12.symm.trans hsiv)
  subst x12
  obtain ⟨d1, d2, d3, d4, d5, d6, d7⟩ := hd
  obtain ⟨Gr, hGr, hmv⟩ := fixPhis_eq_some _ _ _ _ _ _ _ _ _ _ _ _ hfix
  rw [← hG0] at hGr
  have hw0 : UniqueIds G0 ∧ (G0.blocks.map (fun B => B.id)).Nodup := by
    rw [hG0]
    exact wf_resourcePhis_unify F fiv' siv' fp' fl' fb' sp' sl' sh' se' ⟨hu, hb⟩
  have hwr := wf_foldlM _ (wf_reconcilePhi First fe' _ _) _ _ _ hw0 hGr
  have hw2 := wf_moveLCSSA Gr fe' fl' se' F2 hwr hmv
  have hsk2 : F2.skeleton = F.skeleton := by
    rw [skeleton_moveLCSSA _ _ _ _ _ hmv,
      skeleton_foldlM _ (skeleton_reconcilePhi _ _ _ _) _ _ _ hGr, hG0, skeleton_resourcePhis,
      skeleton_unifyInductionVariables]
  refine ⟨?_, erased_secondIV F FAM First Second Fused t siv' h hsiv, ?_, ?_, ⟨Gr, hGr⟩, ?_⟩
  · -- Second's header after the reconciliation
    have hno : ∀ I ∈ Gr.instsOf sh', I.op ≠ Opcode.phi := by
      refine noPhi_reconcile_fold G0 First fe' (phisOf G0 fh') (getFirstNonPHI G0 fh') sh'
        ?_ ?_ (phisOf G0 sh') G0 Gr ?_ ?_ ?_ hGr
      · intro t0 ht0 hm
        obtain ⟨J, hJ, hJt⟩ := getFirstNonPHI_before G0 fh' t0 ht0
        obtain ⟨K, hK, hKt⟩ := List.mem_map.mp hm
        exact ids_disjoint G0 hw0.1 fh' sh' d1 J K hJ hK (hJt.trans hKt.symm)
      · intro y hy e
        exact d1 ((getFirstNonPHI_atEnd G0 fh' y hy).symm.trans e)
      · intro I hI
        exact List.mem_map.mpr ⟨I, hI, rfl⟩
      · intro I hI hp
        unfold phisOf
        exact List.mem_map.mpr ⟨I, List.mem_filter.mpr ⟨hI, by simpa using hp⟩, rfl⟩
      · intro P hP e
        obtain ⟨J, hJ, hJt⟩ := getFirstNonPHI_before G0 fh' P e
        unfold phisOf at hP
        obtain ⟨K, hK, hKt⟩ := List.mem_map.mp hP
        exact ids_disjoint G0 hw0.1 fh' sh' d1 J K hJ (List.mem_filter.mp hK).1
          (hJt.trans hKt.symm)
    have h2 : F2.instsOf sh' = Gr.instsOf sh' :=
      instsOf_moveLCSSA_other Gr F2 fe' fl' se' hwr.1 hmv sh' d2 d3
    have h3 : s3.F.instsOf sh' = F2.instsOf sh' := by
      rcases hguard with ⟨g1, g2, hg1, hg2, hug⟩ | ⟨-, hs⟩
      · have hgs : getSingleSuccessor F2 se' = getSingleSuccessor F se' :=
          getSingleSuccessor_of_skeleton F F2 hsk2 se'
        refine instsOf_unifyGuards _ g1 g2 fe' se' s3 hw2.1 hug sh' ?_ d2 ?_
        · intro e
          cases hgd : getSingleSuccessor F se' with
          | none =>
            unfold unifyGuards at hug
            simp only [] at hug
            rw [hgs, hgd] at hug
            simp at hug
          | some gd => exact (hg g1 g2 gd hg1 hg2 hgd).1 e
        · intro gd hgd
          simp only [] at hgd
          rw [hgs] at hgd
          exact (hg g1 g2 gd hg1 hg2 hgd).2
      · rw [hs]
    have h4 : t.F.instsOf sh' = s3.F.instsOf sh' :=
      instsOf_finishFusion s3 First Second fl' fb' sp' sl' sb sh' se' _ t hfin ⟨d6, d7⟩ sh' d4 d5
    intro I hI
    rw [h4, h3, h2] at hI
    exact hno I hI
  · rw [hG0, phisOf_resourcePhis, phisOf_unifyInductionVariables]
  · rw [hG0]
    exact instsOf_resourcePhis_header _ fp' fl' fb' sp' sl' sh' se' d5 d3
  · intro G P G2 e
    exact reconcilePhi_two_ways First fe' _ _ G P G2 e

end HeaderMergeResult

section AccumulatorExamples

open IR LICMopt LoopFusionOpt Examples

set_option maxRecDepth 100000 in
/-- C22 on `accumulatorLoops (Value.const 5)`: the fusion returns a loop, and Second's
exit block 6 holds its own merge node 27, then the merge node 17 of First's old exit
block with incoming block 2 (First's latch) and its incoming value 16, then
instruction 30. -/
theorem fuseLoops_moves_exit_merges_witness :
    ∃ Fused t,
      fuseLoops (accumulatorLoops (Value.const 5)) (exampleFAM 4 0 4 4) (some loopA) (some loopB)
        = some (some Fused, t) ∧
      t.F.instsOf 6 = [{ id := 27, op := Opcode.phi, operands := [Value.inst 26],
                         incoming := [2] },
                       { id := 17, op := Opcode.phi, operands := [Value.inst 16],
                         incoming := [2] },
                       ins 30 Opcode.binop [Value.inst 17, Value.inst 27]] ∧
      ∃ pre M rest, t.F.instsOf 6 = pre ++ M ++ rest ∧
        (∀ I ∈ pre, I.op = Opcode.phi) ∧
        (∀ J, rest.head? = some J → J.op ≠ Opcode.phi) ∧
        M.map (fun I => I.id) =
          (phisOf (accumulatorLoops (Value.const 5)) 3).filter
            (fun p => decide (p ∈ t.F.allInsts.map (fun I => I.id))) ∧
        ∀ I ∈ M, I.op = Opcode.phi ∧ I.incoming[0]? = some 2 ∧
          ∃ I0 ∈ (accumulatorLoops (Value.const 5)).instsOf 3,
            I0.id = I.id ∧ I.operands = I0.operands := by
  have hsome : (fuseLoops (accumulatorLoops (Value.const 5)) (exampleFAM 4 0 4 4) (some loopA)
      (some loopB)).map (fun r => (r.1.isSome, r.2.F.instsOf 6))
      = some (true, [{ id := 27, op := Opcode.phi, operands := [Value.inst 26],
                       incoming := [2] },
                     { id := 17, op := Opcode.phi, operands := [Value.inst 16],
                       incoming := [2] },
                     ins 30 Opcode.binop [Value.inst 17, Value.inst 27]]) := by decide
  cases hres : fuseLoops (accumulatorLoops (Value.const 5)) (exampleFAM 4 0 4 4) (some loopA)
      (some loopB) with
  | none => rw [hres] at hsome; simp at hsome
  | some r =>
    obtain ⟨Lo, t⟩ := r
    cases Lo with
    | none => rw [hres] at hsome; simp at hsome
    | some Fused =>
      rw [hres] at hsome
      simp only [Option.map_some', Option.some.injEq, Prod.mk.injEq] at hsome
      refine ⟨Fused, t, rfl, hsome.2, ?_⟩
      exact fuseLoops_moves_exit_merges (accumulatorLoops (Value.const 5)) (exampleFAM 4 0 4 4)
        loopA loopB Fused t 0 2 3 3 5 6 1 4 20 hres rfl rfl rfl rfl rfl rfl
        (by decide) (by decide) rfl (by unfold UniqueIds; decide) (by decide) (by decide)
        (by decide) (by decide) (by decide)
        (fun g1 g2 gd hg1 => by simp [loopA] at hg1)

set_option maxRecDepth 100000 in
/-- C23 (amended) on `accumulatorLoops (Value.const 5)`: the fusion returns a loop; Second's
header 4 is left with instruction 26 alone; and First's header 1 holds the merge node 25,
moved there before instruction 16 with its incoming values and with the incoming blocks 0
and 2 of First. -/
theorem fuseLoops_reconciles_header_merges_witness :
    ∃ Fused t,
      fuseLoops (accumulatorLoops (Value.const 5)) (exampleFAM 4 0 4 4) (some loopA) (some loopB)
        = some (some Fused, t) ∧
      t.F.instsOf 4 = [ins 26 Opcode.binop [Value.inst 25, Value.const 2]] ∧
      t.F.instsOf 1 = [phi2 10 (Value.const 0) 0 (Value.inst 11) 2,
                       phi2 15 (Value.const 0) 0 (Value.inst 16) 2,
                       phi2 25 (Value.const 5) 0 (Value.inst 26) 2,
                       ins 16 Opcode.binop [Value.inst 15, Value.const 1]] ∧
      (∀ I ∈ t.F.instsOf 4, I.op ≠ Opcode.phi) ∧
      (∀ I ∈ t.F.allInsts, I.id ≠ 20) ∧
      phisOf (resourcePhis (unifyInductionVariables (accumulatorLoops (Value.const 5)) 10 20)
          0 2 1 3 5 4 6) 4
        = (phisOf (accumulatorLoops (Value.const 5)) 4).filter (fun i => i != 20) := by
  have hsome : (fuseLoops (accumulatorLoops (Value.const 5)) (exampleFAM 4 0 4 4) (some loopA)
      (some loopB)).map (fun r => (r.1.isSome, r.2.F.instsOf 4, r.2.F.instsOf 1))
      = some (true, [ins 26 Opcode.binop [Value.inst 25, Value.const 2]],
          [phi2 10 (Value.const 0) 0 (Value.inst 11) 2,
           phi2 15 (Value.const 0) 0 (Value.inst 16) 2,
           phi2 25 (Value.const 5) 0 (Value.inst 26) 2,
           ins 16 Opcode.binop [Value.inst 15, Value.const 1]]) := by decide
  cases hres : fuseLoops (accumulatorLoops (Value.const 5)) (exampleFAM 4 0 4 4) (some loopA)
      (some loopB) with
  | none => rw [hres] at hsome; simp at hsome
  | some r =>
    obtain ⟨Lo, t⟩ := r
    cases Lo with
    | none => rw [hres] at hsome; simp at hsome
    | some Fused =>
      rw [hres] at hsome
      simp only [Option.map_some', Option.some.injEq, Prod.mk.injEq] at hsome
      have hthm := fuseLoops_reconciles_header_merges (accumulatorLoops (Value.const 5))
        (exampleFAM 4 0 4 4) loopA loopB Fused t 0 2 3 1 3 5 6 1 4 10 20
        (resourcePhis (unifyInductionVariables (accumulatorLoops (Value.const 5)) 10 20)
          0 2 1 3 5 4 6)
        hres rfl rfl rfl rfl rfl rfl (by decide) (by decide) (by decide) rfl rfl rfl
        (by unfold UniqueIds; decide) (by decide) (by decide)
        (fun g1 g2 gd hg1 => by simp [loopA] at hg1)
      exact ⟨Fused, t, rfl, hsome.2.1, hsome.2.2, hthm.1, hthm.2.1, hthm.2.2.1⟩

set_option maxRecDepth 100000 in
/-- C23 as stated fails on `writeThenReadSame`: Second's induction variable 20 is a merge
node of Second's header 4 whose incoming value 0 is the constant 0, not a merge node of
First's exit block; the fusion returns a loop, and afterwards no instruction of the
function has the identity 20, so the merge node was not moved into First's header 1. -/
theorem fuseLoops_erases_second_induction_variable :
    writeThenReadSame.findInst 20 = some (4, phi2 20 (Value.const 0) 3 (Value.inst 21) 5) ∧
    (exampleFAM 4 0 4 4).SE.getInductionVariable loopB = some 20 ∧
    ∃ Fused t,
      fuseLoops writeThenReadSame (exampleFAM 4 0 4 4) (some loopA) (some loopB)
        = some (some Fused, t) ∧
      t.F.allInsts.map (fun I => I.id) = [10, 12, 13, 22, 23, 11, 14] ∧
      t.F.findInst 20 = none ∧
      (∀ I ∈ t.F.instsOf 1, I.id ≠ 20) := by
  have hsome : (fuseLoops writeThenReadSame (exampleFAM 4 0 4 4) (some loopA)
      (some loopB)).map (fun r => (r.1.isSome, r.2.F.allInsts.map (fun I => I.id),
        r.2.F.findInst 20, (r.2.F.instsOf 1).map (fun I => I.id)))
      = some (true, [10, 12, 13, 22, 23, 11, 14], none, [10, 12, 13]) := by decide
  refine ⟨by decide, by decide, ?_⟩
  cases hres : fuseLoops writeThenReadSame (exampleFAM 4 0 4 4) (some loopA) (some loopB) with
  | none => rw [hres] at hsome; simp at hsome
  | some r =>
    obtain ⟨Lo, t⟩ := r
    cases Lo with
    | none => rw [hres] at hsome; simp at hsome
    | some Fused =>
      rw [hres] at hsome
      simp only [Option.map_some', Option.some.injEq, Prod.mk.injEq] at hsome
      refine ⟨Fused, t, rfl, hsome.2.1, hsome.2.2.1, ?_⟩
      intro I hI e
      have hm : I.id ∈ (t.F.instsOf 1).map (fun I => I.id) := List.mem_map.mpr ⟨I, hI, rfl⟩
      rw [hsome.2.2.2, e] at hm
      exact absurd hm (by decide)

set_option maxRecDepth 100000 in
/-- C25 (code bug). On `accumulatorLoops (Value.inst 17)`, where Second's accumulator
starts from the value that First exports through the boundary merge node 17 and
instruction 30 after the loops adds the two exported values 17 and 27: `isOptimizable`
accepts the pair and `fuseLoops` returns a loop, but the function it leaves no longer has
an instruction 17 while instruction 30 of block 6 still has it as operand, so the
consumer of First's exported value after the loop has no value to observe. -/
theorem fuseLoops_leaves_dangling_use :
    isOptimizable (accumulatorLoops (Value.inst 17)) (exampleFAM 4 0 4 4) (some loopA)
      (some loopB) = true ∧
    (accumulatorLoops (Value.inst 17)).findInst 17
      = some (3, { id := 17, op := Opcode.phi, operands := [Value.inst 16], incoming := [2] }) ∧
    (accumulatorLoops (Value.inst 17)).instsOf 6
      = [{ id := 27, op := Opcode.phi, operands := [Value.inst 26], incoming := [5] },
         ins 30 Opcode.binop [Value.inst 17, Value.inst 27]] ∧
    ∃ Fused t,
      fuseLoops (accumulatorLoops (Value.inst 17)) (exampleFAM 4 0 4 4) (some loopA) (some loopB)
        = some (some Fused, t) ∧
      Fused.blocks = [1, 2, 4] ∧
      t.F.instsOf 6
        = [{ id := 27, op := Opcode.phi, operands := [Value.inst 26], incoming := [2] },
           ins 30 Opcode.binop [Value.inst 17, Value.inst 27]] ∧
      t.F.findInst 17 = none ∧
      t.F.allInsts.map (fun I => I.id) = [10, 15, 16, 26, 11, 14, 27, 30] ∧
      t.F.instsOf 1 = [phi2 10 (Value.const 0) 0 (Value.inst 11) 2,
                       phi2 15 (Value.const 0) 0 (Value.inst 26) 2,
                       ins 16 Opcode.binop [Value.inst 15, Value.const 1]] ∧
      t.F.instsOf 4 = [ins 26 Opcode.binop [Value.inst 16, Value.const 2]] := by
  have hsome : (fuseLoops (accumulatorLoops (Value.inst 17)) (exampleFAM 4 0 4 4) (some loopA)
      (some loopB)).map (fun r => (r.1.map (fun L => L.blocks), r.2.F.instsOf 6,
        r.2.F.findInst 17))
      = some (some [1, 2, 4],
          [{ id := 27, op := Opcode.phi, operands := [Value.inst 26], incoming := [2] },
           ins 30 Opcode.binop [Value.inst 17, Value.inst 27]],
          none) := by decide
  have hmore : (fuseLoops (accumulatorLoops (Value.inst 17)) (exampleFAM 4 0 4 4) (some loopA)
      (some loopB)).map (fun r => (r.2.F.allInsts.map (fun I => I.id), r.2.F.instsOf 1,
        r.2.F.instsOf 4))
      = some ([10, 15, 16, 26, 11, 14, 27, 30],
          [phi2 10 (Value.const 0) 0 (Value.inst 11) 2,
           phi2 15 (Value.const 0) 0 (Value.inst 26) 2,
           ins 16 Opcode.binop [Value.inst 15, Value.const 1]],
          [ins 26 Opcode.binop [Value.inst 16, Value.const 2]]) := by decide
  refine ⟨by decide, by decide, by decide, ?_⟩
  cases hres : fuseLoops (accumulatorLoops (Value.inst 17)) (exampleFAM 4 0 4 4) (some loopA)
      (some loopB) with
  | none => rw [hres] at hsome; simp at hsome
  | some r =>
    obtain ⟨Lo, t⟩ := r
    cases Lo with
    | none => rw [hres] at hsome; simp at hsome
    | some Fused =>
      rw [hres] at hsome hmore
      simp only [Option.map_some', Option.some.injEq, Prod.mk.injEq] at hsome hmore
      exact ⟨Fused, t, rfl, hsome.1, hsome.2.1, hsome.2.2, hmore.1, hmore.2.1, hmore.2.2⟩

end AccumulatorExamples

section ElementDistance

open IR LICMopt LoopFusionOpt Examples

theorem tdiv_neg_iff (d s : Int) (hs : 0 < s) : Int.tdiv d s < 0 ↔ d ≤ -s := by
  rcases le_or_lt 0 d with hd | hd
  · constructor
    · intro h
      exact absurd (Int.tdiv_nonneg hd hs.le) (not_le.mpr h)
    · intro h
      omega
  · obtain ⟨e, rfl⟩ : ∃ e : Int, d = -e := ⟨-d, by ring⟩
    have he : 0 < e := by omega
    rw [Int.neg_tdiv, Int.tdiv_eq_ediv he.le hs.le]
    constructor
    · intro h
      have h1 : 1 ≤ e / s := by omega
      have := (Int.le_ediv_iff_mul_le hs).1 h1
      omega
    · intro h
      have h1 : 1 ≤ e / s := (Int.le_ediv_iff_mul_le hs).2 (by omega)
      omega

theorem tdiv_eq_zero_of_small (d s : Int) (h1 : -s < d) (h2 : d < 0) : Int.tdiv d s = 0 := by
  obtain ⟨e, rfl⟩ : ∃ e : Int, d = -e := ⟨-d, by ring⟩
  rw [Int.neg_tdiv, Int.tdiv_eq_zero_of_lt (by omega) (by omega)]
  rfl

theorem toInt64_of_lt (s : Nat) (hlt : s < 2 ^ 63) : toInt64 (s % 2 ^ 64) = (s : Int) := by
  have hmod : s % 2 ^ 64 = s := Nat.mod_eq_of_lt (by omega)
  unfold toInt64
  rw [hmod, hmod, if_pos hlt]

/-- C31. For a pair that reaches the division of the dependence gate (reported dependent,
both with a pointer operand, both addresses add-recurrences with the same step, the
difference of the starts the constant `d`, an element type chosen with allocation size
`s`, where `0 < s < 2^63` so that `s` is itself as a signed 64-bit number): the element
distance is the quotient of `d` by `s` truncated toward zero; the pair makes the gate
return false exactly when that quotient is negative, which is exactly when `d ≤ -s`; and
when `-s < d < 0` the element distance is 0 and the pair does not make the gate return
false. -/
theorem dependence_gate_truncates_toward_zero (F : Func) (FAM : FunctionAnalysisManager)
    (I1 I2 : Instr) (P1 P2 : Value) (start1 start2 step : SCEV) (ty elemTy : Nat)
    (d : Int) (s : Nat)
    (hdep : FAM.DI.depends I1.id I2.id = true)
    (hP1 : getInstructionPointer I1 = some P1) (hP2 : getInstructionPointer I2 = some P2)
    (hE1 : FAM.SE.getSCEV P1 = SCEV.addRec start1 step)
    (hE2 : FAM.SE.getSCEV P2 = SCEV.addRec start2 step)
    (hD : FAM.SE.getMinusSCEV start1 start2 = SCEV.constant ty d)
    (hT : pairElemTy F P1 P2 = some elemTy)
    (hsize : FAM.DL.getTypeAllocSize elemTy = s) (hpos : 0 < s) (hlt : s < 2 ^ 63) :
    elementOffset d (FAM.DL.getTypeAllocSize elemTy % 2 ^ 64) = Int.tdiv d (s : Int) ∧
    (pairRejects F FAM I1 I2 = true ↔
      elementOffset d (FAM.DL.getTypeAllocSize elemTy % 2 ^ 64) < 0) ∧
    (pairRejects F FAM I1 I2 = true ↔ d ≤ -(s : Int)) ∧
    (-(s : Int) < d → d < 0 →
      elementOffset d (FAM.DL.getTypeAllocSize elemTy % 2 ^ 64) = 0 ∧
      pairRejects F FAM I1 I2 = false) := by
  have hmod : s % 2 ^ 64 = s := Nat.mod_eq_of_lt (by omega)
  have hoff : elementOffset d (FAM.DL.getTypeAllocSize elemTy % 2 ^ 64) = Int.tdiv d (s : Int) := by
    unfold elementOffset
    rw [hsize, toInt64_of_lt s hlt]
  have hz : FAM.DL.getTypeAllocSize elemTy % 2 ^ 64 ≠ 0 := by
    rw [hsize, hmod]; omega
  have hrej : pairRejects F FAM I1 I2 = true ↔
      elementOffset d (FAM.DL.getTypeAllocSize elemTy % 2 ^ 64) < 0 := by
    constructor
    · intro hr
      obtain ⟨-, Q1, Q2, hQ1, hQ2, a1, a2, st, hA1, hA2, ty2, d2, hD2, e, hT2, -, hneg⟩ :=
        (pairRejects_iff F FAM I1 I2).1 hr
      have e1 : Q1 = P1 := Option.some.inj (hQ1.symm.trans hP1)
      have e2 : Q2 = P2 := Option.some.inj (hQ2.symm.trans hP2)
      subst e1
      subst e2
      rw [hE1] at hA1
      rw [hE2] at hA2
      simp only [SCEV.addRec.injEq] at hA1 hA2
      rw [← hA1.1, ← hA2.1, hD] at hD2
      simp only [SCEV.constant.injEq] at hD2
      have e3 : e = elemTy := Option.some.inj (hT2.symm.trans hT)
      rw [e3, ← hD2.2] at hneg
      exact hneg
    · intro hneg
      exact (pairRejects_iff F FAM I1 I2).2 ⟨hdep, P1, P2, hP1, hP2, start1, start2, step, hE1,
        hE2, ty, d, hD, elemTy, hT, hz, hneg⟩
  have hs : (0 : Int) < (s : Int) := by exact_mod_cast hpos
  refine ⟨hoff, hrej, ?_, ?_⟩
  · rw [hrej, hoff]
    exact tdiv_neg_iff d s hs
  · intro h1 h2
    have h0 : elementOffset d (FAM.DL.getTypeAllocSize elemTy % 2 ^ 64) = 0 := by
      rw [hoff]; exact tdiv_eq_zero_of_small d s h1 h2
    refine ⟨h0, ?_⟩
    rw [← Bool.not_eq_true, hrej, h0]
    exact lt_irrefl 0

set_option maxRecDepth 100000 in
/-- C31 on `writeThenReadSame` with 4-byte elements and the load address starting 2 bytes
after the store address: the address distance of the store 13 and the load 23 is -2, the
element distance is 0 and the pair does not make the gate return false. -/
theorem dependence_gate_truncates_toward_zero_witness :
    (exampleFAM 4 2 4 4).SE.getMinusSCEV (SCEV.unknown 64 0) (SCEV.unknown 64 1)
      = SCEV.constant 64 (-2) ∧
    (exampleFAM 4 2 4 4).DL.getTypeAllocSize 0 = 4 ∧
    elementOffset (-2) ((exampleFAM 4 2 4 4).DL.getTypeAllocSize 0 % 2 ^ 64) = 0 ∧
    pairRejects writeThenReadSame (exampleFAM 4 2 4 4)
      (ins 13 Opcode.store [Value.const 7, Value.inst 12])
      (ins 23 Opcode.load [Value.inst 22]) = false :=
  ⟨by decide, by decide,
    (dependence_gate_truncates_toward_zero writeThenReadSame (exampleFAM 4 2 4 4)
      (ins 13 Opcode.store [Value.const 7, Value.inst 12]) (ins 23 Opcode.load [Value.inst 22])
      (Value.inst 12) (Value.inst 22) (SCEV.unknown 64 0) (SCEV.unknown 64 1)
      (SCEV.constant 64 4) 64 0 (-2) 4 (by decide) (by decide) (by decide) (by decide)
      (by decide) (by decide) (by decide) (by decide) (by decide) (by decide)).2.2.2
      (by decide) (by decide)⟩

end ElementDistance

section DefinitionBeforeUse

open IR LICMopt LoopFusionOpt Examples

/-- An identity at some position of the accepted list was appended by a visit of the scan
whose invariance check ran against the identities standing before it. -/
theorem scanFold_position (F : Func) (L : Loop) (DT : DominatorTree) (EB : List Nat) :
    ∀ (S : List (Nat × Instr)) (A : List Nat) (id : Nat) (B : List Nat),
      S.foldl (scanStep F L DT EB) [] = A ++ id :: B →
      ∃ pre x post, S = pre ++ x :: post ∧ x.2.id = id ∧
        pre.foldl (scanStep F L DT EB) [] = A ∧
        isLoopInvariant F L A x.2 = true ∧ isSafeToMove F L DT EB x.1 x.2 = true := by
  intro S
  induction S using List.reverseRecOn with
  | nil =>
    intro A id B h
    simp at h
  | append_singleton l a ih =>
    intro A id B h
    rw [List.foldl_append, List.foldl_cons, List.foldl_nil] at h
    obtain ⟨M0, hM0⟩ : ∃ M0, l.foldl (scanStep F L DT EB) [] = M0 := ⟨_, rfl⟩
    rw [hM0] at h
    have hold : M0 = A ++ id :: B →
        ∃ pre x post, l ++ [a] = pre ++ x :: post ∧ x.2.id = id ∧
          pre.foldl (scanStep F L DT EB) [] = A ∧
          isLoopInvariant F L A x.2 = true ∧ isSafeToMove F L DT EB x.1 x.2 = true := by
      intro h0
      obtain ⟨pre, x, post, e, h1, h2, h3, h4⟩ := ih A id B (hM0.trans h0)
      exact ⟨pre, x, post ++ [a], by rw [e]; simp, h1, h2, h3, h4⟩
    unfold scanStep at h
    split at h
    · rename_i hc
      split at h
      · exact hold h
      · rcases List.eq_nil_or_concat B with hB | ⟨B1, b, hB⟩
        · subst hB
          obtain ⟨e1, e2⟩ := List.append_inj' h rfl
          simp only [List.cons.injEq, and_true] at e2
          simp only [Bool.and_eq_true] at hc
          refine ⟨l, a, [], rfl, e2, hM0.trans e1, ?_, hc.2⟩
          rw [← e1]
          exact hc.1
        · rw [List.concat_eq_append] at hB
          subst hB
          have h2 : M0 ++ [a.2.id] = (A ++ id :: B1) ++ [b] := by
            rw [h]; simp
          have h3 := (List.append_inj' h2 rfl).1
          obtain ⟨pre, x, post, e, h4, h5, h6, h7⟩ := ih A id B1 (hM0.trans h3)
          exact ⟨pre, x, post ++ [a], by rw [e]; simp, h4, h5, h6, h7⟩
    · exact hold h

theorem containsInst_of_accepted (F : Func) (L : Loop) (DT : DominatorTree) (hu : UniqueIds F)
    (d : Nat) (h : d ∈ collectMovable F L DT) : containsInst F L d = true := by
  obtain ⟨b, hb, D, hD, hid⟩ := accepted_visited F L DT d h
  have hf := findInst_of_mem F hu b D hD
  rw [hid] at hf
  unfold containsInst
  rw [hf]
  simpa [Loop.contains] using hb

/-- The operands of an accepted instruction that are defined inside the loop stand before
it in the accepted list. -/
theorem accepted_operands_earlier (F : Func) (L : Loop) (DT : DominatorTree) (hu : UniqueIds F)
    (A : List Nat) (id : Nat) (B : List Nat) (h : collectMovable F L DT = A ++ id :: B)
    (b : Nat) (I : Instr) (hI : F.findInst id = some (b, I)) (d : Nat)
    (hd : Value.inst d ∈ I.operands) :
    isPhiInst F d = false ∧ (containsInst F L d = false ∨ d ∈ A) := by
  obtain ⟨pre, x, post, hS, hid, -, hinv, -⟩ :=
    scanFold_position F L DT L.exitBlocks (scanInsts F L) A id B h
  have hx : x ∈ scanInsts F L := by rw [hS]; simp
  have hf := findInst_of_mem F hu x.1 x.2 (mem_scanInsts_iff F L x hx).2
  rw [hid, hI] at hf
  simp only [Option.some.injEq, Prod.mk.injEq] at hf
  rw [← hf.2] at hinv
  exact (operandInvariant_inst F L A d).1
    (((isLoopInvariant_eq_true_iff F L A I).1 hinv).2 _ hd)

theorem instsWithIds_cons_of_find (F : Func) (id : Nat) (M : List Nat) (b : Nat) (I : Instr)
    (h : F.findInst id = some (b, I)) :
    instsWithIds F (id :: M) = I :: instsWithIds F M := by
  unfold instsWithIds
  rw [List.filterMap_cons, h]
  rfl

/-- C33. For a function with unique instruction identities and a loop whose preheader is a
block of the function outside the loop: the accepted list has no repetition, and every
operand of an accepted instruction that is defined inside the loop stands before it in
the accepted list (it was accepted strictly earlier in the scan); after `runOnLoop` the
preheader holds its old instructions followed by the hoisted instructions in the order
of acceptance, so every hoisted instruction stands after every hoisted instruction it
uses; and no operand of a hoisted instruction is defined inside the loop any more. -/
theorem runOnLoop_definitions_before_uses (F : Func) (L : Loop) (DT : DominatorTree)
    (pre : Nat) (hu : UniqueIds F) (hp : L.preheader = some pre) (hpre : pre ∉ L.blocks)
    (hblk : pre ∈ F.blocks.map (fun B => B.id)) :
    (collectMovable F L DT).Nodup ∧
    (∀ A id B, collectMovable F L DT = A ++ id :: B →
      ∀ b I, F.findInst id = some (b, I) →
        ∀ d, Value.inst d ∈ I.operands → containsInst F L d = true → d ∈ A) ∧
    (runOnLoop F (some L) DT).2.instsOf pre
      = F.instsOf pre ++ instsWithIds F (collectMovable F L DT) ∧
    (instsWithIds F (collectMovable F L DT)).map (fun I => I.id) = collectMovable F L DT ∧
    (∀ I ∈ instsWithIds F (collectMovable F L DT), ∀ d, Value.inst d ∈ I.operands →
      d ∈ collectMovable F L DT →
        ∃ D, D.id = d ∧ Before D I ((runOnLoop F (some L) DT).2.instsOf pre)) ∧
    (∀ I ∈ instsWithIds F (collectMovable F L DT), ∀ d, Value.inst d ∈ I.operands →
      containsInst (runOnLoop F (some L) DT).2 L d = false) := by
  have hlay := instsOf_preheader_after F L DT pre hu hp hpre hblk
  have hearlier : ∀ A id B, collectMovable F L DT = A ++ id :: B →
      ∀ b I, F.findInst id = some (b, I) →
        ∀ d, Value.inst d ∈ I.operands → containsInst F L d = true → d ∈ A := by
    intro A id B h b I hI d hd hc
    rcases (accepted_operands_earlier F L DT hu A id B h b I hI d hd).2 with h1 | h1
    · rw [h1] at hc
      exact absurd hc (by simp)
    · exact h1
  refine ⟨collectMovable_nodup F L DT, hearlier, hlay, accepted_ids F L DT hu, ?_, ?_⟩
  · intro I hI d hd hdM
    obtain ⟨id, hidM, b, hfind⟩ := (mem_instsWithIds F (collectMovable F L DT) I).1 hI
    obtain ⟨A, B, hAB⟩ := List.append_of_mem hidM
    have hdA : d ∈ A :=
      hearlier A id B hAB b I hfind d hd (containsInst_of_accepted F L DT hu d hdM)
    obtain ⟨A1, A2, hA⟩ := List.append_of_mem hdA
    obtain ⟨bd, hbd, D, hD, hDid⟩ := accepted_visited F L DT d hdM
    have hfD := findInst_of_mem F hu bd D hD
    rw [hDid] at hfD
    refine ⟨D, hDid, F.instsOf pre ++ instsWithIds F A1, instsWithIds F A2,
      instsWithIds F B, ?_⟩
    rw [hlay, hAB, hA, instsWithIds_append, instsWithIds_append,
      instsWithIds_cons_of_find F d A2 bd D hfD, instsWithIds_cons_of_find F id B b I hfind]
    simp
  · intro I hI d hd
    obtain ⟨id, hidM, b, hfind⟩ := (mem_instsWithIds F (collectMovable F L DT) I).1 hI
    obtain ⟨A, B, hAB⟩ := List.append_of_mem hidM
    have hop := (accepted_operands_earlier F L DT hu A id B hAB b I hfind d hd).2
    by_cases hdM : d ∈ collectMovable F L DT
    · -- the operand was hoisted: it is found in the preheader
      unfold containsInst
      cases hf : (runOnLoop F (some L) DT).2.findInst d with
      | none => rfl
      | some p =>
        obtain ⟨bd, D⟩ := p
        simp only [Loop.contains, decide_eq_false_iff_not]
        obtain ⟨hDid, B2, hB2, hB2id, hDB2⟩ := findInstIn_some _ d bd D hf
        rw [(runOnLoop_preheader_layout F L DT pre hu hp hpre).1] at hB2
        obtain ⟨B0, hB0, rfl⟩ := List.mem_map.mp hB2
        simp only [] at hB2id hDB2
        by_cases hb0 : B0.id = pre
        · rw [← hB2id, hb0]
          exact hpre
        · rw [if_neg hb0] at hDB2
          have := (List.mem_filter.mp hDB2).2
          rw [hDid] at this
          simp at this
          exact absurd hdM this
    · -- the operand was not hoisted: it was outside the loop and stays where it was
      have hout : containsInst F L d = false := by
        rcases hop with h1 | h1
        · exact h1
        · exact absurd (by rw [hAB]; exact List.mem_append_left _ h1) hdM
      have hsame : (runOnLoop F (some L) DT).2.findInst d = F.findInst d := by
        rw [runOnLoop_eq_hoisted F L DT pre hp]
        exact findInst_hoisted F pre _ _ d hdM (instsWithIds_id F _)
      unfold containsInst at hout ⊢
      rw [hsame]
      exact hout

set_option maxRecDepth 100000 in
/-- C33 on `hoistExample`: the scan accepts 12 and then 13, which uses 12; after the move
the preheader 3 holds 5, 6, 12, 13 in this order, and the operands 12 and 6 of the
hoisted instruction 13 are not defined inside the loop. -/
theorem runOnLoop_definitions_before_uses_witness :
    collectMovable hoistExample hoistLoop hoistDT = [12, 13] ∧
    (runOnLoop hoistExample (some hoistLoop) hoistDT).2.instsOf 3
      = [phi2 5 (Value.const 0) 1 (Value.const 1) 2,
         ins 6 Opcode.binop [Value.arg 0, Value.const 1],
         ins 12 Opcode.binop [Value.arg 0, Value.arg 1],
         ins 13 Opcode.binop [Value.inst 12, Value.inst 6]] ∧
    (∃ D, D.id = 12 ∧ Before D (ins 13 Opcode.binop [Value.inst 12, Value.inst 6])
      ((runOnLoop hoistExample (some hoistLoop) hoistDT).2.instsOf 3)) ∧
    containsInst (runOnLoop hoistExample (some hoistLoop) hoistDT).2 hoistLoop 12 = false ∧
    containsInst (runOnLoop hoistExample (some hoistLoop) hoistDT).2 hoistLoop 6 = false := by
  have hthm := runOnLoop_definitions_before_uses hoistExample hoistLoop hoistDT 3
    (by unfold UniqueIds; decide) rfl (by decide) (by decide)
  have hM : collectMovable hoistExample hoistLoop hoistDT = [12, 13] := by decide
  have hI : ins 13 Opcode.binop [Value.inst 12, Value.inst 6]
      ∈ instsWithIds hoistExample (collectMovable hoistExample hoistLoop hoistDT) := by decide
  refine ⟨hM, by decide, ?_, ?_, ?_⟩
  · exact hthm.2.2.2.2.1 _ hI 12 (by decide) (by decide)
  · exact hthm.2.2.2.2.2 _ hI 12 (by decide)
  · exact hthm.2.2.2.2.2 _ hI 6 (by decide)

end DefinitionBeforeUse

section TerminatorOperands

open IR LICMopt LoopFusionOpt Examples

theorem inv_foldl {α : Type} (Inv : Func → Prop) (f : Func → α → Func)
    (hf : ∀ G x, Inv G → Inv (f G x)) :
    ∀ (l : List α) (F : Func), Inv F → Inv (l.foldl f F) := by
  intro l
  induction l with
  | nil => intro F h; exact h
  | cons a l ih => intro F h; exact ih _ (hf F a h)

theorem inv_foldlM {α : Type} (Inv : Func → Prop) (f : Func → α → Option Func) (S : α → Prop)
    (hf : ∀ G x G2, S x → Inv G → f G x = some G2 → Inv G2) :
    ∀ (l : List α) (F F2 : Func), (∀ x ∈ l, S x) → Inv F → l.foldlM f F = some F2 → Inv F2 := by
  intro l
  induction l with
  | nil =>
    intro F F2 _ h e
    simp only [List.foldlM_nil, Option.pure_def, Option.some.injEq] at e
    rw [← e]; exact h
  | cons a l ih =>
    intro F F2 hS h e
    simp only [List.foldlM_cons, Option.bind_eq_bind] at e
    cases h1 : f F a with
    | none => rw [h1] at e; exact absurd e (by simp)
    | some G =>
      rw [h1] at e
      simp only [Option.some_bind] at e
      exact ih G F2 (fun x hx => hS x (List.mem_cons_of_mem _ hx))
        (hf F a G (hS a (by simp)) h h1) e

theorem holdsT_map (T : Nat → List Value → Prop) (G : Func) (f : Block → Block)
    (h : HoldsT T G)
    (hf : ∀ B ∈ G.blocks, T B.id B.term.operands → T (f B).id (f B).term.operands) :
    HoldsT T { blocks := G.blocks.map f } := by
  intro B2 hB2
  obtain ⟨B, hB, rfl⟩ := List.mem_map.mp hB2
  exact hf B hB (h B hB)

theorem holdsT_eraseInst (T : Nat → List Value → Prop) (G : Func) (id : Nat)
    (h : HoldsT T G) : HoldsT T (eraseInst G id) :=
  holdsT_map T G _ h (fun _ _ hB => hB)

theorem holdsT_appendInst (T : Nat → List Value → Prop) (G : Func) (b : Nat) (I : Instr)
    (h : HoldsT T G) : HoldsT T (appendInst G b I) :=
  holdsT_map T G _ h (fun B _ hB => by
    by_cases hb : (B.id == b) = true
    · simp only [hb, ↓reduceIte]; exact hB
    · simp only [hb]; exact hB)

theorem holdsT_insertAt (T : Nat → List Value → Prop) (G : Func) (pt : InsertPt) (I : Instr)
    (h : HoldsT T G) : HoldsT T (insertAt G pt I) := by
  cases pt with
  | before t => exact holdsT_map T G _ h (fun _ _ hB => hB)
  | atEnd b => exact holdsT_appendInst T G b I h

theorem holdsT_moveBefore (T : Nat → List Value → Prop) (G : Func) (id : Nat) (pt : InsertPt)
    (h : HoldsT T G) : HoldsT T (moveBefore G id pt) := by
  unfold moveBefore
  split
  · exact h
  · split
    · exact holdsT_insertAt T _ pt _ (holdsT_eraseInst T G id h)
    · exact h

theorem holdsT_mapInsts (T : Nat → List Value → Prop) (G : Func) (f : Instr → Instr)
    (g : Term → Term) (h : HoldsT T G)
    (hg : ∀ id X, T id X.operands → T id (g X).operands) : HoldsT T (mapInsts G f g) :=
  holdsT_map T G _ h (fun B _ hB => hg B.id B.term hB)

theorem holdsT_updateInst (T : Nat → List Value → Prop) (G : Func) (id : Nat)
    (f : Instr → Instr) (h : HoldsT T G) : HoldsT T (updateInst G id f) :=
  holdsT_mapInsts T G _ _ h (fun _ _ hX => hX)

theorem holdsT_updateBlock (T : Nat → List Value → Prop) (G : Func) (b : Nat)
    (f : Block → Block) (h : HoldsT T G)
    (hf : ∀ B, T B.id B.term.operands → T (f B).id (f B).term.operands) :
    HoldsT T (updateBlock G b f) :=
  holdsT_map T G _ h (fun B _ hB => by
    by_cases hb : B.id = b
    · simp only [hb, ↓reduceIte]; exact hf B hB
    · simp only [hb, ↓reduceIte]; exact hB)

theorem holdsT_replacePhiUsesWith (T : Nat → List Value → Prop) (G : Func) (b : Nat)
    (Old : Option Nat) (New : Nat) (h : HoldsT T G) :
    HoldsT T (replacePhiUsesWith G b Old New) := by
  unfold replacePhiUsesWith
  cases Old with
  | none => exact h
  | some o => exact holdsT_updateBlock T G b _ h (fun _ hB => hB)

theorem holdsT_setSuccessor (T : Nat → List Value → Prop) (G : Func) (b i n : Nat)
    (G2 : Func) (h : HoldsT T G) (hs : setSuccessor G b i n = some G2) : HoldsT T G2 := by
  unfold setSuccessor at hs
  split at hs
  · split at hs
    · simp only [Option.some.injEq] at hs
      rw [← hs]
      exact holdsT_updateBlock T G b _ h (fun _ hB => hB)
    · exact absurd hs (by simp)
  · exact absurd hs (by simp)

theorem holdsT_replaceSuccessorWith (T : Nat → List Value → Prop) (G : Func) (b o n : Nat)
    (h : HoldsT T G) : HoldsT T (replaceSuccessorWith G b o n) :=
  holdsT_updateBlock T G b _ h (fun _ hB => hB)

theorem holdsT_eraseBlock (T : Nat → List Value → Prop) (G : Func) (b : Nat)
    (h : HoldsT T G) : HoldsT T (eraseBlock G b) :=
  fun B hB => h B (List.mem_filter.mp hB).1

theorem holdsT_moveBlockBefore (T : Nat → List Value → Prop) (G : Func) (b t : Nat)
    (h : HoldsT T G) : HoldsT T (moveBlockBefore G b t) :=
  fun B hB => h B (mem_moveBlockBefore G b t B hB)

theorem holdsT_replaceAllUsesWith (T : Nat → List Value → Prop) (G : Func) (old new : Value)
    (h : HoldsT T G)
    (hT : ∀ id ops, T id ops → T id (ops.map (fun v => if v = old then new else v))) :
    HoldsT T (replaceAllUsesWith G old new) := by
  unfold replaceAllUsesWith
  exact holdsT_mapInsts T G _ _ h (fun id X hX => hT id X.operands hX)

theorem holdsT_updateFirstPhi (T : Nat → List Value → Prop) (lv in1 : Value) (G : Func)
    (x : Nat) (G2 : Func) (h : HoldsT T G) (e : updateFirstPhi lv in1 G x = some G2) :
    HoldsT T G2 := by
  unfold updateFirstPhi at e
  split at e
  · split at e
    · split at e
      · simp only [Option.some.injEq] at e
        rw [← e]
        exact holdsT_updateInst T G x _ h
      · simp only [Option.some.injEq] at e
        rw [← e]; exact h
    · exact absurd e (by simp)
  · exact absurd e (by simp)

theorem holdsT_reconcilePhi (T : Nat → List Value → Prop) (First : Loop) (fe : Nat)
    (fhp : List Nat) (ib : InsertPt) (G : Func) (phi : Nat) (G2 : Func)
    (hT : ∀ new id ops, T id ops →
      T id (ops.map (fun v => if v = Value.inst phi then new else v)))
    (h : HoldsT T G) (e : reconcilePhi First fe fhp ib G phi = some G2) : HoldsT T G2 := by
  unfold reconcilePhi at e
  split at e
  · split at e
    · split at e
      · split at e
        · split at e
          · rename_i F1 hF1
            simp only [Option.some.injEq] at e
            rw [← e]
            apply holdsT_eraseInst
            apply holdsT_eraseInst
            apply holdsT_replaceAllUsesWith T F1 _ _ _ (hT _)
            exact inv_foldlM (HoldsT T) _ (fun _ => True)
              (fun G x G2 _ hG e => holdsT_updateFirstPhi T _ _ G x G2 hG e)
              fhp G F1 (fun _ _ => trivial) h hF1
          · exact absurd e (by simp)
        · exact absurd e (by simp)
      · simp only [Option.some.injEq] at e
        rw [← e]
        exact holdsT_moveBefore T G phi ib h
    · exact absurd e (by simp)
  · exact absurd e (by simp)

theorem holdsT_setIncomingBlock0 (T : Nat → List Value → Prop) (fl : Nat) (G : Func) (x : Nat)
    (G2 : Func) (h : HoldsT T G) (e : setIncomingBlock0 fl G x = some G2) : HoldsT T G2 := by
  unfold setIncomingBlock0 at e
  split at e
  · split at e
    · simp only [Option.some.injEq] at e
      rw [← e]
      exact holdsT_updateInst T G x _ h
    · exact absurd e (by simp)
  · exact absurd e (by simp)

theorem holdsT_moveLCSSA (T : Nat → List Value → Prop) (G : Func) (fe fl se : Nat) (G2 : Func)
    (h : HoldsT T G) (e : moveLCSSA G fe fl se = some G2) : HoldsT T G2 := by
  unfold moveLCSSA at e
  simp only [] at e
  split at e
  · rename_i F1 hF1
    simp only [Option.some.injEq] at e
    rw [← e]
    apply inv_foldl (HoldsT T) _ (fun G x hG => holdsT_moveBefore T G x _ hG)
    exact inv_foldlM (HoldsT T) (setIncomingBlock0 fl) (fun _ => True)
      (fun G x G2 _ hG e => holdsT_setIncomingBlock0 T fl G x G2 hG e)
      _ G F1 (fun _ _ => trivial) h hF1
  · exact absurd e (by simp)

theorem holdsT_resourcePhis (T : Nat → List Value → Prop) (G : Func)
    (fp fl fb sp sl sh se : Nat) (h : HoldsT T G) :
    HoldsT T (resourcePhis G fp fl fb sp sl sh se) := by
  unfold resourcePhis
  simp only []
  apply holdsT_replacePhiUsesWith
  apply holdsT_replacePhiUsesWith
  apply holdsT_replacePhiUsesWith
  exact holdsT_replacePhiUsesWith T _ _ _ _ h

theorem holdsT_fixPhis (T : Nat → List Value → Prop) (G : Func) (First : Loop)
    (fp fl fe fb fh sp sl se sh : Nat) (G2 : Func)
    (hT : ∀ phi ∈ phisOf (resourcePhis G fp fl fb sp sl sh se) sh, ∀ new id ops, T id ops →
      T id (ops.map (fun v => if v = Value.inst phi then new else v)))
    (h : HoldsT T G) (e : fixPhis G First fp fl fe fb fh sp sl se sh = some G2) :
    HoldsT T G2 := by
  unfold fixPhis at e
  simp only [] at e
  split at e
  · rename_i F2 hF2
    apply holdsT_moveLCSSA T F2 fe fl se G2 _ e
    exact inv_foldlM (HoldsT T) _
      (fun phi => ∀ new id ops, T id ops →
        T id (ops.map (fun v => if v = Value.inst phi then new else v)))
      (fun G x G2 hx hG e => holdsT_reconcilePhi T First fe _ _ G x G2 hx hG e)
      _ _ F2 hT (holdsT_resourcePhis T G fp fl fb sp sl sh se h) hF2
  · exact absurd e (by simp)

theorem holdsT_unifyGuards (T : Nat → List Value → Prop)
    (s : FuseState) (g1 g2 fe se : Nat) (s3 : FuseState) (h : HoldsT T s.F)
    (e : unifyGuards s g1 g2 fe se = some (GuardStep.done s3)) : HoldsT T s3.F := by
  unfold unifyGuards at e
  split at e
  · exact absurd e (by simp)
  · split at e
    · exact absurd e (by simp)
    · rename_i F1 hF1
      simp only [] at e
      split at e
      · exact absurd e (by simp)
      · rename_i F4 hF4
        split at e
        · exact absurd e (by simp)
        · simp only [Option.some.injEq, GuardStep.done.injEq] at e
          rw [← e]
          simp only [deleteBlock]
          apply holdsT_eraseBlock
          apply holdsT_eraseBlock
          apply holdsT_replacePhiUsesWith
          apply inv_foldl (HoldsT T) _ (fun G x hG => holdsT_moveBefore T G x _ hG)
          apply holdsT_setSuccessor T _ _ _ _ _ _ hF4
          apply holdsT_replaceSuccessorWith
          apply holdsT_replacePhiUsesWith
          exact holdsT_setSuccessor T _ _ _ _ _ h hF1

theorem holdsT_finishFusion (T : Nat → List Value → Prop)
    (s : FuseState) (First Second : Loop) (fl fb sp sl sb sh se : Nat) (r : Option Loop)
    (t : FuseState) (h : HoldsT T s.F)
    (e : finishFusion s First Second fl fb sp sl sb sh se = some (r, t)) : HoldsT T t.F := by
  unfold finishFusion at e
  split at e
  · exact absurd e (by simp)
  · rename_i s1 hs1
    simp only [Option.some.injEq, Prod.mk.injEq] at e
    rw [← e.2]
    simp only [rehomeBlocks]
    apply inv_foldl (HoldsT T) _ (fun G x hG => holdsT_moveBlockBefore T G x _ hG)
    unfold spliceControlFlow at hs1
    split at hs1
    · exact absurd hs1 (by simp)
    · rename_i F1 hF1
      simp only [Option.some.injEq] at hs1
      rw [← hs1]
      simp only [deleteBlock]
      apply holdsT_eraseBlock
      apply holdsT_eraseBlock
      apply holdsT_replaceSuccessorWith
      apply holdsT_replaceSuccessorWith
      apply holdsT_replaceSuccessorWith
      exact holdsT_setSuccessor T _ _ _ _ _ h hF1

/-- The terminators right after the induction variables are unified. -/
theorem holdsT_unifyInductionVariables (F : Func) (fiv siv : Nat) :
    HoldsT (fun id ops => ∃ B0 ∈ F.blocks, B0.id = id ∧
        ops.length = B0.term.operands.length ∧
        ∀ k : Nat, B0.term.operands[k]? = some (Value.inst siv) →
          ops[k]? = some (Value.inst fiv))
      (unifyInductionVariables F fiv siv) := by
  intro B2 hB2
  simp only [unifyInductionVariables, eraseInst, replaceAllUsesWith, mapInsts, List.map_map,
    List.mem_map, Function.comp] at hB2
  obtain ⟨B, hB, rfl⟩ := hB2
  refine ⟨B, hB, rfl, by simp, ?_⟩
  intro k hk
  simp only [List.getElem?_map, hk, Option.map_some', ↓reduceIte]

end TerminatorOperands

section InductionVariableResult

open IR LICMopt LoopFusionOpt Examples

/-- C20. After a run of `fuseLoops` that returns a loop, for a function with unique
instruction identities in which the two induction variables are different instructions,
First's induction variable is not a merge node of Second's header and no merge node of
First's header has Second's induction variable as incoming value 1: no terminator and no
other instruction of the function refers to Second's induction variable, no block holds
an instruction with the identity of Second's induction variable, every instruction of
the function is an instruction of the original function in which every operand position
that referred to Second's induction variable refers to First's, and the terminator of
every block is the terminator of the original block with the same identity, with as many
operands, in which every operand position that referred to Second's induction variable
refers to First's. -/
theorem fuseLoops_unifies_induction_variables (F : Func) (FAM : FunctionAnalysisManager)
    (First Second Fused : Loop) (t : FuseState) (fp fh sp sh fiv siv : Nat)
    (h : fuseLoops F FAM (some First) (some Second) = some (some Fused, t))
    (hfp : First.preheader = some fp) (hfh : getSingleSuccessor F fp = some fh)
    (hsp : Second.preheader = some sp) (hsh : getSingleSuccessor F sp = some sh)
    (hfiv : FAM.SE.getInductionVariable First = some fiv)
    (hsiv : FAM.SE.getInductionVariable Second = some siv)
    (hu : UniqueIds F) (hne : fiv ≠ siv)
    (H1 : ∀ P ∈ F.instsOf sh, P.op = Opcode.phi → P.id ≠ fiv)
    (H2 : ∀ P ∈ F.instsOf fh, P.op = Opcode.phi →
      P.operands[1]? ≠ some (Value.inst siv)) :
    (∀ B ∈ t.F.blocks, Value.inst siv ∉ B.term.operands ∧
      ∀ I ∈ B.insts, Value.inst siv ∉ I.operands ∧ I.id ≠ siv) ∧
    (∀ I ∈ t.F.allInsts, ∃ I0 ∈ F.allInsts, I0.id = I.id ∧ I0.op = I.op ∧
      ∀ k : Nat, I0.operands[k]? = some (Value.inst siv) →
        I.operands[k]? = some (Value.inst fiv)) ∧
    (∀ B ∈ t.F.blocks, ∃ B0 ∈ F.blocks, B0.id = B.id ∧
      B.term.operands.length = B0.term.operands.length ∧
      ∀ k : Nat, B0.term.operands[k]? = some (Value.inst siv) →
        B.term.operands[k]? = some (Value.inst fiv)) := by
  obtain ⟨fp', fl, fe, sp', sl, se, fh', fb, sh', sb, fiv', siv', F2, s3,
    e1, e2, e3, e4, e5, e6, e7, e8, e9, e10, e11, e12, hfix, hguard, hfin⟩ :=
    fuseLoops_success F FAM First Second Fused t h
  have x1 : fp' = fp := Option.some.inj (e1.symm.trans hfp)
  subst x1
  have x7 : fh' = fh := Option.some.inj (e7.symm.trans hfh)
  subst x7
  have x4 : sp' = sp := Option.some.inj (e4.symm.trans hsp)
  subst x4
  have x9 : sh' = sh := Option.some.inj (e9.symm.trans hsh)
  subst x9
  have x11 : fiv' = fiv := Option.some.inj (e11.symm.trans hfiv)
  subst x11
  have x12 : siv' = siv := Option.some.inj (e12.symm.trans hsiv)
  subst x12
  have hphis : ∀ phi ∈ phisOf (resourcePhis (unifyInductionVariables F fiv' siv') fp' fl fb
      sp' sl sh' se) sh', phi ≠ fiv' := by
    intro phi hphi
    obtain ⟨I, hI, hop, hid⟩ := phisOf_resourcePhis_unify F fiv' siv' _ _ _ _ _ _ _ _ phi hphi
    rw [← hid]; exact H1 I hI hop
  have h0 := holds_unifyInductionVariables F fiv' siv' hne
  have hF2 : Holds (IVUnified F fiv' siv') (fun ops => Value.inst siv' ∉ ops) F2 := by
    apply holds_fixPhis_iv F fiv' siv' _ First fp' fl fe fb fh' sp' sl se sh' F2 hphis _ h0 hfix
    intro x hx I0 hI0 hid
    obtain ⟨P, hP, hop, hPid⟩ := phisOf_resourcePhis_unify F fiv' siv' _ _ _ _ _ _ _ _ x hx
    have : I0 = P :=
      eq_of_id_eq F hu I0 P hI0 (instsOf_subset_allInsts F fh' P hP) (hid.trans hPid.symm)
    rw [this]; exact H2 P hP hop
  have hs3 : Holds (IVUnified F fiv' siv') (fun ops => Value.inst siv' ∉ ops) s3.F := by
    rcases hguard with ⟨g1, g2, -, -, hg⟩ | ⟨-, hs⟩
    · exact holds_unifyGuards _ _ (ivUnified_incoming F fiv' siv') _ g1 g2 fe se s3 hF2 hg
    · rw [hs]; exact hF2
  have ht := holds_finishFusion _ _ s3 First Second fl fb sp' sl sb sh' se _ t hs3 hfin
  -- the terminators
  have k0 := holdsT_unifyInductionVariables F fiv' siv'
  have kF2 := holdsT_fixPhis _ _ First fp' fl fe fb fh' sp' sl se sh' F2 (by
    intro phi hphi new id ops hT
    obtain ⟨B0, hB0, hid, hlen, hpos⟩ := hT
    refine ⟨B0, hB0, hid, by rw [List.length_map]; exact hlen, ?_⟩
    intro k hk
    have hne2 : Value.inst fiv' ≠ Value.inst phi :=
      fun e => hphis phi hphi (by injection e with e; exact e.symm)
    simp only [List.getElem?_map, hpos k hk, Option.map_some', Option.some.injEq]
    rw [if_neg hne2]) k0 hfix
  have ks3 : HoldsT (fun id ops => ∃ B0 ∈ F.blocks, B0.id = id ∧
      ops.length = B0.term.operands.length ∧
      ∀ k : Nat, B0.term.operands[k]? = some (Value.inst siv') →
        ops[k]? = some (Value.inst fiv')) s3.F := by
    rcases hguard with ⟨g1, g2, -, -, hg⟩ | ⟨-, hs⟩
    · exact holdsT_unifyGuards _ _ g1 g2 fe se s3 kF2 hg
    · rw [hs]; exact kF2
  have kt := holdsT_finishFusion _ s3 First Second fl fb sp' sl sb sh' se _ t ks3 hfin
  refine ⟨fun B hB => ⟨(ht B hB).1, fun I hI => ⟨((ht B hB).2 I hI).1, ((ht B hB).2 I hI).2.1⟩⟩,
    ?_, ?_⟩
  · intro I hI
    obtain ⟨B, hB, hIB⟩ := (mem_allInsts t.F I).1 hI
    exact ((ht B hB).2 I hIB).2.2
  · intro B hB
    exact kt B hB

set_option maxRecDepth 100000 in
/-- C20 on `returnsSecondIV`: Second's induction variable 20 is gone, the address
computation 22 of Second's body, which indexed the array with 20, indexes it with First's
induction variable 10, and the return of block 6, which returned 20, returns 10. -/
theorem fuseLoops_unifies_induction_variables_witness :
    returnsSecondIV.instsOf 4 =
      [phi2 20 (Value.const 0) 3 (Value.inst 21) 5,
       ins 22 (Opcode.gep 0) [Value.arg 0, Value.inst 20],
       ins 23 Opcode.load [Value.inst 22]] ∧
    (returnsSecondIV.findBlock 6).map (fun B => B.term.operands) = some [Value.inst 20] ∧
    ∃ Fused t,
      fuseLoops returnsSecondIV (exampleFAM 4 0 4 4) (some loopA) (some loopB)
        = some (some Fused, t) ∧
      t.F.instsOf 4 =
        [ins 22 (Opcode.gep 0) [Value.arg 0, Value.inst 10],
         ins 23 Opcode.load [Value.inst 22]] ∧
      (t.F.findBlock 6).map (fun B => B.term.operands) = some [Value.inst 10] ∧
      ((∀ B ∈ t.F.blocks, Value.inst 20 ∉ B.term.operands ∧
        ∀ I ∈ B.insts, Value.inst 20 ∉ I.operands ∧ I.id ≠ 20) ∧
      (∀ I ∈ t.F.allInsts, ∃ I0 ∈ returnsSecondIV.allInsts, I0.id = I.id ∧ I0.op = I.op ∧
        ∀ k : Nat, I0.operands[k]? = some (Value.inst 20) →
          I.operands[k]? = some (Value.inst 10)) ∧
      (∀ B ∈ t.F.blocks, ∃ B0 ∈ returnsSecondIV.blocks, B0.id = B.id ∧
        B.term.operands.length = B0.term.operands.length ∧
        ∀ k : Nat, B0.term.operands[k]? = some (Value.inst 20) →
          B.term.operands[k]? = some (Value.inst 10))) := by
  refine ⟨by decide, by decide, ?_⟩
  have hsome : (fuseLoops returnsSecondIV (exampleFAM 4 0 4 4) (some loopA) (some loopB)).map
      (fun r => (r.1.isSome, r.2.F.instsOf 4,
        (r.2.F.findBlock 6).map (fun B => B.term.operands)))
      = some (true, [ins 22 (Opcode.gep 0) [Value.arg 0, Value.inst 10],
         ins 23 Opcode.load [Value.inst 22]], some [Value.inst 10]) := by decide
  have hu : UniqueIds returnsSecondIV := by unfold UniqueIds; decide
  cases hres : fuseLoops returnsSecondIV (exampleFAM 4 0 4 4) (some loopA) (some loopB) with
  | none => rw [hres] at hsome; simp at hsome
  | some r =>
    obtain ⟨Lo, t⟩ := r
    cases Lo with
    | none => rw [hres] at hsome; simp at hsome
    | some Fused =>
      rw [hres] at hsome
      simp only [Option.map_some', Option.some.injEq, Prod.mk.injEq] at hsome
      refine ⟨Fused, t, rfl, hsome.2.1, hsome.2.2, ?_⟩
      exact fuseLoops_unifies_induction_variables returnsSecondIV (exampleFAM 4 0 4 4)
        loopA loopB Fused t 0 1 3 4 10 20 hres rfl (by decide) rfl (by decide) (by decide)
        (by decide) hu (by decide) (by decide) (by decide)

end InductionVariableResult

section EntryDominance

open IR LICMopt LoopFusionOpt Examples

theorem first_occurrence (l : List Nat) (a : Nat) (h : a ∈ l) :
    ∃ l1 l2, l = l1 ++ a :: l2 ∧ a ∉ l1 := by
  induction l with
  | nil => simp at h
  | cons x l ih =>
    by_cases hx : x = a
    · exact ⟨[], l, by simp [hx], by simp⟩
    · have hl : a ∈ l := by
        rcases List.mem_cons.mp h with h1 | h1
        · exact absurd h1.symm hx
        · exact h1
      obtain ⟨l1, l2, e, hn⟩ := ih hl
      refine ⟨x :: l1, l2, by rw [e]; rfl, ?_⟩
      intro hm
      rcases List.mem_cons.mp hm with h1 | h1
      · exact hx h1.symm
      · exact hn h1

/-- The part of a path up to one of its blocks is a path from the same start. -/
theorem isPath_initial (F : Func) (l1 l2 : List Nat) (a e : Nat)
    (hp : IsPath F (l1 ++ a :: l2)) (hh : (l1 ++ a :: l2).head? = some e) :
    IsPath F (l1 ++ [a]) ∧ (l1 ++ [a]).head? = some e ∧ (l1 ++ [a]).getLast? = some a := by
  refine ⟨?_, ?_, by simp⟩
  · have e1 : l1 ++ a :: l2 = (l1 ++ [a]) ++ l2 := by simp
    unfold IsPath at hp ⊢
    rw [e1] at hp
    exact hp.left_of_append
  · cases l1 with
    | nil => simpa using hh
    | cons x l1 => simpa using hh

/-- The part of a path from one of its blocks on is a path. -/
theorem isPath_final (F : Func) (l1 l2 : List Nat) (hp : IsPath F (l1 ++ l2)) :
    IsPath F l2 := by
  unfold IsPath at hp ⊢
  exact hp.right_of_append

/-- A path that avoids `a` and starts in a set closed under successors except at `a`
stays in the set. -/
theorem path_stays (F : Func) (a : Nat) (S : List Nat) (hc : closedAvoiding F a S = true) :
    ∀ (p : List Nat), IsPath F p → a ∉ p → (∀ x, p.head? = some x → x ∈ S) →
      ∀ y ∈ p, y ∈ S := by
  intro p
  induction p with
  | nil => intro _ _ _ y hy; simp at hy
  | cons x p ih =>
    intro hp ha hh y hy
    have hx : x ∈ S := hh x rfl
    rcases List.mem_cons.mp hy with h1 | h1
    · rw [h1]; exact hx
    · refine ih ?_ (fun hm => ha (List.mem_cons_of_mem _ hm)) ?_ y h1
      · unfold IsPath at hp ⊢
        exact hp.tail
      · intro z hz
        cases p with
        | nil => simp at hz
        | cons w p =>
          have hzw : z = w := by simpa using hz.symm
          subst hzw
          have hrel : z ∈ F.succsOf x := by
            unfold IsPath at hp
            exact (List.chain'_cons.mp hp).1
          unfold closedAvoiding at hc
          have := List.all_eq_true.mp hc x hx
          have hxa : x ≠ a := fun e => ha (by simp [e])
          simp only [Bool.or_eq_true, beq_iff_eq, hxa, false_or] at this
          simpa using List.all_eq_true.mp this z hrel

theorem dominatesFrom_of_closed (F : Func) (e a b : Nat) (S : List Nat)
    (he : e ∈ S) (hc : closedAvoiding F a S = true) (hb : b ∉ S) : DominatesFrom F e a b := by
  intro p hp hh hl
  by_contra ha
  have hall := path_stays F a S hc p hp ha (fun x hx => by
    rw [hh] at hx; exact (Option.some.inj hx) ▸ he)
  exact hb (hall b (List.mem_of_getLast?_eq_some hl))

theorem postDominates_of_closed (F : Func) (a b : Nat) (S : List Nat)
    (hbS : b ∈ S) (hc : closedAvoiding F a S = true) (hx : noExitAvoiding F a S = true) :
    PostDominates F a b := by
  intro p hp hh hl
  obtain ⟨x, hlast, hsucc⟩ := hl
  by_contra ha
  have hall := path_stays F a S hc p hp ha (fun y hy => by
    rw [hh] at hy; exact (Option.some.inj hy) ▸ hbS)
  have hxp : x ∈ p := List.mem_of_getLast?_eq_some hlast
  have hxS := hall x hxp
  unfold noExitAvoiding at hx
  have := List.all_eq_true.mp hx x hxS
  have hxa : x ≠ a := fun e => ha (e ▸ hxp)
  simp only [Bool.or_eq_true, beq_iff_eq, hxa, false_or, hsucc, List.isEmpty_nil,
    Bool.not_true, Bool.false_eq_true] at this

/-- When First's header dominates Second's header, First's preheader dominates Second's
preheader. -/
theorem preheader_dominates (F : Func) (e fp fh sp sh : Nat)
    (hss : F.succsOf sp = [sh]) (hne : fh ≠ sh)
    (hph : DominatesFrom F e fp fh) (hd : DominatesFrom F e fh sh) :
    DominatesFrom F e fp sp := by
  intro p hp hh hl
  -- the path continued to Second's header
  have hp2 : IsPath F (p ++ [sh]) := by
    unfold IsPath at hp ⊢
    rw [List.chain'_append]
    refine ⟨hp, by simp, ?_⟩
    intro x hx y hy
    have hxs : x = sp := by rw [hl] at hx; simpa using hx.symm
    have hys : y = sh := by simpa using hy.symm
    rw [hxs, hys, hss]; simp
  have hh2 : (p ++ [sh]).head? = some e := by
    cases p with
    | nil => simp at hh
    | cons x p => simpa using hh
  have hfh : fh ∈ p ++ [sh] := hd _ hp2 hh2 (by simp)
  have hfhp : fh ∈ p := by
    rcases List.mem_append.mp hfh with h1 | h1
    · exact h1
    · exact absurd (by simpa using h1) hne
  obtain ⟨l1, l2, e1⟩ := List.append_of_mem hfhp
  rw [e1] at hp hh
  obtain ⟨q1, q2, q3⟩ := isPath_initial F l1 l2 fh e hp hh
  have := hph _ q1 q2 q3
  rw [e1]
  rcases List.mem_append.mp this with h1 | h1
  · exact List.mem_append_left _ h1
  · have : fp = fh := by simpa using h1
    rw [this]; simp

/-- When Second's header post-dominates First's header and First's header dominates
Second's header, Second's preheader post-dominates First's preheader. -/
theorem preheader_postDominates (F : Func) (e fp fh sp sh : Nat)
    (hfs : F.succsOf fp = [fh]) (hss : F.succsOf sp = [sh])
    (hne : fh ≠ sh) (hne2 : sp ≠ fh) (hne3 : sp ≠ sh)
    (hreach : ∃ w, IsPath F w ∧ w.head? = some e ∧ w.getLast? = some fh)
    (hph : DominatesFrom F e sp sh) (hd : DominatesFrom F e fh sh)
    (hpd : PostDominates F sh fh) : PostDominates F sp fp := by
  intro q hq hh hl
  obtain ⟨x, hlast, hsucc⟩ := hl
  cases q with
  | nil => simp at hh
  | cons a q' =>
    have ha : a = fp := by simpa using hh
    subst ha
    cases q' with
    | nil =>
      have : x = a := by simpa using hlast.symm
      rw [this, hfs] at hsucc
      exact absurd hsucc (by simp)
    | cons y q'' =>
      have hy : y = fh := by
        unfold IsPath at hq
        have := (List.chain'_cons.mp hq).1
        rw [hfs] at this
        simpa using this
      subst hy
      have hq' : IsPath F (y :: q'') := by
        unfold IsPath at hq ⊢
        exact hq.tail
      have hshq : sh ∈ y :: q'' := hpd (y :: q'') hq' rfl ⟨x, by simpa using hlast, hsucc⟩
      -- the part of the path from First's header to Second's header
      obtain ⟨r1, r2, er⟩ := List.append_of_mem hshq
      have hr1 : r1 ≠ [] := by
        intro e0
        rw [e0] at er
        simp only [List.nil_append, List.cons.injEq] at er
        exact hne er.1
      obtain ⟨r1', er1⟩ : ∃ r1', r1 = y :: r1' := by
        cases r1 with
        | nil => exact absurd rfl hr1
        | cons z r1' =>
          simp only [List.cons_append, List.cons.injEq] at er
          exact ⟨r1', by rw [er.1]⟩
      -- a path from the entry to First's header that meets it at its end only
      obtain ⟨w, hw, hwh, hwl⟩ := hreach
      obtain ⟨w1, w2, ew, hnw⟩ := first_occurrence w y (List.mem_of_getLast?_eq_some hwl)
      rw [ew] at hw hwh
      obtain ⟨hw1, hw1h, -⟩ := isPath_initial F w1 w2 y e hw hwh
      -- the two parts joined: a path from the entry to Second's header
      have hjoin : IsPath F (w1 ++ (y :: r1' ++ [sh])) := by
        have hsuf : IsPath F (y :: r1' ++ [sh]) := by
          have : IsPath F (r1 ++ [sh]) := by
            rw [er] at hq'
            exact (isPath_initial F r1 r2 sh y hq' (by rw [er1]; rfl)).1
          rw [er1] at this
          exact this
        unfold IsPath at hw1 hsuf ⊢
        rw [List.chain'_append]
        refine ⟨hw1.left_of_append, hsuf, ?_⟩
        intro u hu v hv
        have hv2 : v = y := by simpa using hv.symm
        subst hv2
        rw [List.chain'_append] at hw1
        exact hw1.2.2 u hu v (by simp)
      have hjh : (w1 ++ (y :: r1' ++ [sh])).head? = some e := by
        cases w1 with
        | nil => simpa using hw1h
        | cons u w1 => simpa using hw1h
      have hsp := hph _ hjoin hjh (by
        rw [← List.append_assoc, List.getLast?_concat])
      rcases List.mem_append.mp hsp with h1 | h1
      · -- Second's preheader before First's header: Second's header follows it there
        exfalso
        obtain ⟨u1, u2, eu⟩ := List.append_of_mem h1
        have hchain : IsPath F (u1 ++ sp :: (u2 ++ [y])) := by
          have : u1 ++ sp :: (u2 ++ [y]) = w1 ++ [y] := by rw [eu]; simp
          rw [this]; exact hw1
        have hnext : ∃ u3, u2 ++ [y] = sh :: u3 := by
          cases hu2 : u2 ++ [y] with
          | nil => simp at hu2
          | cons z u3 =>
            rw [hu2] at hchain
            unfold IsPath at hchain
            have := (List.chain'_cons.mp (List.Chain'.right_of_append hchain)).1
            rw [hss] at this
            have hz : z = sh := by simpa using this
            exact ⟨u3, by rw [hz]⟩
        obtain ⟨u3, eu3⟩ := hnext
        have hu2 : ∃ u4, u2 = sh :: u4 := by
          cases u2 with
          | nil =>
            simp only [List.nil_append, List.cons.injEq] at eu3
            exact absurd eu3.1 hne
          | cons z u4 =>
            simp only [List.cons_append, List.cons.injEq] at eu3
            exact ⟨u4, by rw [eu3.1]⟩
        obtain ⟨u4, eu4⟩ := hu2
        -- the path from the entry to that occurrence of Second's header avoids First's header
        have hpre : IsPath F (u1 ++ [sp] ++ sh :: (u4 ++ [y])) := by
          have : u1 ++ [sp] ++ sh :: (u4 ++ [y]) = u1 ++ sp :: (u2 ++ [y]) := by
            rw [eu4]; simp
          rw [this]; exact hchain
        have hpreh : (u1 ++ [sp] ++ sh :: (u4 ++ [y])).head? = some e := by
          have : u1 ++ [sp] ++ sh :: (u4 ++ [y]) = w1 ++ [y] := by rw [eu, eu4]; simp
          rw [this]; exact hw1h
        obtain ⟨c1, c2, c3⟩ := isPath_initial F (u1 ++ [sp]) (u4 ++ [y]) sh e hpre hpreh
        have hmem := hd _ c1 c2 c3
        have hyw1 : y ∈ w1 := by
          rw [eu, eu4]
          rcases List.mem_append.mp hmem with h2 | h2
          · rcases List.mem_append.mp h2 with h3 | h3
            · exact List.mem_append_left _ h3
            · exact absurd (by simpa using h3 : y = sp).symm hne2
          · exact absurd (by simpa using h2) hne
        exact hnw hyw1
      · -- Second's preheader on the part from First's header on
        have hmem : sp ∈ y :: r1' := by
          rcases List.mem_append.mp h1 with h2 | h2
          · exact h2
          · exact absurd (by simpa using h2) hne3
        have : sp ∈ y :: q'' := by
          rw [er, er1]
          exact List.mem_append_left _ hmem
        exact List.mem_cons_of_mem _ this

end EntryDominance

section EntryDominanceClaim

open IR LICMopt LoopFusionOpt Examples

/-- C18. Let the answers of the dominator tree and of the post-dominator tree be those of
the control-flow graph of the function entered at block `e` (sound for the two headers,
complete for the two preheaders), and, for two loops without guard branch, let each
preheader have the header as its only successor and dominate it, the blocks concerned be
different and First's header be reachable from `e`.  If the control-flow gate passes,
then either both loops have a guard branch and the block holding First's dominates the
block holding Second's, which post-dominates it, or neither has one and First's preheader
dominates Second's preheader, the entry the adjacency gate uses, which post-dominates
it.  So the gate fails when one of the two queries on these entries is false. -/
theorem controlFlowEqControll_entries (F : Func) (FAM : FunctionAnalysisManager)
    (First Second : Loop) (e fp fh sp sh : Nat)
    (hfp : First.preheader = some fp) (hfh : First.header = some fh)
    (hsp : Second.preheader = some sp) (hsh : Second.header = some sh)
    (hfs : F.succsOf fp = [fh]) (hss : F.succsOf sp = [sh])
    (hd : fh ≠ sh ∧ sp ≠ fh ∧ sp ≠ sh)
    (hreach : ∃ w, IsPath F w ∧ w.head? = some e ∧ w.getLast? = some fh)
    (hph1 : DominatesFrom F e fp fh) (hph2 : DominatesFrom F e sp sh)
    (hDTs : FAM.DT.dominates fh sh = true → DominatesFrom F e fh sh)
    (hDTc : DominatesFrom F e fp sp → FAM.DT.dominates fp sp = true)
    (hPDTs : FAM.PDT.dominates sh fh = true → PostDominates F sh fh)
    (hPDTc : PostDominates F sp fp → FAM.PDT.dominates sp fp = true) :
    (controlFlowEqControll F FAM First Second = true →
      (First.isGuarded = true ∧ Second.isGuarded = true ∧
        ∃ g1 g2, First.guardBranch = some g1 ∧ Second.guardBranch = some g2 ∧
          secondEntryBB Second = some g2 ∧
          FAM.DT.dominates g1 g2 = true ∧ FAM.PDT.dominates g2 g1 = true) ∨
      (First.isGuarded = false ∧ Second.isGuarded = false ∧
        secondEntryBB Second = some sp ∧
        FAM.DT.dominates fp sp = true ∧ FAM.PDT.dominates sp fp = true)) ∧
    (∀ g1 g2, First.guardBranch = some g1 → Second.guardBranch = some g2 →
      FAM.DT.dominates g1 g2 = false ∨ FAM.PDT.dominates g2 g1 = false →
      controlFlowEqControll F FAM First Second = false) ∧
    (First.isGuarded = false → Second.isGuarded = false →
      FAM.DT.dominates fp sp = false ∨ FAM.PDT.dominates sp fp = false →
      controlFlowEqControll F FAM First Second = false) := by
  have hiff := controlFlowEqControll_iff F FAM First Second
  have _ := hfp
  have hmain : controlFlowEqControll F FAM First Second = true →
      (First.isGuarded = true ∧ Second.isGuarded = true ∧
        ∃ g1 g2, First.guardBranch = some g1 ∧ Second.guardBranch = some g2 ∧
          secondEntryBB Second = some g2 ∧
          FAM.DT.dominates g1 g2 = true ∧ FAM.PDT.dominates g2 g1 = true) ∨
      (First.isGuarded = false ∧ Second.isGuarded = false ∧
        secondEntryBB Second = some sp ∧
        FAM.DT.dominates fp sp = true ∧ FAM.PDT.dominates sp fp = true) := by
    intro hc
    obtain ⟨E1, E2, h | h, hdom, hpdom⟩ := hiff.1 hc
    · left
      obtain ⟨g1, g2, -⟩ := (guardEntries_eq_some F First Second E1 E2).1 h.2.2
      refine ⟨h.1, h.2.1, E1, E2, g1, g2, ?_, hdom, hpdom⟩
      unfold secondEntryBB
      rw [h.2.1]
      simpa using g2
    · right
      obtain ⟨hg1, hg2, h1, h2⟩ := h
      have e1 : E1 = fh := Option.some.inj (h1.symm.trans hfh)
      have e2 : E2 = sh := Option.some.inj (h2.symm.trans hsh)
      subst e1
      subst e2
      have hdreal := hDTs hdom
      refine ⟨hg1, hg2, ?_, ?_, ?_⟩
      · unfold secondEntryBB
        rw [hg2]
        simpa using hsp
      · exact hDTc (preheader_dominates F e fp E1 sp E2 hss hd.1 hph1 hdreal)
      · exact hPDTc (preheader_postDominates F e fp E1 sp E2 hfs hss hd.1 hd.2.1 hd.2.2
          hreach hph2 hdreal (hPDTs hpdom))
  refine ⟨hmain, ?_, ?_⟩
  · intro g1 g2 h1 h2 hq
    cases hc : controlFlowEqControll F FAM First Second with
    | false => rfl
    | true =>
      rcases hmain hc with ⟨-, -, x1, x2, a1, a2, -, a3, a4⟩ | ⟨hg, -⟩
      · have e1 : x1 = g1 := Option.some.inj (a1.symm.trans h1)
        have e2 : x2 = g2 := Option.some.inj (a2.symm.trans h2)
        subst e1
        subst e2
        rcases hq with hq | hq
        · rw [a3] at hq; exact absurd hq (by decide)
        · rw [a4] at hq; exact absurd hq (by decide)
      · have : First.isGuarded = true := by simp [Loop.isGuarded, h1]
        rw [this] at hg; exact absurd hg (by decide)
  · intro hg1 hg2 hq
    cases hc : controlFlowEqControll F FAM First Second with
    | false => rfl
    | true =>
      rcases hmain hc with ⟨hg, -⟩ | ⟨-, -, -, a3, a4⟩
      · rw [hg1] at hg; exact absurd hg (by decide)
      · rcases hq with hq | hq
        · rw [a3] at hq; exact absurd hq (by decide)
        · rw [a4] at hq; exact absurd hq (by decide)

set_option maxRecDepth 100000 in
/-- C18 on `writeThenReadSame`: the unguarded pair passes the gate, which asks about the
headers 1 and 4, and the preheader 0 of First dominates the preheader 3 of Second, which
post-dominates it. -/
theorem controlFlowEqControll_entries_witness :
    controlFlowEqControll writeThenReadSame (exampleFAM 4 0 4 4) loopA loopB = true ∧
    loopA.isGuarded = false ∧ loopB.isGuarded = false ∧
    secondEntryBB loopB = some 3 ∧
    (exampleFAM 4 0 4 4).DT.dominates 0 3 = true ∧
    (exampleFAM 4 0 4 4).PDT.dominates 3 0 = true ∧
    DominatesFrom writeThenReadSame 0 1 4 ∧ PostDominates writeThenReadSame 4 1 := by
  have h14 : DominatesFrom writeThenReadSame 0 1 4 :=
    dominatesFrom_of_closed writeThenReadSame 0 1 4 [0, 1] (by decide) (by decide) (by decide)
  have h41 : PostDominates writeThenReadSame 4 1 :=
    postDominates_of_closed writeThenReadSame 4 1 [1, 2, 3, 4] (by decide) (by decide)
      (by decide)
  have hthm := controlFlowEqControll_entries writeThenReadSame (exampleFAM 4 0 4 4)
    loopA loopB 0 0 1 3 4 rfl rfl rfl rfl (by decide) (by decide) (by decide)
    ⟨[0, 1], List.chain'_cons.mpr ⟨by decide, List.chain'_singleton _⟩, rfl, rfl⟩
    (dominatesFrom_header writeThenReadSame 0 1)
    (dominatesFrom_of_closed writeThenReadSame 0 3 4 [0, 1, 2, 3] (by decide) (by decide)
      (by decide))
    (fun _ => h14) (fun _ => by decide) (fun _ => h41) (fun _ => by decide)
  have hc : controlFlowEqControll writeThenReadSame (exampleFAM 4 0 4 4) loopA loopB = true := by
    decide
  rcases hthm.1 hc with ⟨hg, -⟩ | ⟨a1, a2, a3, a4, a5⟩
  · exact absurd hg (by decide)
  · exact ⟨hc, a1, a2, a3, a4, a5, h14, h41⟩

end EntryDominanceClaim

section AccessBasics

open IR LICMopt LoopFusionOpt Examples

theorem block_eq_of_id (G : Func) (hb : (G.blocks.map (fun B => B.id)).Nodup) (B1 B2 : Block)
    (h1 : B1 ∈ G.blocks) (h2 : B2 ∈ G.blocks) (e : B1.id = B2.id) : B1 = B2 :=
  List.inj_on_of_nodup_map hb h1 h2 e

theorem findBlock_of_mem (G : Func) (hb : (G.blocks.map (fun B => B.id)).Nodup) (B : Block)
    (h : B ∈ G.blocks) : G.findBlock B.id = some B := by
  cases hf : G.findBlock B.id with
  | none =>
    have := (findBlock_isSome_iff G B.id).2 (List.mem_map.mpr ⟨B, h, rfl⟩)
    rw [hf] at this
    exact absurd this (by simp)
  | some B2 =>
    have hid := findBlock_id G B.id B2 hf
    have hm : B2 ∈ G.blocks := by
      unfold Func.findBlock at hf
      exact List.mem_of_find?_eq_some hf
    rw [block_eq_of_id G hb B2 B hm h hid]

theorem mem_instsOf_of_findInst (G : Func) (hb : (G.blocks.map (fun B => B.id)).Nodup)
    (id b : Nat) (I : Instr) (h : G.findInst id = some (b, I)) : I ∈ G.instsOf b := by
  obtain ⟨-, B, hB, hid, hI⟩ := findInstIn_some G.blocks id b I h
  unfold Func.instsOf
  rw [← hid, findBlock_of_mem G hb B hB]
  exact hI

theorem mem_allInsts_mapInsts (G : Func) (f : Instr → Instr) (g : Term → Term) (J : Instr) :
    J ∈ (mapInsts G f g).allInsts ↔ ∃ I ∈ G.allInsts, J = f I := by
  simp only [mapInsts, Func.allInsts, List.mem_flatMap, List.mem_map, exists_exists_and_eq_and]
  constructor
  · rintro ⟨B, hB, I, hI, rfl⟩
    exact ⟨I, ⟨B, hB, hI⟩, rfl⟩
  · rintro ⟨I, ⟨B, hB, hI⟩, rfl⟩
    exact ⟨B, hB, I, hI, rfl⟩

theorem mem_allInsts_eraseInst (G : Func) (id : Nat) (J : Instr) :
    J ∈ (eraseInst G id).allInsts ↔ J ∈ G.allInsts ∧ J.id ≠ id := by
  simp only [eraseInst, Func.allInsts, List.mem_flatMap, List.mem_map, exists_exists_and_eq_and,
    List.mem_filter, bne_iff_ne, ne_eq]
  constructor
  · rintro ⟨B, hB, hI, hne⟩
    exact ⟨⟨B, hB, hI⟩, hne⟩
  · rintro ⟨⟨B, hB, hI⟩, hne⟩
    exact ⟨B, hB, hI, hne⟩

theorem mem_insertBeforeIn_of_mem (I : Instr) (t : Nat) (l : List Instr) (J : Instr)
    (h : J ∈ l) : J ∈ insertBeforeIn I t l := by
  induction l with
  | nil => simp at h
  | cons C l ih =>
    unfold insertBeforeIn
    split
    · exact List.mem_cons_of_mem _ h
    · rcases List.mem_cons.mp h with h1 | h1
      · rw [h1]; simp
      · exact List.mem_cons_of_mem _ (ih h1)

theorem mem_allInsts_insertAt (G : Func) (pt : InsertPt) (I J : Instr)
    (h : J ∈ G.allInsts) : J ∈ (insertAt G pt I).allInsts := by
  obtain ⟨B, hB, hJ⟩ := (mem_allInsts G J).1 h
  cases pt with
  | before t =>
    refine (mem_allInsts _ J).2 ⟨{ B with insts := insertBeforeIn I t B.insts }, ?_, ?_⟩
    · simp only [insertAt]
      exact List.mem_map.mpr ⟨B, hB, rfl⟩
    · exact mem_insertBeforeIn_of_mem I t B.insts J hJ
  | atEnd b =>
    refine (mem_allInsts _ J).2
      ⟨if B.id == b then { B with insts := B.insts ++ [I] } else B, ?_, ?_⟩
    · simp only [insertAt, appendInst]
      exact List.mem_map.mpr ⟨B, hB, rfl⟩
    · by_cases hb : (B.id == b) = true
      · simp only [hb, ↓reduceIte]
        exact List.mem_append_left _ hJ
      · simp only [hb]
        exact hJ

theorem mem_allInsts_moveBefore (G : Func) (P : Nat) (pt : InsertPt) (J : Instr)
    (h : J ∈ G.allInsts) (hne : J.id ≠ P) : J ∈ (moveBefore G P pt).allInsts := by
  unfold moveBefore
  split
  · exact h
  · split
    · exact mem_allInsts_insertAt _ pt _ J ((mem_allInsts_eraseInst G P J).2 ⟨h, hne⟩)
    · exact h

theorem setSuccessor_total (G : Func) (b i n : Nat) (l : List Nat)
    (h : G.succsAt b = some l) (hi : i < l.length) : ∃ G2, setSuccessor G b i n = some G2 := by
  unfold Func.succsAt at h
  unfold setSuccessor
  cases hB : G.findBlock b with
  | none => rw [hB] at h; exact absurd h (by simp)
  | some B =>
    rw [hB] at h
    simp only [Option.map_some', Option.some.injEq] at h
    simp only []
    rw [if_pos (by rw [h]; exact hi)]
    exact ⟨_, rfl⟩

theorem mem_preds (F : Func) (b x : Nat) (h : b ∈ F.succsOf x) : x ∈ F.preds b := by
  unfold Func.succsOf at h
  cases hB : F.findBlock x with
  | none => rw [hB] at h; simp at h
  | some B =>
    rw [hB] at h
    simp only [] at h
    have hid := findBlock_id F x B hB
    have hm : B ∈ F.blocks := by
      unfold Func.findBlock at hB
      exact List.mem_of_find?_eq_some hB
    unfold Func.preds
    rw [List.mem_flatMap]
    refine ⟨B, hm, ?_⟩
    rw [List.mem_map]
    exact ⟨b, List.mem_filter.mpr ⟨h, by simp⟩, hid⟩

theorem two_le_length_of_mem {α : Type} (l : List α) (x y : α) (hx : x ∈ l) (hy : y ∈ l)
    (hne : x ≠ y) : 2 ≤ l.length := by
  cases l with
  | nil => simp at hx
  | cons a l =>
    cases l with
    | nil =>
      have h1 : x = a := by simpa using hx
      have h2 : y = a := by simpa using hy
      exact absurd (h1.trans h2.symm) hne
    | cons b l => simp

theorem holds_replacePhiUsesWith_len (Q : Instr → Prop) (R : List Value → Prop) (F : Func)
    (b : Nat) (Old : Option Nat) (New : Nat) (h : Holds Q R F)
    (hQ : ∀ I o n, Q I → Q (replaceIncomingBlockWith I o n)) :
    Holds Q R (replacePhiUsesWith F b Old New) := by
  unfold replacePhiUsesWith
  cases Old with
  | none => exact h
  | some o =>
    exact holds_updateBlock Q R F b _ h (fun B hB => ⟨hB.1, fun J hJ => by
      rcases mem_replacePhiUsesInList B.insts o New J hJ with h1 | ⟨I, hI, h1⟩
      · exact hB.2 J h1
      · rw [h1]; exact hQ I _ _ (hB.2 I hI)⟩)

end AccessBasics

section ReconcileRuns

open IR LICMopt LoopFusionOpt Examples

theorem getElem?_isSome_of_lt (l : List Value) (k : Nat) (h : k < l.length) :
    ∃ v, l[k]? = some v :=
  ⟨l[k], List.getElem?_eq_getElem h⟩

/-- One turn of the loop over `firstHeaderPHIs` keeps every instruction, with its
identity and its number of operands. -/
theorem kept_updateFirstPhi (v in1 : Value) (G : Func) (x : Nat) (G2 : Func)
    (e : updateFirstPhi v in1 G x = some G2) :
    ∀ I ∈ G.allInsts, ∃ J ∈ G2.allInsts, J.id = I.id ∧
      J.operands.length = I.operands.length := by
  intro I hI
  unfold updateFirstPhi at e
  split at e
  · split at e
    · split at e
      · simp only [Option.some.injEq] at e
        rw [← e]
        unfold updateInst
        refine ⟨_, (mem_allInsts_mapInsts G _ _ _).2 ⟨I, hI, rfl⟩, ?_, ?_⟩
        · by_cases hx : I.id = x <;> simp [hx]
        · by_cases hx : I.id = x <;> simp [hx]
      · simp only [Option.some.injEq] at e
        rw [← e]
        exact ⟨I, hI, rfl, rfl⟩
    · exact absurd e (by simp)
  · exact absurd e (by simp)

theorem kept_updateFirstPhi_fold (v in1 : Value) :
    ∀ (fhp : List Nat) (G G1 : Func), fhp.foldlM (updateFirstPhi v in1) G = some G1 →
      ∀ I ∈ G.allInsts, ∃ J ∈ G1.allInsts, J.id = I.id ∧
        J.operands.length = I.operands.length := by
  intro fhp
  induction fhp with
  | nil =>
    intro G G1 e I hI
    simp only [List.foldlM_nil, Option.pure_def, Option.some.injEq] at e
    rw [← e]
    exact ⟨I, hI, rfl, rfl⟩
  | cons x fhp ih =>
    intro G G1 e I hI
    simp only [List.foldlM_cons, Option.bind_eq_bind] at e
    cases h1 : updateFirstPhi v in1 G x with
    | none => rw [h1] at e; exact absurd e (by simp)
    | some G2 =>
      rw [h1] at e
      simp only [Option.some_bind] at e
      obtain ⟨J, hJ, a1, a2⟩ := kept_updateFirstPhi v in1 G x G2 h1 I hI
      obtain ⟨K, hK, b1, b2⟩ := ih G2 G1 e J hJ
      exact ⟨K, hK, b1.trans a1, b2.trans a2⟩

/-- The loop over `firstHeaderPHIs` runs through when every merge node of the list is in
the function with two incoming values. -/
theorem updateFirstPhi_fold_total (v in1 : Value) :
    ∀ (fhp : List Nat) (G : Func), UniqueIds G →
      (∀ x ∈ fhp, ∃ I ∈ G.allInsts, I.id = x ∧ 2 ≤ I.operands.length) →
      ∃ G1, fhp.foldlM (updateFirstPhi v in1) G = some G1 := by
  intro fhp
  induction fhp with
  | nil => intro G _ _; exact ⟨G, rfl⟩
  | cons x fhp ih =>
    intro G hu hx
    obtain ⟨I, hI, hid, hlen⟩ := hx x (by simp)
    obtain ⟨b, hf⟩ := findInst_of_mem_allInsts G hu I hI
    rw [hid] at hf
    obtain ⟨w, hw⟩ := getElem?_isSome_of_lt I.operands 1 (by omega)
    have hstep : ∃ G2, updateFirstPhi v in1 G x = some G2 := by
      unfold updateFirstPhi
      rw [hf]
      simp only [hw]
      by_cases hv : w = v
      · rw [if_pos hv]; exact ⟨_, rfl⟩
      · rw [if_neg hv]; exact ⟨_, rfl⟩
    obtain ⟨G2, hG2⟩ := hstep
    have hu2 := uniqueIds_updateFirstPhi v in1 G x G2 hu hG2
    obtain ⟨G1, hG1⟩ := ih G2 hu2 (fun y hy => by
      obtain ⟨J, hJ, a1, a2⟩ := hx y (List.mem_cons_of_mem _ hy)
      obtain ⟨K, hK, b1, b2⟩ := kept_updateFirstPhi v in1 G x G2 hG2 J hJ
      exact ⟨K, hK, b1.trans a1, by omega⟩)
    refine ⟨G1, ?_⟩
    simp only [List.foldlM_cons, Option.bind_eq_bind, hG2, Option.some_bind]
    exact hG1

/-- One turn of the loop over `secondHeaderPHIs` runs through when the merge node and the
merge nodes of First's header are in the function with two incoming values and every
merge node of the function has an incoming value. -/
theorem reconcilePhi_total (First : Loop) (fe : Nat) (fhp : List Nat) (ib : InsertPt)
    (G : Func) (P : Nat) (hu : UniqueIds G)
    (hP : ∃ I ∈ G.allInsts, I.id = P ∧ 2 ≤ I.operands.length)
    (hfhp : ∀ x ∈ fhp, ∃ I ∈ G.allInsts, I.id = x ∧ 2 ≤ I.operands.length)
    (hphi : ∀ I ∈ G.allInsts, I.op = Opcode.phi → 0 < I.operands.length) :
    ∃ G2, reconcilePhi First fe fhp ib G P = some G2 := by
  obtain ⟨I, hI, hid, hlen⟩ := hP
  obtain ⟨b, hf⟩ := findInst_of_mem_allInsts G hu I hI
  rw [hid] at hf
  obtain ⟨in0, h0⟩ := getElem?_isSome_of_lt I.operands 0 (by omega)
  obtain ⟨in1, h1⟩ := getElem?_isSome_of_lt I.operands 1 (by omega)
  unfold reconcilePhi
  rw [hf]
  simp only [h0, h1]
  cases hfw : forwardedLCSSA G First fe in0 with
  | none => exact ⟨_, rfl⟩
  | some B =>
    simp only []
    obtain ⟨-, hfB, hBphi, -, -⟩ := (forwardedLCSSA_eq_some G First fe in0 B).1 hfw
    obtain ⟨-, Bk, hBk, -, hBin⟩ := findInstIn_some G.blocks B.id fe B hfB
    have hBall : B ∈ G.allInsts := (mem_allInsts G B).2 ⟨Bk, hBk, hBin⟩
    obtain ⟨v, hv⟩ := getElem?_isSome_of_lt B.operands 0 (hphi B hBall hBphi)
    simp only [hv]
    obtain ⟨G1, hG1⟩ := updateFirstPhi_fold_total v in1 fhp G hu hfhp
    rw [hG1]
    exact ⟨_, rfl⟩

/-- One turn of the loop over `secondHeaderPHIs` keeps every instruction other than the
merge node and the instructions of First's exit block, with its identity and its number
of operands. -/
theorem kept_reconcilePhi (First : Loop) (fe : Nat) (fhp : List Nat) (ib : InsertPt)
    (G : Func) (P : Nat) (G2 : Func) (hb : (G.blocks.map (fun B => B.id)).Nodup)
    (e : reconcilePhi First fe fhp ib G P = some G2) :
    ∀ I ∈ G.allInsts, I.id ≠ P → I.id ∉ (G.instsOf fe).map (fun J => J.id) →
      ∃ J ∈ G2.allInsts, J.id = I.id ∧ J.operands.length = I.operands.length := by
  intro I hI hne hnfe
  obtain ⟨b, PHI, in0, in1, hf, -, -, hway⟩ := reconcilePhi_two_ways First fe fhp ib G P G2 e
  rcases hway with ⟨B, v, G1, -, hfB, -, -, -, -, hG1, hG2, -⟩ | ⟨-, hG2, -, -⟩
  · obtain ⟨J, hJ, a1, a2⟩ := kept_updateFirstPhi_fold v in1 fhp G G1 hG1 I hI
    have hBfe : B ∈ G.instsOf fe := mem_instsOf_of_findInst G hb B.id fe B hfB
    have hneB : I.id ≠ B.id := fun e0 => hnfe (List.mem_map.mpr ⟨B, hBfe, e0.symm⟩)
    rw [hG2]
    refine ⟨{ J with operands := (J.operands.map
        (fun x => if x = Value.inst P then v else x)) }, ?_, a1, by simp [a2]⟩
    rw [mem_allInsts_eraseInst, mem_allInsts_eraseInst]
    refine ⟨⟨?_, by simp only []; rw [a1]; exact hne⟩, by simp only []; rw [a1]; exact hneB⟩
    unfold replaceAllUsesWith
    exact (mem_allInsts_mapInsts G1 _ _ _).2 ⟨J, hJ, rfl⟩
  · rw [hG2]
    exact ⟨I, mem_allInsts_moveBefore G P ib I hI hne, rfl, rfl⟩

theorem holds_updateFirstPhi_ops (Q : Instr → Prop)
    (hops : ∀ I ops, ops.length = I.operands.length → Q I → Q { I with operands := ops })
    (v in1 : Value) (G : Func) (x : Nat) (G2 : Func)
    (h : Holds Q (fun _ => True) G) (e : updateFirstPhi v in1 G x = some G2) :
    Holds Q (fun _ => True) G2 := by
  unfold updateFirstPhi at e
  split at e
  · split at e
    · split at e
      · simp only [Option.some.injEq] at e
        rw [← e]
        exact holds_updateInst _ _ G x _ h (fun I _ hI => hops I _ (by simp) hI)
      · simp only [Option.some.injEq] at e
        rw [← e]; exact h
    · exact absurd e (by simp)
  · exact absurd e (by simp)

theorem holds_reconcilePhi_ops (Q : Instr → Prop)
    (hops : ∀ I ops, ops.length = I.operands.length → Q I → Q { I with operands := ops })
    (First : Loop) (fe : Nat) (fhp : List Nat) (ib : InsertPt) (G : Func) (P : Nat)
    (G2 : Func) (h : Holds Q (fun _ => True) G)
    (e : reconcilePhi First fe fhp ib G P = some G2) : Holds Q (fun _ => True) G2 := by
  unfold reconcilePhi at e
  split at e
  · split at e
    · split at e
      · split at e
        · split at e
          · rename_i F1 hF1
            simp only [Option.some.injEq] at e
            rw [← e]
            apply holds_eraseInst
            apply holds_eraseInst
            unfold replaceAllUsesWith
            apply holds_mapInsts _ _ F1 _ _ _ (fun I hI => hops I _ (by simp) hI)
              (fun _ _ => trivial)
            exact holds_foldlM _ _ _ (fun _ => True)
              (fun G x G2 _ hG e => holds_updateFirstPhi_ops Q hops _ _ G x G2 hG e)
              fhp G F1 (fun _ _ => trivial) h hF1
          · exact absurd e (by simp)
        · exact absurd e (by simp)
      · simp only [Option.some.injEq] at e
        rw [← e]
        exact holds_moveBefore _ _ G P ib h
    · exact absurd e (by simp)
  · exact absurd e (by simp)

/-- The loop over `secondHeaderPHIs` runs through. -/
theorem reconcilePhi_fold_total (Q : Instr → Prop)
    (hops : ∀ I ops, ops.length = I.operands.length → Q I → Q { I with operands := ops })
    (hQ : ∀ I, Q I → I.op = Opcode.phi → 0 < I.operands.length)
    (First : Loop) (fe : Nat) (fhp : List Nat) (ib : InsertPt)
    (hib2 : ∀ y, ib = InsertPt.atEnd y → y ≠ fe) :
    ∀ (Ps : List Nat) (G : Func),
      (UniqueIds G ∧ (G.blocks.map (fun B => B.id)).Nodup) →
      Holds Q (fun _ => True) G → Ps.Nodup → (∀ x ∈ Ps, x ∉ fhp) →
      (∀ x ∈ Ps ++ fhp, ∃ I ∈ G.allInsts, I.id = x ∧ 2 ≤ I.operands.length) →
      (∀ J ∈ G.instsOf fe, J.id ∉ Ps ++ fhp) →
      (∀ t, ib = InsertPt.before t → t ∉ (G.instsOf fe).map (fun J => J.id) ∧ t ∉ Ps) →
      ∃ Gr, Ps.foldlM (reconcilePhi First fe fhp ib) G = some Gr ∧
        (UniqueIds Gr ∧ (Gr.blocks.map (fun B => B.id)).Nodup) ∧
        Holds Q (fun _ => True) Gr := by
  intro Ps
  induction Ps with
  | nil => intro G hw hh _ _ _ _ _; exact ⟨G, rfl, hw, hh⟩
  | cons P rest ih =>
    intro G hw hh hnd hdis hex hfe hib
    have hphi : ∀ I ∈ G.allInsts, I.op = Opcode.phi → 0 < I.operands.length := by
      intro I hI hop
      obtain ⟨B, hB, hIB⟩ := (mem_allInsts G I).1 hI
      exact hQ I ((hh B hB).2 I hIB) hop
    obtain ⟨G2, hG2⟩ := reconcilePhi_total First fe fhp ib G P hw.1
      (hex P (by simp)) (fun x hx => hex x (by simp [hx])) hphi
    have hw2 := wf_reconcilePhi First fe fhp ib G P G2 hw hG2
    have hh2 := holds_reconcilePhi_ops Q hops First fe fhp ib G P G2 hh hG2
    have hrem := reconcilePhi_removes First fe fhp ib G P G2 fe
      (fun e0 => (hib P e0).2 (by simp)) (fun t ht => (hib t ht).1) hib2 hG2
    have hkept := kept_reconcilePhi First fe fhp ib G P G2 hw.2 hG2
    have hsub : ∀ J ∈ G2.instsOf fe, J.id ∈ (G.instsOf fe).map (fun J => J.id) := by
      intro J hJ
      obtain ⟨-, I, hI, e1, -⟩ := hrem J hJ
      exact List.mem_map.mpr ⟨I, hI, e1.symm⟩
    obtain ⟨Gr, hGr, hwr, hhr⟩ := ih G2 hw2 hh2 (List.nodup_cons.mp hnd).2
      (fun x hx => hdis x (List.mem_cons_of_mem _ hx))
      (by
        intro x hx
        have hx2 : x ∈ (P :: rest) ++ fhp := by
          rcases List.mem_append.mp hx with h1 | h1
          · exact List.mem_append_left _ (List.mem_cons_of_mem _ h1)
          · exact List.mem_append_right _ h1
        obtain ⟨I, hI, hid, hlen⟩ := hex x hx2
        have hneP : I.id ≠ P := by
          rw [hid]
          rcases List.mem_append.mp hx with h1 | h1
          · intro e0
            exact (List.nodup_cons.mp hnd).1 (e0 ▸ h1)
          · intro e0
            exact hdis P (by simp) (e0 ▸ h1)
        have hnfe : I.id ∉ (G.instsOf fe).map (fun J => J.id) := by
          intro hm
          obtain ⟨J, hJ, hJid⟩ := List.mem_map.mp hm
          exact hfe J hJ (by rw [hJid, hid]; exact hx2)
        obtain ⟨J, hJ, a1, a2⟩ := hkept I hI hneP hnfe
        exact ⟨J, hJ, a1.trans hid, by omega⟩)
      (by
        intro J hJ hm
        obtain ⟨I, hI, e1⟩ := List.mem_map.mp (hsub J hJ)
        refine hfe I hI ?_
        rw [e1]
        rcases List.mem_append.mp hm with h1 | h1
        · exact List.mem_append_left _ (List.mem_cons_of_mem _ h1)
        · exact List.mem_append_right _ h1)
      (by
        intro t ht
        refine ⟨fun hm => ?_, fun hm => (hib t ht).2 (List.mem_cons_of_mem _ hm)⟩
        obtain ⟨J, hJ, hJid⟩ := List.mem_map.mp hm
        exact (hib t ht).1 (hJid ▸ hsub J hJ))
    refine ⟨Gr, ?_, hwr, hhr⟩
    simp only [List.foldlM_cons, Option.bind_eq_bind, hG2, Option.some_bind]
    exact hGr

end ReconcileRuns

section MergeStepRuns

open IR LICMopt LoopFusionOpt Examples

/-- The loop that retargets incoming block 0 runs through when every merge node of the
list is in the function with an incoming block. -/
theorem setIncomingBlock0_fold_total (fl : Nat) :
    ∀ (Q : List Nat) (G : Func), UniqueIds G →
      (∀ x ∈ Q, ∃ I ∈ G.allInsts, I.id = x ∧ 0 < I.incoming.length) →
      ∃ G2, Q.foldlM (setIncomingBlock0 fl) G = some G2 := by
  intro Q
  induction Q with
  | nil => intro G _ _; exact ⟨G, rfl⟩
  | cons x Q ih =>
    intro G hu hx
    obtain ⟨I, hI, hid, hlen⟩ := hx x (by simp)
    obtain ⟨b, hf⟩ := findInst_of_mem_allInsts G hu I hI
    rw [hid] at hf
    have hstep : setIncomingBlock0 fl G x
        = some (updateInst G x (fun I => { I with incoming := I.incoming.set 0 fl })) := by
      unfold setIncomingBlock0
      rw [hf]
      simp only []
      rw [if_pos hlen]
    have hu2 : UniqueIds (updateInst G x (fun I => { I with incoming := I.incoming.set 0 fl })) :=
      uniqueIds_updateInst G x _ (fun _ => rfl) hu
    obtain ⟨G2, hG2⟩ := ih _ hu2 (fun y hy => by
      obtain ⟨J, hJ, a1, a2⟩ := hx y (List.mem_cons_of_mem _ hy)
      unfold updateInst
      refine ⟨_, (mem_allInsts_mapInsts G _ _ _).2 ⟨J, hJ, rfl⟩, ?_, ?_⟩
      · dsimp only
        split
        · exact a1
        · exact a1
      · dsimp only
        split
        · simpa using a2
        · exact a2)
    refine ⟨G2, ?_⟩
    simp only [List.foldlM_cons, Option.bind_eq_bind, hstep, Option.some_bind]
    exact hG2

theorem mem_phisOf (G : Func) (b x : Nat) (h : x ∈ phisOf G b) :
    ∃ I ∈ G.instsOf b, I.op = Opcode.phi ∧ I.id = x := by
  unfold phisOf at h
  obtain ⟨I, hI, hid⟩ := List.mem_map.mp h
  obtain ⟨h1, h2⟩ := List.mem_filter.mp hI
  exact ⟨I, h1, by simpa using h2, hid⟩

theorem phisOf_nodup (G : Func) (hu : UniqueIds G) (b : Nat) : (phisOf G b).Nodup := by
  unfold phisOf
  exact (instsOf_ids_nodup G hu b).sublist (List.Sublist.map _ (List.filter_sublist _))

/-- The relocation of the merge nodes of First's exit block runs through when every merge
node of the function has an incoming block. -/
theorem moveLCSSA_total (G : Func) (fe fl se : Nat) (hu : UniqueIds G)
    (hphi : ∀ I ∈ G.allInsts, I.op = Opcode.phi → 0 < I.incoming.length) :
    ∃ G2, moveLCSSA G fe fl se = some G2 := by
  obtain ⟨F1, hF1⟩ := setIncomingBlock0_fold_total fl (phisOf G fe) G hu (fun x hx => by
    obtain ⟨I, hI, hop, hid⟩ := mem_phisOf G fe x hx
    have hIa := instsOf_subset_allInsts G fe I hI
    exact ⟨I, hIa, hid, hphi I hIa hop⟩)
  unfold moveLCSSA
  simp only [hF1]
  exact ⟨_, rfl⟩

/-- Step 2 of `fuseLoops` runs through on a function with unique instruction identities
and distinct block identities in which every merge node has an incoming value and an
incoming block, the merge nodes of the two headers have two incoming values, and the two
headers and First's exit block are three blocks. -/
theorem fixPhis_total (G : Func) (First : Loop) (fp fl fe fb fh sp sl se sh : Nat)
    (hw : UniqueIds G ∧ (G.blocks.map (fun B => B.id)).Nodup)
    (hphi : ∀ I ∈ G.allInsts, I.op = Opcode.phi →
      0 < I.operands.length ∧ 0 < I.incoming.length)
    (h2s : ∀ I ∈ G.instsOf sh, I.op = Opcode.phi → 2 ≤ I.operands.length)
    (h2f : ∀ I ∈ G.instsOf fh, I.op = Opcode.phi → 2 ≤ I.operands.length)
    (hd : fh ≠ sh ∧ fh ≠ fe ∧ sh ≠ fe) :
    ∃ F2, fixPhis G First fp fl fe fb fh sp sl se sh = some F2 := by
  obtain ⟨d1, d2, d3⟩ := hd
  -- the function after the incoming blocks are re-sourced
  have hu0 : UniqueIds (resourcePhis G fp fl fb sp sl sh se) :=
    uniqueIds_resourcePhis G fp fl fb sp sl sh se hw.1
  have hb0 : ((resourcePhis G fp fl fb sp sl sh se).blocks.map (fun B => B.id)).Nodup := by
    rw [ids_of_skeleton _ _ (skeleton_resourcePhis G fp fl fb sp sl sh se)]
    exact hw.2
  have hshadow : ∀ b, ∀ J ∈ (resourcePhis G fp fl fb sp sl sh se).instsOf b,
      ∃ I ∈ G.instsOf b, J.id = I.id ∧ J.op = I.op := by
    intro b J hJ
    unfold resourcePhis at hJ
    simp only [] at hJ
    obtain ⟨J1, hJ1, a1, b1⟩ := shadows_replacePhiUsesWith _ _ _ _ b J hJ
    obtain ⟨J2, hJ2, a2, b2⟩ := shadows_replacePhiUsesWith _ _ _ _ b J1 hJ1
    obtain ⟨J3, hJ3, a3, b3⟩ := shadows_replacePhiUsesWith _ _ _ _ b J2 hJ2
    obtain ⟨J4, hJ4, a4, b4⟩ := shadows_replacePhiUsesWith _ _ _ _ b J3 hJ3
    exact ⟨J4, hJ4, by rw [a1, a2, a3, a4], by rw [b1, b2, b3, b4]⟩
  -- the shape of the instructions, by identity
  have hH : Holds (fun I => (I.op = Opcode.phi → 0 < I.operands.length ∧ 0 < I.incoming.length) ∧
      ((∃ I0 ∈ G.instsOf sh, I0.op = Opcode.phi ∧ I0.id = I.id) → 2 ≤ I.operands.length) ∧
      ((∃ I0 ∈ G.instsOf fh, I0.op = Opcode.phi ∧ I0.id = I.id) → 2 ≤ I.operands.length))
      (fun _ => True) G := by
    intro B hB
    refine ⟨trivial, fun I hI => ?_⟩
    have hIa : I ∈ G.allInsts := (mem_allInsts G I).2 ⟨B, hB, hI⟩
    refine ⟨hphi I hIa, ?_, ?_⟩
    · rintro ⟨I0, hI0, hop, hid⟩
      have : I0 = I := eq_of_id_eq G hw.1 I0 I (instsOf_subset_allInsts G sh I0 hI0) hIa hid
      rw [← this]; exact h2s I0 hI0 hop
    · rintro ⟨I0, hI0, hop, hid⟩
      have : I0 = I := eq_of_id_eq G hw.1 I0 I (instsOf_subset_allInsts G fh I0 hI0) hIa hid
      rw [← this]; exact h2f I0 hI0 hop
  have hH0 : Holds (fun I => (I.op = Opcode.phi → 0 < I.operands.length ∧ 0 < I.incoming.length) ∧
      ((∃ I0 ∈ G.instsOf sh, I0.op = Opcode.phi ∧ I0.id = I.id) → 2 ≤ I.operands.length) ∧
      ((∃ I0 ∈ G.instsOf fh, I0.op = Opcode.phi ∧ I0.id = I.id) → 2 ≤ I.operands.length))
      (fun _ => True) (resourcePhis G fp fl fb sp sl sh se) := by
    have hq : ∀ (I : Instr) (o n : Nat),
        ((I.op = Opcode.phi → 0 < I.operands.length ∧ 0 < I.incoming.length) ∧
        ((∃ I0 ∈ G.instsOf sh, I0.op = Opcode.phi ∧ I0.id = I.id) → 2 ≤ I.operands.length) ∧
        ((∃ I0 ∈ G.instsOf fh, I0.op = Opcode.phi ∧ I0.id = I.id) → 2 ≤ I.operands.length)) →
        (((replaceIncomingBlockWith I o n).op = Opcode.phi →
          0 < (replaceIncomingBlockWith I o n).operands.length ∧
          0 < (replaceIncomingBlockWith I o n).incoming.length) ∧
        ((∃ I0 ∈ G.instsOf sh, I0.op = Opcode.phi ∧ I0.id = (replaceIncomingBlockWith I o n).id) →
          2 ≤ (replaceIncomingBlockWith I o n).operands.length) ∧
        ((∃ I0 ∈ G.instsOf fh, I0.op = Opcode.phi ∧ I0.id = (replaceIncomingBlockWith I o n).id) →
          2 ≤ (replaceIncomingBlockWith I o n).operands.length)) := by
      intro I o n hI
      refine ⟨fun hop => ?_, hI.2.1, hI.2.2⟩
      have := hI.1 hop
      exact ⟨this.1, by simp only [replaceIncomingBlockWith, List.length_map]; exact this.2⟩
    unfold resourcePhis
    simp only []
    apply holds_replacePhiUsesWith_len _ _ _ _ _ _ _ hq
    apply holds_replacePhiUsesWith_len _ _ _ _ _ _ _ hq
    apply holds_replacePhiUsesWith_len _ _ _ _ _ _ _ hq
    exact holds_replacePhiUsesWith_len _ _ _ _ _ _ hH hq
  have hmem0 : ∀ b, ∀ J ∈ (resourcePhis G fp fl fb sp sl sh se).instsOf b,
      (J.op = Opcode.phi → 0 < J.operands.length ∧ 0 < J.incoming.length) ∧
      ((∃ I0 ∈ G.instsOf sh, I0.op = Opcode.phi ∧ I0.id = J.id) → 2 ≤ J.operands.length) ∧
      ((∃ I0 ∈ G.instsOf fh, I0.op = Opcode.phi ∧ I0.id = J.id) → 2 ≤ J.operands.length) := by
    intro b J hJ
    obtain ⟨B, hB, -, hJB⟩ := instsOf_mem _ b J hJ
    exact (hH0 B hB).2 J hJB
  -- the loop over the merge nodes of Second's header
  obtain ⟨Gr, hGr, hwr, hhr⟩ := reconcilePhi_fold_total
    (fun I => I.op = Opcode.phi → 0 < I.operands.length ∧ 0 < I.incoming.length)
    (fun I ops hlen hI hop => by
      have := hI hop
      exact ⟨by rw [hlen]; exact this.1, this.2⟩)
    (fun I hI hop => (hI hop).1)
    First fe (phisOf (resourcePhis G fp fl fb sp sl sh se) fh)
    (getFirstNonPHI (resourcePhis G fp fl fb sp sl sh se) fh)
    (fun y hy => by rw [getFirstNonPHI_atEnd _ fh y hy]; exact d2)
    (phisOf (resourcePhis G fp fl fb sp sl sh se) sh)
    (resourcePhis G fp fl fb sp sl sh se) ⟨hu0, hb0⟩
    (fun B hB => ⟨trivial, fun I hI => ((hH0 B hB).2 I hI).1⟩)
    (phisOf_nodup _ hu0 sh)
    (by
      intro x hx hx2
      obtain ⟨I, hI, -, hid⟩ := mem_phisOf _ sh x hx
      obtain ⟨J, hJ, -, hJid⟩ := mem_phisOf _ fh x hx2
      exact ids_disjoint _ hu0 sh fh (Ne.symm d1) I J hI hJ (hid.trans hJid.symm))
    (by
      intro x hx
      rcases List.mem_append.mp hx with h1 | h1
      · obtain ⟨I, hI, hop, hid⟩ := mem_phisOf _ sh x h1
        obtain ⟨I0, hI0, e1, e2⟩ := hshadow sh I hI
        exact ⟨I, instsOf_subset_allInsts _ sh I hI, hid,
          (hmem0 sh I hI).2.1 ⟨I0, hI0, by rw [← e2]; exact hop, e1.symm⟩⟩
      · obtain ⟨I, hI, hop, hid⟩ := mem_phisOf _ fh x h1
        obtain ⟨I0, hI0, e1, e2⟩ := hshadow fh I hI
        exact ⟨I, instsOf_subset_allInsts _ fh I hI, hid,
          (hmem0 fh I hI).2.2 ⟨I0, hI0, by rw [← e2]; exact hop, e1.symm⟩⟩)
    (by
      intro J hJ hm
      rcases List.mem_append.mp hm with h1 | h1
      · obtain ⟨I, hI, -, hid⟩ := mem_phisOf _ sh J.id h1
        exact ids_disjoint _ hu0 sh fe d3 I J hI hJ hid
      · obtain ⟨I, hI, -, hid⟩ := mem_phisOf _ fh J.id h1
        exact ids_disjoint _ hu0 fh fe d2 I J hI hJ hid)
    (by
      intro t ht
      obtain ⟨K, hK, hKid⟩ := getFirstNonPHI_before _ fh t ht
      refine ⟨fun hm => ?_, fun hm => ?_⟩
      · obtain ⟨J, hJ, hJid⟩ := List.mem_map.mp hm
        exact ids_disjoint _ hu0 fh fe d2 K J hK hJ (hKid.trans hJid.symm)
      · obtain ⟨I, hI, -, hid⟩ := mem_phisOf _ sh t hm
        exact ids_disjoint _ hu0 fh sh d1 K I hK hI (hKid.trans hid.symm))
  -- the relocation of the merge nodes of First's exit block
  obtain ⟨F2, hF2⟩ := moveLCSSA_total Gr fe fl se hwr.1 (fun I hI hop => by
    obtain ⟨B, hB, hIB⟩ := (mem_allInsts Gr I).1 hI
    exact ((hhr B hB).2 I hIB hop).2)
  refine ⟨F2, ?_⟩
  unfold fixPhis
  simp only [hGr]
  exact hF2

end MergeStepRuns

section SuccessorSlots

open IR LICMopt LoopFusionOpt Examples

theorem lenAt_of_skeleton (F G : Func) (h : G.skeleton = F.skeleton) (x : Nat) :
    (G.succsAt x).map List.length = (F.succsAt x).map List.length := by
  rw [succsAt_of_skeleton F G h x]

theorem lenAt_setSuccessor (F : Func) (b i n : Nat) (G : Func)
    (h : setSuccessor F b i n = some G) (x : Nat) :
    (G.succsAt x).map List.length = (F.succsAt x).map List.length := by
  rw [(succsAt_setSuccessor F b i n G h).2 x]
  by_cases hx : x = b
  · rw [if_pos hx, hx, Option.map_map]
    congr 1
    funext l
    simp
  · rw [if_neg hx]

theorem lenAt_replaceSuccessorWith (F : Func) (b o n x : Nat) :
    ((replaceSuccessorWith F b o n).succsAt x).map List.length
      = (F.succsAt x).map List.length := by
  rw [succsAt_replaceSuccessorWith]
  by_cases hx : x = b
  · rw [if_pos hx, hx, Option.map_map]
    congr 1
    funext l
    simp
  · rw [if_neg hx]

theorem setSuccessor_total_len (G : Func) (b i n k : Nat)
    (h : (G.succsAt b).map List.length = some k) (hi : i < k) :
    ∃ G2, setSuccessor G b i n = some G2 := by
  cases hl : G.succsAt b with
  | none => rw [hl] at h; exact absurd h (by simp)
  | some l =>
    rw [hl] at h
    simp only [Option.map_some', Option.some.injEq] at h
    exact setSuccessor_total G b i n l hl (by rw [h]; exact hi)

theorem lenAt_of_succsOf (F : Func) (b : Nat) (h : F.succsOf b ≠ []) :
    (F.succsAt b).map List.length = some (F.succsOf b).length := by
  rw [succsOf_eq_getD] at h ⊢
  cases hl : F.succsAt b with
  | none => rw [hl] at h; exact absurd rfl h
  | some l => rfl

theorem lenAt_of_isConditional (F : Func) (b : Nat) (h : isConditional F b = true) :
    (F.succsAt b).map List.length = some 2 := by
  unfold isConditional at h
  unfold Func.succsAt
  cases hB : F.findBlock b with
  | none => rw [hB] at h; exact absurd h (by simp)
  | some B =>
    rw [hB] at h
    simp only [decide_eq_true_eq] at h
    simp only [Option.map_some', h]

/-- The list of instructions to move is built when Second's guard block is in the function
and its terminator has an operand. -/
theorem guardInstsToMove_total (G : Func) (g2 : Nat)
    (hT : HoldsT (fun id ops => id = g2 → ops ≠ []) G) :
    ∃ l, guardInstsToMove G g2 = some l := by
  unfold guardInstsToMove
  split
  · exact ⟨_, rfl⟩
  · rename_i hne
    cases hc : getCondition G g2 with
    | some c => exact ⟨_, rfl⟩
    | none =>
      exfalso
      unfold getCondition at hc
      cases hB : G.findBlock g2 with
      | none =>
        apply hne
        unfold Func.instsOf
        rw [hB]
      | some B =>
        rw [hB] at hc
        simp only [] at hc
        have hmem : B ∈ G.blocks := by
          unfold Func.findBlock at hB
          exact List.mem_of_find?_eq_some hB
        have := hT B hmem (findBlock_id G g2 B hB)
        cases hops : B.term.operands with
        | nil => exact this hops
        | cons a l => rw [hops] at hc; simp at hc

/-- Step 3 of `fuseLoops` makes only in-range accesses when First's guard branch has two
successor slots, the terminator of First's exit block has one, and the terminator of
Second's guard block has an operand. -/
theorem unifyGuards_total (s : FuseState) (g1 g2 fe se k1 k2 : Nat)
    (h1 : (s.F.succsAt g1).map List.length = some k1) (hk1 : 1 < k1)
    (h2 : (s.F.succsAt fe).map List.length = some k2) (hk2 : 0 < k2)
    (hT : HoldsT (fun id ops => id = g2 → ops ≠ []) s.F) :
    ∃ r, unifyGuards s g1 g2 fe se = some r := by
  unfold unifyGuards
  cases hgd : getSingleSuccessor s.F se with
  | none => exact ⟨_, rfl⟩
  | some gd =>
    simp only []
    obtain ⟨F1, hF1⟩ := setSuccessor_total_len s.F g1 1 gd k1 h1 hk1
    rw [hF1]
    simp only []
    have hlen3 : ((replaceSuccessorWith (replacePhiUsesWith F1 gd (some g2) g1) g2 gd g2).succsAt
        fe).map List.length = some k2 := by
      rw [lenAt_replaceSuccessorWith,
        lenAt_of_skeleton _ _ (skeleton_replacePhiUsesWith F1 gd (some g2) g1),
        lenAt_setSuccessor s.F g1 1 gd F1 hF1]
      exact h2
    obtain ⟨F4, hF4⟩ := setSuccessor_total_len _ fe 0 fe k2 hlen3 hk2
    rw [hF4]
    simp only []
    have hT4 : HoldsT (fun id ops => id = g2 → ops ≠ []) F4 :=
      holdsT_setSuccessor _ _ fe 0 fe F4
        (holdsT_replaceSuccessorWith _ _ g2 gd g2
          (holdsT_replacePhiUsesWith _ _ gd (some g2) g1
            (holdsT_setSuccessor _ s.F g1 1 gd F1 hT hF1))) hF4
    obtain ⟨l, hl⟩ := guardInstsToMove_total F4 g2 hT4
    rw [hl]
    exact ⟨_, rfl⟩

/-- Steps 4 and 5 of `fuseLoops` make only in-range accesses when the terminator of
First's latch has two successor slots. -/
theorem finishFusion_total (s : FuseState) (First Second : Loop) (fl fb sp sl sb sh se k : Nat)
    (h : (s.F.succsAt fl).map List.length = some k) (hk : 1 < k) :
    ∃ r, finishFusion s First Second fl fb sp sl sb sh se = some r := by
  obtain ⟨F1, hF1⟩ := setSuccessor_total_len s.F fl 1 se k h hk
  unfold finishFusion spliceControlFlow
  rw [hF1]
  exact ⟨_, rfl⟩

/-- After the induction variables are unified every instruction of a block is one of the
same block before, with the same operation, as many operands and the same incoming
blocks. -/
theorem instsOf_unifyInductionVariables_shape (F : Func) (fiv siv b : Nat) (I : Instr)
    (h : I ∈ (unifyInductionVariables F fiv siv).instsOf b) :
    ∃ I0 ∈ F.instsOf b, I.op = I0.op ∧ I.operands.length = I0.operands.length ∧
      I.incoming = I0.incoming := by
  unfold unifyInductionVariables replaceAllUsesWith at h
  rw [instsOf_eraseInst, instsOf_mapInsts] at h
  obtain ⟨h1, -⟩ := List.mem_filter.mp h
  obtain ⟨I0, hI0, rfl⟩ := List.mem_map.mp h1
  exact ⟨I0, hI0, rfl, by simp, rfl⟩

theorem allInsts_unifyInductionVariables_shape (F : Func) (fiv siv : Nat) (I : Instr)
    (h : I ∈ (unifyInductionVariables F fiv siv).allInsts) :
    ∃ I0 ∈ F.allInsts, I.op = I0.op ∧ I.operands.length = I0.operands.length ∧
      I.incoming = I0.incoming := by
  unfold unifyInductionVariables replaceAllUsesWith at h
  obtain ⟨h1, -⟩ := (mem_allInsts_eraseInst _ _ _).1 h
  obtain ⟨I0, hI0, rfl⟩ := (mem_allInsts_mapInsts _ _ _ _).1 h1
  exact ⟨I0, hI0, rfl, by simp, rfl⟩

theorem phiEntries_instsOf (F : Func) (hphi : PhiEntries F) (b : Nat) (I : Instr)
    (hI : I ∈ F.instsOf b) (hop : I.op = Opcode.phi) :
    I.operands.length = (F.preds b).length ∧ I.incoming.length = (F.preds b).length ∧
      0 < I.operands.length := by
  obtain ⟨B, hB, hid, hIB⟩ := instsOf_mem F b I hI
  rw [← hid]
  exact hphi B hB I hIB hop

end SuccessorSlots

section PositionalAccessesInRange

open IR LICMopt LoopFusionOpt Examples

/-- C32: for every pair of loops that `isOptimizable` accepts, `fuseLoops` makes only
in-range positional accesses: the run never takes the out-of-range result of the model
(`none`), which is the result exactly when `setSuccessor(1, ..)` on First's latch or guard
branch, `setSuccessor(0, ..)` on First's exit terminator, `getIncomingValue(0)` or
`getIncomingValue(1)` on a merge node of Second's header, `setIncomingValue(1, ..)` on a
merge node of First's header, `setIncomingBlock(0, ..)` on a merge node of First's exit
block or the read of the guard condition is out of range.  The function is one LLVM
accepts and the loop queries answer as on it: instruction and block identities are
unique, every merge node has one entry per predecessor edge and at least one, `fh` and
`sh` are the blocks the preheaders branch to and the latches branch back to them, the
preheaders, latches, headers and First's exit block are different blocks, First's latch is
no guard block, and `getInductionVariable` finds an induction variable for First only
when First's latch ends in a conditional branch. -/
theorem fuseLoops_accesses_in_range (F : Func) (FAM : FunctionAnalysisManager)
    (First Second : Loop) (fp fl fe fh sp sl sh : Nat)
    (hopt : isOptimizable F FAM (some First) (some Second) = true)
    (hfp : First.preheader = some fp) (hfl : First.latch = some fl)
    (hfe : First.getExitBlock = some fe)
    (hsp : Second.preheader = some sp) (hsl : Second.latch = some sl)
    (hfs : F.succsOf fp = [fh]) (hss : F.succsOf sp = [sh])
    (hu : UniqueIds F) (hb : (F.blocks.map (fun B => B.id)).Nodup) (hphi : PhiEntries F)
    (hlatch1 : fh ∈ F.succsOf fl) (hlatch2 : sh ∈ F.succsOf sl)
    (hd : fp ≠ fl ∧ sp ≠ sl ∧ fh ≠ sh ∧ fh ≠ fe ∧ sh ≠ fe ∧ fl ≠ fe)
    (hg : ∀ g1 g2, First.guardBranch = some g1 → Second.guardBranch = some g2 →
      fl ≠ g1 ∧ fl ≠ g2)
    (hiv : ∀ iv, FAM.SE.getInductionVariable First = some iv → (F.succsOf fl).length = 2) :
    ∃ r, fuseLoops F FAM (some First) (some Second) = some r := by
  obtain ⟨hs1, hs2, hadj, -, hcf, -⟩ := isOptimizable_gates F FAM First Second hopt
  obtain ⟨d1, d2, d3, d4, d5, d6⟩ := hd
  obtain ⟨-, ⟨l1, hl1, fb, hfb⟩, -, -⟩ := (strutturaAdeguata_iff F First).1 hs1
  obtain ⟨-, ⟨l2, hl2, sb, hsb⟩, ⟨se, hse⟩, -⟩ := (strutturaAdeguata_iff F Second).1 hs2
  rw [hfl, Option.some.injEq] at hl1
  rw [hsl, Option.some.injEq] at hl2
  subst hl1 hl2
  have hse2 : Second.getExitBlock = some se := by unfold Loop.getExitBlock; rw [hse]
  have hfh : getSingleSuccessor F fp = some fh := (getSingleSuccessor_eq_some F fp fh).2 hfs
  have hsh : getSingleSuccessor F sp = some sh := (getSingleSuccessor_eq_some F sp sh).2 hss
  have hfb2 : getSinglePredecessor F fl = some fb := by unfold getSinglePredecessor; rw [hfb]
  have hsb2 : getSinglePredecessor F sl = some sb := by unfold getSinglePredecessor; rw [hsb]
  unfold fuseLoops
  simp only [hfp, hfl, hfe, hsp, hsl, hse2, hfh, hsh, hfb2, hsb2]
  cases hiv1 : FAM.SE.getInductionVariable First with
  | none => cases hiv2 : FAM.SE.getInductionVariable Second <;> exact ⟨_, rfl⟩
  | some fiv =>
  cases hiv2 : FAM.SE.getInductionVariable Second with
  | none => exact ⟨_, rfl⟩
  | some siv =>
  simp only []
  -- the shape of the function after step 1
  have hlen : (F.succsAt fl).map List.length = some 2 := by
    have h2 := hiv fiv hiv1
    rw [lenAt_of_succsOf F fl (by intro h0; rw [h0] at h2; simp at h2), h2]
  have hpf : 2 ≤ (F.preds fh).length :=
    two_le_length_of_mem _ fp fl (mem_preds F fh fp (by rw [hfs]; simp))
      (mem_preds F fh fl hlatch1) d1
  have hps : 2 ≤ (F.preds sh).length :=
    two_le_length_of_mem _ sp sl (mem_preds F sh sp (by rw [hss]; simp))
      (mem_preds F sh sl hlatch2) d2
  have hskU : (unifyInductionVariables F fiv siv).skeleton = F.skeleton :=
    skeleton_unifyInductionVariables F fiv siv
  obtain ⟨F2, hF2⟩ := fixPhis_total (unifyInductionVariables F fiv siv) First
    fp fl fe fb fh sp sl se sh
    ⟨uniqueIds_unifyInductionVariables F fiv siv hu, by rw [ids_of_skeleton _ _ hskU]; exact hb⟩
    (fun I hI hop => by
      obtain ⟨I0, hI0, e1, e2, e3⟩ := allInsts_unifyInductionVariables_shape F fiv siv I hI
      obtain ⟨B, hB, hIB⟩ := (mem_allInsts F I0).1 hI0
      have := hphi B hB I0 hIB (by rw [← e1]; exact hop)
      rw [e2, e3]
      exact ⟨this.2.2, by rw [this.2.1, ← this.1]; exact this.2.2⟩)
    (fun I hI hop => by
      obtain ⟨I0, hI0, e1, e2, -⟩ := instsOf_unifyInductionVariables_shape F fiv siv sh I hI
      rw [e2, (phiEntries_instsOf F hphi sh I0 hI0 (by rw [← e1]; exact hop)).1]
      exact hps)
    (fun I hI hop => by
      obtain ⟨I0, hI0, e1, e2, -⟩ := instsOf_unifyInductionVariables_shape F fiv siv fh I hI
      rw [e2, (phiEntries_instsOf F hphi fh I0 hI0 (by rw [← e1]; exact hop)).1]
      exact hpf)
    ⟨d3, d4, d5⟩
  rw [hF2]
  simp only []
  have hsk2 : F2.skeleton = F.skeleton :=
    (skeleton_fixPhis _ First fp fl fe fb fh sp sl se sh F2 hF2).trans hskU
  have hfin : ∃ r, finishFusion { F := F2, asserts := [] } First Second fl fb sp sl sb sh se
      = some r :=
    finishFusion_total _ First Second fl fb sp sl sb sh se 2
      (by rw [lenAt_of_skeleton F F2 hsk2]; exact hlen) (by decide)
  cases hg1 : First.guardBranch with
  | none => exact hfin
  | some g1 =>
  cases hg2 : Second.guardBranch with
  | none => exact hfin
  | some g2 =>
  simp only []
  -- both loops are guarded
  obtain ⟨E1, E2, hE, -, -⟩ := (controlFlowEqControll_iff F FAM First Second).1 hcf
  have hge : guardEntries F First Second = some (E1, E2) := by
    rcases hE with ⟨-, -, h⟩ | ⟨h, -⟩
    · exact h
    · unfold Loop.isGuarded at h; rw [hg1] at h; exact absurd h (by simp)
  obtain ⟨e1, e2, hc1, -, C1, C2, -, hC2, -⟩ := (guardEntries_eq_some F First Second E1 E2).1 hge
  rw [hg1, Option.some.injEq] at e1
  rw [hg2, Option.some.injEq] at e2
  subst e1 e2
  have hfe1 : (F.succsAt fe).map List.length = some 1 := by
    obtain ⟨e, hA, -⟩ := (adjacentControll_iff F First Second).1 hadj
    rcases hA with ⟨h, -⟩ | ⟨-, x, hx, hxs⟩
    · rw [hg1] at h; exact absurd h (by simp)
    · have : x = fe := by
        unfold Loop.getExitBlock at hfe
        rw [hx] at hfe
        simpa using hfe
      subst this
      rw [lenAt_of_succsOf F x (by rw [hxs]; simp), hxs]
      rfl
  have hT : HoldsT (fun id ops => id = g2 → ops ≠ []) F := by
    obtain ⟨id, b, pred, hv, -, -⟩ := (asICmp_eq_some F _ C2).1 hC2
    unfold getCondition at hv
    cases hB : F.findBlock g2 with
    | none => rw [hB] at hv; exact absurd hv (by simp)
    | some B0 =>
      rw [hB] at hv
      simp only [] at hv
      intro B hBm hid hops
      have hB0m : B0 ∈ F.blocks := by
        unfold Func.findBlock at hB
        exact List.mem_of_find?_eq_some hB
      have : B = B0 := block_eq_of_id F hb B B0 hBm hB0m (hid.trans (findBlock_id F g2 B0 hB).symm)
      rw [this] at hops
      rw [hops] at hv
      simp at hv
  have hmap : ∀ (f : Value → Value) (id : Nat) (ops : List Value),
      (id = g2 → ops ≠ []) → (id = g2 → ops.map f ≠ []) := by
    intro f id ops h hid h0
    exact h hid (List.map_eq_nil_iff.mp h0)
  have hTU : HoldsT (fun id ops => id = g2 → ops ≠ []) (unifyInductionVariables F fiv siv) := by
    unfold unifyInductionVariables
    exact holdsT_eraseInst _ _ _ (holdsT_replaceAllUsesWith _ F _ _ hT (fun id ops h => hmap _ id ops h))
  have hT2 : HoldsT (fun id ops => id = g2 → ops ≠ []) F2 :=
    holdsT_fixPhis _ _ First fp fl fe fb fh sp sl se sh F2
      (fun phi _ new id ops h => hmap _ id ops h) hTU hF2
  obtain ⟨r, hr⟩ := unifyGuards_total { F := F2, asserts := [] } g1 g2 fe se 2 1
    (by rw [lenAt_of_skeleton F F2 hsk2]; exact lenAt_of_isConditional F g1 hc1) (by decide)
    (by rw [lenAt_of_skeleton F F2 hsk2]; exact hfe1) (by decide) hT2
  rw [hr]
  cases r with
  | returnedNull s3 => exact ⟨_, rfl⟩
  | done s3 =>
    simp only []
    obtain ⟨n1, n2⟩ := hg g1 g2 hg1 hg2
    exact finishFusion_total s3 First Second fl fb sp sl sb sh se 2
      (by
        rw [succsAt_unifyGuards _ g1 g2 fe se s3 hr fl n1 n2 d6]
        show (F2.succsAt fl).map List.length = some 2
        rw [lenAt_of_skeleton F F2 hsk2]; exact hlen) (by decide)

end PositionalAccessesInRange

section PositionalAccessesInRangeExample

open IR LICMopt LoopFusionOpt Examples

set_option maxRecDepth 100000 in
/-- The pair `loopA`, `loopB` of `writeThenReadSame` passes `isOptimizable`, every merge
node of the function has one entry per predecessor edge, and `fuseLoops` makes only
in-range accesses on it. -/
theorem fuseLoops_accesses_in_range_witness :
    isOptimizable writeThenReadSame (exampleFAM 4 0 4 4) (some loopA) (some loopB) = true ∧
      PhiEntries writeThenReadSame ∧
      (writeThenReadSame.succsOf 2).length = 2 ∧
      ∃ r, fuseLoops writeThenReadSame (exampleFAM 4 0 4 4) (some loopA) (some loopB) = some r :=
  have hphi : PhiEntries writeThenReadSame := by unfold PhiEntries; decide
  ⟨by decide, hphi, by decide,
    fuseLoops_accesses_in_range writeThenReadSame (exampleFAM 4 0 4 4) loopA loopB
      0 2 3 1 3 5 4 (by decide) rfl rfl rfl rfl rfl (by decide) (by decide)
      (by unfold UniqueIds; decide) (by decide) hphi (by decide) (by decide) (by decide)
      (fun g1 _ h _ => Option.noConfusion (show (none : Option Nat) = some g1 from h)) (fun _ _ => by decide)⟩

end PositionalAccessesInRangeExample
